import Mathlib

/-!
# SoSPD: dual store, flow adapter and move driver

A shallow embedding of `src/src/spd2.cpp` (class `SubmodularPrimalDual2`) and of the
parts of `src/submodular-flow/dgfm.cpp` (class `DualGuidedFusionMove`) that share its
dual store.

Conventions of the embedding.

* `REAL` is the integer energy type of the source; it is embedded as `Int`, so the
  theorems below speak about runs in which no 64-bit overflow occurs.
* `Label` and `NodeId` are unsigned indices, embedded as `Nat`.
* `std::vector` is embedded as `List`.  A read outside a vector is undefined in the
  source; the embedding returns a default value there (`0`, or the empty row) and a
  write outside is dropped.  Where a property depends on it, the theorems assume
  well-formed inputs, in which every index is in range.
* `ASSERT` failures and the integer division by a zero clique size are faults: the
  operations that can hit them return `Except Fault _`.
-/

namespace SoSPD

/-- The integer energy type `REAL` of the source. -/
abbrev REAL := Int

/-- Labels are unsigned integers in `[0, L)`. -/
abbrev Label := Nat

/-- Node identifiers are dense indices in `[0, N)`. -/
abbrev NodeId := Nat

/-- The ways in which an operation of the source stops abnormally. -/
inductive Fault where
  /-- an `ASSERT(...)` whose condition is false -/
  | assertion
  /-- an integer division `energy / k` or `energy % k` with `k = 0` -/
  | divide_by_zero
  /-- a `std::vector` constructed with a size that cannot be allocated -/
  | allocation
  deriving DecidableEq, Repr

/-- A clique as the solver sees it through `clique.hpp` (the header is not part of the
sources at hand, so the capability set is taken as data): `Nodes()`, `Energy(buf)` on a
buffer of local labels, and `FMax()`.  `Size()` is the number of nodes. -/
structure Clique where
  /-- member variables, in local order -/
  Nodes : List NodeId
  /-- the clique potential on a buffer of `Size()` local labels -/
  Energy : List Label → REAL
  /-- an upper bound on the potential -/
  FMax : REAL

/-- The source's `c.Size()`. -/
def Clique.Size (c : Clique) : Nat := c.Nodes.length

/-- The energy model `MultilabelEnergy` read by the solver (`m_energy`). -/
structure MultilabelEnergy where
  /-- number of variables -/
  NumNodes : Nat
  /-- number of labels `L` -/
  NumLabels : Nat
  /-- unary cost of giving node `i` label `l` -/
  Unary : NodeId → Label → REAL
  /-- the cliques, in registration order -/
  Cliques : List Clique

/-- The source's `Dual`: for one clique, `k` rows (local positions) of `L` entries. -/
abbrev Dual := List (List REAL)

/-- The read `d[i][l]`. -/
def getEntry (d : Dual) (i : Nat) (l : Label) : REAL := (d.getD i []).getD l 0

/-- The write `d[i][l] = v`. -/
def setEntry (d : Dual) (i : Nat) (l : Label) (v : REAL) : Dual :=
  d.set i ((d.getD i []).set l v)

/-- The read `m_labels[v]`. -/
def labelAt (m_labels : List Label) (v : NodeId) : Label := m_labels.getD v 0

/-- The loop `for i < k: labelBuf[i] = m_labels[nodes[i]]`: the current local labels of
a clique. -/
def localLabels (m_labels : List Label) (c : Clique) : List Label :=
  c.Nodes.map (labelAt m_labels)

/-- The loop shared by `InitialDual` and `PostEditDual`, iterations `0 .. n-1`:
```
for (int i = 0; i < k; ++i) {
    d[i][labelBuf[i]] = avg;
    if (i < remainder) d[i][labelBuf[i]] += 1;
}
``` -/
def averageLoop (labelBuf : List Label) (avg remainder : REAL) : Nat → Dual → Dual
  | 0, d => d
  | n + 1, d =>
    let d0 := averageLoop labelBuf avg remainder n d
    let l := labelBuf.getD n 0
    let d1 := setEntry d0 n l avg
    if (n : Int) < remainder then setEntry d1 n l (getEntry d1 n l + 1) else d1

/-- The sum `Σ_i d[i][labelBuf[i]]` over the `k` local positions, as accumulated by
`CheckLabelInvariant` and `PreEditDual`. -/
def activeSum (d : Dual) (labelBuf : List Label) : REAL :=
  ((List.range labelBuf.length).map (fun i => getEntry d i (labelBuf.getD i 0))).sum

/-- A dual table of one clique has shape `k × L`. -/
def Dual.HasShape (d : Dual) (k L : Nat) : Prop :=
  d.length = k ∧ ∀ row ∈ d, row.length = L

/-- The range-for over the cliques that pushes one new `Dual` per clique onto an empty
`m_dual` (`InitialDual`); the first fault stops the run. -/
def pushBackLoop (body : Clique → Except Fault Dual) : List Clique → Except Fault (List Dual)
  | [] => .ok []
  | c :: cs =>
    match body c with
    | .error e => .error e
    | .ok d =>
      match pushBackLoop body cs with
      | .error e => .error e
      | .ok ds => .ok (d :: ds)

/-- The range-for over the cliques with the running `clique_index` that rewrites
`m_dual[clique_index]` in place (`PreEditDual`, `PostEditDual`); the first fault stops
the run. -/
def cliqueLoop (body : Clique → Dual → Except Fault Dual) :
    List Clique → Nat → List Dual → Except Fault (List Dual)
  | [], _, m_dual => .ok m_dual
  | c :: cs, clique_index, m_dual =>
    match body c (m_dual.getD clique_index []) with
    | .error e => .error e
    | .ok d => cliqueLoop body cs (clique_index + 1) (m_dual.set clique_index d)

/-- The solver state shared by both classes: `m_labels`, `m_dual` and
`m_node_clique_list`. -/
structure State where
  /-- the primal labeling -/
  m_labels : List Label
  /-- the dual table, one `Dual` per clique -/
  m_dual : List Dual
  /-- for every node, the pairs (clique index, local position) it occurs at -/
  m_node_clique_list : List (List (Nat × Nat))

/-- The 32-bit signed value of `1 << k` (type `Assgn = int32_t`), for `k < 32`: the
result wraps to `-2^31` at `k = 31`. -/
def shl32 (k : Nat) : Int := ((2 ^ k + 2 ^ 31 : Int) % 2 ^ 32) - 2 ^ 31

/-- The label buffer that the fusion loops fill for assignment `a`: position `i` gets
`alpha` when `a & (1 << i)` is set and the current label otherwise. -/
def fusionBuf (current_labels : List Label) (alpha : Label) (a : Nat) : List Label :=
  (List.range current_labels.length).map
    (fun i => if a.testBit i then alpha else current_labels.getD i 0)

/-- The bitmask of the positions `n, n+1, ..., k-1`. -/
def suffixMask (k n : Nat) : Nat := (2 ^ (k - n) - 1) <<< n

/-- The fusion table of a clique: `fhat(S) = f_C(y with the positions in S replaced by
alpha)`, indexed by the bitmask of `S`. -/
def fusionTable (c : Clique) (y : List Label) (alpha : Label) (a : Nat) : REAL :=
  c.Energy (fusionBuf y alpha a)

/-- A table on the subsets of `k` positions, indexed by bitmask, is submodular:
`F(S ∪ {i,j}) + F(S) ≤ F(S ∪ {i}) + F(S ∪ {j})` for every `S` and all `i ≠ j` outside
`S`. -/
def IsSubmodular (k : Nat) (F : Nat → REAL) : Prop :=
  ∀ a i j, a < 2 ^ k → i < k → j < k → i ≠ j → a.testBit i = false → a.testBit j = false →
    F (a ||| 2 ^ i ||| 2 ^ j) + F a ≤ F (a ||| 2 ^ i) + F (a ||| 2 ^ j)

namespace SubmodularPrimalDual2

/-- The body of the loop of `SubmodularPrimalDual2::InitialDual` for one clique: the new
`Dual` that is pushed onto `m_dual`.  `energy / k` and `energy % k` are C++ integer
division and remainder (truncating). -/
def InitialDualClique (m_num_labels : Nat) (m_labels : List Label) (c : Clique) :
    Except Fault Dual :=
  let k := c.Size
  if ¬ k < 32 then .error .assertion
  else
    let labelBuf := localLabels m_labels c
    let energy := c.Energy labelBuf
    let newDual : Dual := List.replicate k (List.replicate m_num_labels 0)
    if ¬ energy ≥ 0 then .error .assertion
    else if k = 0 then .error .divide_by_zero
    else
      let avg := energy.tdiv k
      let remainder := energy.tmod k
      .ok (averageLoop labelBuf avg remainder k newDual)

/-- `SubmodularPrimalDual2::InitialDual`: clears `m_dual` and pushes one table per
clique. -/
def InitialDual (E : MultilabelEnergy) (s : State) : Except Fault State :=
  match pushBackLoop (InitialDualClique E.NumLabels s.m_labels) E.Cliques with
  | .error e => .error e
  | .ok ds => .ok { s with m_dual := ds }

/-- The body of the loop of `SubmodularPrimalDual2::PostEditDual` for one clique, on
`m_dual[clique_index]`.  There is no `ASSERT(energy >= 0)` here. -/
def PostEditDualClique (m_labels : List Label) (c : Clique) (d : Dual) : Except Fault Dual :=
  let k := c.Size
  if ¬ k < 32 then .error .assertion
  else
    let labelBuf := localLabels m_labels c
    let energy := c.Energy labelBuf
    if k = 0 then .error .divide_by_zero
    else
      let avg := energy.tdiv k
      let remainder := energy.tmod k
      .ok (averageLoop labelBuf avg remainder k d)

/-- `SubmodularPrimalDual2::PostEditDual`. -/
def PostEditDual (E : MultilabelEnergy) (s : State) : Except Fault State :=
  match cliqueLoop (PostEditDualClique s.m_labels) E.Cliques 0 s.m_dual with
  | .error e => .error e
  | .ok ds => .ok { s with m_dual := ds }

/-- The local variables of the descending loop of `PreEditDual`. -/
structure PreEditVars where
  /-- the label buffer, switched to `alpha` from the last position down -/
  label_buf : List Label
  /-- the sum of the current-label duals of the positions not yet switched -/
  lambdaA : REAL
  /-- the sum of the `alpha` duals of the positions already switched -/
  lambdaB : REAL
  /-- the reduced energy before this step -/
  oldG : REAL
  /-- the corrections, stored in reverse order of position -/
  psi : List REAL

/-- The descending loop of `PreEditDual`, iterations `i = n-1, n-2, ..., 0`:
```
for (int i = k - 1; i >= 0; --i) {
    lambdaA -= m_dual[clique_index][i][label_buf[i]];
    lambdaB += m_dual[clique_index][i][alpha];
    label_buf[i] = alpha;
    energy = c.Energy(label_buf);
    REAL newG = energy - lambdaA - lambdaB;
    psi[k-1-i] = oldG - newG;
    oldG = newG;
}
``` -/
def psiLoop (c : Clique) (d : Dual) (alpha : Label) (k : Nat) : Nat → PreEditVars → PreEditVars
  | 0, s => s
  | i + 1, s =>
    let lambdaA := s.lambdaA - getEntry d i (s.label_buf.getD i 0)
    let lambdaB := s.lambdaB + getEntry d i alpha
    let label_buf := s.label_buf.set i alpha
    let energy := c.Energy label_buf
    let newG := energy - lambdaA - lambdaB
    let psi := s.psi.set (k - 1 - i) (s.oldG - newG)
    psiLoop c d alpha k i
      { label_buf := label_buf, lambdaA := lambdaA, lambdaB := lambdaB, oldG := newG, psi := psi }

/-- The last loop of `PreEditDual`, iterations `0 .. n-1`:
`m_dual[clique_index][i][alpha] -= psi[k - i - 1]`. -/
def psiUpdateLoop (psi : List REAL) (alpha : Label) (k : Nat) : Nat → Dual → Dual
  | 0, d => d
  | n + 1, d =>
    let d0 := psiUpdateLoop psi alpha k n d
    setEntry d0 n alpha (getEntry d0 n alpha - psi.getD (k - n - 1) 0)

/-- The body of the loop of `SubmodularPrimalDual2::PreEditDual(alpha)` for one clique,
on `m_dual[clique_index]`.  `psi.resize(k)` keeps stale values of the previous clique;
every one of its `k` entries is written by the descending loop before it is read, so
the buffer is started at zero here. -/
def PreEditDualClique (m_labels : List Label) (alpha : Label) (c : Clique) (d : Dual) :
    Except Fault Dual :=
  let k := c.Size
  if ¬ k < 32 then .error .assertion
  else
    let label_buf := localLabels m_labels c
    let energy := c.Energy label_buf
    let lambdaA := activeSum d label_buf
    let oldG := energy - lambdaA
    let vars := psiLoop c d alpha k k
      { label_buf := label_buf, lambdaA := lambdaA, lambdaB := 0, oldG := oldG,
        psi := List.replicate k 0 }
    .ok (psiUpdateLoop vars.psi alpha k k d)

/-- `SubmodularPrimalDual2::PreEditDual(alpha)`. -/
def PreEditDual (E : MultilabelEnergy) (alpha : Label) (s : State) : Except Fault State :=
  match cliqueLoop (PreEditDualClique s.m_labels alpha) E.Cliques 0 s.m_dual with
  | .error e => .error e
  | .ok ds => .ok { s with m_dual := ds }

/-- The inner loop of `InitialNodeCliqueList` for one clique, positions `i, i+1, ...`:
`m_node_clique_list[nodes[i]].push_back(std::make_pair(clique_index, i))`. -/
def pushPositions (clique_index : Nat) : List NodeId → Nat → List (List (Nat × Nat)) →
    List (List (Nat × Nat))
  | [], _, ncl => ncl
  | v :: vs, i, ncl =>
    pushPositions clique_index vs (i + 1) (ncl.set v (ncl.getD v [] ++ [(clique_index, i)]))

/-- The outer loop of `InitialNodeCliqueList` over the cliques, with the running
`clique_index`. -/
def pushCliques : List Clique → Nat → List (List (Nat × Nat)) → List (List (Nat × Nat))
  | [], _, ncl => ncl
  | c :: cs, clique_index, ncl =>
    pushCliques cs (clique_index + 1) (pushPositions clique_index c.Nodes 0 ncl)

/-- `SubmodularPrimalDual2::InitialNodeCliqueList`: `n = m_labels.size()` empty lists,
then one entry per clique and local position. -/
def InitialNodeCliqueList (E : MultilabelEnergy) (s : State) : State :=
  { s with m_node_clique_list :=
      pushCliques E.Cliques 0 (List.replicate s.m_labels.length []) }

/-- `SubmodularPrimalDual2::ComputeHeight(i, x)`. -/
def ComputeHeight (E : MultilabelEnergy) (s : State) (i : NodeId) (x : Label) : REAL :=
  (s.m_node_clique_list.getD i []).foldl
    (fun ret p => ret + getEntry (s.m_dual.getD p.1 []) p.2 x) (E.Unary i x)

/-- `SubmodularPrimalDual2::ComputeHeightDiff(i, l1, l2)`. -/
def ComputeHeightDiff (E : MultilabelEnergy) (s : State) (i : NodeId) (l1 l2 : Label) : REAL :=
  (s.m_node_clique_list.getD i []).foldl
    (fun ret p =>
      let lambda_Ci := (s.m_dual.getD p.1 []).getD p.2 []
      ret + (lambda_Ci.getD l1 0 - lambda_Ci.getD l2 0))
    (E.Unary i l1 - E.Unary i l2)

end SubmodularPrimalDual2

/-! ## The external flow solver -/

/-- Modelled from the spec: one clique of the external submodular flow solver
(`SubmodularIBFS`, whose sources are not at hand), as far as the interface of section 6
shows it: its nodes, the writable `energy_table()` and the read-only `alpha_Ci()`. -/
structure IBFSClique where
  /-- the nodes the clique was added with -/
  Nodes : List NodeId
  /-- the table of `2^k` energies, indexed by bitmask -/
  EnergyTable : List REAL
  /-- the dual corrections per local index, valid after `solve()` -/
  AlphaCi : List REAL

/-- The value a read outside the clique vector of the flow solver yields in this
embedding. -/
def IBFSClique.blank : IBFSClique := { Nodes := [], EnergyTable := [], AlphaCi := [] }

/-- The source's `ibfs_c.Size()`. -/
def IBFSClique.Size (c : IBFSClique) : Nat := c.Nodes.length

/-- Modelled from the spec: the state of the external submodular flow solver behind the
interface of section 6 (`add_node`, `add_clique`, `clear_unaries`, `add_constant_term`,
`add_unary(i, c0, c1)`, `get_label`, `get_cliques`). -/
structure SubmodularIBFS where
  /-- the constant term -/
  constant_term : REAL
  /-- per node, the costs `(c0, c1)` of the values 0 and 1 -/
  unaries : List (REAL × REAL)
  /-- the cliques, in the order of `add_clique` -/
  cliques : List IBFSClique
  /-- per node, the value `get_label` returns -/
  labels : List Int

namespace SubmodularIBFS

/-- Modelled from the spec: an instance of the flow solver without nodes or cliques. -/
def empty : SubmodularIBFS := { constant_term := 0, unaries := [], cliques := [], labels := [] }

/-- Modelled from the spec: `add_node(n)` adds `n` nodes without cost. -/
def AddNode (crf : SubmodularIBFS) (n : Nat) : SubmodularIBFS :=
  { crf with unaries := crf.unaries ++ List.replicate n (0, 0),
             labels := crf.labels ++ List.replicate n 0 }

/-- Modelled from the spec: `add_clique(nodes, energy_table, false)`. -/
def AddClique (crf : SubmodularIBFS) (nodes : List NodeId) (energy_table : List REAL) :
    SubmodularIBFS :=
  { crf with cliques := crf.cliques ++
      [{ Nodes := nodes, EnergyTable := energy_table, AlphaCi := List.replicate nodes.length 0 }] }

/-- Modelled from the spec: `clear_unaries()`. -/
def ClearUnaries (crf : SubmodularIBFS) : SubmodularIBFS :=
  { crf with unaries := crf.unaries.map (fun _ => (0, 0)) }

/-- Modelled from the spec: `get_constant_term()`. -/
def GetConstantTerm (crf : SubmodularIBFS) : REAL := crf.constant_term

/-- Modelled from the spec: `add_constant_term(c)`. -/
def AddConstantTerm (crf : SubmodularIBFS) (c : REAL) : SubmodularIBFS :=
  { crf with constant_term := crf.constant_term + c }

/-- Modelled from the spec: `add_unary(i, c0, c1)` adds the node costs for the values 0
and 1. -/
def AddUnaryTerm (crf : SubmodularIBFS) (i : NodeId) (c0 c1 : REAL) : SubmodularIBFS :=
  { crf with unaries :=
      crf.unaries.set i ((crf.unaries.getD i (0, 0)).1 + c0, (crf.unaries.getD i (0, 0)).2 + c1) }

/-- Modelled from the spec: `get_label(i)`. -/
def GetLabel (crf : SubmodularIBFS) (i : NodeId) : Int := crf.labels.getD i 0

/-- The bitmask a binary assignment `x` induces on the nodes `v_0, v_1, ...` of a clique,
from position `i` on: bit `i` is set when `x v_i` holds. -/
def assignmentFrom (x : NodeId → Bool) : List NodeId → Nat → Nat
  | [], _ => 0
  | v :: vs, i => (if x v then 2 ^ i else 0) ||| assignmentFrom x vs (i + 1)

/-- Modelled from the spec: the energy the flow instance gives the binary assignment
`x`: the constant term, the installed unary cost of every node at its value, and the
installed table entry of every clique at the bitmask of its nodes. -/
def Energy (crf : SubmodularIBFS) (x : NodeId → Bool) : REAL :=
  crf.constant_term
    + ((List.range crf.unaries.length).map
        (fun v => if x v then (crf.unaries.getD v (0, 0)).2 else (crf.unaries.getD v (0, 0)).1)).sum
    + (crf.cliques.map (fun c => c.EnergyTable.getD (assignmentFrom x c.Nodes 0) 0)).sum

end SubmodularIBFS

namespace SubmodularPrimalDual2

/-- The loop over the cliques of `SubmodularPrimalDual2::SetupGraph`: the guard
`ASSERT(k < 32)`, then `crf.AddClique(nodes, std::vector<REAL>(max_assgn, 0), false)` with
`max_assgn = 1 << k` computed in `int32_t`.  A negative `max_assgn` is converted to a
size that no vector can have. -/
def SetupGraphLoop : List Clique → SubmodularIBFS → Except Fault SubmodularIBFS
  | [], crf => .ok crf
  | c :: cs, crf =>
    let k := c.Size
    if ¬ k < 32 then .error .assertion
    else
      let max_assgn := shl32 k
      if max_assgn < 0 then .error .allocation
      else SetupGraphLoop cs (crf.AddClique c.Nodes (List.replicate max_assgn.toNat 0))

/-- `SubmodularPrimalDual2::SetupGraph(crf)` (`GraphInit` only finalizes the topology). -/
def SetupGraph (E : MultilabelEnergy) (s : State) (crf : SubmodularIBFS) :
    Except Fault SubmodularIBFS :=
  SetupGraphLoop E.Cliques (crf.AddNode s.m_labels.length)

/-- The first loop of `SetupAlphaEnergy`, iterations `0 .. n-1`: the unary pair of every
node, from its height difference between the current label and `alpha`. -/
def unaryLoop (E : MultilabelEnergy) (s : State) (alpha : Label) : Nat → SubmodularIBFS →
    SubmodularIBFS
  | 0, crf => crf
  | i + 1, crf =>
    let crf0 := unaryLoop E s alpha i crf
    let height_diff := ComputeHeightDiff E s i (labelAt s.m_labels i) alpha
    if height_diff > 0 then crf0.AddUnaryTerm i height_diff 0
    else crf0.AddUnaryTerm i 0 (-height_diff)

/-- The value `lambda` that the inner loop of `SetupAlphaEnergy` accumulates for the
assignment `a`: `lambda_C[i][alpha]` for the set bits, `lambda_C[i][x]` with
`x = current_labels[i]` for the others. -/
def lambdaOf (lambda_C : Dual) (current_labels : List Label) (alpha : Label) (a : Nat) : REAL :=
  ((List.range current_labels.length).map
    (fun i => if a.testBit i then getEntry lambda_C i alpha
              else getEntry lambda_C i (current_labels.getD i 0))).sum

/-- The value written to `energy_table[a]`: `c.Energy(label_buf) - lambda`. -/
def alphaEntry (c : Clique) (lambda_C : Dual) (current_labels : List Label) (alpha : Label)
    (a : Nat) : REAL :=
  c.Energy (fusionBuf current_labels alpha a) - lambdaOf lambda_C current_labels alpha a

/-- The loop `for (Assgn a = 0; a < max_assgn; ++a) energy_table[a] = ...`, iterations
`0 .. n-1`. -/
def alphaTableLoop (entry : Nat → REAL) : Nat → List REAL → List REAL
  | 0, t => t
  | a + 1, t => (alphaTableLoop entry a t).set a (entry a)

/-- The loop over the cliques of `SetupAlphaEnergy`, with the running `clique_index`:
the guards `ASSERT(k < 32)` and `ASSERT(k == ibfs_c.Size())`, then the table of the
clique of the flow solver is rewritten. -/
def alphaCliqueLoop (s : State) (alpha : Label) :
    List Clique → Nat → List IBFSClique → Except Fault (List IBFSClique)
  | [], _, ibfs_cliques => .ok ibfs_cliques
  | c :: cs, clique_index, ibfs_cliques =>
    let ibfs_c := ibfs_cliques.getD clique_index IBFSClique.blank
    let k := c.Size
    if ¬ k < 32 then .error .assertion
    else if ¬ k = ibfs_c.Size then .error .assertion
    else
      let current_labels := localLabels s.m_labels c
      let lambda_C := s.m_dual.getD clique_index []
      let max_assgn := shl32 k
      let energy_table :=
        alphaTableLoop (alphaEntry c lambda_C current_labels alpha) max_assgn.toNat
          ibfs_c.EnergyTable
      alphaCliqueLoop s alpha cs (clique_index + 1)
        (ibfs_cliques.set clique_index { ibfs_c with EnergyTable := energy_table })

/-- `SubmodularPrimalDual2::SetupAlphaEnergy(alpha, crf)`. -/
def SetupAlphaEnergy (E : MultilabelEnergy) (s : State) (alpha : Label) (crf : SubmodularIBFS) :
    Except Fault SubmodularIBFS :=
  let crf1 := crf.ClearUnaries
  let crf2 := crf1.AddConstantTerm (-crf1.GetConstantTerm)
  let crf3 := unaryLoop E s alpha s.m_labels.length crf2
  match alphaCliqueLoop s alpha E.Cliques 0 crf3.cliques with
  | .error e => .error e
  | .ok cl => .ok { crf3 with cliques := cl }

/-- The harvest loop of `UpdatePrimalDual`, iterations `0 .. n-1`, on the pair
`(ret, m_labels)`:
```
if (crf.GetLabel(i) == 1) {
    if (m_labels[i] != alpha) ret = true;
    m_labels[i] = alpha;
}
``` -/
def harvestLoop (crf : SubmodularIBFS) (alpha : Label) : Nat → Bool × List Label →
    Bool × List Label
  | 0, r => r
  | i + 1, r =>
    let r0 := harvestLoop crf alpha i r
    if crf.GetLabel i = 1 then
      (if labelAt r0.2 i ≠ alpha then true else r0.1, r0.2.set i alpha)
    else r0

/-- The inner loop of the dual update of `UpdatePrimalDual`, iterations `0 .. n-1`:
`m_dual[i][j][alpha] += phiCi[j]`. -/
def phiLoop (phiCi : List REAL) (alpha : Label) : Nat → Dual → Dual
  | 0, d => d
  | j + 1, d =>
    let d0 := phiLoop phiCi alpha j d
    setEntry d0 j alpha (getEntry d0 j alpha + phiCi.getD j 0)

/-- The outer loop of the dual update of `UpdatePrimalDual`, iterations `0 .. n-1` over
the clique indices. -/
def phiCliqueLoop (clique : List IBFSClique) (alpha : Label) : Nat → List Dual → List Dual
  | 0, m_dual => m_dual
  | i + 1, m_dual =>
    let m0 := phiCliqueLoop clique alpha i m_dual
    let phiCi := (clique.getD i IBFSClique.blank).AlphaCi
    m0.set i (phiLoop phiCi alpha phiCi.length (m0.getD i []))

/-- `SubmodularPrimalDual2::UpdatePrimalDual(alpha, crf)`.  The external `crf.Solve()`
is the parameter `Solve`.  The result is the returned flag, the new solver state and the
flow solver after the call. -/
def UpdatePrimalDual (E : MultilabelEnergy) (Solve : SubmodularIBFS → SubmodularIBFS)
    (alpha : Label) (s : State) (crf : SubmodularIBFS) :
    Except Fault (Bool × State × SubmodularIBFS) :=
  match SetupAlphaEnergy E s alpha crf with
  | .error e => .error e
  | .ok crf1 =>
    let crf2 := Solve crf1
    let r := harvestLoop crf2 alpha s.m_labels.length (false, s.m_labels)
    let m_dual := phiCliqueLoop crf2.cliques alpha E.Cliques.length s.m_dual
    .ok (r.1, { s with m_labels := r.2, m_dual := m_dual }, crf2)

end SubmodularPrimalDual2

namespace DualGuidedFusionMove

/-- The body of the loop of `DualGuidedFusionMove::InitialDual` for one clique.  It is
the loop body of `SubmodularPrimalDual2::InitialDual` without the `ASSERT(k < 32)`: the
label buffer is a `std::vector` here. -/
def InitialDualClique (m_num_labels : Nat) (m_labels : List Label) (c : Clique) :
    Except Fault Dual :=
  let k := c.Nodes.length
  let labelBuf := localLabels m_labels c
  let energy := c.Energy labelBuf
  let newDual : Dual := List.replicate k (List.replicate m_num_labels 0)
  if ¬ energy ≥ 0 then .error .assertion
  else if k = 0 then .error .divide_by_zero
  else
    let avg := energy.tdiv k
    let remainder := energy.tmod k
    .ok (averageLoop labelBuf avg remainder k newDual)

/-- `DualGuidedFusionMove::InitialDual`: clears `m_dual` and pushes one table per clique
of `m_cliques`. -/
def InitialDual (m_num_labels : Nat) (m_cliques : List Clique) (s : State) :
    Except Fault State :=
  match pushBackLoop (InitialDualClique m_num_labels s.m_labels) m_cliques with
  | .error e => .error e
  | .ok ds => .ok { s with m_dual := ds }

/-- The body of the loop of `DualGuidedFusionMove::PostEditDual` for one clique, on
`m_dual[clique_index]`: no size guard and no `ASSERT(energy >= 0)`. -/
def PostEditDualClique (m_labels : List Label) (c : Clique) (d : Dual) : Except Fault Dual :=
  let k := c.Nodes.length
  let labelBuf := localLabels m_labels c
  let energy := c.Energy labelBuf
  if k = 0 then .error .divide_by_zero
  else
    let avg := energy.tdiv k
    let remainder := energy.tmod k
    .ok (averageLoop labelBuf avg remainder k d)

/-- `DualGuidedFusionMove::PostEditDual`. -/
def PostEditDual (m_cliques : List Clique) (s : State) : Except Fault State :=
  match cliqueLoop (PostEditDualClique s.m_labels) m_cliques 0 s.m_dual with
  | .error e => .error e
  | .ok ds => .ok { s with m_dual := ds }

end DualGuidedFusionMove

/-! ## Well-formed inputs and the invariants of the specification -/

/-- A labeling of the model: one label in `[0, L)` per node. -/
def IsLabeling (E : MultilabelEnergy) (m_labels : List Label) : Prop :=
  m_labels.length = E.NumNodes ∧ ∀ l ∈ m_labels, l < E.NumLabels

/-- Every clique mentions nodes of the model only. -/
def CliquesInRange (E : MultilabelEnergy) : Prop :=
  ∀ c ∈ E.Cliques, ∀ v ∈ c.Nodes, v < E.NumNodes

instance (E : MultilabelEnergy) (m_labels : List Label) : Decidable (IsLabeling E m_labels) := by
  unfold IsLabeling
  infer_instance

instance (E : MultilabelEnergy) : Decidable (CliquesInRange E) := by
  unfold CliquesInRange
  infer_instance

/-- The dual table has one `k × L` table per clique. -/
def DualShaped (E : MultilabelEnergy) (m_dual : List Dual) : Prop :=
  List.Forall₂ (fun c d => Dual.HasShape d c.Size E.NumLabels) E.Cliques m_dual

/-- The Label invariant for one clique: `Σ_i dual[C][i][y_i] = f_C(y)`. -/
def LabelInvariantAt (m_labels : List Label) (c : Clique) (d : Dual) : Prop :=
  activeSum d (localLabels m_labels c) = c.Energy (localLabels m_labels c)

/-- The Active invariant for one clique: `dual[C][i][y_i] ≥ 0`. -/
def ActiveInvariantAt (m_labels : List Label) (c : Clique) (d : Dual) : Prop :=
  ∀ i, i < c.Size → 0 ≤ getEntry d i ((localLabels m_labels c).getD i 0)

/-- The Dual-Bound invariant for one clique: `dual[C][i][l] ≤ f_max`. -/
def DualBoundInvariantAt (m_num_labels : Nat) (c : Clique) (d : Dual) : Prop :=
  ∀ i l, i < c.Size → l < m_num_labels → getEntry d i l ≤ c.FMax

instance (m_labels : List Label) (c : Clique) (d : Dual) :
    Decidable (LabelInvariantAt m_labels c d) := by
  unfold LabelInvariantAt
  infer_instance

instance (m_labels : List Label) (c : Clique) (d : Dual) :
    Decidable (ActiveInvariantAt m_labels c d) := by
  unfold ActiveInvariantAt
  infer_instance

instance (m_num_labels : Nat) (c : Clique) (d : Dual) :
    Decidable (DualBoundInvariantAt m_num_labels c d) := by
  unfold DualBoundInvariantAt
  exact decidable_of_iff (∀ i, i < c.Size → ∀ l, l < m_num_labels → getEntry d i l ≤ c.FMax)
    ⟨fun h i l hi hl => h i hi l hl, fun h i hi l hl => h i l hi hl⟩

/-- The Label invariant: it holds for every clique and its table. -/
def LabelInvariant (E : MultilabelEnergy) (s : State) : Prop :=
  ∀ ci (h : ci < E.Cliques.length), LabelInvariantAt s.m_labels E.Cliques[ci] (s.m_dual.getD ci [])

/-- The Active invariant: it holds for every clique and its table. -/
def ActiveInvariant (E : MultilabelEnergy) (s : State) : Prop :=
  ∀ ci (h : ci < E.Cliques.length), ActiveInvariantAt s.m_labels E.Cliques[ci] (s.m_dual.getD ci [])

/-- The Dual-Bound invariant: it holds for every clique and its table. -/
def DualBoundInvariant (E : MultilabelEnergy) (s : State) : Prop :=
  ∀ ci (h : ci < E.Cliques.length),
    DualBoundInvariantAt E.NumLabels E.Cliques[ci] (s.m_dual.getD ci [])

instance (E : MultilabelEnergy) (s : State) : Decidable (LabelInvariant E s) := by
  unfold LabelInvariant
  infer_instance

instance (E : MultilabelEnergy) (s : State) : Decidable (ActiveInvariant E s) := by
  unfold ActiveInvariant
  infer_instance

instance (E : MultilabelEnergy) (s : State) : Decidable (DualBoundInvariant E s) := by
  unfold DualBoundInvariant
  infer_instance

/-- The total weight of a node-clique index: the sum of `w v p` over the nodes `v` and
the pairs `p` listed for `v`. -/
def indexSum (w : NodeId → Nat × Nat → REAL) (ncl : List (List (Nat × Nat))) : REAL :=
  ((List.range ncl.length).map (fun u => ((ncl.getD u []).map (w u)).sum)).sum

/-- The sum of `f clique_index c` over the cliques, with the running `clique_index`
starting at `j`. -/
def sumIdx (f : Nat → Clique → REAL) : List Clique → Nat → REAL
  | [], _ => 0
  | c :: cs, j => f j c + sumIdx f cs (j + 1)

/-- The labeling `label(x)` a binary assignment `x` stands for in an alpha-move:
`alpha` at the nodes with `x_v = 1`, the current label at the others. -/
def fusedLabels (m_labels : List Label) (alpha : Label) (x : NodeId → Bool) : List Label :=
  (List.range m_labels.length).map (fun v => if x v then alpha else labelAt m_labels v)

/-- Modelled from the spec: the energy `E(x) = Σ_i U_i(x_i) + Σ_C f_C(x_C)` of a labeling
(`MultilabelEnergy::ComputeEnergy` is not among the sources at hand). -/
def primalEnergy (E : MultilabelEnergy) (labels : List Label) : REAL :=
  ((List.range E.NumNodes).map (fun v => E.Unary v (labelAt labels v))).sum
    + (E.Cliques.map (fun c => c.Energy (localLabels labels c))).sum

/-- The flow solver has the topology that `SetupGraph` builds for the model: one unary
pair per node and, per clique, a clique on the same nodes with a table of `2^k` entries
(`1 << k` is representable, so `k < 31`). -/
def FlowShaped (E : MultilabelEnergy) (crf : SubmodularIBFS) : Prop :=
  crf.unaries.length = E.NumNodes ∧
  List.Forall₂ (fun c ic => c.Size < 31 ∧ IBFSClique.Nodes ic = c.Nodes ∧
    (IBFSClique.EnergyTable ic).length = 2 ^ c.Size) E.Cliques crf.cliques

/-- The constant of the reparameterization: minus the sum over the nodes of the smaller
of the two heights, at the current label and at `alpha`. -/
def heightConstant (E : MultilabelEnergy) (s : State) (alpha : Label) : REAL :=
  - ((List.range E.NumNodes).map (fun v =>
      min (SubmodularPrimalDual2.ComputeHeight E s v (labelAt s.m_labels v))
        (SubmodularPrimalDual2.ComputeHeight E s v alpha))).sum

/-- The binary assignment the flow solver reports: node `v` is 1 when `get_label(v)`
is 1. -/
def solverAssignment (crf : SubmodularIBFS) : NodeId → Bool :=
  fun v => decide (crf.GetLabel v = 1)

/-- The reference definition of the initial dual of one clique, in the words of the
specification: with `avg = e / k` and `rem = e mod k`, entry `(i, y_i)` is
`avg + (i < rem ? 1 : 0)` and every other entry is zero; `k` rows of `L` entries. -/
def initial_dual_spec (L : Nat) (y : List Label) (e : REAL) : Dual :=
  let k := y.length
  let avg := e / (k : Int)
  let rem := e % (k : Int)
  (List.range k).map (fun i =>
    (List.range L).map (fun l =>
      if l = y.getD i 0 then avg + (if (i : Int) < rem then 1 else 0) else 0))

end SoSPD

/-! ## Concrete inputs -/

namespace SoSPD.Examples

/-- A pairwise clique on the nodes 0 and 1 with energy 3 when the two labels differ and
0 when they agree. -/
def pairClique : Clique :=
  { Nodes := [0, 1], Energy := fun buf => if buf.getD 0 0 = buf.getD 1 0 then 0 else 3, FMax := 3 }

/-- Two nodes, two labels, unaries preferring label 0 at node 0 and label 1 at node 1,
and the clique `pairClique`. -/
def pairModel : MultilabelEnergy :=
  { NumNodes := 2, NumLabels := 2,
    Unary := fun v l => if v = l then 0 else 2,
    Cliques := [pairClique] }

/-- The state of `pairModel` with the labeling `[0, 1]`, the dual that `InitialDual`
gives it, and the node-clique index of the model. -/
def pairState : State :=
  { m_labels := [0, 1], m_dual := [[[2, 0], [0, 1]]],
    m_node_clique_list := [[(0, 0)], [(0, 1)]] }

/-- A clique on 32 distinct nodes with constant energy 1. -/
def wideClique : Clique :=
  { Nodes := List.range 32, Energy := fun _ => 1, FMax := 1 }

/-- A model with 32 nodes, one label and the clique `wideClique`. -/
def wideModel : MultilabelEnergy :=
  { NumNodes := 32, NumLabels := 1, Unary := fun _ _ => 0, Cliques := [wideClique] }

/-- The state of `wideModel` with every node at label 0 and an all-zero dual table of
32 rows of one entry. -/
def wideState : State :=
  { m_labels := List.replicate 32 0, m_dual := [List.replicate 32 [0]],
    m_node_clique_list := (List.range 32).map (fun i => [(0, i)]) }

/-- The flow solver after `SetupGraph` on `pairModel`: two nodes without cost and one
clique on the nodes 0 and 1 with a table of four zeros. -/
def pairFlow : SubmodularIBFS :=
  { constant_term := 0, unaries := [(0, 0), (0, 0)],
    cliques := [{ Nodes := [0, 1], EnergyTable := [0, 0, 0, 0], AlphaCi := [0, 0] }],
    labels := [0, 0] }

/-- A stand-in for the external `crf.Solve()`: it assigns 1 to node 1 and 0 to node 0,
and reports no dual corrections. -/
def pairSolve (crf : SubmodularIBFS) : SubmodularIBFS :=
  { crf with labels := [0, 1] }

end SoSPD.Examples

/-! ## Initial labeling, invariant checks and the drivers -/

namespace SoSPD

/-- Modelled from the spec: `std::numeric_limits<REAL>::max()` for the signed 64-bit
`REAL` ("All energies are nonnegative 64-bit integers"). -/
def REAL_MAX : REAL := 2 ^ 63 - 1

/-- The values a signed 64-bit `REAL` can hold. -/
def IsReal64 (x : Int) : Prop := -(2 ^ 63) ≤ x ∧ x < 2 ^ 63

instance (x : Int) : Decidable (IsReal64 x) := by unfold IsReal64; infer_instance

/-- Two's-complement wrap of an integer into the signed 64-bit range. -/
def wrap64 (x : Int) : Int := (x + 2 ^ 63) % 2 ^ 64 - 2 ^ 63

/-- One of the functions the unqualified call `abs(...)` of `CheckLabelInvariant` can
bind to: the 64-bit overload (`long abs(long)`); the negation wraps, so the most negative
value is returned unchanged.  No declaration of `abs` is among the sources at hand, so
the checks take the bound function as a parameter. -/
def abs64 (x : Int) : Int := wrap64 (if x < 0 then -x else x)

/-- Two's-complement wrap of an integer into the signed 32-bit range: the conversion of
a 64-bit value to `int`. -/
def wrap32 (x : Int) : Int := (x + 2 ^ 31) % 2 ^ 32 - 2 ^ 31

/-- Another function the unqualified call `abs(...)` can bind to: `int abs(int)` of the
C library, the only `abs` in the global namespace unless the 64-bit overloads are
brought there.  The 64-bit argument is converted to `int` first; the negation wraps. -/
def abs32 (x : Int) : Int := wrap32 (if wrap32 x < 0 then -(wrap32 x) else wrap32 x)

/-- The inner loop of `InitialLabeling` for one node over the labels `0 .. n-1`: the
pair is `(best_cost, m_labels[i])`, replaced at `l` when `Unary(i, l) < best_cost`. -/
def bestLabelLoop (U : Label → REAL) : Nat → REAL × Label → REAL × Label
  | 0, r => r
  | l + 1, r =>
    let r0 := bestLabelLoop U l r
    if U l < r0.1 then (U l, l) else r0

/-- The outer loop of `InitialLabeling` over the nodes `0 .. n-1`; `best_cost` starts at
the largest `REAL` for every node. -/
def labelingLoop (Unary : NodeId → Label → REAL) (m_num_labels : Nat) :
    Nat → List Label → List Label
  | 0, m_labels => m_labels
  | i + 1, m_labels =>
    let m0 := labelingLoop Unary m_num_labels i m_labels
    m0.set i (bestLabelLoop (Unary i) m_num_labels (REAL_MAX, labelAt m0 i)).2

/-- The spec's reverse map: all pairs `(c, i)` with `cliques[c].nodes[i] = v`, by
increasing clique index `c` and, within one clique, by increasing position `i`. -/
def incident_spec (cliques : List Clique) (v : NodeId) : List (Nat × Nat) :=
  (List.range cliques.length).flatMap (fun c =>
    ((List.range ((cliques.map Clique.Nodes).getD c []).length).filter
      (fun i => ((cliques.map Clique.Nodes).getD c []).getD i 0 = v)).map (fun i => (c, i)))

namespace SubmodularPrimalDual2

/-- `SubmodularPrimalDual2::InitialLabeling`. -/
def InitialLabeling (E : MultilabelEnergy) (s : State) : State :=
  { s with m_labels := labelingLoop E.Unary E.NumLabels E.NumNodes s.m_labels }

/-- The loop of `SubmodularPrimalDual2::CheckLabelInvariant` over the cliques: it
asserts `k < 32` at each clique it reaches.  The guard is `if (abs(sum - energy))`, an
unqualified call; `abs` is the function that call is bound to. -/
def checkLabelLoop (abs : REAL → REAL) (m_labels : List Label) :
    List Clique → Nat → List Dual → Except Fault Bool
  | [], _, _ => .ok true
  | c :: cs, clique_index, m_dual =>
    if ¬ c.Size < 32 then .error Fault.assertion
    else
      let labelBuf := localLabels m_labels c
      let energy := c.Energy labelBuf
      let sum := activeSum (m_dual.getD clique_index []) labelBuf
      if abs (wrap64 (sum - energy)) ≠ 0 then .ok false
      else checkLabelLoop abs m_labels cs (clique_index + 1) m_dual

/-- `SubmodularPrimalDual2::CheckLabelInvariant`, with the function its unqualified
`abs` call is bound to. -/
def CheckLabelInvariant (abs : REAL → REAL) (E : MultilabelEnergy) (s : State) :
    Except Fault Bool :=
  checkLabelLoop abs s.m_labels E.Cliques 0 s.m_dual

/-- One iteration of the `for alpha` loop of `Solve`: `PreEditDual(alpha)`, then
`UpdatePrimalDual(alpha, crf)`, whose `true` sets `labelChanged`, then `PostEditDual()`. -/
def alphaStep (E : MultilabelEnergy) (Solve : SubmodularIBFS → SubmodularIBFS) (alpha : Label)
    (r : Bool × State × SubmodularIBFS) : Except Fault (Bool × State × SubmodularIBFS) :=
  match PreEditDual E alpha r.2.1 with
  | .error e => .error e
  | .ok s1 =>
    match UpdatePrimalDual E Solve alpha s1 r.2.2 with
    | .error e => .error e
    | .ok u =>
      match PostEditDual E u.2.1 with
      | .error e => .error e
      | .ok s3 => .ok (if u.1 then true else r.1, s3, u.2.2)

/-- The `for alpha` loop of `Solve` over the labels `0 .. n-1`. -/
def sweepLoop (E : MultilabelEnergy) (Solve : SubmodularIBFS → SubmodularIBFS) :
    Nat → Bool × State × SubmodularIBFS → Except Fault (Bool × State × SubmodularIBFS)
  | 0, r => .ok r
  | alpha + 1, r =>
    match sweepLoop E Solve alpha r with
    | .error e => .error e
    | .ok r0 => alphaStep E Solve alpha r0

/-- The `while (labelChanged)` loop of `Solve`, run for at most `fuel` sweeps; the
result carries the number of sweeps made (`num_round`) and is `none` when the fuel ends
before the loop does. -/
def whileLoop (E : MultilabelEnergy) (Solve : SubmodularIBFS → SubmodularIBFS) :
    Nat → Nat → State → SubmodularIBFS → Option (Except Fault (Nat × State × SubmodularIBFS))
  | 0, _, _, _ => none
  | fuel + 1, num_round, s, crf =>
    match sweepLoop E Solve E.NumLabels (false, s, crf) with
    | .error e => some (.error e)
    | .ok r =>
      if r.1 then whileLoop E Solve fuel (num_round + 1) r.2.1 r.2.2
      else some (.ok (num_round + 1, r.2.1, r.2.2))

/-- `SubmodularPrimalDual2::Solve` from the state left by the constructor: `SetupGraph`,
`InitialLabeling`, `InitialDual`, `InitialNodeCliqueList`, then the loop (`DualFit` does
nothing; the build without `CHECK_INVARIANTS` and `PROGRESS_DISPLAY`). -/
def Solve (E : MultilabelEnergy) (solver : SubmodularIBFS → SubmodularIBFS) (fuel : Nat)
    (s : State) : Option (Except Fault (Nat × State × SubmodularIBFS)) :=
  match SetupGraph E s SubmodularIBFS.empty with
  | .error e => some (.error e)
  | .ok crf =>
    match InitialDual E (InitialLabeling E s) with
    | .error e => some (.error e)
    | .ok s2 => whileLoop E solver fuel 0 (InitialNodeCliqueList E s2) crf

end SubmodularPrimalDual2

namespace DualGuidedFusionMove

/-- The data members of `DualGuidedFusionMove`. -/
structure Fields where
  m_num_labels : Nat
  m_constant_term : REAL
  m_cliques : List Clique
  m_unary_cost : List (List REAL)
  m_labels : List Label
  m_fusion_labels : List Label
  m_dual : List Dual
  m_node_clique_list : List (List (Nat × Nat))

/-- The read `m_unary_cost[i][l]`. -/
def unaryAt (F : Fields) (i : NodeId) (l : Label) : REAL := (F.m_unary_cost.getD i []).getD l 0

/-- `DualGuidedFusionMove::InitialLabeling`. -/
def InitialLabeling (F : Fields) : Fields :=
  { F with m_labels := labelingLoop (unaryAt F) F.m_num_labels F.m_unary_cost.length F.m_labels }

/-- `DualGuidedFusionMove::InitialNodeCliqueList`. -/
def InitialNodeCliqueList (F : Fields) : Fields :=
  { F with m_node_clique_list :=
      SubmodularPrimalDual2.pushCliques F.m_cliques 0 (List.replicate F.m_labels.length []) }

/-- `DualGuidedFusionMove::ComputeHeight`. -/
def ComputeHeight (F : Fields) (i : NodeId) (x : Label) : REAL :=
  (F.m_node_clique_list.getD i []).foldl
    (fun ret p => ret + getEntry (F.m_dual.getD p.1 []) p.2 x) (unaryAt F i x)

/-- The inner loop of `InitialFusionLabeling` for node `i` over the labels `0 .. n-1`:
the triple is `(different, m_fusion_labels[i], h)`. -/
def fusionLabelLoop (F : Fields) (i : NodeId) : Nat → Bool × Label × REAL → Bool × Label × REAL
  | 0, r => r
  | l + 1, r =>
    let r0 := fusionLabelLoop F i l r
    let newH := ComputeHeight F i l
    if newH < r0.2.2 then (true, l, newH) else r0

/-- The outer loop of `InitialFusionLabeling` over the nodes `0 .. n-1`: the pair is
`(different, m_fusion_labels)`. -/
def fusionLoop (F : Fields) : Nat → Bool × List Label → Bool × List Label
  | 0, r => r
  | i + 1, r =>
    let r0 := fusionLoop F i r
    let t := fusionLabelLoop F i F.m_num_labels
      (r0.1, labelAt F.m_labels i, ComputeHeight F i (labelAt F.m_labels i))
    (t.1, r0.2.set i t.2.1)

/-- `DualGuidedFusionMove::InitialFusionLabeling`: the returned flag and the fields
after the call. -/
def InitialFusionLabeling (F : Fields) : Bool × Fields :=
  let r := fusionLoop F F.m_labels.length (false, F.m_fusion_labels)
  (r.1, { F with m_fusion_labels := r.2 })

/-- `DualGuidedFusionMove::CheckHeightInvariant`. -/
def CheckHeightInvariant (F : Fields) : Bool :=
  (List.range F.m_labels.length).all (fun i =>
    (List.range F.m_num_labels).all (fun alpha =>
      if alpha = labelAt F.m_labels i then true
      else !decide (ComputeHeight F i (labelAt F.m_labels i) > ComputeHeight F i alpha)))

/-- The loop of `CheckLabelInvariant` over the cliques of `DualGuidedFusionMove`: the
first clique whose `abs(sum - energy)` is nonzero makes it return `false`.  `abs` is the
function the unqualified call is bound to. -/
def checkLabelLoop (abs : REAL → REAL) (m_labels : List Label) :
    List Clique → Nat → List Dual → Bool
  | [], _, _ => true
  | c :: cs, clique_index, m_dual =>
    let labelBuf := localLabels m_labels c
    let energy := c.Energy labelBuf
    let sum := activeSum (m_dual.getD clique_index []) labelBuf
    if abs (wrap64 (sum - energy)) ≠ 0 then false
    else checkLabelLoop abs m_labels cs (clique_index + 1) m_dual

/-- `DualGuidedFusionMove::CheckLabelInvariant`, with the function its unqualified `abs`
call is bound to. -/
def CheckLabelInvariant (abs : REAL → REAL) (F : Fields) : Bool :=
  checkLabelLoop abs F.m_labels F.m_cliques 0 F.m_dual

/-- `DualGuidedFusionMove::ComputeEnergy(labels)`: the clique loop fills `labelBuf`
from the member `m_labels`, the node loop reads the argument `labels`. -/
def ComputeEnergy (F : Fields) (labels : List Label) : REAL :=
  let energy := F.m_cliques.foldl
    (fun energy c => energy + c.Energy (localLabels F.m_labels c))
    F.m_constant_term
  (List.range F.m_labels.length).foldl
    (fun energy i => energy + unaryAt F i (labels.getD i 0)) energy

/-- The `while (labelChanged)` loop of `DualGuidedFusionMove::Solve`, run for at most
`fuel` rounds. `body` stands for the three calls `PreEditDual(crf)`,
`UpdatePrimalDual(crf)`, `PostEditDual()` of one round, which go through the external
flow solver; the loop is left only through the `break` after `InitialFusionLabeling`
returned `false` (the build without `CHECK_INVARIANTS` and `PROGRESS_DISPLAY`). -/
def SolveLoop (body : Fields → SubmodularIBFS → Except Fault (Fields × SubmodularIBFS)) :
    Nat → Fields → SubmodularIBFS → Option (Except Fault (Fields × SubmodularIBFS))
  | 0, _, _ => none
  | fuel + 1, F, crf =>
    let r := InitialFusionLabeling F
    if ¬ r.1 then some (.ok (r.2, crf))
    else
      match body r.2 crf with
      | .error e => some (.error e)
      | .ok r2 => SolveLoop body fuel r2.1 r2.2

/-- The Height invariant: every node's current label has the least height. -/
def HeightInvariant (F : Fields) : Prop :=
  ∀ v, v < F.m_labels.length → ∀ l, l < F.m_num_labels →
    ComputeHeight F v (labelAt F.m_labels v) ≤ ComputeHeight F v l

/-- The Label invariant over the fields of `DualGuidedFusionMove`. -/
def LabelInvariant (F : Fields) : Prop :=
  ∀ ci (h : ci < F.m_cliques.length),
    LabelInvariantAt F.m_labels F.m_cliques[ci] (F.m_dual.getD ci [])

instance (F : Fields) : Decidable (HeightInvariant F) := by
  unfold HeightInvariant
  infer_instance

instance (F : Fields) : Decidable (LabelInvariant F) := by
  unfold LabelInvariant
  infer_instance

/-- The energy the spec assigns to a labeling `x`:
`constant_term + Σ_i U_i(x_i) + Σ_C f_C(x restricted to C)`. -/
def energy_spec (F : Fields) (x : List Label) : REAL :=
  F.m_constant_term
    + ((List.range F.m_labels.length).map (fun i => unaryAt F i (x.getD i 0))).sum
    + (F.m_cliques.map (fun c => c.Energy (localLabels x c))).sum

end DualGuidedFusionMove

end SoSPD

namespace SoSPD.Examples

/-- The fields of a `DualGuidedFusionMove` holding `pairModel` in the state `pairState`. -/
def pairFields : DualGuidedFusionMove.Fields :=
  { m_num_labels := 2, m_constant_term := 0, m_cliques := [pairClique],
    m_unary_cost := [[0, 2], [2, 0]], m_labels := [0, 1], m_fusion_labels := [0, 0],
    m_dual := [[[2, 0], [0, 1]]], m_node_clique_list := [[(0, 0)], [(0, 1)]] }

/-- The state the constructor of `SubmodularPrimalDual2` leaves for `pairModel`: every
node at label 0, no dual and no index yet. -/
def pairStart : State :=
  { m_labels := [0, 0], m_dual := [], m_node_clique_list := [] }

/-- A stand-in for the external `crf.Solve()` on two nodes: it reports an assignment of
least flow-instance energy among `00`, `01`, `10`, `11`, keeping `00` unless another one
is strictly better. -/
def bruteSolve (crf : SubmodularIBFS) : SubmodularIBFS :=
  let cands : List (List Int) := [[0, 0], [0, 1], [1, 0], [1, 1]]
  let en (l : List Int) : REAL := crf.Energy (fun v => decide (l.getD v 0 = 1))
  { crf with labels := cands.foldl (fun b c => if en c < en b then c else b) [0, 0] }

/-- A stand-in for the external `crf.Solve()` that assigns 1 to node 1 and reports the
corrections `[1, -1]` for every clique. -/
def slackSolve (crf : SubmodularIBFS) : SubmodularIBFS :=
  { crf with labels := [0, 1],
             cliques := crf.cliques.map (fun c => { c with AlphaCi := [1, -1] }) }

/-- The state `pairState` with `2^32` added to `dual[0][0][0]`: the active duals of the
clique sum to `3 + 2^32`, its energy is 3. -/
def farState : State :=
  { m_labels := [0, 1], m_dual := [[[4294967298, 0], [0, 1]]],
    m_node_clique_list := [[(0, 0)], [(0, 1)]] }

/-- The fields `pairFields` with the dual of `farState`. -/
def farFields : DualGuidedFusionMove.Fields :=
  { pairFields with m_dual := farState.m_dual }

/-- One node, two labels, both unary costs at the maximum of `REAL`, no clique. -/
def maxModel : MultilabelEnergy :=
  { NumNodes := 1, NumLabels := 2, Unary := fun _ _ => REAL_MAX, Cliques := [] }

/-- A state whose node was given label 1 before `InitialLabeling` runs. -/
def presetState : State :=
  { m_labels := [1], m_dual := [], m_node_clique_list := [] }

deriving instance DecidableEq for State, IBFSClique, SubmodularIBFS

/-- The pairs of a state and a flow solver that the loop of `Solve` on `pairModel` with
`bruteSolve` can be in between two moves: the pair it is entered with, and every pair a
move for label 0 or label 1 leads to from one of them. -/
def pairReachList : List (State × SubmodularIBFS) :=
  [({ m_labels := [0, 1], m_dual := [[[2, 0], [0, 1]]],
       m_node_clique_list := [[(0, 0)], [(0, 1)]] },
     { constant_term := 0, unaries := [(0, 0), (0, 0)],
       cliques := [{ Nodes := [0, 1], EnergyTable := [0, 0, 0, 0], AlphaCi := [0, 0] }],
       labels := [0, 0] }),
    ({ m_labels := [0, 0], m_dual := [[[0, 0], [0, 1]]],
       m_node_clique_list := [[(0, 0)], [(0, 1)]] },
     { constant_term := 0, unaries := [(0, 0), (1, 0)],
       cliques := [{ Nodes := [0, 1], EnergyTable := [0, 0, 0, 0], AlphaCi := [0, 0] }],
       labels := [0, 1] }),
    ({ m_labels := [1, 1], m_dual := [[[2, 0], [0, 0]]],
       m_node_clique_list := [[(0, 0)], [(0, 1)]] },
     { constant_term := 0, unaries := [(1, 0), (0, 0)],
       cliques := [{ Nodes := [0, 1], EnergyTable := [0, 0, 0, 0], AlphaCi := [0, 0] }],
       labels := [1, 0] }),
    ({ m_labels := [0, 0], m_dual := [[[0, 0], [0, 1]]],
       m_node_clique_list := [[(0, 0)], [(0, 1)]] },
     { constant_term := 0, unaries := [(0, 0), (0, 0)],
       cliques := [{ Nodes := [0, 1], EnergyTable := [0, 0, 0, 0], AlphaCi := [0, 0] }],
       labels := [0, 0] }),
    ({ m_labels := [0, 0], m_dual := [[[0, -3], [0, 3]]],
       m_node_clique_list := [[(0, 0)], [(0, 1)]] },
     { constant_term := 0, unaries := [(1, 0), (0, 1)],
       cliques := [{ Nodes := [0, 1], EnergyTable := [0, 6, 0, 0], AlphaCi := [0, 0] }],
       labels := [0, 0] }),
    ({ m_labels := [1, 1], m_dual := [[[-3, 0], [3, 0]]],
       m_node_clique_list := [[(0, 0)], [(0, 1)]] },
     { constant_term := 0, unaries := [(5, 0), (0, 5)],
       cliques := [{ Nodes := [0, 1], EnergyTable := [0, 6, 0, 0], AlphaCi := [0, 0] }],
       labels := [0, 0] }),
    ({ m_labels := [1, 1], m_dual := [[[2, 0], [0, 0]]],
       m_node_clique_list := [[(0, 0)], [(0, 1)]] },
     { constant_term := 0, unaries := [(0, 0), (0, 0)],
       cliques := [{ Nodes := [0, 1], EnergyTable := [0, 0, 0, 0], AlphaCi := [0, 0] }],
       labels := [0, 0] }),
    ({ m_labels := [0, 0], m_dual := [[[0, -3], [0, 3]]],
       m_node_clique_list := [[(0, 0)], [(0, 1)]] },
     { constant_term := 0, unaries := [(0, 0), (0, 0)],
       cliques := [{ Nodes := [0, 1], EnergyTable := [0, 0, 0, 0], AlphaCi := [0, 0] }],
       labels := [0, 0] }),
    ({ m_labels := [1, 1], m_dual := [[[-3, 0], [3, 0]]],
       m_node_clique_list := [[(0, 0)], [(0, 1)]] },
     { constant_term := 0, unaries := [(0, 0), (0, 0)],
       cliques := [{ Nodes := [0, 1], EnergyTable := [0, 0, 0, 0], AlphaCi := [0, 0] }],
       labels := [0, 0] })]

/-- Membership in `pairReachList`. -/
def pairReach (s : State) (crf : SubmodularIBFS) : Prop := (s, crf) ∈ pairReachList

instance (s : State) (crf : SubmodularIBFS) : Decidable (pairReach s crf) := by
  unfold pairReach
  infer_instance

end SoSPD.Examples

/-! ## The exact solver, the set-function kit and the scenarios -/

namespace SoSPD

/-- Modelled from the spec: "`K_MAX` is hard-coded at 32 via stack buffers in the
source" (`Label labelBuf[32]`). -/
def K_MAX : Nat := 32

/-- All assignments of `n` nodes, in the order of their bitmasks `0 .. 2^n - 1`. -/
def allAssignments (n : Nat) : List (List Int) :=
  (List.range (2 ^ n)).map (fun a => (List.range n).map (fun v => if a.testBit v then 1 else 0))

/-- A stand-in for the external `crf.Solve()`, as `bruteSolve` for any number of nodes:
it reports an assignment of least flow-instance energy (of all assignments the first
such one in the order of the bitmasks).  It serves as an example of a solver; no
statement depends on how it breaks ties. -/
def exactSolve (crf : SubmodularIBFS) : SubmodularIBFS :=
  let en (l : List Int) : REAL := crf.Energy (fun v => decide (l.getD v 0 = 1))
  let best := (allAssignments crf.unaries.length).foldl
    (fun b c => if en c < en b then c else b) (List.replicate crf.unaries.length 0)
  { crf with labels := best }

/-- The bitmask of `S \ T`. -/
def maskDiff (S T : Nat) : Nat := S ^^^ (S &&& T)

/-- Modelled from the spec: `zero_marginal_set(k, g, T)` (`ZeroMarginalSet` is not among
the sources at hand): "propagating the value at S\T up to S: `g'(S) = g(S \ T)`". -/
def zero_marginal_set (k : Nat) (g : List REAL) (T : Nat) : List REAL :=
  (List.range (2 ^ k)).map (fun S => g.getD (maskDiff S T) 0)

namespace SubmodularPrimalDual2

/-- The state the constructor `SubmodularPrimalDual2(energy)` leaves:
`m_labels(energy->NumNodes(), 0)`, and no dual and no index yet. -/
def constructed (E : MultilabelEnergy) : State :=
  { m_labels := List.replicate E.NumNodes 0, m_dual := [], m_node_clique_list := [] }

end SubmodularPrimalDual2

namespace DualGuidedFusionMove

/-- The mask `fusion_equals_current` of `DualGuidedFusionMove::PreEditDual` after the
positions `0 .. n-1`: bit `i` is set (`|= (1 << i)`) when
`current_labels[i] == fusion_labels[i]`.  The shift `1 << i` is `2 ^ i` for the
positions `i < 31` of a 32-bit `int`; statements about the mask are made for cliques of
fewer than 32 nodes. -/
def fusionEqualsCurrent (current_labels fusion_labels : List Label) : Nat → Nat
  | 0 => 0
  | i + 1 =>
    let fusion_equals_current := fusionEqualsCurrent current_labels fusion_labels i
    if current_labels.getD i 0 = fusion_labels.getD i 0 then fusion_equals_current ||| 2 ^ i
    else fusion_equals_current

/-- The label buffer of assignment `a` in `DualGuidedFusionMove::PreEditDual`: position
`i` takes its fusion label when bit `i` of `a` is set and its current label otherwise. -/
def fusionBuf (current_labels fusion_labels : List Label) (a : Nat) : List Label :=
  (List.range current_labels.length).map (fun i_idx =>
    if a.testBit i_idx then fusion_labels.getD i_idx 0 else current_labels.getD i_idx 0)

/-- The entry `energy_table[a] = c.Energy(label_buf)` of the fusion table that
`DualGuidedFusionMove::PreEditDual` computes for a clique. -/
def fusionEnergy (c : Clique) (current_labels fusion_labels : List Label) (a : Nat) : REAL :=
  c.Energy (fusionBuf current_labels fusion_labels a)

end DualGuidedFusionMove

end SoSPD

namespace SoSPD.Examples

/-- A pairwise Potts clique on the nodes `u` and `v`: energy 1 when the two labels
differ and 0 when they agree. -/
def potts (u v : NodeId) : Clique :=
  { Nodes := [u, v], Energy := fun buf => if buf.getD 0 0 = buf.getD 1 0 then 0 else 1, FMax := 1 }

/-- The three ways to lay the 4 edges of a 2x2 grid over the nodes 0 .. 3, that is the
three cycles through the four nodes: around the grid in the order 0, 1, 2, 3; the
row-major numbering (0, 1 in the first row and 2, 3 in the second); and around the grid
in the order 0, 2, 1, 3. -/
def gridEdgeSets : List (List (NodeId × NodeId)) :=
  [[(0, 1), (1, 2), (2, 3), (3, 0)], [(0, 1), (2, 3), (0, 2), (1, 3)],
    [(0, 2), (2, 1), (1, 3), (3, 0)]]

/-- The edges of the grid numbered around in the order 0, 1, 2, 3: the nodes 1 and 2 are
neighbours, so `l* = [0, 1, 1, 2]` has 3 disagreeing edges. -/
def ringEdges : List (NodeId × NodeId) := [(0, 1), (1, 2), (2, 3), (3, 0)]

/-- Scenario S1 on the grid with the given edges: four nodes, three labels, unaries
`U[v][l] = 0` if `l = l*_v` and 2 otherwise with `l* = [0, 1, 1, 2]`, and a Potts clique
on each edge. -/
def gridModel (edges : List (NodeId × NodeId)) : MultilabelEnergy :=
  { NumNodes := 4, NumLabels := 3,
    Unary := fun v l => if l = [0, 1, 1, 2].getD v 0 then 0 else 2,
    Cliques := edges.map (fun e => potts e.1 e.2) }

/-- The state the constructor of `SubmodularPrimalDual2` leaves for scenario S1. -/
def gridStart : State :=
  { m_labels := [0, 0, 0, 0], m_dual := [], m_node_clique_list := [] }

/-- A clique on 33 distinct nodes with constant energy 1. -/
def hugeClique : Clique :=
  { Nodes := List.range 33, Energy := fun _ => 1, FMax := 1 }

/-- A clique without nodes, of energy 0. -/
def emptyClique : Clique :=
  { Nodes := [], Energy := fun _ => 0, FMax := 0 }

/-- A state with the all-zero labeling of `n` nodes and nothing else. -/
def zeroState (n : Nat) : State :=
  { m_labels := List.replicate n 0, m_dual := [], m_node_clique_list := [] }

/-- A model with 33 nodes, one label and the clique `hugeClique`. -/
def hugeModel : MultilabelEnergy :=
  { NumNodes := 33, NumLabels := 1, Unary := fun _ _ => 0, Cliques := [hugeClique] }

/-- A model with one node, one label and the clique `emptyClique`. -/
def emptyModel : MultilabelEnergy :=
  { NumNodes := 1, NumLabels := 1, Unary := fun _ _ => 0, Cliques := [emptyClique] }

/-- A clique on 31 distinct nodes with constant energy 1: the largest size that passes
`ASSERT(k < 32)`. -/
def edgeClique : Clique :=
  { Nodes := List.range 31, Energy := fun _ => 1, FMax := 1 }

/-- A model with 31 nodes, one label and the clique `edgeClique`. -/
def edgeModel : MultilabelEnergy :=
  { NumNodes := 31, NumLabels := 1, Unary := fun _ _ => 0, Cliques := [edgeClique] }

/-- A flow solver with 31 nodes without cost and one clique on them, whose table holds
the single entry 7. -/
def edgeFlow : SubmodularIBFS :=
  { constant_term := 0, unaries := List.replicate 31 (0, 0),
    cliques := [{ Nodes := List.range 31, EnergyTable := [7], AlphaCi := List.replicate 31 0 }],
    labels := List.replicate 31 0 }

end SoSPD.Examples

/-! # Theorems -/

namespace SoSPD

/-! ## Reading and writing one entry -/

theorem getD_set_eq {α : Type} (r : List α) (l m : Nat) (v dflt : α) :
    (r.set l v).getD m dflt = if l = m ∧ l < r.length then v else r.getD m dflt := by
  simp only [List.getD_eq_getElem?_getD, List.getElem?_set]
  by_cases hlm : l = m
  · subst hlm
    by_cases hl : l < r.length
    · simp [hl]
    · have h1 : r[l]? = none := List.getElem?_eq_none (by omega)
      simp [hl, h1]
  · simp [hlm]

theorem setEntry_length (d : Dual) (i : Nat) (l : Label) (v : REAL) :
    (setEntry d i l v).length = d.length := by
  simp [setEntry]

theorem getD_setEntry_length (d : Dual) (i : Nat) (l : Label) (v : REAL) (j : Nat) :
    ((setEntry d i l v).getD j []).length = (d.getD j []).length := by
  unfold setEntry
  rw [getD_set_eq]
  split
  · next h => rw [List.length_set, h.1]
  · rfl

theorem getEntry_setEntry (d : Dual) (i : Nat) (l : Label) (v : REAL) (j : Nat) (m : Label) :
    getEntry (setEntry d i l v) j m =
      if i = j ∧ l = m ∧ i < d.length ∧ l < (d.getD i []).length then v
      else getEntry d j m := by
  unfold getEntry setEntry
  rw [getD_set_eq]
  by_cases hij : i = j
  · subst hij
    by_cases hi : i < d.length
    · simp only [hi, and_self, if_true, true_and, and_true]
      rw [getD_set_eq]
    · simp [hi]
  · simp [hij]

theorem Dual.HasShape.setEntry {d : Dual} {k L : Nat} (h : d.HasShape k L) (i : Nat)
    (l : Label) (v : REAL) : (SoSPD.setEntry d i l v).HasShape k L := by
  refine ⟨by rw [setEntry_length]; exact h.1, ?_⟩
  intro row hrow
  obtain ⟨j, hj, rfl⟩ := List.getElem_of_mem hrow
  have h1 := getD_setEntry_length d i l v j
  rw [List.getD_eq_getElem _ _ hj] at h1
  rw [h1]
  rw [setEntry_length] at hj
  rw [List.getD_eq_getElem _ _ hj]
  exact h.2 _ (List.getElem_mem _)

theorem Dual.HasShape.getD_length {d : Dual} {k L : Nat} (h : d.HasShape k L) {i : Nat}
    (hi : i < k) : (d.getD i []).length = L := by
  have hi2 : i < d.length := by rw [h.1]; exact hi
  rw [List.getD_eq_getElem _ _ hi2]
  exact h.2 _ (List.getElem_mem _)

theorem hasShape_replicate (k L : Nat) :
    Dual.HasShape (List.replicate k (List.replicate L (0 : REAL))) k L := by
  refine ⟨by simp, ?_⟩
  intro row hrow
  rw [List.eq_of_mem_replicate hrow]
  simp

theorem getEntry_replicate (k L i l : Nat) :
    getEntry (List.replicate k (List.replicate L (0 : REAL))) i l = 0 := by
  unfold getEntry
  simp only [List.getD_eq_getElem?_getD]
  by_cases hi : i < k
  · rw [List.getElem?_replicate_of_lt hi]
    by_cases hl : l < L
    · simp [List.getElem?_replicate_of_lt hl]
    · simp [List.getElem?_replicate, hl]
  · simp [List.getElem?_replicate, hi]

/-! ## The averaging loop -/

theorem averageLoop_hasShape (labelBuf : List Label) (avg remainder : REAL) {k L : Nat}
    (n : Nat) {d : Dual} (h : d.HasShape k L) :
    (averageLoop labelBuf avg remainder n d).HasShape k L := by
  induction n with
  | zero => exact h
  | succ n ih =>
    simp only [averageLoop]
    split
    · exact (ih.setEntry _ _ _).setEntry _ _ _
    · exact ih.setEntry _ _ _

theorem getEntry_setEntry_of_shape {d : Dual} {k L : Nat} (h : d.HasShape k L) {i : Nat}
    {l : Label} (hi : i < k) (hl : l < L) (v : REAL) (j : Nat) (m : Label) :
    getEntry (setEntry d i l v) j m = if i = j ∧ l = m then v else getEntry d j m := by
  rw [getEntry_setEntry]
  have h1 : i < d.length := by rw [h.1]; exact hi
  have h2 : l < (d.getD i []).length := by rw [h.getD_length hi]; exact hl
  by_cases hc : i = j ∧ l = m
  · rw [if_pos ⟨hc.1, hc.2, h1, h2⟩, if_pos hc]
  · rw [if_neg (fun hh => hc ⟨hh.1, hh.2.1⟩), if_neg hc]

theorem averageLoop_cond {labelBuf : List Label} {n i : Nat} {l : Label}
    (hc : ¬ (n = i ∧ labelBuf.getD n 0 = l)) :
    (i < n + 1 ∧ l = labelBuf.getD i 0) ↔ (i < n ∧ l = labelBuf.getD i 0) := by
  constructor
  · rintro ⟨h1, h2⟩
    rcases Nat.lt_succ_iff_lt_or_eq.mp h1 with h3 | h3
    · exact ⟨h3, h2⟩
    · exact absurd ⟨h3.symm, by rw [h2, h3]⟩ hc
  · rintro ⟨h1, h2⟩
    exact ⟨by omega, h2⟩

theorem getEntry_averageLoop (labelBuf : List Label) (avg remainder : REAL) {k L : Nat}
    (n : Nat) {d : Dual} (h : d.HasShape k L) (hn : n ≤ k)
    (hl : ∀ i, i < n → labelBuf.getD i 0 < L) (i : Nat) (l : Label) :
    getEntry (averageLoop labelBuf avg remainder n d) i l =
      if i < n ∧ l = labelBuf.getD i 0 then avg + (if (i : Int) < remainder then 1 else 0)
      else getEntry d i l := by
  induction n with
  | zero => simp [averageLoop]
  | succ n ih =>
    have ih1 := ih (by omega) (fun i hi => hl i (by omega))
    have hs := averageLoop_hasShape labelBuf avg remainder n h
    have hs1 := hs.setEntry n (labelBuf.getD n 0) avg
    have hnk : n < k := by omega
    have hln := hl n (by omega)
    simp only [averageLoop]
    by_cases hr : (n : Int) < remainder
    · rw [if_pos hr, getEntry_setEntry_of_shape hs1 hnk hln,
        getEntry_setEntry_of_shape hs hnk hln, getEntry_setEntry_of_shape hs hnk hln]
      by_cases hc : n = i ∧ labelBuf.getD n 0 = l
      · obtain ⟨rfl, rfl⟩ := hc
        simp [hr]
      · rw [if_neg hc, if_neg hc, ih1]
        simp only [averageLoop_cond hc]
    · rw [if_neg hr, getEntry_setEntry_of_shape hs hnk hln]
      by_cases hc : n = i ∧ labelBuf.getD n 0 = l
      · obtain ⟨rfl, rfl⟩ := hc
        simp [hr]
      · rw [if_neg hc, ih1]
        simp only [averageLoop_cond hc]

/-! ## Extensionality and the reference table -/

theorem getEntry_eq_getElem {d : Dual} {i : Nat} {l : Label}
    (hi : i < d.length) (hl : l < (d[i]).length) : getEntry d i l = (d[i])[l] := by
  unfold getEntry
  rw [List.getD_eq_getElem _ _ hi, List.getD_eq_getElem _ _ hl]

theorem dual_ext {d1 d2 : Dual} {k L : Nat} (h1 : d1.HasShape k L) (h2 : d2.HasShape k L)
    (h : ∀ i l, i < k → l < L → getEntry d1 i l = getEntry d2 i l) : d1 = d2 := by
  apply List.ext_getElem (by rw [h1.1, h2.1])
  intro i hi1 hi2
  have hr1 : (d1[i]).length = L := h1.2 _ (List.getElem_mem _)
  have hr2 : (d2[i]).length = L := h2.2 _ (List.getElem_mem _)
  apply List.ext_getElem (by rw [hr1, hr2])
  intro l hl1 hl2
  have := h i l (by rw [← h1.1]; exact hi1) (by rw [← hr1]; exact hl1)
  rw [getEntry_eq_getElem hi1 hl1, getEntry_eq_getElem hi2 hl2] at this
  exact this

theorem initial_dual_spec_hasShape (L : Nat) (y : List Label) (e : REAL) :
    (initial_dual_spec L y e).HasShape y.length L := by
  refine ⟨by simp [initial_dual_spec], ?_⟩
  intro row hrow
  simp only [initial_dual_spec, List.mem_map] at hrow
  obtain ⟨i, _, rfl⟩ := hrow
  simp

theorem getEntry_initial_dual_spec (L : Nat) (y : List Label) (e : REAL) {i : Nat} {l : Label}
    (hi : i < y.length) (hl : l < L) :
    getEntry (initial_dual_spec L y e) i l =
      if l = y.getD i 0 then
        e / (y.length : Int) + (if (i : Int) < e % (y.length : Int) then 1 else 0)
      else 0 := by
  have hs := initial_dual_spec_hasShape L y e
  have hi1 : i < (initial_dual_spec L y e).length := by rw [hs.1]; exact hi
  have hl1 : l < ((initial_dual_spec L y e)[i]).length := by
    rw [hs.2 _ (List.getElem_mem _)]; exact hl
  rw [getEntry_eq_getElem hi1 hl1]
  simp [initial_dual_spec]

/-! ## Local labels of a clique -/

theorem localLabels_length (m_labels : List Label) (c : Clique) :
    (localLabels m_labels c).length = c.Size := by
  simp [localLabels, Clique.Size]

theorem labelAt_lt {E : MultilabelEnergy} {m_labels : List Label} (h : IsLabeling E m_labels)
    {v : NodeId} (hv : v < E.NumNodes) : labelAt m_labels v < E.NumLabels := by
  unfold labelAt
  have hv1 : v < m_labels.length := by rw [h.1]; exact hv
  rw [List.getD_eq_getElem _ _ hv1]
  exact h.2 _ (List.getElem_mem _)

theorem localLabels_getD (m_labels : List Label) (c : Clique) {i : Nat} (hi : i < c.Size) :
    (localLabels m_labels c).getD i 0 = labelAt m_labels (c.Nodes.getD i 0) := by
  have hi1 : i < c.Nodes.length := hi
  have hi2 : i < (localLabels m_labels c).length := by rw [localLabels_length]; exact hi
  rw [List.getD_eq_getElem _ _ hi1, List.getD_eq_getElem _ _ hi2]
  simp [localLabels]

theorem localLabels_lt {E : MultilabelEnergy} {m_labels : List Label} (h : IsLabeling E m_labels)
    {c : Clique} (hc : ∀ v ∈ c.Nodes, v < E.NumNodes) {i : Nat} (hi : i < c.Size) :
    (localLabels m_labels c).getD i 0 < E.NumLabels := by
  rw [localLabels_getD m_labels c hi]
  have hi1 : i < c.Nodes.length := hi
  rw [List.getD_eq_getElem _ _ hi1]
  exact labelAt_lt h (hc _ (List.getElem_mem _))

/-! ## The averaging loop agrees with the reference table -/

theorem averageLoop_eq_spec {L : Nat} (y : List Label) (e : REAL) (he : 0 ≤ e)
    (hy : ∀ i, i < y.length → y.getD i 0 < L) :
    averageLoop y (e.tdiv y.length) (e.tmod y.length) y.length
        (List.replicate y.length (List.replicate L 0)) =
      initial_dual_spec L y e := by
  have hk : (0 : Int) ≤ (y.length : Int) := Int.natCast_nonneg _
  have hs0 := hasShape_replicate y.length L
  apply dual_ext (averageLoop_hasShape _ _ _ _ hs0) (initial_dual_spec_hasShape L y e)
  intro i l hi hl
  rw [getEntry_averageLoop y _ _ y.length hs0 (le_refl _) hy, getEntry_initial_dual_spec L y e hi hl,
    getEntry_replicate, Int.tdiv_eq_ediv he hk, Int.tmod_eq_emod he hk]
  by_cases hc : l = y.getD i 0
  · rw [if_pos ⟨hi, hc⟩, if_pos hc]
  · rw [if_neg (fun h => hc h.2), if_neg hc]

theorem sum_range_indicator (avg rem : REAL) (hrem : 0 ≤ rem) (n : Nat) :
    ((List.range n).map (fun (i : Nat) => avg + (if (i : Int) < rem then 1 else 0))).sum =
      n * avg + min (n : Int) rem := by
  induction n with
  | zero => simp [hrem]
  | succ n ih =>
    rw [List.sum_range_succ, ih]
    push_cast
    by_cases h : (n : Int) < rem
    · rw [if_pos h, min_eq_left (le_of_lt h), min_eq_left (by omega)]
      ring
    · rw [if_neg h, min_eq_right (by omega), min_eq_right (by omega)]
      ring

theorem activeSum_initial_dual_spec {L : Nat} (y : List Label) (e : REAL)
    (hk : 0 < y.length) (hy : ∀ i, i < y.length → y.getD i 0 < L) :
    activeSum (initial_dual_spec L y e) y = e := by
  unfold activeSum
  have hk1 : (0 : Int) < (y.length : Int) := by exact_mod_cast hk
  have h1 : (List.range y.length).map (fun i => getEntry (initial_dual_spec L y e) i (y.getD i 0)) =
      (List.range y.length).map (fun (i : Nat) => e / (y.length : Int) +
        (if (i : Int) < e % (y.length : Int) then 1 else 0)) := by
    apply List.map_congr_left
    intro i hi
    rw [List.mem_range] at hi
    rw [getEntry_initial_dual_spec L y e hi (hy i hi), if_pos rfl]
  rw [h1, sum_range_indicator _ _ (Int.emod_nonneg _ (ne_of_gt hk1)),
    min_eq_right (le_of_lt (Int.emod_lt_of_pos _ hk1))]
  have := Int.emod_add_ediv e (y.length : Int)
  linarith

/-! ## The loops over the cliques -/

theorem pushBackLoop_map {body : Clique → Except Fault Dual} {g : Clique → Dual}
    (cs : List Clique) (h : ∀ c ∈ cs, body c = .ok (g c)) :
    pushBackLoop body cs = .ok (cs.map g) := by
  induction cs with
  | nil => rfl
  | cons c cs ih =>
    simp only [pushBackLoop, h c (List.mem_cons_self _ _),
      ih (fun c1 h1 => h c1 (List.mem_cons_of_mem _ h1)), List.map_cons]

theorem pushBackLoop_error {body : Clique → Except Fault Dual} (cs : List Clique) {c : Clique}
    (hc : c ∈ cs) {e : Fault} (he : body c = .error e) :
    ∀ ds, pushBackLoop body cs ≠ .ok ds := by
  induction cs with
  | nil => cases hc
  | cons c1 cs ih =>
    intro ds
    simp only [pushBackLoop]
    rcases List.mem_cons.mp hc with h1 | h1
    · subst h1
      rw [he]
      intro h; cases h
    · cases hb : body c1 with
      | error e1 => intro h; cases h
      | ok d =>
        cases hl : pushBackLoop body cs with
        | error e1 => intro h; cases h
        | ok ds1 => exact absurd hl (ih h1 ds1)

theorem cliqueLoop_ok {body : Clique → Dual → Except Fault Dual} (cs : List Clique) :
    ∀ (idx : Nat) (m r : List Dual), cliqueLoop body cs idx m = .ok r →
      r.length = m.length ∧
      (∀ j, j < idx → r.getD j [] = m.getD j []) ∧
      (∀ j, idx + cs.length ≤ j → r.getD j [] = m.getD j []) ∧
      (∀ j (hj : j < cs.length), idx + j < m.length →
        body cs[j] (m.getD (idx + j) []) = .ok (r.getD (idx + j) [])) := by
  induction cs with
  | nil =>
    intro idx m r h
    simp only [cliqueLoop, Except.ok.injEq] at h
    subst h
    refine ⟨rfl, fun _ _ => rfl, fun _ _ => rfl, ?_⟩
    intro j hj
    simp at hj
  | cons c cs ih =>
    intro idx m r h
    simp only [cliqueLoop] at h
    cases hb : body c (m.getD idx []) with
    | error e => rw [hb] at h; cases h
    | ok d =>
      rw [hb] at h
      obtain ⟨h1, h2, h3, h4⟩ := ih (idx + 1) (m.set idx d) r h
      refine ⟨by rw [h1, List.length_set], ?_, ?_, ?_⟩
      · intro j hj
        rw [h2 j (by omega), getD_set_eq, if_neg (by omega)]
      · intro j hj
        simp only [List.length_cons] at hj
        rw [h3 j (by omega), getD_set_eq, if_neg (by omega)]
      · intro j hj hjm
        cases j with
        | zero =>
          simp only [List.getElem_cons_zero, Nat.add_zero] at hjm ⊢
          rw [hb, h2 idx (by omega), getD_set_eq, if_pos ⟨rfl, hjm⟩]
        | succ j =>
          simp only [List.length_cons, Nat.add_lt_add_iff_right] at hj
          have := h4 j hj (by rw [List.length_set]; omega)
          rw [getD_set_eq, if_neg (by omega)] at this
          simp only [List.getElem_cons_succ]
          have e1 : idx + (j + 1) = idx + 1 + j := by omega
          rw [e1]
          exact this

theorem cliqueLoop_total (body : Clique → Dual → Except Fault Dual) (cs : List Clique)
    (h : ∀ c ∈ cs, ∀ d, ∃ d1, body c d = .ok d1) :
    ∀ (idx : Nat) (m : List Dual), ∃ r, cliqueLoop body cs idx m = .ok r := by
  induction cs with
  | nil => intro idx m; exact ⟨m, rfl⟩
  | cons c cs ih =>
    intro idx m
    obtain ⟨d1, hd1⟩ := h c (List.mem_cons_self _ _) (m.getD idx [])
    simp only [cliqueLoop, hd1]
    exact ih (fun c1 h1 => h c1 (List.mem_cons_of_mem _ h1)) _ _

theorem cliqueLoop_error {body : Clique → Dual → Except Fault Dual} (cs : List Clique)
    {c : Clique} (hc : c ∈ cs) {e : Fault} (he : ∀ d, body c d = .error e) :
    ∀ (idx : Nat) (m r : List Dual), cliqueLoop body cs idx m ≠ .ok r := by
  induction cs with
  | nil => cases hc
  | cons c1 cs ih =>
    intro idx m r
    simp only [cliqueLoop]
    rcases List.mem_cons.mp hc with h1 | h1
    · subst h1
      rw [he]
      intro h; cases h
    · cases hb : body c1 (m.getD idx []) with
      | error e1 => intro h; cases h
      | ok d => exact ih h1 _ _ _

/-! ## `InitialDual` -/

theorem InitialDualClique_spd2_eq_spec {E : MultilabelEnergy} {m_labels : List Label}
    (hlab : IsLabeling E m_labels) {c : Clique} (hv : ∀ v ∈ c.Nodes, v < E.NumNodes)
    (hk1 : 1 ≤ c.Size) (hk2 : c.Size < 32) (he : 0 ≤ c.Energy (localLabels m_labels c)) :
    SubmodularPrimalDual2.InitialDualClique E.NumLabels m_labels c =
      .ok (initial_dual_spec E.NumLabels (localLabels m_labels c)
        (c.Energy (localLabels m_labels c))) := by
  have hlen := localLabels_length m_labels c
  have hy : ∀ i, i < (localLabels m_labels c).length →
      (localLabels m_labels c).getD i 0 < E.NumLabels :=
    fun i hi => localLabels_lt hlab hv (by rw [← hlen]; exact hi)
  have := averageLoop_eq_spec (L := E.NumLabels) (localLabels m_labels c) _ he hy
  rw [hlen] at this
  unfold SubmodularPrimalDual2.InitialDualClique
  have hk0 : ¬ c.Size = 0 := by omega
  simp only [hk2, he, hk0, not_true_eq_false, not_false_eq_true, if_false, ge_iff_le, this]

theorem InitialDualClique_dgfm_eq_spec {E : MultilabelEnergy} {m_labels : List Label}
    (hlab : IsLabeling E m_labels) {c : Clique} (hv : ∀ v ∈ c.Nodes, v < E.NumNodes)
    (hk1 : 1 ≤ c.Size) (he : 0 ≤ c.Energy (localLabels m_labels c)) :
    DualGuidedFusionMove.InitialDualClique E.NumLabels m_labels c =
      .ok (initial_dual_spec E.NumLabels (localLabels m_labels c)
        (c.Energy (localLabels m_labels c))) := by
  have hlen := localLabels_length m_labels c
  have hy : ∀ i, i < (localLabels m_labels c).length →
      (localLabels m_labels c).getD i 0 < E.NumLabels :=
    fun i hi => localLabels_lt hlab hv (by rw [← hlen]; exact hi)
  have := averageLoop_eq_spec (L := E.NumLabels) (localLabels m_labels c) _ he hy
  rw [hlen] at this
  unfold DualGuidedFusionMove.InitialDualClique
  have hk0 : ¬ c.Nodes.length = 0 := by unfold Clique.Size at hk1; omega
  unfold Clique.Size at this
  simp only [he, hk0, not_true_eq_false, not_false_eq_true, if_false, ge_iff_le, this]

/-- The table `InitialDual` computes on well-formed input: the reference table of every
clique. -/
theorem InitialDual_spd2_eq {E : MultilabelEnergy} {s : State}
    (hlab : IsLabeling E s.m_labels) (hrange : CliquesInRange E)
    (hc : ∀ c ∈ E.Cliques, 1 ≤ c.Size ∧ c.Size < 32 ∧ 0 ≤ c.Energy (localLabels s.m_labels c)) :
    SubmodularPrimalDual2.InitialDual E s =
      .ok { s with m_dual := E.Cliques.map (fun c =>
        initial_dual_spec E.NumLabels (localLabels s.m_labels c)
          (c.Energy (localLabels s.m_labels c))) } := by
  unfold SubmodularPrimalDual2.InitialDual
  rw [pushBackLoop_map E.Cliques (fun c h =>
    InitialDualClique_spd2_eq_spec hlab (hrange c h) (hc c h).1 (hc c h).2.1 (hc c h).2.2)]

theorem InitialDual_dgfm_eq {E : MultilabelEnergy} {s : State}
    (hlab : IsLabeling E s.m_labels) (hrange : CliquesInRange E)
    (hc : ∀ c ∈ E.Cliques, 1 ≤ c.Size ∧ 0 ≤ c.Energy (localLabels s.m_labels c)) :
    DualGuidedFusionMove.InitialDual E.NumLabels E.Cliques s =
      .ok { s with m_dual := E.Cliques.map (fun c =>
        initial_dual_spec E.NumLabels (localLabels s.m_labels c)
          (c.Energy (localLabels s.m_labels c))) } := by
  unfold DualGuidedFusionMove.InitialDual
  rw [pushBackLoop_map E.Cliques (fun c h =>
    InitialDualClique_dgfm_eq_spec hlab (hrange c h) (hc c h).1 (hc c h).2)]

theorem getD_map_cliques (cs : List Clique) (g : Clique → Dual) {ci : Nat} (h : ci < cs.length) :
    (cs.map g).getD ci [] = g cs[ci] := by
  rw [List.getD_eq_getElem _ _ (by rw [List.length_map]; exact h), List.getElem_map]

theorem initial_dual_spec_bounds {L : Nat} (y : List Label) (e fmax : REAL) (he : 0 ≤ e)
    (hf : e ≤ fmax) (hk : 0 < y.length) {i : Nat} {l : Label} (hi : i < y.length) (hl : l < L) :
    0 ≤ getEntry (initial_dual_spec L y e) i l ∧ getEntry (initial_dual_spec L y e) i l ≤ fmax := by
  rw [getEntry_initial_dual_spec L y e hi hl]
  have hk1 : (0 : Int) < (y.length : Int) := by exact_mod_cast hk
  have h1 : 0 ≤ e / (y.length : Int) := Int.ediv_nonneg he (le_of_lt hk1)
  have h2 : 0 ≤ e % (y.length : Int) := Int.emod_nonneg _ (ne_of_gt hk1)
  have h3 := Int.emod_add_ediv e (y.length : Int)
  have h4 : e / (y.length : Int) ≤ (y.length : Int) * (e / (y.length : Int)) := by nlinarith
  have h5 : (0 : Int) ≤ (i : Int) := Int.natCast_nonneg _
  generalize e / (y.length : Int) = q at *
  generalize e % (y.length : Int) = r at *
  by_cases hc : l = y.getD i 0
  · rw [if_pos hc]
    by_cases hr : (i : Int) < r
    · rw [if_pos hr]
      constructor <;> linarith
    · rw [if_neg hr]
      constructor <;> linarith
  · rw [if_neg hc]
    exact ⟨le_refl _, le_trans he hf⟩

/-! ## `PostEditDual` -/

theorem averageLoop_frame (labelBuf : List Label) (avg remainder : REAL) (n : Nat) (d : Dual)
    (i : Nat) (l : Label) (h : l ≠ labelBuf.getD i 0) :
    getEntry (averageLoop labelBuf avg remainder n d) i l = getEntry d i l := by
  induction n with
  | zero => rfl
  | succ n ih =>
    have hne : ¬ (n = i ∧ labelBuf.getD n 0 = l ∧
        n < (averageLoop labelBuf avg remainder n d).length ∧
        labelBuf.getD n 0 < ((averageLoop labelBuf avg remainder n d).getD n []).length) := by
      rintro ⟨h1, h2, _⟩
      subst h1
      exact h h2.symm
    simp only [averageLoop]
    split
    · rw [getEntry_setEntry, if_neg, getEntry_setEntry, if_neg hne, ih]
      rintro ⟨h1, h2, _⟩
      subst h1
      exact h h2.symm
    · rw [getEntry_setEntry, if_neg hne, ih]

theorem averageLoop_active {d : Dual} {k L : Nat} (hs : d.HasShape k L) (y : List Label)
    (hy : ∀ i, i < k → y.getD i 0 < L) (avg remainder : REAL) {i : Nat} (hi : i < k) :
    getEntry (averageLoop y avg remainder k d) i (y.getD i 0) =
      avg + (if (i : Int) < remainder then 1 else 0) := by
  rw [getEntry_averageLoop y avg remainder k hs (le_refl _) hy, if_pos ⟨hi, rfl⟩]

theorem activeSum_averageLoop {d : Dual} {L : Nat} (y : List Label) (hs : d.HasShape y.length L)
    (hy : ∀ i, i < y.length → y.getD i 0 < L) (e : REAL) (he : 0 ≤ e) (hk : 0 < y.length) :
    activeSum (averageLoop y (e.tdiv y.length) (e.tmod y.length) y.length d) y = e := by
  unfold activeSum
  have hk1 : (0 : Int) < (y.length : Int) := by exact_mod_cast hk
  have h1 : (List.range y.length).map (fun i => getEntry
        (averageLoop y (e.tdiv y.length) (e.tmod y.length) y.length d) i (y.getD i 0)) =
      (List.range y.length).map (fun (i : Nat) => e.tdiv y.length +
        (if (i : Int) < e.tmod y.length then 1 else 0)) := by
    apply List.map_congr_left
    intro i hi
    rw [List.mem_range] at hi
    exact averageLoop_active hs y hy _ _ hi
  rw [h1, sum_range_indicator _ _ (Int.tmod_nonneg _ he),
    min_eq_right (le_of_lt (Int.tmod_lt_of_pos _ hk1))]
  have := Int.tdiv_add_tmod e (y.length : Int)
  linarith

theorem PostEditDualClique_spd2_ok {m_labels : List Label} {c : Clique} (hk1 : 1 ≤ c.Size)
    (hk2 : c.Size < 32) (d : Dual) :
    SubmodularPrimalDual2.PostEditDualClique m_labels c d =
      .ok (averageLoop (localLabels m_labels c)
        ((c.Energy (localLabels m_labels c)).tdiv c.Size)
        ((c.Energy (localLabels m_labels c)).tmod c.Size) c.Size d) := by
  unfold SubmodularPrimalDual2.PostEditDualClique
  have hk0 : ¬ c.Size = 0 := by omega
  simp only [hk2, hk0, not_true_eq_false, if_false]

theorem PostEditDualClique_spd2_inv {m_labels : List Label} {c : Clique} {d d1 : Dual}
    (h : SubmodularPrimalDual2.PostEditDualClique m_labels c d = .ok d1) :
    1 ≤ c.Size ∧ c.Size < 32 ∧
      d1 = averageLoop (localLabels m_labels c)
        ((c.Energy (localLabels m_labels c)).tdiv c.Size)
        ((c.Energy (localLabels m_labels c)).tmod c.Size) c.Size d := by
  unfold SubmodularPrimalDual2.PostEditDualClique at h
  by_cases hk2 : c.Size < 32
  · by_cases hk0 : c.Size = 0
    · simp [hk2, hk0] at h
    · simp only [hk2, hk0, not_true_eq_false, if_false, Except.ok.injEq] at h
      exact ⟨by omega, hk2, h.symm⟩
  · simp [hk2] at h

theorem PostEditDualClique_dgfm_ok {m_labels : List Label} {c : Clique} (hk1 : 1 ≤ c.Size)
    (d : Dual) :
    DualGuidedFusionMove.PostEditDualClique m_labels c d =
      .ok (averageLoop (localLabels m_labels c)
        ((c.Energy (localLabels m_labels c)).tdiv c.Size)
        ((c.Energy (localLabels m_labels c)).tmod c.Size) c.Size d) := by
  unfold DualGuidedFusionMove.PostEditDualClique
  have hk0 : ¬ c.Nodes.length = 0 := by unfold Clique.Size at hk1; omega
  simp only [hk0, if_false]
  rfl

theorem DualShaped.length {E : MultilabelEnergy} {m_dual : List Dual} (h : DualShaped E m_dual) :
    m_dual.length = E.Cliques.length :=
  (List.Forall₂.length_eq h).symm

theorem DualShaped.getD {E : MultilabelEnergy} {m_dual : List Dual} (h : DualShaped E m_dual)
    {ci : Nat} (hci : ci < E.Cliques.length) :
    Dual.HasShape (m_dual.getD ci []) E.Cliques[ci].Size E.NumLabels := by
  have hci2 : ci < m_dual.length := by rw [h.length]; exact hci
  rw [List.getD_eq_getElem _ _ hci2]
  exact List.Forall₂.get h hci hci2

/-- What a run of the averaging body over all cliques leaves in the table of clique
`ci`. -/
theorem cliqueLoop_average {E : MultilabelEnergy} {m_labels : List Label} {m_dual r : List Dual}
    {body : Clique → Dual → Except Fault Dual}
    (hbody : ∀ c ∈ E.Cliques, ∀ d, body c d =
      .ok (averageLoop (localLabels m_labels c)
        ((c.Energy (localLabels m_labels c)).tdiv c.Size)
        ((c.Energy (localLabels m_labels c)).tmod c.Size) c.Size d))
    (hlen : m_dual.length = E.Cliques.length)
    (h : cliqueLoop body E.Cliques 0 m_dual = .ok r) {ci : Nat} (hci : ci < E.Cliques.length) :
    r.getD ci [] = averageLoop (localLabels m_labels E.Cliques[ci])
      ((E.Cliques[ci].Energy (localLabels m_labels E.Cliques[ci])).tdiv E.Cliques[ci].Size)
      ((E.Cliques[ci].Energy (localLabels m_labels E.Cliques[ci])).tmod E.Cliques[ci].Size)
      E.Cliques[ci].Size (m_dual.getD ci []) := by
  obtain ⟨_, _, _, h4⟩ := cliqueLoop_ok E.Cliques 0 m_dual r h
  have := h4 ci hci (by rw [hlen]; omega)
  rw [Nat.zero_add, hbody _ (List.getElem_mem _)] at this
  injection this with this
  exact this.symm

/-- The post-state of the averaging pass over all cliques: it returns, and in every
clique the active entries are `e / k + (i < e mod k ? 1 : 0)` and sum to `e`. -/
theorem postEdit_result {E : MultilabelEnergy} {s : State} (hshape : DualShaped E s.m_dual)
    (hlab : IsLabeling E s.m_labels) (hrange : CliquesInRange E)
    (hc : ∀ c ∈ E.Cliques, 1 ≤ c.Size ∧ 0 ≤ c.Energy (localLabels s.m_labels c))
    (body : Clique → Dual → Except Fault Dual)
    (hbody : ∀ c ∈ E.Cliques, ∀ d, body c d =
      .ok (averageLoop (localLabels s.m_labels c)
        ((c.Energy (localLabels s.m_labels c)).tdiv c.Size)
        ((c.Energy (localLabels s.m_labels c)).tmod c.Size) c.Size d)) :
    ∃ r, cliqueLoop body E.Cliques 0 s.m_dual = .ok r ∧
      ∀ ci (h : ci < E.Cliques.length),
        LabelInvariantAt s.m_labels E.Cliques[ci] (r.getD ci []) ∧
        ∀ i, i < E.Cliques[ci].Size →
          getEntry (r.getD ci []) i ((localLabels s.m_labels E.Cliques[ci]).getD i 0) =
            E.Cliques[ci].Energy (localLabels s.m_labels E.Cliques[ci]) / (E.Cliques[ci].Size : Int)
            + (if (i : Int) < E.Cliques[ci].Energy (localLabels s.m_labels E.Cliques[ci])
                % (E.Cliques[ci].Size : Int) then 1 else 0) := by
  obtain ⟨r, hr⟩ := cliqueLoop_total body E.Cliques
    (fun c h d => ⟨_, hbody c h d⟩) 0 s.m_dual
  refine ⟨r, hr, ?_⟩
  intro ci h
  have hmem : E.Cliques[ci] ∈ E.Cliques := List.getElem_mem _
  have hlen := localLabels_length s.m_labels E.Cliques[ci]
  have hs := hshape.getD h
  have hy : ∀ i, i < E.Cliques[ci].Size →
      (localLabels s.m_labels E.Cliques[ci]).getD i 0 < E.NumLabels :=
    fun i hi => localLabels_lt hlab (hrange _ hmem) hi
  obtain ⟨hk, he⟩ := hc _ hmem
  rw [cliqueLoop_average hbody hshape.length hr h]
  constructor
  · unfold LabelInvariantAt
    have := activeSum_averageLoop (d := s.m_dual.getD ci []) (L := E.NumLabels)
      (localLabels s.m_labels E.Cliques[ci]) (by rw [hlen]; exact hs)
      (by rw [hlen]; exact hy) _ he (by rw [hlen]; exact hk)
    rw [hlen] at this
    exact this
  · intro i hi
    rw [averageLoop_active hs _ hy _ _ hi,
      Int.tdiv_eq_ediv he (Int.natCast_nonneg _), Int.tmod_eq_emod he (Int.natCast_nonneg _)]

/-! ## Fusion buffers and bitmasks -/

theorem fusionBuf_length (y : List Label) (alpha : Label) (a : Nat) :
    (fusionBuf y alpha a).length = y.length := by
  simp [fusionBuf]

theorem fusionBuf_getD (y : List Label) (alpha : Label) (a : Nat) {i : Nat} (hi : i < y.length) :
    (fusionBuf y alpha a).getD i 0 = if a.testBit i then alpha else y.getD i 0 := by
  rw [List.getD_eq_getElem _ _ (by rw [fusionBuf_length]; exact hi)]
  simp [fusionBuf]

theorem fusionBuf_congr (y : List Label) (alpha : Label) {a b : Nat}
    (h : ∀ i, i < y.length → a.testBit i = b.testBit i) :
    fusionBuf y alpha a = fusionBuf y alpha b := by
  unfold fusionBuf
  apply List.map_congr_left
  intro i hi
  rw [List.mem_range] at hi
  rw [h i hi]

theorem fusionBuf_zero (y : List Label) (alpha : Label) : fusionBuf y alpha 0 = y := by
  apply List.ext_getElem (fusionBuf_length y alpha 0)
  intro i h1 h2
  simp only [fusionBuf, List.getElem_map, List.getElem_range, Nat.zero_testBit,
    Bool.false_eq_true, if_false]
  exact List.getD_eq_getElem _ _ h2

theorem fusionBuf_set (y : List Label) (alpha : Label) (a : Nat) (i : Nat) :
    (fusionBuf y alpha a).set i alpha = fusionBuf y alpha (a ||| 2 ^ i) := by
  apply List.ext_getElem (by simp [fusionBuf_length])
  intro j h1 h2
  rw [List.getElem_set]
  have hj : j < y.length := by rw [fusionBuf_length] at h2; exact h2
  simp only [fusionBuf, List.getElem_map, List.getElem_range, Nat.testBit_or,
    Nat.testBit_two_pow]
  by_cases hij : i = j
  · simp [hij]
  · simp [hij]

theorem testBit_suffixMask (k n i : Nat) :
    (suffixMask k n).testBit i = (decide (n ≤ i) && decide (i < k)) := by
  unfold suffixMask
  rw [Nat.testBit_shiftLeft, Nat.testBit_two_pow_sub_one]
  by_cases h1 : n ≤ i
  · by_cases h2 : i < k
    · have : i - n < k - n := by omega
      simp [h1, h2, this]
    · have : ¬ i - n < k - n := by omega
      simp [h1, h2, this]
  · simp [h1]

theorem suffixMask_lt (k n : Nat) : suffixMask k n < 2 ^ k := by
  apply Nat.lt_pow_two_of_testBit
  intro i hi
  rw [testBit_suffixMask]
  have : ¬ i < k := by omega
  simp [this]

theorem suffixMask_self (k : Nat) : suffixMask k k = 0 := by
  simp [suffixMask]

theorem suffixMask_succ {k i : Nat} (hi : i < k) :
    suffixMask k (i + 1) ||| 2 ^ i = suffixMask k i := by
  apply Nat.eq_of_testBit_eq
  intro j
  rw [Nat.testBit_or, testBit_suffixMask, testBit_suffixMask, Nat.testBit_two_pow]
  by_cases h1 : i = j
  · subst h1
    simp [hi]
  · by_cases h2 : i + 1 ≤ j
    · have : i ≤ j := by omega
      simp [h1, h2, this]
    · have : ¬ i ≤ j := by omega
      simp [h1, h2, this]

/-! ## `PreEditDual` -/

namespace SubmodularPrimalDual2

/-- The corrections the descending loop of `PreEditDual` leaves in `psi`. -/
theorem psiLoop_spec (c : Clique) (d : Dual) (alpha : Label) (y : List Label) :
    ∀ (n : Nat) (s : PreEditVars), n ≤ y.length →
      s.label_buf = fusionBuf y alpha (suffixMask y.length n) →
      s.oldG = c.Energy s.label_buf - s.lambdaA - s.lambdaB →
      s.psi.length = y.length →
      (psiLoop c d alpha y.length n s).psi.length = y.length ∧
      (∀ i, i < n → (psiLoop c d alpha y.length n s).psi.getD (y.length - 1 - i) 0 =
        fusionTable c y alpha (suffixMask y.length (i + 1))
          - fusionTable c y alpha (suffixMask y.length i)
          - getEntry d i (y.getD i 0) + getEntry d i alpha) ∧
      (∀ j, j < y.length - n →
        (psiLoop c d alpha y.length n s).psi.getD j 0 = s.psi.getD j 0) := by
  intro n
  induction n with
  | zero =>
    intro s _ _ _ hpsi
    exact ⟨hpsi, fun i hi => absurd hi (Nat.not_lt_zero _), fun _ _ => rfl⟩
  | succ i ih =>
    intro s hn hbuf hG hpsi
    have hik : i < y.length := by omega
    have hbuf1 : s.label_buf.set i alpha = fusionBuf y alpha (suffixMask y.length i) := by
      rw [hbuf, fusionBuf_set, suffixMask_succ hik]
    have hyi : s.label_buf.getD i 0 = y.getD i 0 := by
      rw [hbuf, fusionBuf_getD y alpha _ hik, testBit_suffixMask]
      simp
    simp only [psiLoop]
    obtain ⟨h1, h2, h3⟩ := ih
      { label_buf := s.label_buf.set i alpha,
        lambdaA := s.lambdaA - getEntry d i (s.label_buf.getD i 0),
        lambdaB := s.lambdaB + getEntry d i alpha,
        oldG := c.Energy (s.label_buf.set i alpha)
          - (s.lambdaA - getEntry d i (s.label_buf.getD i 0)) - (s.lambdaB + getEntry d i alpha),
        psi := s.psi.set (y.length - 1 - i)
          (s.oldG - (c.Energy (s.label_buf.set i alpha)
            - (s.lambdaA - getEntry d i (s.label_buf.getD i 0))
            - (s.lambdaB + getEntry d i alpha))) }
      (by omega) hbuf1 rfl (by rw [List.length_set]; exact hpsi)
    refine ⟨h1, ?_, ?_⟩
    · intro j hj
      rcases Nat.lt_succ_iff_lt_or_eq.mp hj with hlt | heq
      · exact h2 j hlt
      · subst heq
        rw [h3 (y.length - 1 - j) (by omega)]
        simp only []
        rw [getD_set_eq, if_pos ⟨rfl, by omega⟩, hG, hbuf1, hyi, hbuf]
        unfold fusionTable
        ring
    · intro j hj
      rw [h3 j (by omega)]
      simp only []
      rw [getD_set_eq, if_neg (by omega)]

theorem psiUpdateLoop_length (psi : List REAL) (alpha : Label) (k n : Nat) (d : Dual) :
    (psiUpdateLoop psi alpha k n d).length = d.length := by
  induction n with
  | zero => rfl
  | succ n ih => simp only [psiUpdateLoop, setEntry_length, ih]

theorem psiUpdateLoop_row_length (psi : List REAL) (alpha : Label) (k n : Nat) (d : Dual)
    (j : Nat) : ((psiUpdateLoop psi alpha k n d).getD j []).length = (d.getD j []).length := by
  induction n with
  | zero => rfl
  | succ n ih => simp only [psiUpdateLoop, getD_setEntry_length, ih]

theorem psiUpdateLoop_hasShape (psi : List REAL) (alpha : Label) (k n : Nat) {d : Dual}
    {k1 L : Nat} (h : d.HasShape k1 L) : (psiUpdateLoop psi alpha k n d).HasShape k1 L := by
  induction n with
  | zero => exact h
  | succ n ih =>
    simp only [psiUpdateLoop]
    exact ih.setEntry _ _ _

theorem getEntry_psiUpdateLoop (psi : List REAL) (alpha : Label) (k n : Nat) (d : Dual)
    (i : Nat) (l : Label) :
    getEntry (psiUpdateLoop psi alpha k n d) i l =
      if i < n ∧ l = alpha ∧ i < d.length ∧ alpha < (d.getD i []).length then
        getEntry d i alpha - psi.getD (k - i - 1) 0
      else getEntry d i l := by
  induction n with
  | zero => simp [psiUpdateLoop]
  | succ n ih =>
    simp only [psiUpdateLoop]
    rw [getEntry_setEntry, psiUpdateLoop_length, psiUpdateLoop_row_length]
    by_cases hni : n = i
    · subst hni
      by_cases hc : alpha = l ∧ n < d.length ∧ alpha < (d.getD n []).length
      · obtain ⟨h1, h2, h3⟩ := hc
        subst h1
        rw [if_pos ⟨rfl, rfl, h2, h3⟩, if_pos ⟨by omega, rfl, h2, h3⟩]
        rw [ih, if_neg (by omega)]
      · rw [if_neg (fun h => hc h.2), ih, if_neg (by omega), if_neg]
        rintro ⟨_, h1, h2, h3⟩
        exact hc ⟨h1.symm, h2, h3⟩
    · rw [if_neg (fun h => hni h.1), ih]
      have : (i < n + 1) ↔ (i < n) := by omega
      simp only [this]

/-- The `psi` buffer of `PreEditDual` for one clique after the descending loop. -/
theorem psi_of_clique (m_labels : List Label) (alpha : Label) (c : Clique) (d : Dual) {i : Nat}
    (hi : i < c.Size) :
    (psiLoop c d alpha c.Size c.Size
      { label_buf := localLabels m_labels c,
        lambdaA := activeSum d (localLabels m_labels c), lambdaB := 0,
        oldG := c.Energy (localLabels m_labels c) - activeSum d (localLabels m_labels c),
        psi := List.replicate c.Size 0 }).psi.getD (c.Size - i - 1) 0 =
      fusionTable c (localLabels m_labels c) alpha (suffixMask c.Size (i + 1))
        - fusionTable c (localLabels m_labels c) alpha (suffixMask c.Size i)
        - getEntry d i ((localLabels m_labels c).getD i 0) + getEntry d i alpha := by
  have hlen := localLabels_length m_labels c
  have h := psiLoop_spec c d alpha (localLabels m_labels c) (localLabels m_labels c).length
    { label_buf := localLabels m_labels c,
      lambdaA := activeSum d (localLabels m_labels c), lambdaB := 0,
      oldG := c.Energy (localLabels m_labels c) - activeSum d (localLabels m_labels c),
      psi := List.replicate c.Size 0 }
    (le_refl _) (by rw [suffixMask_self, fusionBuf_zero]) (by simp) (by simp [hlen])
  rw [hlen] at h
  have e1 : c.Size - i - 1 = c.Size - 1 - i := by omega
  rw [e1]
  exact h.2.1 i hi

theorem PreEditDualClique_ok_iff (m_labels : List Label) (alpha : Label) (c : Clique)
    (d d1 : Dual) :
    PreEditDualClique m_labels alpha c d = .ok d1 ↔
      c.Size < 32 ∧ d1 = psiUpdateLoop
        (psiLoop c d alpha c.Size c.Size
          { label_buf := localLabels m_labels c,
            lambdaA := activeSum d (localLabels m_labels c), lambdaB := 0,
            oldG := c.Energy (localLabels m_labels c) - activeSum d (localLabels m_labels c),
            psi := List.replicate c.Size 0 }).psi alpha c.Size c.Size d := by
  unfold PreEditDualClique
  by_cases hk : c.Size < 32
  · simp only [hk, not_true_eq_false, if_false, Except.ok.injEq, true_and]
    exact eq_comm
  · simp [hk]

/-- The closed form of `PreEditDual` on one clique: only the `alpha` column changes, and
entry `(i, alpha)` becomes `fhat({i..k-1}) - fhat({i+1..k-1}) + dual[i][y_i]`. -/
theorem getEntry_PreEditDualClique {m_labels : List Label} {alpha : Label} {c : Clique}
    {d d1 : Dual} (h : PreEditDualClique m_labels alpha c d = .ok d1) (i : Nat) (l : Label) :
    getEntry d1 i l =
      if i < c.Size ∧ l = alpha ∧ i < d.length ∧ alpha < (d.getD i []).length then
        fusionTable c (localLabels m_labels c) alpha (suffixMask c.Size i)
          - fusionTable c (localLabels m_labels c) alpha (suffixMask c.Size (i + 1))
          + getEntry d i ((localLabels m_labels c).getD i 0)
      else getEntry d i l := by
  obtain ⟨_, hd⟩ := (PreEditDualClique_ok_iff m_labels alpha c d d1).mp h
  rw [hd, getEntry_psiUpdateLoop]
  by_cases hc : i < c.Size ∧ l = alpha ∧ i < d.length ∧ alpha < (d.getD i []).length
  · rw [if_pos hc, if_pos hc, psi_of_clique m_labels alpha c d hc.1]
    ring
  · rw [if_neg hc, if_neg hc]

theorem fusionBuf_or_of_eq (y : List Label) (alpha : Label) (a : Nat) {i : Nat}
    (h : y.getD i 0 = alpha) : fusionBuf y alpha (a ||| 2 ^ i) = fusionBuf y alpha a := by
  unfold fusionBuf
  apply List.map_congr_left
  intro j _
  rw [Nat.testBit_or, Nat.testBit_two_pow]
  by_cases hij : i = j
  · subst hij
    simp only [decide_True, Bool.or_true, if_true, h]
    split <;> rfl
  · simp [hij]

/-- `PreEditDual` leaves the active entries of one clique alone. -/
theorem PreEditDualClique_active {m_labels : List Label} {alpha : Label} {c : Clique}
    {d d1 : Dual} (h : PreEditDualClique m_labels alpha c d = .ok d1) {i : Nat}
    (hi : i < c.Size) :
    getEntry d1 i ((localLabels m_labels c).getD i 0) =
      getEntry d i ((localLabels m_labels c).getD i 0) := by
  rw [getEntry_PreEditDualClique h]
  split
  · next hc =>
    have e1 : fusionTable c (localLabels m_labels c) alpha (suffixMask c.Size i) =
        fusionTable c (localLabels m_labels c) alpha (suffixMask c.Size (i + 1)) := by
      unfold fusionTable
      rw [← suffixMask_succ hi, fusionBuf_or_of_eq _ _ _ hc.2.1]
    rw [e1]
    ring
  · rfl

theorem PreEditDualClique_activeSum {m_labels : List Label} {alpha : Label} {c : Clique}
    {d d1 : Dual} (h : PreEditDualClique m_labels alpha c d = .ok d1) :
    activeSum d1 (localLabels m_labels c) = activeSum d (localLabels m_labels c) := by
  unfold activeSum
  congr 1
  apply List.map_congr_left
  intro i hi
  rw [List.mem_range, localLabels_length] at hi
  exact PreEditDualClique_active h hi

end SubmodularPrimalDual2

/-! ## Submodular tables on bitmasks -/

theorem testBit_false_of_lt_two_pow {b k j : Nat} (hb : b < 2 ^ k) (hj : k ≤ j) :
    b.testBit j = false :=
  Nat.testBit_eq_false_of_lt (lt_of_lt_of_le hb (Nat.pow_le_pow_right (by decide) hj))

theorem or_two_pow_of_testBit {a i : Nat} (h : a.testBit i = true) : a ||| 2 ^ i = a := by
  apply Nat.eq_of_testBit_eq
  intro j
  rw [Nat.testBit_or, Nat.testBit_two_pow]
  by_cases hij : i = j
  · subst hij; simp [h]
  · simp [hij]

/-- Adding the positions `m, ..., k-1` to a set above position `i` can only lower the
marginal of `i`. -/
theorem marginal_or_suffix {k : Nat} {F : Nat → REAL} (hF : IsSubmodular k F) {i : Nat}
    (hi : i < k) {b : Nat} (hb : b < 2 ^ k) (hlow : ∀ j, j ≤ i → b.testBit j = false) :
    ∀ t, t ≤ k - (i + 1) →
      F (b ||| suffixMask k (k - t) ||| 2 ^ i) - F (b ||| suffixMask k (k - t)) ≤
        F (b ||| 2 ^ i) - F b := by
  intro t
  induction t with
  | zero =>
    intro _
    rw [Nat.sub_zero, suffixMask_self, Nat.or_zero]
  | succ t ih =>
    intro ht
    have ih1 := ih (by omega)
    have hm : k - (t + 1) < k := by omega
    have hm1 : k - (t + 1) + 1 = k - t := by omega
    have hS : b ||| suffixMask k (k - t) < 2 ^ k := Nat.or_lt_two_pow hb (suffixMask_lt _ _)
    have e1 : b ||| suffixMask k (k - (t + 1)) =
        b ||| suffixMask k (k - t) ||| 2 ^ (k - (t + 1)) := by
      rw [← suffixMask_succ hm, hm1, Nat.or_assoc]
    by_cases hbit : (b ||| suffixMask k (k - t)).testBit (k - (t + 1)) = true
    · rw [e1, or_two_pow_of_testBit hbit]
      exact ih1
    · have hbit1 : (b ||| suffixMask k (k - t)).testBit (k - (t + 1)) = false := by
        simpa using hbit
      have hbiti : (b ||| suffixMask k (k - t)).testBit i = false := by
        rw [Nat.testBit_or, hlow i (le_refl _), testBit_suffixMask]
        have : ¬ k - t ≤ i := by omega
        simp [this]
      have hsub := hF (b ||| suffixMask k (k - t)) i (k - (t + 1)) hS hi hm (by omega) hbiti hbit1
      have e2 : b ||| suffixMask k (k - t) ||| 2 ^ (k - (t + 1)) ||| 2 ^ i =
          b ||| suffixMask k (k - t) ||| 2 ^ i ||| 2 ^ (k - (t + 1)) := by
        rw [Nat.or_assoc, Nat.or_comm (2 ^ (k - (t + 1))), ← Nat.or_assoc]
      rw [e1, e2]
      linarith

theorem or_suffixMask_eq {k i b : Nat} (hb : b < 2 ^ k) (hlow : ∀ j, j ≤ i → b.testBit j = false) :
    b ||| suffixMask k (i + 1) = suffixMask k (i + 1) := by
  apply Nat.eq_of_testBit_eq
  intro j
  rw [Nat.testBit_or, testBit_suffixMask]
  by_cases h1 : j ≤ i
  · rw [hlow j h1]
    simp
  · by_cases h2 : j < k
    · have : i + 1 ≤ j := by omega
      simp [this, h2]
    · rw [testBit_false_of_lt_two_pow hb (by omega)]
      simp

/-- Diminishing returns: the marginal of position `i` at the full set of the higher
positions is at most its marginal at any set `b` of higher positions. -/
theorem marginal_suffix_le {k : Nat} {F : Nat → REAL} (hF : IsSubmodular k F) {i : Nat}
    (hi : i < k) {b : Nat} (hb : b < 2 ^ k) (hlow : ∀ j, j ≤ i → b.testBit j = false) :
    F (suffixMask k i) - F (suffixMask k (i + 1)) ≤ F (b ||| 2 ^ i) - F b := by
  have h := marginal_or_suffix hF hi hb hlow (k - (i + 1)) (le_refl _)
  have e : k - (k - (i + 1)) = i + 1 := by omega
  rw [e, or_suffixMask_eq hb hlow, suffixMask_succ hi] at h
  exact h

theorem sum_range_telescope (h : Nat → REAL) (n : Nat) :
    ((List.range n).map (fun i => h i - h (i + 1))).sum = h 0 - h n := by
  induction n with
  | zero => simp
  | succ n ih => rw [List.sum_range_succ, ih]; ring

theorem and_suffixMask_zero {k a : Nat} (ha : a < 2 ^ k) : a &&& suffixMask k 0 = a := by
  apply Nat.eq_of_testBit_eq
  intro j
  rw [Nat.testBit_and, testBit_suffixMask]
  by_cases h2 : j < k
  · simp [h2]
  · rw [testBit_false_of_lt_two_pow ha (by omega)]
    simp

/-- The chain of marginals along the suffixes bounds the table from below:
`Σ_{i ∈ S} (F({i..k-1}) - F({i+1..k-1})) ≤ F(S) - F(∅)`. -/
theorem sum_suffix_marginals_le {k : Nat} {F : Nat → REAL} (hF : IsSubmodular k F) {a : Nat}
    (ha : a < 2 ^ k) :
    ((List.range k).map (fun i =>
      if a.testBit i then F (suffixMask k i) - F (suffixMask k (i + 1)) else 0)).sum ≤
      F a - F 0 := by
  have htel := sum_range_telescope (fun i => F (a &&& suffixMask k i)) k
  simp only [suffixMask_self, Nat.and_zero, and_suffixMask_zero ha] at htel
  rw [← htel]
  apply List.sum_le_sum
  intro i hi
  rw [List.mem_range] at hi
  have hb : a &&& suffixMask k (i + 1) < 2 ^ k := Nat.and_lt_two_pow _ (suffixMask_lt _ _)
  have hlow : ∀ j, j ≤ i → (a &&& suffixMask k (i + 1)).testBit j = false := by
    intro j hj
    rw [Nat.testBit_and, testBit_suffixMask]
    have : ¬ i + 1 ≤ j := by omega
    simp [this]
  by_cases hbit : a.testBit i = true
  · rw [if_pos hbit]
    have e : a &&& suffixMask k i = a &&& suffixMask k (i + 1) ||| 2 ^ i := by
      apply Nat.eq_of_testBit_eq
      intro j
      rw [Nat.testBit_or, Nat.testBit_and, Nat.testBit_and, testBit_suffixMask,
        testBit_suffixMask, Nat.testBit_two_pow]
      by_cases hij : i = j
      · subst hij
        simp [hbit, hi]
      · by_cases h1 : i ≤ j
        · have : i + 1 ≤ j := by omega
          simp [hij, h1, this]
        · have : ¬ i + 1 ≤ j := by omega
          simp [hij, h1, this]
    rw [e]
    exact marginal_suffix_le hF hi hb hlow
  · rw [if_neg hbit]
    have hbit1 : a.testBit i = false := by simpa using hbit
    have e : a &&& suffixMask k i = a &&& suffixMask k (i + 1) := by
      apply Nat.eq_of_testBit_eq
      intro j
      rw [Nat.testBit_and, Nat.testBit_and, testBit_suffixMask, testBit_suffixMask]
      by_cases hij : i = j
      · subst hij
        simp [hbit1]
      · by_cases h1 : i ≤ j
        · have : i + 1 ≤ j := by omega
          simp [h1, this]
        · have : ¬ i + 1 ≤ j := by omega
          simp [h1, this]
    rw [e, sub_self]

/-! ## `PreEditDual` on the whole table -/

namespace SubmodularPrimalDual2

theorem PreEditDual_total {E : MultilabelEnergy} (alpha : Label) (s : State)
    (hk : ∀ c ∈ E.Cliques, c.Size < 32) : ∃ s1, PreEditDual E alpha s = .ok s1 := by
  obtain ⟨r, hr⟩ := cliqueLoop_total (PreEditDualClique s.m_labels alpha) E.Cliques
    (fun c h d => ⟨_, (PreEditDualClique_ok_iff s.m_labels alpha c d _).mpr ⟨hk c h, rfl⟩⟩)
    0 s.m_dual
  refine ⟨{ s with m_dual := r }, ?_⟩
  unfold PreEditDual
  rw [hr]

/-- What `PreEditDual` returns: the labeling and the index are kept, and the table of
every clique is the result of the loop body on the table of before. -/
theorem PreEditDual_ok {E : MultilabelEnergy} {alpha : Label} {s s1 : State}
    (h : PreEditDual E alpha s = .ok s1) :
    s1.m_labels = s.m_labels ∧ s1.m_node_clique_list = s.m_node_clique_list ∧
    s1.m_dual.length = s.m_dual.length ∧
    ∀ ci (hci : ci < E.Cliques.length),
      (ci < s.m_dual.length →
        PreEditDualClique s.m_labels alpha E.Cliques[ci] (s.m_dual.getD ci []) =
          .ok (s1.m_dual.getD ci [])) ∧
      (s.m_dual.length ≤ ci → s1.m_dual.getD ci [] = [] ∧ s.m_dual.getD ci [] = []) := by
  unfold PreEditDual at h
  cases hr : cliqueLoop (PreEditDualClique s.m_labels alpha) E.Cliques 0 s.m_dual with
  | error e => rw [hr] at h; cases h
  | ok r =>
    rw [hr] at h
    injection h with h
    subst h
    obtain ⟨h1, _, _, h4⟩ := cliqueLoop_ok E.Cliques 0 s.m_dual r hr
    refine ⟨rfl, rfl, h1, ?_⟩
    intro ci hci
    constructor
    · intro hlt
      have := h4 ci hci (by omega)
      rw [Nat.zero_add] at this
      exact this
    · intro hge
      exact ⟨List.getD_eq_default _ _ (by show r.length ≤ ci; omega),
        List.getD_eq_default _ _ hge⟩

/-- `PreEditDual` changes no active entry. -/
theorem PreEditDual_active {E : MultilabelEnergy} {alpha : Label} {s s1 : State}
    (h : PreEditDual E alpha s = .ok s1) {ci : Nat} (hci : ci < E.Cliques.length) {i : Nat}
    (hi : i < E.Cliques[ci].Size) :
    getEntry (s1.m_dual.getD ci []) i ((localLabels s.m_labels E.Cliques[ci]).getD i 0) =
      getEntry (s.m_dual.getD ci []) i ((localLabels s.m_labels E.Cliques[ci]).getD i 0) := by
  obtain ⟨_, _, _, h4⟩ := PreEditDual_ok h
  by_cases hlt : ci < s.m_dual.length
  · exact PreEditDualClique_active ((h4 ci hci).1 hlt) hi
  · obtain ⟨e1, e2⟩ := (h4 ci hci).2 (by omega)
    rw [e1, e2]

theorem PreEditDual_activeSum {E : MultilabelEnergy} {alpha : Label} {s s1 : State}
    (h : PreEditDual E alpha s = .ok s1) {ci : Nat} (hci : ci < E.Cliques.length) :
    activeSum (s1.m_dual.getD ci []) (localLabels s.m_labels E.Cliques[ci]) =
      activeSum (s.m_dual.getD ci []) (localLabels s.m_labels E.Cliques[ci]) := by
  unfold activeSum
  congr 1
  apply List.map_congr_left
  intro i hi
  rw [List.mem_range, localLabels_length] at hi
  exact PreEditDual_active h hci hi

theorem lambdaOf_zero (d : Dual) (y : List Label) (alpha : Label) :
    lambdaOf d y alpha 0 = activeSum d y := by
  unfold lambdaOf activeSum
  simp

/-- The reduced table after `PreEditDual`, for a table of the right shape: it is the
fusion table minus the energy at the current labels (under the Label invariant) minus
the chain of marginals along the suffixes. -/
theorem alphaEntry_after_PreEditDualClique {m_labels : List Label} {alpha : Label} {c : Clique}
    {d d1 : Dual} {L : Nat} (h : PreEditDualClique m_labels alpha c d = .ok d1)
    (hs : d.HasShape c.Size L) (halpha : alpha < L) (a : Nat) :
    alphaEntry c d1 (localLabels m_labels c) alpha a =
      fusionTable c (localLabels m_labels c) alpha a
        - activeSum d (localLabels m_labels c)
        - ((List.range c.Size).map (fun i =>
            if a.testBit i then
              fusionTable c (localLabels m_labels c) alpha (suffixMask c.Size i)
                - fusionTable c (localLabels m_labels c) alpha (suffixMask c.Size (i + 1))
            else 0)).sum := by
  unfold alphaEntry lambdaOf activeSum fusionTable
  rw [localLabels_length, sub_sub, ← List.sum_map_add]
  congr 2
  apply List.map_congr_left
  intro i hi
  rw [List.mem_range] at hi
  by_cases hbit : a.testBit i = true
  · rw [if_pos hbit, if_pos hbit, getEntry_PreEditDualClique h,
      if_pos ⟨hi, rfl, by rw [hs.1]; exact hi, by rw [hs.getD_length hi]; exact halpha⟩]
    unfold fusionTable
    ring
  · rw [if_neg hbit, if_neg hbit, PreEditDualClique_active h hi]
    ring

end SubmodularPrimalDual2

theorem getEntry_le_activeSum {d : Dual} {y : List Label}
    (hact : ∀ i, i < y.length → 0 ≤ getEntry d i (y.getD i 0)) {i : Nat} (hi : i < y.length) :
    getEntry d i (y.getD i 0) ≤ activeSum d y := by
  unfold activeSum
  apply List.single_le_sum
  · intro x hx
    rw [List.mem_map] at hx
    obtain ⟨j, hj, rfl⟩ := hx
    exact hact j (List.mem_range.mp hj)
  · rw [List.mem_map]
    exact ⟨i, List.mem_range.mpr hi, rfl⟩

/-! ## Facts about the concrete inputs -/

namespace Examples

theorem pairState_shaped : DualShaped pairModel pairState.m_dual :=
  List.Forall₂.cons ⟨rfl, by decide⟩ List.Forall₂.nil

theorem pairClique_submodular :
    IsSubmodular 2 (fusionTable pairClique (localLabels pairState.m_labels pairClique) 0) := by
  intro a i j ha hi hj hij hbi hbj
  have ha4 : a < 4 := ha
  interval_cases a <;> interval_cases i <;> interval_cases j <;> first
    | exact absurd rfl hij
    | exact absurd hbi (by decide)
    | exact absurd hbj (by decide)
    | decide

theorem pairClique_fusion_le :
    ∀ a, a < 2 ^ 2 →
      fusionTable pairClique (localLabels pairState.m_labels pairClique) 0 a ≤ pairClique.FMax := by
  intro a ha
  have ha4 : a < 4 := ha
  interval_cases a <;> decide

theorem pairModel_clique_index {ci : Nat} (hci : ci < pairModel.Cliques.length) : ci = 0 := by
  have : ci < 1 := hci
  omega

end Examples

/-! ## Heights and the node-clique index -/

theorem foldl_add_eq_sum {α : Type} (g : α → REAL) (l : List α) (init : REAL) :
    l.foldl (fun ret p => ret + g p) init = init + (l.map g).sum := by
  induction l generalizing init with
  | nil => simp
  | cons a l ih =>
    simp only [List.foldl_cons, List.map_cons, List.sum_cons, ih]
    ring

namespace SubmodularPrimalDual2

theorem ComputeHeight_eq (E : MultilabelEnergy) (s : State) (i : NodeId) (x : Label) :
    ComputeHeight E s i x = E.Unary i x +
      ((s.m_node_clique_list.getD i []).map
        (fun p => getEntry (s.m_dual.getD p.1 []) p.2 x)).sum := by
  unfold ComputeHeight
  rw [foldl_add_eq_sum]

theorem ComputeHeightDiff_eq (E : MultilabelEnergy) (s : State) (i : NodeId) (l1 l2 : Label) :
    ComputeHeightDiff E s i l1 l2 = ComputeHeight E s i l1 - ComputeHeight E s i l2 := by
  unfold ComputeHeightDiff ComputeHeight
  generalize E.Unary i l1 = u1
  generalize E.Unary i l2 = u2
  induction (s.m_node_clique_list.getD i []) generalizing u1 u2 with
  | nil => rfl
  | cons p l ih =>
    simp only [List.foldl_cons]
    have := ih (u1 + getEntry (s.m_dual.getD p.1 []) p.2 l1)
      (u2 + getEntry (s.m_dual.getD p.1 []) p.2 l2)
    rw [← this]
    congr 1
    unfold getEntry
    ring

end SubmodularPrimalDual2

theorem sum_range_succ_shift (g : Nat → REAL) (n : Nat) :
    ((List.range (n + 1)).map g).sum = g 0 + ((List.range n).map (fun u => g (u + 1))).sum := by
  rw [List.range_succ_eq_map, List.map_cons, List.sum_cons, List.map_map]
  rfl

/-- Appending a pair `p` to the list of node `v` adds `w v p` to the weight of the
index. -/
theorem indexSum_push (w : Nat → Nat × Nat → REAL) (ncl : List (List (Nat × Nat))) :
    ∀ (v : Nat) (p : Nat × Nat), v < ncl.length →
      indexSum w (ncl.set v (ncl.getD v [] ++ [p])) = indexSum w ncl + w v p := by
  unfold indexSum
  induction ncl generalizing w with
  | nil => intro v p hv; simp at hv
  | cons l ls ih =>
    intro v p hv
    cases v with
    | zero =>
      simp only [List.set_cons_zero, List.length_cons, sum_range_succ_shift, List.getD_cons_zero,
        List.getD_cons_succ, List.map_append, List.sum_append, List.map_cons, List.map_nil,
        List.sum_cons, List.sum_nil, add_zero]
      ring
    | succ v =>
      have hv1 : v < ls.length := by simpa using hv
      have := ih (fun u => w (u + 1)) v p hv1
      simp only [List.set_cons_succ, List.length_cons, sum_range_succ_shift, List.getD_cons_zero,
        List.getD_cons_succ] at this ⊢
      rw [this]
      ring

namespace SubmodularPrimalDual2

theorem pushPositions_sum (w : Nat → Nat × Nat → REAL) (clique_index : Nat) (vs : List NodeId) :
    ∀ (i0 : Nat) (ncl : List (List (Nat × Nat))), (∀ v ∈ vs, v < ncl.length) →
      (pushPositions clique_index vs i0 ncl).length = ncl.length ∧
      indexSum w (pushPositions clique_index vs i0 ncl) =
        indexSum w ncl +
          ((List.range vs.length).map (fun t => w (vs.getD t 0) (clique_index, i0 + t))).sum := by
  induction vs with
  | nil => intro i0 ncl _; simp [pushPositions]
  | cons v vs ih =>
    intro i0 ncl hv
    simp only [pushPositions]
    have hv0 : v < ncl.length := hv v (List.mem_cons_self _ _)
    obtain ⟨h1, h2⟩ := ih (i0 + 1) (ncl.set v (ncl.getD v [] ++ [(clique_index, i0)]))
      (fun u hu => by rw [List.length_set]; exact hv u (List.mem_cons_of_mem _ hu))
    refine ⟨by rw [h1, List.length_set], ?_⟩
    rw [h2, indexSum_push w ncl v _ hv0, List.length_cons, sum_range_succ_shift]
    simp only [List.getD_cons_zero, List.getD_cons_succ, Nat.add_zero]
    have e : ∀ t, i0 + 1 + t = i0 + (t + 1) := fun t => by omega
    simp only [e]
    ring

theorem pushCliques_sum (w : Nat → Nat × Nat → REAL) (cs : List Clique) :
    ∀ (idx : Nat) (ncl : List (List (Nat × Nat))),
      (∀ c ∈ cs, ∀ v ∈ c.Nodes, v < ncl.length) →
      (pushCliques cs idx ncl).length = ncl.length ∧
      indexSum w (pushCliques cs idx ncl) =
        indexSum w ncl +
          sumIdx (fun j c =>
            ((List.range c.Nodes.length).map (fun t => w (c.Nodes.getD t 0) (j, t))).sum) cs idx := by
  induction cs with
  | nil => intro idx ncl _; simp [pushCliques, sumIdx]
  | cons c cs ih =>
    intro idx ncl hv
    simp only [pushCliques, sumIdx]
    obtain ⟨h1, h2⟩ := pushPositions_sum w idx c.Nodes 0 ncl (hv c (List.mem_cons_self _ _))
    obtain ⟨h3, h4⟩ := ih (idx + 1) (pushPositions idx c.Nodes 0 ncl)
      (fun c1 hc1 v hv1 => by rw [h1]; exact hv c1 (List.mem_cons_of_mem _ hc1) v hv1)
    refine ⟨by rw [h3, h1], ?_⟩
    rw [h4, h2]
    simp only [Nat.zero_add]
    ring

theorem indexSum_replicate (w : Nat → Nat × Nat → REAL) (n : Nat) :
    indexSum w (List.replicate n []) = 0 := by
  unfold indexSum
  apply List.sum_eq_zero
  intro x hx
  rw [List.mem_map] at hx
  obtain ⟨u, hu, rfl⟩ := hx
  rw [List.mem_range, List.length_replicate] at hu
  rw [List.getD_eq_getElem _ _ (by rw [List.length_replicate]; exact hu)]
  simp

/-- The index that `InitialNodeCliqueList` builds lists every (clique, position) pair
once, at the node that sits there: a sum over the index is the sum over the cliques and
their positions. -/
theorem InitialNodeCliqueList_sum (w : Nat → Nat × Nat → REAL) (E : MultilabelEnergy)
    (s : State) (hlen : s.m_labels.length = E.NumNodes) (hrange : CliquesInRange E) :
    (InitialNodeCliqueList E s).m_node_clique_list.length = E.NumNodes ∧
    indexSum w (InitialNodeCliqueList E s).m_node_clique_list =
      sumIdx (fun j c =>
        ((List.range c.Nodes.length).map (fun t => w (c.Nodes.getD t 0) (j, t))).sum)
        E.Cliques 0 := by
  unfold InitialNodeCliqueList
  obtain ⟨h1, h2⟩ := pushCliques_sum w E.Cliques 0 (List.replicate s.m_labels.length [])
    (fun c hc v hv => by rw [List.length_replicate, hlen]; exact hrange c hc v hv)
  refine ⟨by rw [h1, List.length_replicate, hlen], ?_⟩
  rw [h2, indexSum_replicate, zero_add]

end SubmodularPrimalDual2

/-! ## Sums over the cliques with the running index -/

theorem sumIdx_congr {f g : Nat → Clique → REAL} (cs : List Clique) :
    ∀ (o : Nat), (∀ j (hj : j < cs.length), f (o + j) cs[j] = g (o + j) cs[j]) →
      sumIdx f cs o = sumIdx g cs o := by
  induction cs with
  | nil => intro o _; rfl
  | cons c cs ih =>
    intro o h
    simp only [sumIdx]
    have h0 := h 0 (by simp)
    simp only [Nat.add_zero, List.getElem_cons_zero] at h0
    rw [h0, ih (o + 1)]
    intro j hj
    have := h (j + 1) (by simpa using hj)
    simp only [List.getElem_cons_succ] at this
    have e : o + 1 + j = o + (j + 1) := by omega
    rw [e]
    exact this

theorem sumIdx_add (f g : Nat → Clique → REAL) (cs : List Clique) :
    ∀ (o : Nat), sumIdx (fun j c => f j c + g j c) cs o = sumIdx f cs o + sumIdx g cs o := by
  induction cs with
  | nil => intro o; simp [sumIdx]
  | cons c cs ih =>
    intro o
    simp only [sumIdx, ih]
    ring

theorem sumIdx_const (g : Clique → REAL) (cs : List Clique) :
    ∀ (o : Nat), sumIdx (fun _ c => g c) cs o = (cs.map g).sum := by
  induction cs with
  | nil => intro o; simp [sumIdx]
  | cons c cs ih =>
    intro o
    simp only [sumIdx, ih, List.map_cons, List.sum_cons]

/-- A sum over a list that runs parallel to the cliques is a sum over the cliques. -/
theorem sum_map_eq_sumIdx {β : Type} (h : β → REAL) (dflt : β) (f : Nat → Clique → REAL)
    (cs : List Clique) :
    ∀ (l : List β), l.length = cs.length →
      (∀ j (hj : j < cs.length), h (l.getD j dflt) = f j cs[j]) →
      (l.map h).sum = sumIdx f cs 0 := by
  suffices hgen : ∀ (o : Nat) (l : List β), l.length = cs.length →
      (∀ j (hj : j < cs.length), h (l.getD j dflt) = f (o + j) cs[j]) →
      (l.map h).sum = sumIdx f cs o by
    intro l hl hj
    exact hgen 0 l hl (fun j hj1 => by rw [Nat.zero_add]; exact hj j hj1)
  induction cs with
  | nil =>
    intro o l hl _
    rw [List.length_eq_zero.mp hl]
    rfl
  | cons c cs ih =>
    intro o l hl hj
    cases l with
    | nil => simp at hl
    | cons b l =>
      simp only [List.map_cons, List.sum_cons, sumIdx]
      have h0 := hj 0 (by simp)
      simp only [List.getD_cons_zero, Nat.add_zero, List.getElem_cons_zero] at h0
      rw [h0, ih (o + 1) l (by simpa using hl)]
      intro j hj1
      have := hj (j + 1) (by simpa using hj1)
      simp only [List.getD_cons_succ, List.getElem_cons_succ] at this
      have e : o + 1 + j = o + (j + 1) := by omega
      rw [e]
      exact this

/-! ## The flow instance -/

theorem shl32_of_lt {k : Nat} (hk : k < 31) : shl32 k = 2 ^ k := by
  unfold shl32
  have h1 : (2 : Int) ^ k < 2 ^ 31 := by
    have : (2 : Nat) ^ k < 2 ^ 31 := Nat.pow_lt_pow_right (by decide) hk
    exact_mod_cast this
  have h0 : (0 : Int) < 2 ^ k := by positivity
  rw [Int.emod_eq_of_lt (by linarith) (by norm_num at h1 ⊢; linarith)]
  ring

theorem shl32_toNat_of_lt {k : Nat} (hk : k < 31) : (shl32 k).toNat = 2 ^ k := by
  rw [shl32_of_lt hk]
  have : ((2 : Int) ^ k) = ((2 ^ k : Nat) : Int) := by push_cast; rfl
  rw [this, Int.toNat_natCast]

theorem testBit_assignmentFrom (x : NodeId → Bool) (vs : List NodeId) :
    ∀ (i0 j : Nat), (SubmodularIBFS.assignmentFrom x vs i0).testBit j =
      (decide (i0 ≤ j ∧ j < i0 + vs.length) && x (vs.getD (j - i0) 0)) := by
  induction vs with
  | nil =>
    intro i0 j
    have : ¬ (i0 ≤ j ∧ j < i0 + 0) := by omega
    simp [SubmodularIBFS.assignmentFrom, this]
  | cons v vs ih =>
    intro i0 j
    simp only [SubmodularIBFS.assignmentFrom, Nat.testBit_or, ih, List.length_cons]
    by_cases hj : i0 = j
    · subst hj
      have h1 : ¬ (i0 + 1 ≤ i0 ∧ i0 < i0 + 1 + vs.length) := by omega
      have h2 : (i0 ≤ i0 ∧ i0 < i0 + (vs.length + 1)) := by omega
      by_cases hx : x v <;> simp [hx, h1, h2, Nat.testBit_two_pow]
    · have h3 : (if x v = true then 2 ^ i0 else 0).testBit j = false := by
        split
        · rw [Nat.testBit_two_pow]; simp [hj]
        · exact Nat.zero_testBit j
      rw [h3, Bool.false_or]
      by_cases h1 : i0 + 1 ≤ j ∧ j < i0 + 1 + vs.length
      · have h2 : (i0 ≤ j ∧ j < i0 + (vs.length + 1)) := by omega
        have e : j - i0 = (j - (i0 + 1)) + 1 := by omega
        simp [h1, h2, e]
      · have h2 : ¬ (i0 ≤ j ∧ j < i0 + (vs.length + 1)) := by omega
        simp [h1, h2]

theorem assignmentFrom_lt (x : NodeId → Bool) (vs : List NodeId) :
    SubmodularIBFS.assignmentFrom x vs 0 < 2 ^ vs.length := by
  apply Nat.lt_pow_two_of_testBit
  intro j hj
  rw [testBit_assignmentFrom]
  have : ¬ (0 ≤ j ∧ j < 0 + vs.length) := by omega
  rw [decide_eq_false this, Bool.false_and]

namespace SubmodularPrimalDual2

theorem alphaTableLoop_length (entry : Nat → REAL) (n : Nat) (t : List REAL) :
    (alphaTableLoop entry n t).length = t.length := by
  induction n with
  | zero => rfl
  | succ n ih => simp only [alphaTableLoop, List.length_set, ih]

theorem getD_alphaTableLoop (entry : Nat → REAL) (n : Nat) (t : List REAL) (a : Nat) :
    (alphaTableLoop entry n t).getD a 0 =
      if a < n ∧ a < t.length then entry a else t.getD a 0 := by
  induction n with
  | zero => simp [alphaTableLoop]
  | succ n ih =>
    simp only [alphaTableLoop]
    rw [getD_set_eq, alphaTableLoop_length, ih]
    by_cases h1 : n = a
    · subst h1
      by_cases h2 : n < t.length
      · rw [if_pos ⟨rfl, h2⟩, if_pos ⟨by omega, h2⟩]
      · rw [if_neg (fun h => h2 h.2), if_neg (fun h => h2 h.2), if_neg (fun h => h2 h.2)]
    · rw [if_neg (fun h => h1 h.1)]
      have : (a < n + 1) ↔ (a < n) := by omega
      simp only [this]

end SubmodularPrimalDual2

namespace SubmodularPrimalDual2

/-- What the unary loop of `SetupAlphaEnergy` leaves in the flow solver: node `v` has
`(height_diff, 0)` added when its height difference is positive, `(0, -height_diff)`
otherwise; nothing else changes. -/
theorem unaryLoop_spec (E : MultilabelEnergy) (s : State) (alpha : Label) (n : Nat)
    (crf : SubmodularIBFS) :
    (unaryLoop E s alpha n crf).constant_term = crf.constant_term ∧
    (unaryLoop E s alpha n crf).cliques = crf.cliques ∧
    (unaryLoop E s alpha n crf).labels = crf.labels ∧
    (unaryLoop E s alpha n crf).unaries.length = crf.unaries.length ∧
    ∀ v, (unaryLoop E s alpha n crf).unaries.getD v (0, 0) =
      if v < n ∧ v < crf.unaries.length then
        ((crf.unaries.getD v (0, 0)).1 +
            (if ComputeHeightDiff E s v (labelAt s.m_labels v) alpha > 0
              then ComputeHeightDiff E s v (labelAt s.m_labels v) alpha else 0),
          (crf.unaries.getD v (0, 0)).2 +
            (if ComputeHeightDiff E s v (labelAt s.m_labels v) alpha > 0
              then 0 else - ComputeHeightDiff E s v (labelAt s.m_labels v) alpha))
      else crf.unaries.getD v (0, 0) := by
  induction n with
  | zero => simp [unaryLoop]
  | succ n ih =>
    obtain ⟨h1, h2, h3, h4, h5⟩ := ih
    have hn := h5 n
    rw [if_neg (by omega)] at hn
    simp only [unaryLoop]
    split
    · next hpos =>
      refine ⟨h1, h2, h3, by simp only [SubmodularIBFS.AddUnaryTerm, List.length_set, h4], ?_⟩
      intro v
      simp only [SubmodularIBFS.AddUnaryTerm]
      rw [getD_set_eq, h4, hn]
      by_cases hv : n = v
      · subst hv
        by_cases hlen : n < crf.unaries.length
        · rw [if_pos ⟨rfl, hlen⟩, if_pos ⟨by omega, hlen⟩, if_pos hpos, if_pos hpos]
        · rw [if_neg (fun h => hlen h.2), if_neg (fun h => hlen h.2), h5, if_neg (by omega)]
      · rw [if_neg (fun h => hv h.1), h5]
        have : (v < n + 1) ↔ (v < n) := by omega
        simp only [this]
    · next hneg =>
      refine ⟨h1, h2, h3, by simp only [SubmodularIBFS.AddUnaryTerm, List.length_set, h4], ?_⟩
      intro v
      simp only [SubmodularIBFS.AddUnaryTerm]
      rw [getD_set_eq, h4, hn]
      by_cases hv : n = v
      · subst hv
        by_cases hlen : n < crf.unaries.length
        · rw [if_pos ⟨rfl, hlen⟩, if_pos ⟨by omega, hlen⟩, if_neg hneg, if_neg hneg]
        · rw [if_neg (fun h => hlen h.2), if_neg (fun h => hlen h.2), h5, if_neg (by omega)]
      · rw [if_neg (fun h => hv h.1), h5]
        have : (v < n + 1) ↔ (v < n) := by omega
        simp only [this]

/-- The clique loop of `SetupAlphaEnergy` returns when the guards hold, and rewrites the
table of every clique of the flow solver. -/
theorem alphaCliqueLoop_spec (s : State) (alpha : Label) (cs : List Clique) :
    ∀ (idx : Nat) (ibfs : List IBFSClique),
      (∀ j (hj : j < cs.length),
        cs[j].Size < 32 ∧ cs[j].Size = (ibfs.getD (idx + j) IBFSClique.blank).Size) →
      ∃ cl, alphaCliqueLoop s alpha cs idx ibfs = .ok cl ∧ cl.length = ibfs.length ∧
        (∀ j, j < idx → cl.getD j IBFSClique.blank = ibfs.getD j IBFSClique.blank) ∧
        ∀ j (hj : j < cs.length), idx + j < ibfs.length →
          cl.getD (idx + j) IBFSClique.blank =
            { ibfs.getD (idx + j) IBFSClique.blank with
              EnergyTable := alphaTableLoop
                (alphaEntry cs[j] (s.m_dual.getD (idx + j) []) (localLabels s.m_labels cs[j]) alpha)
                (shl32 cs[j].Size).toNat (ibfs.getD (idx + j) IBFSClique.blank).EnergyTable } := by
  induction cs with
  | nil =>
    intro idx ibfs _
    exact ⟨ibfs, rfl, rfl, fun _ _ => rfl, fun j hj => absurd hj (by simp)⟩
  | cons c cs ih =>
    intro idx ibfs hg
    have h0 := hg 0 (by simp)
    simp only [Nat.add_zero, List.getElem_cons_zero] at h0
    obtain ⟨hk, hsz⟩ := h0
    simp only [alphaCliqueLoop]
    rw [if_neg (by simpa using hk), if_neg (by simpa using hsz)]
    obtain ⟨cl, h1, h2, h3, h4⟩ := ih (idx + 1)
      (ibfs.set idx { ibfs.getD idx IBFSClique.blank with
        EnergyTable := alphaTableLoop
          (alphaEntry c (s.m_dual.getD idx []) (localLabels s.m_labels c) alpha)
          (shl32 c.Size).toNat (ibfs.getD idx IBFSClique.blank).EnergyTable })
      (by
        intro j hj
        have := hg (j + 1) (by simpa using hj)
        simp only [List.getElem_cons_succ] at this
        rw [getD_set_eq, if_neg (by omega)]
        have e : idx + 1 + j = idx + (j + 1) := by omega
        rw [e]
        exact this)
    refine ⟨cl, h1, by rw [h2, List.length_set], ?_, ?_⟩
    · intro j hj
      rw [h3 j (by omega), getD_set_eq, if_neg (by omega)]
    · intro j hj hlt
      cases j with
      | zero =>
        simp only [Nat.add_zero, List.getElem_cons_zero] at hlt ⊢
        rw [h3 idx (by omega), getD_set_eq, if_pos ⟨rfl, hlt⟩]
      | succ j =>
        have := h4 j (by simpa using hj) (by rw [List.length_set]; omega)
        rw [getD_set_eq, if_neg (by omega)] at this
        simp only [List.getElem_cons_succ]
        have e : idx + (j + 1) = idx + 1 + j := by omega
        rw [e]
        exact this

end SubmodularPrimalDual2

theorem FlowShaped.at {E : MultilabelEnergy} {crf : SubmodularIBFS} (h : FlowShaped E crf)
    {j : Nat} (hj : j < E.Cliques.length) :
    j < crf.cliques.length ∧ E.Cliques[j].Size < 31 ∧
    (crf.cliques.getD j IBFSClique.blank).Nodes = E.Cliques[j].Nodes ∧
    (crf.cliques.getD j IBFSClique.blank).EnergyTable.length = 2 ^ E.Cliques[j].Size := by
  have hlen : crf.cliques.length = E.Cliques.length := (List.Forall₂.length_eq h.2).symm
  have hj2 : j < crf.cliques.length := by rw [hlen]; exact hj
  rw [List.getD_eq_getElem _ _ hj2]
  exact ⟨hj2, List.Forall₂.get h.2 hj hj2⟩

theorem labelAt_fusedLabels (m_labels : List Label) (alpha : Label) (x : NodeId → Bool)
    {v : NodeId} (hv : v < m_labels.length) :
    labelAt (fusedLabels m_labels alpha x) v = if x v then alpha else labelAt m_labels v := by
  unfold labelAt fusedLabels
  rw [List.getD_eq_getElem _ _ (by simpa using hv)]
  simp [labelAt]

theorem fusedLabels_false (m_labels : List Label) (alpha : Label) :
    fusedLabels m_labels alpha (fun _ => false) = m_labels := by
  apply List.ext_getElem (by simp [fusedLabels])
  intro v h1 h2
  simp only [fusedLabels, List.getElem_map, List.getElem_range, Bool.false_eq_true, if_false,
    labelAt]
  exact List.getD_eq_getElem _ _ h2

theorem fusionBuf_assignment (m_labels : List Label) (alpha : Label) (x : NodeId → Bool)
    (c : Clique) (hv : ∀ v ∈ c.Nodes, v < m_labels.length) :
    fusionBuf (localLabels m_labels c) alpha (SubmodularIBFS.assignmentFrom x c.Nodes 0) =
      localLabels (fusedLabels m_labels alpha x) c := by
  apply List.ext_getElem (by simp [fusionBuf, localLabels])
  intro i h1 h2
  have hi : i < c.Nodes.length := by simpa [localLabels] using h2
  have hget : c.Nodes.getD i 0 = c.Nodes[i] := List.getD_eq_getElem _ _ hi
  have hy := localLabels_getD m_labels c hi
  simp only [fusionBuf, List.getElem_map, List.getElem_range, localLabels] at hy ⊢
  rw [testBit_assignmentFrom, labelAt_fusedLabels _ _ _ (hv _ (List.getElem_mem _))]
  have hc : (0 ≤ i ∧ i < 0 + c.Nodes.length) := by omega
  rw [decide_eq_true hc, Bool.true_and, Nat.sub_zero, hget]
  split
  · rfl
  · rw [List.getD_eq_getElem _ _ (by simpa using hi)]
    simp

namespace SubmodularPrimalDual2

theorem lambdaOf_assignment (d : Dual) (m_labels : List Label) (alpha : Label)
    (x : NodeId → Bool) (c : Clique) :
    lambdaOf d (localLabels m_labels c) alpha (SubmodularIBFS.assignmentFrom x c.Nodes 0) =
      ((List.range c.Nodes.length).map (fun t =>
        getEntry d t (if x (c.Nodes.getD t 0) then alpha
          else labelAt m_labels (c.Nodes.getD t 0)))).sum := by
  unfold lambdaOf
  rw [localLabels_length]
  congr 1
  apply List.map_congr_left
  intro t ht
  rw [List.mem_range] at ht
  rw [testBit_assignmentFrom, localLabels_getD m_labels c ht]
  have hc : (0 ≤ t ∧ t < 0 + c.Nodes.length) := by
    have : t < c.Nodes.length := ht
    omega
  rw [decide_eq_true hc, Bool.true_and, Nat.sub_zero]
  split <;> rfl

theorem unary_cost_eq (hy ha : REAL) (b : Bool) :
    (if b = true then (if hy - ha > 0 then 0 else -(hy - ha))
      else (if hy - ha > 0 then hy - ha else 0)) =
      (if b = true then ha else hy) - min hy ha := by
  by_cases hpos : hy - ha > 0
  · rw [if_pos hpos, if_pos hpos, min_eq_right (by linarith)]
    split <;> ring
  · rw [if_neg hpos, if_neg hpos, min_eq_left (by linarith)]
    split <;> ring

end SubmodularPrimalDual2

theorem sum_range_add_sub (A B M : Nat → REAL) (n : Nat) :
    ((List.range n).map (fun v => A v + B v - M v)).sum =
      ((List.range n).map A).sum + ((List.range n).map B).sum - ((List.range n).map M).sum := by
  induction n with
  | zero => simp
  | succ n ih =>
    simp only [List.sum_range_succ, ih]
    ring

theorem sumIdx_sub (f g : Nat → Clique → REAL) (cs : List Clique) :
    ∀ (o : Nat), sumIdx (fun j c => f j c - g j c) cs o = sumIdx f cs o - sumIdx g cs o := by
  induction cs with
  | nil => intro o; simp [sumIdx]
  | cons c cs ih =>
    intro o
    simp only [sumIdx, ih]
    ring

namespace SubmodularPrimalDual2

/-- The entry of the installed table of clique `j` that the binary assignment `x`
selects: the clique energy at the fused labeling minus the duals at the fused labels. -/
theorem installed_entry {E : MultilabelEnergy} {s : State} {crf : SubmodularIBFS}
    (alpha : Label) (hlab : IsLabeling E s.m_labels) (hrange : CliquesInRange E)
    (hflow : FlowShaped E crf) (x : NodeId → Bool) {j : Nat} (hj : j < E.Cliques.length) :
    (alphaTableLoop
        (alphaEntry E.Cliques[j] (s.m_dual.getD j []) (localLabels s.m_labels E.Cliques[j]) alpha)
        (shl32 E.Cliques[j].Size).toNat
        (crf.cliques.getD j IBFSClique.blank).EnergyTable).getD
      (SubmodularIBFS.assignmentFrom x E.Cliques[j].Nodes 0) 0 =
    E.Cliques[j].Energy (localLabels (fusedLabels s.m_labels alpha x) E.Cliques[j])
      - ((List.range E.Cliques[j].Nodes.length).map (fun t =>
          getEntry (s.m_dual.getD j []) t
            (if x (E.Cliques[j].Nodes.getD t 0) then alpha
              else labelAt s.m_labels (E.Cliques[j].Nodes.getD t 0)))).sum := by
  obtain ⟨_, hk31, _, hT⟩ := hflow.at hj
  have ha := assignmentFrom_lt x E.Cliques[j].Nodes
  have hmem : E.Cliques[j] ∈ E.Cliques := List.getElem_mem _
  rw [getD_alphaTableLoop, shl32_toNat_of_lt hk31, hT, if_pos ⟨ha, ha⟩]
  unfold alphaEntry
  rw [fusionBuf_assignment _ _ _ _ (fun v hv => by rw [hlab.1]; exact hrange _ hmem v hv),
    lambdaOf_assignment]

/-- On a flow solver with the topology of the model, `SetupAlphaEnergy` returns and the
table of every clique holds, at every bitmask `a < 2^k`, the value the loop body
computes for `a`. -/
theorem SetupAlphaEnergy_table {E : MultilabelEnergy} {s : State} {crf : SubmodularIBFS}
    (alpha : Label) (hflow : FlowShaped E crf) :
    ∃ crf1, SetupAlphaEnergy E s alpha crf = .ok crf1 ∧
      ∀ ci (hci : ci < E.Cliques.length), ∀ a, a < 2 ^ E.Cliques[ci].Size →
        (crf1.cliques.getD ci IBFSClique.blank).EnergyTable.getD a 0 =
          alphaEntry E.Cliques[ci] (s.m_dual.getD ci []) (localLabels s.m_labels E.Cliques[ci])
            alpha a := by
  obtain ⟨_, u2, _, _, _⟩ := unaryLoop_spec E s alpha s.m_labels.length
    (crf.ClearUnaries.AddConstantTerm (-crf.ClearUnaries.GetConstantTerm))
  have hcl0 : (unaryLoop E s alpha s.m_labels.length
      (crf.ClearUnaries.AddConstantTerm (-crf.ClearUnaries.GetConstantTerm))).cliques =
      crf.cliques := u2
  have hguard : ∀ j (hj : j < E.Cliques.length), E.Cliques[j].Size < 32 ∧
      E.Cliques[j].Size = ((unaryLoop E s alpha s.m_labels.length
        (crf.ClearUnaries.AddConstantTerm (-crf.ClearUnaries.GetConstantTerm))).cliques.getD
          (0 + j) IBFSClique.blank).Size := by
    intro j hj
    obtain ⟨_, hk31, hN, _⟩ := hflow.at hj
    rw [hcl0, Nat.zero_add]
    refine ⟨by omega, ?_⟩
    unfold IBFSClique.Size Clique.Size
    rw [hN]
  obtain ⟨cl, c1, _, _, c4⟩ := alphaCliqueLoop_spec s alpha E.Cliques 0 _ hguard
  refine ⟨_, by unfold SetupAlphaEnergy; simp only []; rw [c1], ?_⟩
  intro ci hci a ha
  obtain ⟨hj2, hk31, _, hT⟩ := hflow.at hci
  have := c4 ci hci (by rw [hcl0, Nat.zero_add]; exact hj2)
  rw [Nat.zero_add, hcl0] at this
  show (cl.getD ci IBFSClique.blank).EnergyTable.getD a 0 = _
  rw [this]
  simp only []
  rw [getD_alphaTableLoop, shl32_toNat_of_lt hk31, hT, if_pos ⟨ha, ha⟩]

/-- The flow instance that `SetupAlphaEnergy` builds is an exact reparameterization of
the multilabel energy. -/
theorem SetupAlphaEnergy_energy {E : MultilabelEnergy} {s : State} {crf : SubmodularIBFS}
    (alpha : Label) (hlab : IsLabeling E s.m_labels) (hrange : CliquesInRange E)
    (hncl : s.m_node_clique_list = (InitialNodeCliqueList E s).m_node_clique_list)
    (hflow : FlowShaped E crf) :
    ∃ crf1, SetupAlphaEnergy E s alpha crf = .ok crf1 ∧
      ∀ x : NodeId → Bool, crf1.Energy x =
        primalEnergy E (fusedLabels s.m_labels alpha x) + heightConstant E s alpha := by
  obtain ⟨u1, u2, _, u4, u5⟩ := unaryLoop_spec E s alpha s.m_labels.length
    (crf.ClearUnaries.AddConstantTerm (-crf.ClearUnaries.GetConstantTerm))
  have hcl0 : (unaryLoop E s alpha s.m_labels.length
      (crf.ClearUnaries.AddConstantTerm (-crf.ClearUnaries.GetConstantTerm))).cliques =
      crf.cliques := u2
  have hguard : ∀ j (hj : j < E.Cliques.length), E.Cliques[j].Size < 32 ∧
      E.Cliques[j].Size = ((unaryLoop E s alpha s.m_labels.length
        (crf.ClearUnaries.AddConstantTerm (-crf.ClearUnaries.GetConstantTerm))).cliques.getD
          (0 + j) IBFSClique.blank).Size := by
    intro j hj
    obtain ⟨_, hk31, hN, _⟩ := hflow.at hj
    rw [hcl0, Nat.zero_add]
    refine ⟨by omega, ?_⟩
    unfold IBFSClique.Size Clique.Size
    rw [hN]
  obtain ⟨cl, c1, c2, _, c4⟩ := alphaCliqueLoop_spec s alpha E.Cliques 0 _ hguard
  refine ⟨_, by unfold SetupAlphaEnergy; simp only []; rw [c1], ?_⟩
  intro x
  have hN : s.m_labels.length = E.NumNodes := hlab.1
  have hlenC : cl.length = E.Cliques.length := by
    rw [c2, hcl0]; exact (List.Forall₂.length_eq hflow.2).symm
  have hlenU : (unaryLoop E s alpha s.m_labels.length
      (crf.ClearUnaries.AddConstantTerm (-crf.ClearUnaries.GetConstantTerm))).unaries.length =
      E.NumNodes := by
    rw [u4]
    simp only [SubmodularIBFS.AddConstantTerm, SubmodularIBFS.ClearUnaries, List.length_map]
    exact hflow.1
  have hct : (unaryLoop E s alpha s.m_labels.length
      (crf.ClearUnaries.AddConstantTerm (-crf.ClearUnaries.GetConstantTerm))).constant_term = 0 := by
    rw [u1]
    simp only [SubmodularIBFS.AddConstantTerm, SubmodularIBFS.ClearUnaries,
      SubmodularIBFS.GetConstantTerm]
    ring
  -- the unary part
  have hnode : ∀ v, v < E.NumNodes →
      (if x v = true then
        ((unaryLoop E s alpha s.m_labels.length
          (crf.ClearUnaries.AddConstantTerm (-crf.ClearUnaries.GetConstantTerm))).unaries.getD
            v (0, 0)).2
      else
        ((unaryLoop E s alpha s.m_labels.length
          (crf.ClearUnaries.AddConstantTerm (-crf.ClearUnaries.GetConstantTerm))).unaries.getD
            v (0, 0)).1) =
      E.Unary v (if x v then alpha else labelAt s.m_labels v)
        + ((s.m_node_clique_list.getD v []).map (fun p =>
            getEntry (s.m_dual.getD p.1 []) p.2
              (if x v then alpha else labelAt s.m_labels v))).sum
        - min (ComputeHeight E s v (labelAt s.m_labels v)) (ComputeHeight E s v alpha) := by
    intro v hv
    have hv2 : v < (crf.ClearUnaries.AddConstantTerm
        (-crf.ClearUnaries.GetConstantTerm)).unaries.length := by
      simp only [SubmodularIBFS.AddConstantTerm, SubmodularIBFS.ClearUnaries, List.length_map]
      rw [hflow.1]; exact hv
    have hz : (crf.ClearUnaries.AddConstantTerm
        (-crf.ClearUnaries.GetConstantTerm)).unaries.getD v (0, 0) = (0, 0) := by
      rw [List.getD_eq_getElem _ _ hv2]
      simp [SubmodularIBFS.AddConstantTerm, SubmodularIBFS.ClearUnaries]
    have hcond : v < s.m_labels.length ∧ v < (crf.ClearUnaries.AddConstantTerm
        (-crf.ClearUnaries.GetConstantTerm)).unaries.length := ⟨by rw [hN]; exact hv, hv2⟩
    rw [u5 v, if_pos hcond, hz]
    simp only [zero_add]
    rw [ComputeHeightDiff_eq, unary_cost_eq, ← ComputeHeight_eq]
    split <;> rfl
  have hsumU : ((List.range E.NumNodes).map (fun v =>
      if x v = true then
        ((unaryLoop E s alpha s.m_labels.length
          (crf.ClearUnaries.AddConstantTerm (-crf.ClearUnaries.GetConstantTerm))).unaries.getD
            v (0, 0)).2
      else
        ((unaryLoop E s alpha s.m_labels.length
          (crf.ClearUnaries.AddConstantTerm (-crf.ClearUnaries.GetConstantTerm))).unaries.getD
            v (0, 0)).1)).sum =
      ((List.range E.NumNodes).map (fun v =>
        E.Unary v (if x v then alpha else labelAt s.m_labels v))).sum
      + sumIdx (fun j c => ((List.range c.Nodes.length).map (fun t =>
          getEntry (s.m_dual.getD j []) t
            (if x (c.Nodes.getD t 0) then alpha else labelAt s.m_labels (c.Nodes.getD t 0)))).sum)
          E.Cliques 0
      - ((List.range E.NumNodes).map (fun v =>
          min (ComputeHeight E s v (labelAt s.m_labels v)) (ComputeHeight E s v alpha))).sum := by
    rw [List.map_congr_left (fun v hv => hnode v (List.mem_range.mp hv)), sum_range_add_sub]
    obtain ⟨hl, hs⟩ := InitialNodeCliqueList_sum
      (fun v p => getEntry (s.m_dual.getD p.1 []) p.2
        (if x v then alpha else labelAt s.m_labels v)) E s hN hrange
    rw [← hncl] at hl hs
    rw [← hs]
    unfold indexSum
    rw [hl]
  -- the clique part
  have hsumC : (cl.map (fun c =>
      c.EnergyTable.getD (SubmodularIBFS.assignmentFrom x c.Nodes 0) 0)).sum =
      sumIdx (fun j c => c.Energy (localLabels (fusedLabels s.m_labels alpha x) c)
        - ((List.range c.Nodes.length).map (fun t =>
          getEntry (s.m_dual.getD j []) t
            (if x (c.Nodes.getD t 0) then alpha else labelAt s.m_labels (c.Nodes.getD t 0)))).sum)
        E.Cliques 0 := by
    apply sum_map_eq_sumIdx _ IBFSClique.blank _ E.Cliques cl hlenC
    intro j hj
    obtain ⟨hj2, _, hNodes, _⟩ := hflow.at hj
    have := c4 j hj (by rw [hcl0, Nat.zero_add]; exact hj2)
    rw [Nat.zero_add, hcl0] at this
    rw [this]
    simp only [hNodes]
    exact installed_entry alpha hlab hrange hflow x hj
  have hprimal : primalEnergy E (fusedLabels s.m_labels alpha x) =
      ((List.range E.NumNodes).map (fun v =>
        E.Unary v (if x v then alpha else labelAt s.m_labels v))).sum
      + sumIdx (fun _ c => c.Energy (localLabels (fusedLabels s.m_labels alpha x) c))
          E.Cliques 0 := by
    unfold primalEnergy
    rw [sumIdx_const]
    congr 1
    congr 1
    apply List.map_congr_left
    intro v hv
    rw [labelAt_fusedLabels _ _ _ (by rw [hN]; exact List.mem_range.mp hv)]
  unfold SubmodularIBFS.Energy
  simp only []
  rw [hct, hlenU, hsumU, hsumC, hprimal, sumIdx_sub]
  unfold heightConstant
  ring

end SubmodularPrimalDual2

namespace SubmodularPrimalDual2

theorem shl32_31 : shl32 31 < 0 := by decide

/-- `SetupGraph` returns only when `1 << k` is representable for every clique, and then
adds one clique with a table of `2^k` zeros per clique of the model. -/
theorem SetupGraphLoop_ok (cs : List Clique) :
    ∀ (crf crf1 : SubmodularIBFS), SetupGraphLoop cs crf = .ok crf1 →
      crf1.unaries = crf.unaries ∧ crf1.constant_term = crf.constant_term ∧
      ∃ added, crf1.cliques = crf.cliques ++ added ∧
        List.Forall₂ (fun c ic => c.Size < 31 ∧ IBFSClique.Nodes ic = c.Nodes ∧
          (IBFSClique.EnergyTable ic).length = 2 ^ c.Size) cs added := by
  induction cs with
  | nil =>
    intro crf crf1 h
    simp only [SetupGraphLoop, Except.ok.injEq] at h
    subst h
    exact ⟨rfl, rfl, [], by simp, List.Forall₂.nil⟩
  | cons c cs ih =>
    intro crf crf1 h
    simp only [SetupGraphLoop] at h
    by_cases hk : c.Size < 32
    · rw [if_neg (by simpa using hk)] at h
      by_cases hneg : shl32 c.Size < 0
      · rw [if_pos hneg] at h; cases h
      · rw [if_neg hneg] at h
        have hk31 : c.Size < 31 := by
          by_contra hge
          have : c.Size = 31 := by omega
          rw [this] at hneg
          exact hneg shl32_31
        obtain ⟨h1, h2, added, h3, h4⟩ := ih _ _ h
        refine ⟨h1, h2,
          { Nodes := c.Nodes, EnergyTable := List.replicate (shl32 c.Size).toNat 0,
            AlphaCi := List.replicate c.Nodes.length 0 } :: added, ?_,
          List.Forall₂.cons ⟨hk31, rfl, ?_⟩ h4⟩
        · rw [h3]
          simp [SubmodularIBFS.AddClique]
        · rw [List.length_replicate, shl32_toNat_of_lt hk31]
    · rw [if_pos (by simpa using hk)] at h; cases h

theorem SetupGraph_flowShaped {E : MultilabelEnergy} {s : State} {crf : SubmodularIBFS}
    (hlen : s.m_labels.length = E.NumNodes)
    (h : SetupGraph E s SubmodularIBFS.empty = .ok crf) : FlowShaped E crf := by
  unfold SetupGraph at h
  obtain ⟨h1, _, added, h3, h4⟩ := SetupGraphLoop_ok E.Cliques _ _ h
  constructor
  · rw [h1]
    simp [SubmodularIBFS.AddNode, SubmodularIBFS.empty, hlen]
  · rw [h3]
    simpa [SubmodularIBFS.AddNode, SubmodularIBFS.empty] using h4

/-- The harvest loop of `UpdatePrimalDual`: a node takes `alpha` when the solver assigns
it 1 and keeps its label otherwise. -/
theorem harvestLoop_labels (crf : SubmodularIBFS) (alpha : Label) (labels : List Label)
    (b : Bool) (n : Nat) :
    (harvestLoop crf alpha n (b, labels)).2.length = labels.length ∧
    ∀ v, (harvestLoop crf alpha n (b, labels)).2.getD v 0 =
      if v < n ∧ v < labels.length ∧ crf.GetLabel v = 1 then alpha else labels.getD v 0 := by
  induction n with
  | zero => simp [harvestLoop]
  | succ n ih =>
    obtain ⟨h1, h2⟩ := ih
    simp only [harvestLoop]
    split
    · next hone =>
      refine ⟨by simp only [List.length_set, h1], ?_⟩
      intro v
      simp only []
      rw [getD_set_eq, h1, h2]
      by_cases hv : n = v
      · subst hv
        by_cases hlen : n < labels.length
        · rw [if_pos ⟨rfl, hlen⟩, if_pos ⟨by omega, hlen, hone⟩]
        · rw [if_neg (fun h => hlen h.2), if_neg (by omega), if_neg (fun h => hlen h.2.1)]
      · rw [if_neg (fun h => hv h.1)]
        have : (v < n + 1) ↔ (v < n) := by omega
        simp only [this]
    · next hone =>
      refine ⟨h1, ?_⟩
      intro v
      rw [h2]
      by_cases hv : n = v
      · subst hv
        rw [if_neg (by omega), if_neg (fun h => hone h.2.2)]
      · have : (v < n + 1) ↔ (v < n) := by omega
        simp only [this]

theorem harvestLoop_eq_fused (crf : SubmodularIBFS) (alpha : Label) (labels : List Label) :
    (harvestLoop crf alpha labels.length (false, labels)).2 =
      fusedLabels labels alpha (solverAssignment crf) := by
  obtain ⟨h1, h2⟩ := harvestLoop_labels crf alpha labels false labels.length
  apply List.ext_getElem (by rw [h1]; simp [fusedLabels])
  intro v hv1 hv2
  have hv : v < labels.length := by rw [h1] at hv1; exact hv1
  have := h2 v
  rw [List.getD_eq_getElem _ _ hv1] at this
  rw [this]
  simp only [fusedLabels, List.getElem_map, List.getElem_range, solverAssignment, labelAt,
    decide_eq_true_eq]
  by_cases hone : crf.GetLabel v = 1
  · rw [if_pos ⟨hv, hv, hone⟩, if_pos hone]
  · rw [if_neg (fun h => hone h.2.2), if_neg hone]

end SubmodularPrimalDual2

namespace Examples

theorem pairFlow_built :
    SubmodularPrimalDual2.SetupGraph pairModel pairState SubmodularIBFS.empty = .ok pairFlow := by
  rfl

theorem pairFlow_shaped : FlowShaped pairModel pairFlow :=
  SubmodularPrimalDual2.SetupGraph_flowShaped (s := pairState) (by decide) pairFlow_built

theorem pairState_index :
    pairState.m_node_clique_list =
      (SubmodularPrimalDual2.InitialNodeCliqueList pairModel pairState).m_node_clique_list := by
  rfl

end Examples

/-! ### The initial labeling -/

/-- The inner loop of `InitialLabeling`: either nothing beat the starting cost, or the
result is the first label of least unary cost. -/
theorem bestLabelLoop_spec (U : Label → REAL) (b0 : REAL) (y0 : Label) (n : Nat) :
    (bestLabelLoop U n (b0, y0) = (b0, y0) ∧ ∀ l, l < n → b0 ≤ U l) ∨
    ((bestLabelLoop U n (b0, y0)).2 < n ∧
      (bestLabelLoop U n (b0, y0)).1 = U (bestLabelLoop U n (b0, y0)).2 ∧
      (bestLabelLoop U n (b0, y0)).1 < b0 ∧
      (∀ l, l < n → (bestLabelLoop U n (b0, y0)).1 ≤ U l) ∧
      ∀ l, l < (bestLabelLoop U n (b0, y0)).2 → (bestLabelLoop U n (b0, y0)).1 < U l) := by
  induction n with
  | zero => left; exact ⟨rfl, fun l h => absurd h (Nat.not_lt_zero l)⟩
  | succ n ih =>
    simp only [bestLabelLoop]
    generalize bestLabelLoop U n (b0, y0) = r at ih ⊢
    obtain ⟨b, y⟩ := r
    simp only at ih ⊢
    rcases ih with ⟨h1, h2⟩ | ⟨h1, h2, h3, h4, h5⟩
    · injection h1 with hb hy
      subst hb hy
      by_cases hc : U n < b
      · rw [if_pos hc]
        right
        refine ⟨Nat.lt_succ_self n, rfl, hc, ?_, ?_⟩
        · intro l hl
          rcases Nat.lt_succ_iff_lt_or_eq.mp hl with h | h
          · exact le_of_lt (lt_of_lt_of_le hc (h2 l h))
          · subst h; exact le_refl _
        · intro l hl
          exact lt_of_lt_of_le hc (h2 l hl)
      · rw [if_neg hc]
        left
        refine ⟨rfl, ?_⟩
        intro l hl
        rcases Nat.lt_succ_iff_lt_or_eq.mp hl with h | h
        · exact h2 l h
        · subst h; exact not_lt.mp hc
    · right
      by_cases hc : U n < b
      · rw [if_pos hc]
        refine ⟨Nat.lt_succ_self n, rfl, lt_trans hc h3, ?_, ?_⟩
        · intro l hl
          rcases Nat.lt_succ_iff_lt_or_eq.mp hl with h | h
          · exact le_of_lt (lt_of_lt_of_le hc (h4 l h))
          · subst h; exact le_refl _
        · intro l hl
          exact lt_of_lt_of_le hc (h4 l hl)
      · rw [if_neg hc]
        refine ⟨Nat.lt_succ_of_lt h1, h2, h3, ?_, h5⟩
        intro l hl
        rcases Nat.lt_succ_iff_lt_or_eq.mp hl with h | h
        · exact h4 l h
        · subst h; exact not_lt.mp hc

/-- With at least one label and a first unary below the starting cost, the inner loop of
`InitialLabeling` returns the first label of least unary cost. -/
theorem bestLabelLoop_argmin (U : Label → REAL) (b0 : REAL) (y0 : Label) {n : Nat}
    (hn : 1 ≤ n) (h0 : U 0 < b0) :
    (bestLabelLoop U n (b0, y0)).2 < n ∧
    (∀ l, l < n → U (bestLabelLoop U n (b0, y0)).2 ≤ U l) ∧
    ∀ l, l < (bestLabelLoop U n (b0, y0)).2 → U (bestLabelLoop U n (b0, y0)).2 < U l := by
  rcases bestLabelLoop_spec U b0 y0 n with ⟨_, h2⟩ | ⟨h1, h2, _, h4, h5⟩
  · exact absurd (h2 0 (by omega)) (not_le.mpr h0)
  · rw [h2] at h4 h5
    exact ⟨h1, h4, h5⟩

/-- The outer loop of `InitialLabeling`: the nodes below `n` get the result of the inner
loop, the others keep their label. -/
theorem labelingLoop_spec (Unary : NodeId → Label → REAL) (L : Nat) (m_labels : List Label)
    (n : Nat) :
    (labelingLoop Unary L n m_labels).length = m_labels.length ∧
    ∀ v, (labelingLoop Unary L n m_labels).getD v 0 =
      if v < n ∧ v < m_labels.length then
        (bestLabelLoop (Unary v) L (REAL_MAX, m_labels.getD v 0)).2
      else m_labels.getD v 0 := by
  induction n with
  | zero => exact ⟨rfl, fun v => by simp [labelingLoop]⟩
  | succ n ih =>
    obtain ⟨h1, h2⟩ := ih
    simp only [labelingLoop]
    refine ⟨by rw [List.length_set, h1], ?_⟩
    intro v
    rw [getD_set_eq, h1]
    have hn : labelAt (labelingLoop Unary L n m_labels) n = m_labels.getD n 0 := by
      unfold labelAt
      rw [h2 n, if_neg (by omega)]
    rw [hn]
    by_cases hv : n = v
    · subst hv
      by_cases hlen : n < m_labels.length
      · have hc : n = n ∧ n < m_labels.length := ⟨rfl, hlen⟩
        have hc2 : n < n + 1 ∧ n < m_labels.length := ⟨Nat.lt_succ_self n, hlen⟩
        rw [if_pos hc, if_pos hc2]
      · rw [if_neg (fun h => hlen h.2), if_neg (fun h => hlen h.2), h2 n, if_neg (by omega)]
    · rw [if_neg (fun h => hv h.1), h2 v]
      by_cases hc : v < n ∧ v < m_labels.length
      · have hc2 : v < n + 1 ∧ v < m_labels.length := ⟨by omega, hc.2⟩
        rw [if_pos hc, if_pos hc2]
      · have hc2 : ¬ (v < n + 1 ∧ v < m_labels.length) := fun h => hc ⟨by omega, h.2⟩
        rw [if_neg hc, if_neg hc2]

/-- After the loops of `InitialLabeling` every node below `n` carries the first label of
least unary cost. -/
theorem labelingLoop_argmin (Unary : NodeId → Label → REAL) {L : Nat} (m_labels : List Label)
    {n : Nat} (hL : 1 ≤ L) (hlen : n ≤ m_labels.length)
    (hU : ∀ v, v < n → Unary v 0 < REAL_MAX) :
    ∀ v, v < n →
      labelAt (labelingLoop Unary L n m_labels) v < L ∧
      (∀ l, l < L → Unary v (labelAt (labelingLoop Unary L n m_labels) v) ≤ Unary v l) ∧
      ∀ l, l < labelAt (labelingLoop Unary L n m_labels) v →
        Unary v (labelAt (labelingLoop Unary L n m_labels) v) < Unary v l := by
  intro v hv
  have hc : v < n ∧ v < m_labels.length := ⟨hv, by omega⟩
  unfold labelAt
  rw [(labelingLoop_spec Unary L m_labels n).2 v, if_pos hc]
  exact bestLabelLoop_argmin (Unary v) REAL_MAX _ hL (hU v hv)

/-! ### The harvest flag and the dual update of `UpdatePrimalDual` -/

namespace SubmodularPrimalDual2

/-- The flag of the harvest loop: it is set when a node below `n` that the solver assigns
1 carried a label other than `alpha`. -/
theorem harvestLoop_flag (crf : SubmodularIBFS) (alpha : Label) (labels : List Label)
    (b : Bool) (n : Nat) :
    (harvestLoop crf alpha n (b, labels)).1 = true ↔
      b = true ∨ ∃ v, v < n ∧ crf.GetLabel v = 1 ∧ labelAt labels v ≠ alpha := by
  induction n with
  | zero => simp [harvestLoop]
  | succ n ih =>
    have hlab := (harvestLoop_labels crf alpha labels b n).2 n
    simp only [harvestLoop]
    by_cases hone : crf.GetLabel n = 1
    · rw [if_pos hone]
      have hn : labelAt (harvestLoop crf alpha n (b, labels)).2 n = labelAt labels n := by
        unfold labelAt
        rw [hlab, if_neg (by omega)]
      rw [hn]
      by_cases hne : labelAt labels n ≠ alpha
      · rw [if_pos hne]
        simp only [true_iff]
        exact Or.inr ⟨n, Nat.lt_succ_self n, hone, hne⟩
      · rw [if_neg hne, ih]
        constructor
        · rintro (h | ⟨v, hv, h1, h2⟩)
          · exact Or.inl h
          · exact Or.inr ⟨v, Nat.lt_succ_of_lt hv, h1, h2⟩
        · rintro (h | ⟨v, hv, h1, h2⟩)
          · exact Or.inl h
          · rcases Nat.lt_succ_iff_lt_or_eq.mp hv with h | h
            · exact Or.inr ⟨v, h, h1, h2⟩
            · subst h; exact absurd h2 hne
    · rw [if_neg hone, ih]
      constructor
      · rintro (h | ⟨v, hv, h1, h2⟩)
        · exact Or.inl h
        · exact Or.inr ⟨v, Nat.lt_succ_of_lt hv, h1, h2⟩
      · rintro (h | ⟨v, hv, h1, h2⟩)
        · exact Or.inl h
        · rcases Nat.lt_succ_iff_lt_or_eq.mp hv with h | h
          · exact Or.inr ⟨v, h, h1, h2⟩
          · subst h; exact absurd h1 hone

theorem phiLoop_length (phiCi : List REAL) (alpha : Label) (n : Nat) (d : Dual) :
    (phiLoop phiCi alpha n d).length = d.length := by
  induction n with
  | zero => rfl
  | succ n ih => simp only [phiLoop, setEntry_length, ih]

theorem phiLoop_row_length (phiCi : List REAL) (alpha : Label) (n : Nat) (d : Dual) (i : Nat) :
    ((phiLoop phiCi alpha n d).getD i []).length = (d.getD i []).length := by
  induction n with
  | zero => rfl
  | succ n ih => simp only [phiLoop, getD_setEntry_length, ih]

/-- The inner loop of the dual update: the rows below `n` get the solver's correction
added in column `alpha`, and nothing else is written. -/
theorem getEntry_phiLoop (phiCi : List REAL) (alpha : Label) (n : Nat) (d : Dual)
    (i : Nat) (l : Label) :
    getEntry (phiLoop phiCi alpha n d) i l =
      if i < n ∧ l = alpha ∧ i < d.length ∧ alpha < (d.getD i []).length then
        getEntry d i alpha + phiCi.getD i 0
      else getEntry d i l := by
  induction n with
  | zero => simp [phiLoop]
  | succ n ih =>
    simp only [phiLoop]
    rw [getEntry_setEntry, phiLoop_length, phiLoop_row_length]
    by_cases hni : n = i
    · subst hni
      by_cases hc : alpha = l ∧ n < d.length ∧ alpha < (d.getD n []).length
      · obtain ⟨h1, h2, h3⟩ := hc
        subst h1
        have hc1 : n = n ∧ alpha = alpha ∧ n < d.length ∧ alpha < (d.getD n []).length :=
          ⟨rfl, rfl, h2, h3⟩
        have hc2 : n < n + 1 ∧ alpha = alpha ∧ n < d.length ∧ alpha < (d.getD n []).length :=
          ⟨Nat.lt_succ_self n, rfl, h2, h3⟩
        rw [if_pos hc1, if_pos hc2, ih, if_neg (by omega)]
      · have hc1 : ¬ (n = n ∧ alpha = l ∧ n < d.length ∧ alpha < (d.getD n []).length) :=
          fun h => hc ⟨h.2.1, h.2.2.1, h.2.2.2⟩
        have hc2 : ¬ (n < n + 1 ∧ l = alpha ∧ n < d.length ∧ alpha < (d.getD n []).length) :=
          fun h => hc ⟨h.2.1.symm, h.2.2.1, h.2.2.2⟩
        rw [if_neg hc1, if_neg hc2, ih, if_neg (by omega)]
    · rw [if_neg (fun h => hni h.1), ih]
      by_cases hc : i < n ∧ l = alpha ∧ i < d.length ∧ alpha < (d.getD i []).length
      · have hc2 : i < n + 1 ∧ l = alpha ∧ i < d.length ∧ alpha < (d.getD i []).length :=
          ⟨by omega, hc.2⟩
        rw [if_pos hc, if_pos hc2]
      · have hc2 : ¬ (i < n + 1 ∧ l = alpha ∧ i < d.length ∧ alpha < (d.getD i []).length) :=
          fun h => hc ⟨by omega, h.2⟩
        rw [if_neg hc, if_neg hc2]

/-- The outer loop of the dual update: the tables of the cliques below `n` go through the
inner loop with the correction vector of their clique, the others are kept. -/
theorem phiCliqueLoop_spec (clique : List IBFSClique) (alpha : Label) (n : Nat)
    (m_dual : List Dual) :
    (phiCliqueLoop clique alpha n m_dual).length = m_dual.length ∧
    ∀ ci, (phiCliqueLoop clique alpha n m_dual).getD ci [] =
      if ci < n ∧ ci < m_dual.length then
        phiLoop (clique.getD ci IBFSClique.blank).AlphaCi alpha
          (clique.getD ci IBFSClique.blank).AlphaCi.length (m_dual.getD ci [])
      else m_dual.getD ci [] := by
  induction n with
  | zero => exact ⟨rfl, fun ci => by simp [phiCliqueLoop]⟩
  | succ n ih =>
    obtain ⟨h1, h2⟩ := ih
    simp only [phiCliqueLoop]
    refine ⟨by rw [List.length_set, h1], ?_⟩
    intro ci
    rw [getD_set_eq, h1]
    by_cases hv : n = ci
    · subst hv
      by_cases hlen : n < m_dual.length
      · have hc : n = n ∧ n < m_dual.length := ⟨rfl, hlen⟩
        have hc2 : n < n + 1 ∧ n < m_dual.length := ⟨Nat.lt_succ_self n, hlen⟩
        rw [if_pos hc, if_pos hc2, h2 n, if_neg (by omega)]
      · rw [if_neg (fun h => hlen h.2), if_neg (fun h => hlen h.2), h2 n, if_neg (by omega)]
    · rw [if_neg (fun h => hv h.1), h2 ci]
      by_cases hc : ci < n ∧ ci < m_dual.length
      · have hc2 : ci < n + 1 ∧ ci < m_dual.length := ⟨by omega, hc.2⟩
        rw [if_pos hc, if_pos hc2]
      · have hc2 : ¬ (ci < n + 1 ∧ ci < m_dual.length) := fun h => hc ⟨by omega, h.2⟩
        rw [if_neg hc, if_neg hc2]

/-- What `UpdatePrimalDual` returns, in terms of the flow instance it solved. -/
theorem UpdatePrimalDual_ok {E : MultilabelEnergy} {Solve : SubmodularIBFS → SubmodularIBFS}
    {alpha : Label} {s : State} {crf : SubmodularIBFS}
    {r : Bool × State × SubmodularIBFS} (h : UpdatePrimalDual E Solve alpha s crf = .ok r) :
    ∃ crf1, SetupAlphaEnergy E s alpha crf = .ok crf1 ∧ r.2.2 = Solve crf1 ∧
      r.1 = (harvestLoop (Solve crf1) alpha s.m_labels.length (false, s.m_labels)).1 ∧
      r.2.1.m_labels = (harvestLoop (Solve crf1) alpha s.m_labels.length (false, s.m_labels)).2 ∧
      r.2.1.m_dual = phiCliqueLoop (Solve crf1).cliques alpha E.Cliques.length s.m_dual ∧
      r.2.1.m_node_clique_list = s.m_node_clique_list := by
  unfold UpdatePrimalDual at h
  cases hs : SetupAlphaEnergy E s alpha crf with
  | error e => rw [hs] at h; cases h
  | ok crf1 =>
    rw [hs] at h
    simp only [Except.ok.injEq] at h
    subst h
    exact ⟨crf1, rfl, rfl, rfl, rfl, rfl, rfl⟩

/-- The unary pairs that `SetupAlphaEnergy` leaves in the flow solver. -/
theorem SetupAlphaEnergy_unaries {E : MultilabelEnergy} {s : State} {alpha : Label}
    {crf crf1 : SubmodularIBFS} (h : SetupAlphaEnergy E s alpha crf = .ok crf1) :
    crf1.unaries.length = crf.unaries.length ∧
    ∀ i, i < s.m_labels.length → i < crf.unaries.length →
      crf1.unaries.getD i (0, 0) =
        if ComputeHeightDiff E s i (labelAt s.m_labels i) alpha > 0 then
          (ComputeHeightDiff E s i (labelAt s.m_labels i) alpha, 0)
        else (0, - ComputeHeightDiff E s i (labelAt s.m_labels i) alpha) := by
  unfold SetupAlphaEnergy at h
  obtain ⟨_, _, _, u4, u5⟩ := unaryLoop_spec E s alpha s.m_labels.length
    (crf.ClearUnaries.AddConstantTerm (-crf.ClearUnaries.GetConstantTerm))
  have hlen0 : (crf.ClearUnaries.AddConstantTerm (-crf.ClearUnaries.GetConstantTerm)).unaries.length
      = crf.unaries.length := by
    simp [SubmodularIBFS.ClearUnaries, SubmodularIBFS.AddConstantTerm]
  have hget0 : ∀ i, (crf.ClearUnaries.AddConstantTerm (-crf.ClearUnaries.GetConstantTerm)).unaries.getD
      i (0, 0) = (0, 0) := by
    intro i
    simp only [SubmodularIBFS.ClearUnaries, SubmodularIBFS.AddConstantTerm,
      List.getD_eq_getElem?_getD, List.getElem?_map]
    cases crf.unaries[i]? <;> rfl
  simp only at h
  cases hc : alphaCliqueLoop s alpha E.Cliques 0
      (unaryLoop E s alpha s.m_labels.length
        (crf.ClearUnaries.AddConstantTerm (-crf.ClearUnaries.GetConstantTerm))).cliques with
  | error e => rw [hc] at h; cases h
  | ok cl =>
    rw [hc] at h
    simp only [Except.ok.injEq] at h
    subst h
    refine ⟨by simp only; rw [u4, hlen0], ?_⟩
    intro i hi1 hi2
    simp only
    have hcond : i < s.m_labels.length ∧ i <
        (crf.ClearUnaries.AddConstantTerm (-crf.ClearUnaries.GetConstantTerm)).unaries.length :=
      ⟨hi1, by rw [hlen0]; exact hi2⟩
    rw [u5 i, if_pos hcond, hget0 i]
    by_cases hd : ComputeHeightDiff E s i (labelAt s.m_labels i) alpha > 0
    · simp only [hd, if_true, zero_add]
    · simp only [hd, if_false, zero_add]

end SubmodularPrimalDual2

/-! ### The node-clique index as a list -/

namespace SubmodularPrimalDual2

theorem pushPositions_length (clique_index : Nat) (vs : List NodeId) :
    ∀ (i0 : Nat) (ncl : List (List (Nat × Nat))),
      (pushPositions clique_index vs i0 ncl).length = ncl.length := by
  induction vs with
  | nil => intro i0 ncl; rfl
  | cons v vs ih =>
    intro i0 ncl
    simp only [pushPositions]
    rw [ih, List.length_set]

/-- The entries that the inner loop of `InitialNodeCliqueList` appends to the list of
node `u`: one per position of the clique that holds `u`, in increasing position. -/
theorem pushPositions_getD (clique_index : Nat) (vs : List NodeId) :
    ∀ (i0 : Nat) (ncl : List (List (Nat × Nat))), (∀ v ∈ vs, v < ncl.length) → ∀ u,
      (pushPositions clique_index vs i0 ncl).getD u [] =
        ncl.getD u [] ++
          ((List.range vs.length).filter (fun t => vs.getD t 0 = u)).map
            (fun t => (clique_index, i0 + t)) := by
  induction vs with
  | nil => intro i0 ncl _ u; simp [pushPositions]
  | cons v vs ih =>
    intro i0 ncl hv u
    simp only [pushPositions]
    have hv0 : v < ncl.length := hv v (List.mem_cons_self _ _)
    rw [ih (i0 + 1) (ncl.set v (ncl.getD v [] ++ [(clique_index, i0)]))
      (fun w hw => by rw [List.length_set]; exact hv w (List.mem_cons_of_mem _ hw)) u]
    rw [getD_set_eq, List.length_cons, List.range_succ_eq_map, List.filter_cons,
      List.filter_map]
    have hfun : ((fun t => decide ((v :: vs).getD t 0 = u)) ∘ Nat.succ) =
        (fun t => decide (vs.getD t 0 = u)) := by
      funext t
      simp only [Function.comp, List.getD_cons_succ]
    have hmap : ((fun t => (clique_index, i0 + t)) ∘ Nat.succ) =
        (fun t => (clique_index, i0 + 1 + t)) := by
      funext t
      simp only [Function.comp, Nat.succ_eq_add_one]
      congr 1
      omega
    rw [hfun]
    by_cases hvu : v = u
    · subst hvu
      have hc : v = v ∧ v < ncl.length := ⟨rfl, hv0⟩
      rw [if_pos hc]
      simp only [List.getD_cons_zero, decide_True, if_true, List.map_cons, Nat.add_zero,
        List.append_assoc, List.singleton_append, List.map_map, hmap]
    · rw [if_neg (fun h => hvu h.1)]
      simp only [List.getD_cons_zero, hvu, decide_False, Bool.false_eq_true, if_false,
        List.map_map, hmap]

theorem pushCliques_length (cs : List Clique) :
    ∀ (idx : Nat) (ncl : List (List (Nat × Nat))), (pushCliques cs idx ncl).length = ncl.length := by
  induction cs with
  | nil => intro idx ncl; rfl
  | cons c cs ih =>
    intro idx ncl
    simp only [pushCliques]
    rw [ih, pushPositions_length]

/-- The entries that the loops of `InitialNodeCliqueList` append to the list of node `u`:
clique by clique, and within one clique position by position. -/
theorem pushCliques_getD (cs : List Clique) :
    ∀ (idx : Nat) (ncl : List (List (Nat × Nat))),
      (∀ c ∈ cs, ∀ v ∈ c.Nodes, v < ncl.length) → ∀ u,
      (pushCliques cs idx ncl).getD u [] =
        ncl.getD u [] ++
          (List.range cs.length).flatMap (fun j =>
            ((List.range ((cs.map Clique.Nodes).getD j []).length).filter
              (fun t => ((cs.map Clique.Nodes).getD j []).getD t 0 = u)).map
                (fun t => (idx + j, t))) := by
  induction cs with
  | nil => intro idx ncl _ u; simp [pushCliques]
  | cons c cs ih =>
    intro idx ncl hv u
    simp only [pushCliques]
    rw [ih (idx + 1) (pushPositions idx c.Nodes 0 ncl)
      (fun c1 h1 v hv1 => by
        rw [pushPositions_length]
        exact hv c1 (List.mem_cons_of_mem _ h1) v hv1) u]
    rw [pushPositions_getD idx c.Nodes 0 ncl (hv c (List.mem_cons_self _ _)) u]
    rw [List.length_cons, List.range_succ_eq_map, List.flatMap_cons, List.flatMap_map,
      List.append_assoc]
    congr 1
    congr 1
    · simp only [List.map_cons, List.getD_cons_zero, Nat.add_zero, Nat.zero_add]
    · congr 1
      funext j
      simp only [List.map_cons, List.getD_cons_succ, Nat.succ_eq_add_one]
      congr 1
      funext t
      congr 1
      omega

/-- After `InitialNodeCliqueList` the list of node `u` is the reverse map of the spec. -/
theorem pushCliques_eq_incident_spec (cs : List Clique) (n : Nat)
    (hv : ∀ c ∈ cs, ∀ v ∈ c.Nodes, v < n) (u : NodeId) :
    (pushCliques cs 0 (List.replicate n [])).getD u [] = incident_spec cs u := by
  rw [pushCliques_getD cs 0 (List.replicate n [])
    (fun c hc v hvc => by rw [List.length_replicate]; exact hv c hc v hvc) u]
  have h0 : (List.replicate n ([] : List (Nat × Nat))).getD u [] = [] := by
    simp only [List.getD_eq_getElem?_getD, List.getElem?_replicate]
    split <;> rfl
  rw [h0, List.nil_append]
  unfold incident_spec
  congr 1
  funext j
  congr 1
  funext t
  congr 1
  omega

end SubmodularPrimalDual2

/-- Membership in the reverse map of the spec: exactly the pairs `(c, i)` with
`cliques[c].nodes[i] = v`. -/
theorem mem_incident_spec (cliques : List Clique) (v : NodeId) (c i : Nat) :
    (c, i) ∈ incident_spec cliques v ↔
      ∃ (hc : c < cliques.length) (hi : i < cliques[c].Nodes.length), cliques[c].Nodes[i] = v := by
  unfold incident_spec
  simp only [List.mem_flatMap, List.mem_range, List.mem_map, List.mem_filter,
    decide_eq_true_eq, Prod.mk.injEq]
  constructor
  · rintro ⟨c1, hc1, i1, ⟨hi1, hv1⟩, rfl, rfl⟩
    have hn : (cliques.map Clique.Nodes).getD c1 [] = cliques[c1].Nodes := by
      rw [List.getD_eq_getElem _ _ (by rw [List.length_map]; exact hc1), List.getElem_map]
    rw [hn] at hi1 hv1
    rw [List.getD_eq_getElem _ _ hi1] at hv1
    exact ⟨hc1, hi1, hv1⟩
  · rintro ⟨hc, hi, hv⟩
    have hn : (cliques.map Clique.Nodes).getD c [] = cliques[c].Nodes := by
      rw [List.getD_eq_getElem _ _ (by rw [List.length_map]; exact hc), List.getElem_map]
    refine ⟨c, hc, i, ⟨?_, ?_⟩, rfl, rfl⟩
    · rw [hn]; exact hi
    · rw [hn, List.getD_eq_getElem _ _ hi]; exact hv

/-- The reverse map of the spec is strictly increasing in the clique index and, within
one clique, in the position. -/
theorem incident_spec_sorted (cliques : List Clique) (v : NodeId) :
    List.Pairwise (fun p q : Nat × Nat => p.1 < q.1 ∨ (p.1 = q.1 ∧ p.2 < q.2))
      (incident_spec cliques v) := by
  unfold incident_spec
  rw [List.pairwise_flatMap]
  constructor
  · intro c _
    rw [List.pairwise_map]
    apply List.Pairwise.filter
    exact (List.pairwise_lt_range _).imp (fun h => Or.inr ⟨rfl, h⟩)
  · apply (List.pairwise_lt_range _).imp
    intro a b hab x hx y hy
    simp only [List.mem_map, List.mem_filter] at hx hy
    obtain ⟨_, _, rfl⟩ := hx
    obtain ⟨_, _, rfl⟩ := hy
    exact Or.inl hab

theorem incident_spec_nodup (cliques : List Clique) (v : NodeId) :
    (incident_spec cliques v).Nodup := by
  apply (incident_spec_sorted cliques v).imp
  intro p q h heq
  subst heq
  rcases h with h | ⟨_, h⟩ <;> exact absurd h (lt_irrefl _)

/-! ### The exit of the fusion loop -/

namespace DualGuidedFusionMove

/-- The inner loop of `InitialFusionLabeling` leaves the flag down only if it was down
and no label below `n` has a height below the starting one. -/
theorem fusionLabelLoop_false (F : Fields) (i : NodeId) (d0 : Bool) (f0 : Label) (h0 : REAL)
    (n : Nat) (h : (fusionLabelLoop F i n (d0, f0, h0)).1 = false) :
    fusionLabelLoop F i n (d0, f0, h0) = (d0, f0, h0) ∧ d0 = false ∧
      ∀ l, l < n → h0 ≤ ComputeHeight F i l := by
  induction n with
  | zero => exact ⟨rfl, h, fun l hl => absurd hl (Nat.not_lt_zero l)⟩
  | succ n ih =>
    simp only [fusionLabelLoop] at h ⊢
    by_cases hc : ComputeHeight F i n < (fusionLabelLoop F i n (d0, f0, h0)).2.2
    · rw [if_pos hc] at h
      cases h
    · rw [if_neg hc] at h ⊢
      obtain ⟨h1, h2, h3⟩ := ih h
      refine ⟨h1, h2, ?_⟩
      rw [h1] at hc
      intro l hl
      rcases Nat.lt_succ_iff_lt_or_eq.mp hl with hl1 | hl1
      · exact h3 l hl1
      · subst hl1; exact not_lt.mp hc

/-- The outer loop of `InitialFusionLabeling` leaves the flag down only if it was down
and every node below `n` sits at a label of least height. -/
theorem fusionLoop_false (F : Fields) (d0 : Bool) (fl0 : List Label) (n : Nat)
    (h : (fusionLoop F n (d0, fl0)).1 = false) :
    d0 = false ∧ ∀ i, i < n → ∀ l, l < F.m_num_labels →
      ComputeHeight F i (labelAt F.m_labels i) ≤ ComputeHeight F i l := by
  induction n with
  | zero => exact ⟨h, fun i hi => absurd hi (Nat.not_lt_zero i)⟩
  | succ n ih =>
    simp only [fusionLoop] at h
    obtain ⟨_, h2, h3⟩ := fusionLabelLoop_false F n _ _ _ _ h
    obtain ⟨h4, h5⟩ := ih h2
    refine ⟨h4, ?_⟩
    intro i hi
    rcases Nat.lt_succ_iff_lt_or_eq.mp hi with hi1 | hi1
    · exact h5 i hi1
    · subst hi1; exact h3

/-- The converse: with the flag down at the start and every node below `n` at a label of
least height, the outer loop of `InitialFusionLabeling` leaves the flag down. -/
theorem fusionLabelLoop_of_le (F : Fields) (i : NodeId) (d0 : Bool) (f0 : Label) (h0 : REAL)
    (n : Nat) (h : ∀ l, l < n → h0 ≤ ComputeHeight F i l) :
    fusionLabelLoop F i n (d0, f0, h0) = (d0, f0, h0) := by
  induction n with
  | zero => rfl
  | succ n ih =>
    simp only [fusionLabelLoop]
    rw [ih (fun l hl => h l (Nat.lt_succ_of_lt hl))]
    rw [if_neg (not_lt.mpr (h n (Nat.lt_succ_self n)))]

theorem fusionLoop_of_le (F : Fields) (fl0 : List Label) (n : Nat)
    (h : ∀ i, i < n → ∀ l, l < F.m_num_labels →
      ComputeHeight F i (labelAt F.m_labels i) ≤ ComputeHeight F i l) :
    (fusionLoop F n (false, fl0)).1 = false := by
  induction n with
  | zero => rfl
  | succ n ih =>
    simp only [fusionLoop]
    rw [ih (fun i hi => h i (Nat.lt_succ_of_lt hi))]
    rw [fusionLabelLoop_of_le F n false _ _ _ (h n (Nat.lt_succ_self n))]

/-- `InitialFusionLabeling` returns `false` exactly in the states of the Height
invariant. -/
theorem InitialFusionLabeling_false_iff (F : Fields) :
    (InitialFusionLabeling F).1 = false ↔ HeightInvariant F := by
  unfold InitialFusionLabeling HeightInvariant
  constructor
  · intro h
    exact (fusionLoop_false F false F.m_fusion_labels F.m_labels.length h).2
  · intro h
    exact fusionLoop_of_le F F.m_fusion_labels F.m_labels.length h

/-- `InitialFusionLabeling` writes the fusion labels only. -/
theorem InitialFusionLabeling_frame (F : Fields) :
    (InitialFusionLabeling F).2.m_labels = F.m_labels ∧
    (InitialFusionLabeling F).2.m_dual = F.m_dual ∧
    (InitialFusionLabeling F).2.m_num_labels = F.m_num_labels ∧
    (InitialFusionLabeling F).2.m_unary_cost = F.m_unary_cost ∧
    (InitialFusionLabeling F).2.m_cliques = F.m_cliques ∧
    (InitialFusionLabeling F).2.m_node_clique_list = F.m_node_clique_list ∧
    ∀ i x, ComputeHeight (InitialFusionLabeling F).2 i x = ComputeHeight F i x :=
  ⟨rfl, rfl, rfl, rfl, rfl, rfl, fun _ _ => rfl⟩

/-- `CheckHeightInvariant` decides the Height invariant. -/
theorem CheckHeightInvariant_iff (F : Fields) :
    CheckHeightInvariant F = true ↔ HeightInvariant F := by
  unfold CheckHeightInvariant HeightInvariant
  simp only [List.all_eq_true, List.mem_range]
  constructor
  · intro h v hv l hl
    have := h v hv l hl
    by_cases hc : l = labelAt F.m_labels v
    · rw [hc]
    · rw [if_neg hc] at this
      simpa using this
  · intro h v hv l hl
    by_cases hc : l = labelAt F.m_labels v
    · rw [if_pos hc]
    · rw [if_neg hc]
      simpa using h v hv l hl

/-- Every exit of the loop of `Solve` goes through a call of `InitialFusionLabeling`
that returned `false`. -/
theorem SolveLoop_exit (body : Fields → SubmodularIBFS → Except Fault (Fields × SubmodularIBFS)) :
    ∀ (fuel : Nat) (F : Fields) (crf : SubmodularIBFS) (r : Fields × SubmodularIBFS),
      SolveLoop body fuel F crf = some (.ok r) →
      ∃ F0, (InitialFusionLabeling F0).1 = false ∧ r.1 = (InitialFusionLabeling F0).2 := by
  intro fuel
  induction fuel with
  | zero => intro F crf r h; cases h
  | succ fuel ih =>
    intro F crf r h
    simp only [SolveLoop] at h
    by_cases hc : (InitialFusionLabeling F).1 = true
    · rw [if_neg (by simp [hc])] at h
      cases hb : body (InitialFusionLabeling F).2 crf with
      | error e => rw [hb] at h; cases h
      | ok r2 =>
        rw [hb] at h
        exact ih _ _ _ h
    · rw [if_pos (by simpa using hc)] at h
      simp only [Option.some.injEq, Except.ok.injEq] at h
      subst h
      exact ⟨F, by simpa using hc, rfl⟩

end DualGuidedFusionMove

/-! ### The guard of `CheckLabelInvariant` -/

/-- On 64-bit values the guard `abs(sum - energy)` with the 64-bit `abs` is nonzero
exactly when the two values differ. -/
theorem abs64_guard {sum energy : Int} (hs : IsReal64 sum) (he : IsReal64 energy) :
    abs64 (wrap64 (sum - energy)) ≠ 0 ↔ sum ≠ energy := by
  unfold abs64 wrap64
  unfold IsReal64 at hs he
  split <;> omega

/-- The 64-bit `abs` vanishes at zero only. -/
theorem abs64_eq_zero {x : Int} (hx : IsReal64 x) : abs64 x = 0 ↔ x = 0 := by
  unfold abs64 wrap64
  unfold IsReal64 at hx
  split <;> omega

/-- `int abs(int)` vanishes exactly at the multiples of `2^32`. -/
theorem abs32_eq_zero (x : Int) : abs32 x = 0 ↔ x % 2 ^ 32 = 0 := by
  unfold abs32 wrap32
  split <;> omega

/-- The wrapped difference of two 64-bit values vanishes exactly when they are equal. -/
theorem wrap64_sub_eq_zero {sum energy : Int} (hs : IsReal64 sum) (he : IsReal64 energy) :
    wrap64 (sum - energy) = 0 ↔ sum = energy := by
  unfold wrap64
  unfold IsReal64 at hs he
  omega

theorem wrap64_isReal64 (x : Int) : IsReal64 (wrap64 x) := by
  unfold wrap64 IsReal64
  omega

namespace DualGuidedFusionMove

/-- The loop of `CheckLabelInvariant` returns `true` exactly when the guard vanishes at
every clique it visits, whatever `abs` is. -/
theorem checkLabelLoop_iff (abs : REAL → REAL) (m_labels : List Label) (cs : List Clique) :
    ∀ (idx : Nat) (m_dual : List Dual),
      (checkLabelLoop abs m_labels cs idx m_dual = true ↔
        ∀ j (hj : j < cs.length),
          abs (wrap64 (activeSum (m_dual.getD (idx + j) []) (localLabels m_labels cs[j])
            - cs[j].Energy (localLabels m_labels cs[j]))) = 0) := by
  induction cs with
  | nil =>
    intro idx m_dual
    simp [checkLabelLoop]
  | cons c cs ih =>
    intro idx m_dual
    have hrest := ih (idx + 1) m_dual
    simp only [checkLabelLoop]
    by_cases hz : abs (wrap64 (activeSum (m_dual.getD idx []) (localLabels m_labels c)
        - c.Energy (localLabels m_labels c))) = 0
    · rw [if_neg (not_not.mpr hz), hrest]
      constructor
      · intro h j hj
        cases j with
        | zero => exact hz
        | succ j =>
          have := h j (Nat.lt_of_succ_lt_succ hj)
          rw [show idx + 1 + j = idx + (j + 1) by omega] at this
          exact this
      · intro h j hj
        have := h (j + 1) (Nat.succ_lt_succ hj)
        rw [show idx + 1 + j = idx + (j + 1) by omega]
        exact this
    · rw [if_pos hz]
      constructor
      · intro h; cases h
      · intro h
        exact absurd (h 0 (Nat.succ_pos _)) hz

end DualGuidedFusionMove

namespace SubmodularPrimalDual2

/-- The loop of `CheckLabelInvariant` returns `true` exactly when every clique passes the
size assertion and the guard vanishes at every clique, whatever `abs` is. -/
theorem checkLabelLoop_true_iff (abs : REAL → REAL) (m_labels : List Label)
    (cs : List Clique) :
    ∀ (idx : Nat) (m_dual : List Dual),
      (checkLabelLoop abs m_labels cs idx m_dual = .ok true ↔
        (∀ c ∈ cs, c.Size < 32) ∧
        ∀ j (hj : j < cs.length),
          abs (wrap64 (activeSum (m_dual.getD (idx + j) []) (localLabels m_labels cs[j])
            - cs[j].Energy (localLabels m_labels cs[j]))) = 0) := by
  induction cs with
  | nil =>
    intro idx m_dual
    simp [checkLabelLoop]
  | cons c cs ih =>
    intro idx m_dual
    have hrest := ih (idx + 1) m_dual
    simp only [checkLabelLoop]
    by_cases hk : c.Size < 32
    · rw [if_neg (not_not.mpr hk)]
      by_cases hz : abs (wrap64 (activeSum (m_dual.getD idx []) (localLabels m_labels c)
          - c.Energy (localLabels m_labels c))) = 0
      · rw [if_neg (not_not.mpr hz), hrest]
        constructor
        · rintro ⟨hs, h⟩
          refine ⟨?_, ?_⟩
          · intro c1 hc1
            rcases List.mem_cons.mp hc1 with h1 | h1
            · rw [h1]; exact hk
            · exact hs c1 h1
          · intro j hj
            cases j with
            | zero => exact hz
            | succ j =>
              have := h j (Nat.lt_of_succ_lt_succ hj)
              rw [show idx + 1 + j = idx + (j + 1) by omega] at this
              exact this
        · rintro ⟨hs, h⟩
          refine ⟨fun c1 hc1 => hs c1 (List.mem_cons_of_mem _ hc1), ?_⟩
          intro j hj
          have := h (j + 1) (Nat.succ_lt_succ hj)
          rw [show idx + 1 + j = idx + (j + 1) by omega]
          exact this
      · rw [if_pos hz]
        constructor
        · intro h; cases h
        · rintro ⟨_, h⟩
          exact absurd (h 0 (Nat.succ_pos _)) hz
    · rw [if_pos hk]
      constructor
      · intro h; cases h
      · rintro ⟨hs, _⟩
        exact absurd (hs c (List.mem_cons_self _ _)) hk

/-- When the loop of `CheckLabelInvariant` returns `false`, the guard is nonzero at some
clique. -/
theorem checkLabelLoop_false (abs : REAL → REAL) (m_labels : List Label) (cs : List Clique) :
    ∀ (idx : Nat) (m_dual : List Dual),
      checkLabelLoop abs m_labels cs idx m_dual = .ok false →
        ∃ j, ∃ (hj : j < cs.length),
          abs (wrap64 (activeSum (m_dual.getD (idx + j) []) (localLabels m_labels cs[j])
            - cs[j].Energy (localLabels m_labels cs[j]))) ≠ 0 := by
  induction cs with
  | nil =>
    intro idx m_dual h
    simp [checkLabelLoop] at h
  | cons c cs ih =>
    intro idx m_dual h
    simp only [checkLabelLoop] at h
    by_cases hk : c.Size < 32
    · rw [if_neg (not_not.mpr hk)] at h
      by_cases hz : abs (wrap64 (activeSum (m_dual.getD idx []) (localLabels m_labels c)
          - c.Energy (localLabels m_labels c))) = 0
      · rw [if_neg (not_not.mpr hz)] at h
        obtain ⟨j, hj, hbad⟩ := ih (idx + 1) m_dual h
        refine ⟨j + 1, Nat.succ_lt_succ hj, ?_⟩
        rw [show idx + 1 + j = idx + (j + 1) by omega] at hbad
        exact hbad
      · exact ⟨0, Nat.succ_pos _, hz⟩
    · rw [if_pos hk] at h
      cases h

/-- When every clique has fewer than 32 nodes, the loop of `CheckLabelInvariant` returns. -/
theorem checkLabelLoop_total (abs : REAL → REAL) (m_labels : List Label) (cs : List Clique)
    (hk : ∀ c ∈ cs, c.Size < 32) :
    ∀ (idx : Nat) (m_dual : List Dual),
      ∃ b, checkLabelLoop abs m_labels cs idx m_dual = .ok b := by
  induction cs with
  | nil => intro idx m_dual; exact ⟨true, rfl⟩
  | cons c cs ih =>
    intro idx m_dual
    simp only [checkLabelLoop]
    rw [if_neg (not_not.mpr (hk c (List.mem_cons_self _ _)))]
    split
    · exact ⟨false, rfl⟩
    · exact ih (fun c1 h1 => hk c1 (List.mem_cons_of_mem _ h1)) _ _

end SubmodularPrimalDual2

/-! ### The sweeps of `Solve` -/

namespace SubmodularPrimalDual2

/-- A harvest that leaves the flag down leaves the labeling as it was. -/
theorem harvestLoop_unchanged (crf : SubmodularIBFS) (alpha : Label) (labels : List Label)
    (n : Nat) (h : (harvestLoop crf alpha n (false, labels)).1 = false) :
    (harvestLoop crf alpha n (false, labels)).2 = labels := by
  obtain ⟨h1, h2⟩ := harvestLoop_labels crf alpha labels false n
  have hflag := harvestLoop_flag crf alpha labels false n
  apply List.ext_getElem h1
  intro v hv1 hv2
  have h3 := h2 v
  rw [List.getD_eq_getElem _ _ hv1, List.getD_eq_getElem _ _ hv2] at h3
  rw [h3]
  by_cases hc : v < n ∧ v < labels.length ∧ crf.GetLabel v = 1
  · rw [if_pos hc]
    by_contra hne
    have : (harvestLoop crf alpha n (false, labels)).1 = true :=
      hflag.mpr (Or.inr ⟨v, hc.1, hc.2.2, by
        unfold labelAt
        rw [List.getD_eq_getElem _ _ hv2]
        exact fun heq => hne heq.symm⟩)
    rw [h] at this
    cases this
  · rw [if_neg hc]

/-- The flag of the harvest is up exactly when the harvest changed the labeling. -/
theorem harvestLoop_flag_iff_changed (crf : SubmodularIBFS) (alpha : Label)
    (labels : List Label) :
    (harvestLoop crf alpha labels.length (false, labels)).1 = true ↔
      (harvestLoop crf alpha labels.length (false, labels)).2 ≠ labels := by
  constructor
  · intro h heq
    obtain ⟨v, hv, hone, hne⟩ :=
      ((harvestLoop_flag crf alpha labels false labels.length).mp h).resolve_left (by simp)
    have h3 := (harvestLoop_labels crf alpha labels false labels.length).2 v
    rw [heq, if_pos ⟨hv, hv, hone⟩] at h3
    exact hne h3
  · intro h
    by_contra hf
    exact h (harvestLoop_unchanged crf alpha labels labels.length (by simpa using hf))

/-- `PostEditDual` keeps the labeling and the index. -/
theorem PostEditDual_frame {E : MultilabelEnergy} {s s1 : State}
    (h : PostEditDual E s = .ok s1) :
    s1.m_labels = s.m_labels ∧ s1.m_node_clique_list = s.m_node_clique_list := by
  unfold PostEditDual at h
  cases hr : cliqueLoop (PostEditDualClique s.m_labels) E.Cliques 0 s.m_dual with
  | error e => rw [hr] at h; cases h
  | ok r =>
    rw [hr] at h
    injection h with h
    subst h
    exact ⟨rfl, rfl⟩

/-- The three calls of one iteration of the `for alpha` loop, when it returns. -/
theorem alphaStep_ok {E : MultilabelEnergy} {Solve : SubmodularIBFS → SubmodularIBFS}
    {alpha : Label} {r r1 : Bool × State × SubmodularIBFS}
    (h : alphaStep E Solve alpha r = .ok r1) :
    ∃ s1 u, PreEditDual E alpha r.2.1 = .ok s1 ∧
      UpdatePrimalDual E Solve alpha s1 r.2.2 = .ok u ∧
      PostEditDual E u.2.1 = .ok r1.2.1 ∧
      r1.1 = (if u.1 then true else r.1) ∧ r1.2.2 = u.2.2 := by
  unfold alphaStep at h
  cases h1 : PreEditDual E alpha r.2.1 with
  | error e => rw [h1] at h; cases h
  | ok s1 =>
    rw [h1] at h
    simp only at h
    cases h2 : UpdatePrimalDual E Solve alpha s1 r.2.2 with
    | error e => rw [h2] at h; cases h
    | ok u =>
      rw [h2] at h
      simp only at h
      cases h3 : PostEditDual E u.2.1 with
      | error e => rw [h3] at h; cases h
      | ok s3 =>
        rw [h3] at h
        simp only [Except.ok.injEq] at h
        subst h
        exact ⟨s1, u, rfl, h2, h3, rfl, rfl⟩

/-- One iteration of the `for alpha` loop, made from a loop state of `Inv`, never raises
the primal energy, keeps a raised flag, and raises the flag only with a strict decrease,
when every `UpdatePrimalDual` that is called from such a state and returns `true`
decreases the energy. -/
theorem alphaStep_energy {E : MultilabelEnergy} {Solve : SubmodularIBFS → SubmodularIBFS}
    {Inv : State → SubmodularIBFS → Prop}
    (hdec : ∀ alpha, alpha < E.NumLabels → ∀ s crf s1 u, Inv s crf →
      PreEditDual E alpha s = .ok s1 → UpdatePrimalDual E Solve alpha s1 crf = .ok u →
      u.1 = true → primalEnergy E u.2.1.m_labels < primalEnergy E s1.m_labels)
    {alpha : Label} (halpha : alpha < E.NumLabels) {r r1 : Bool × State × SubmodularIBFS}
    (hinv : Inv r.2.1 r.2.2) (h : alphaStep E Solve alpha r = .ok r1) :
    primalEnergy E r1.2.1.m_labels ≤ primalEnergy E r.2.1.m_labels ∧
    (r.1 = true → r1.1 = true) ∧
    (r1.1 = true → r.1 = true ∨
      primalEnergy E r1.2.1.m_labels < primalEnergy E r.2.1.m_labels) := by
  obtain ⟨s1, u, h1, h2, h3, h4, _⟩ := alphaStep_ok h
  have hl1 := (PreEditDual_ok h1).1
  have hl3 := (PostEditDual_frame h3).1
  obtain ⟨crf1, _, _, hu1, hu2, _, _⟩ := UpdatePrimalDual_ok h2
  rw [hl3, ← hl1]
  by_cases hflag : u.1 = true
  · have := hdec alpha halpha r.2.1 r.2.2 s1 u hinv h1 h2 hflag
    rw [h4, hflag]
    exact ⟨le_of_lt this, fun _ => rfl, fun _ => Or.inr this⟩
  · have hf : u.1 = false := by simpa using hflag
    have hsame : u.2.1.m_labels = s1.m_labels := by
      rw [hu2]
      exact harvestLoop_unchanged _ _ _ _ (by rw [← hu1]; exact hf)
    rw [h4, hf, hsame]
    exact ⟨le_refl _, fun hr => by simpa using hr, fun hr => Or.inl (by simpa using hr)⟩

/-- The same for a whole run of the `for alpha` loop, which stays in `Inv`. -/
theorem sweepLoop_energy {E : MultilabelEnergy} {Solve : SubmodularIBFS → SubmodularIBFS}
    {Inv : State → SubmodularIBFS → Prop}
    (hkeep : ∀ alpha, alpha < E.NumLabels → ∀ r r1, Inv r.2.1 r.2.2 →
      alphaStep E Solve alpha r = .ok r1 → Inv r1.2.1 r1.2.2)
    (hdec : ∀ alpha, alpha < E.NumLabels → ∀ s crf s1 u, Inv s crf →
      PreEditDual E alpha s = .ok s1 → UpdatePrimalDual E Solve alpha s1 crf = .ok u →
      u.1 = true → primalEnergy E u.2.1.m_labels < primalEnergy E s1.m_labels)
    (n : Nat) (hn : n ≤ E.NumLabels) {r r1 : Bool × State × SubmodularIBFS}
    (hinv : Inv r.2.1 r.2.2) (h : sweepLoop E Solve n r = .ok r1) :
    Inv r1.2.1 r1.2.2 ∧
    primalEnergy E r1.2.1.m_labels ≤ primalEnergy E r.2.1.m_labels ∧
    (r.1 = true → r1.1 = true) ∧
    (r1.1 = true → r.1 = true ∨
      primalEnergy E r1.2.1.m_labels < primalEnergy E r.2.1.m_labels) := by
  induction n generalizing r1 with
  | zero =>
    simp only [sweepLoop, Except.ok.injEq] at h
    subst h
    exact ⟨hinv, le_refl _, id, Or.inl⟩
  | succ n ih =>
    simp only [sweepLoop] at h
    cases h0 : sweepLoop E Solve n r with
    | error e => rw [h0] at h; cases h
    | ok r0 =>
      rw [h0] at h
      simp only at h
      obtain ⟨a0, a1, a2, a3⟩ := ih (Nat.le_of_succ_le hn) h0
      obtain ⟨b1, b2, b3⟩ := alphaStep_energy hdec (Nat.lt_of_succ_le hn) a0 h
      refine ⟨hkeep n (Nat.lt_of_succ_le hn) r0 r1 a0 h, le_trans b1 a1, fun hr => b2 (a2 hr), ?_⟩
      intro hr
      rcases b3 hr with hb | hb
      · rcases a3 hb with ha | ha
        · exact Or.inl ha
        · exact Or.inr (lt_of_le_of_lt b1 ha)
      · exact Or.inr (lt_of_lt_of_le hb a1)

/-- The `while` loop of `Solve`, entered in a loop state of `Inv`, ends within one sweep
more than the primal energy of its starting state, after a sweep that changed no
label. -/
theorem whileLoop_terminates {E : MultilabelEnergy} {Solve : SubmodularIBFS → SubmodularIBFS}
    {Inv : State → SubmodularIBFS → Prop}
    (hnn : ∀ labels, 0 ≤ primalEnergy E labels)
    (hkeep : ∀ alpha, alpha < E.NumLabels → ∀ r r1, Inv r.2.1 r.2.2 →
      alphaStep E Solve alpha r = .ok r1 → Inv r1.2.1 r1.2.2)
    (hdec : ∀ alpha, alpha < E.NumLabels → ∀ s crf s1 u, Inv s crf →
      PreEditDual E alpha s = .ok s1 → UpdatePrimalDual E Solve alpha s1 crf = .ok u →
      u.1 = true → primalEnergy E u.2.1.m_labels < primalEnergy E s1.m_labels) :
    ∀ (fuel num_round : Nat) (s : State) (crf : SubmodularIBFS), Inv s crf →
      primalEnergy E s.m_labels < (fuel : Int) →
      ∃ res, whileLoop E Solve fuel num_round s crf = some res ∧
        ∀ r, res = .ok r →
          num_round + 1 ≤ r.1 ∧
          (r.1 : Int) ≤ (num_round : Int) + 1 + primalEnergy E s.m_labels ∧
          primalEnergy E r.2.1.m_labels ≤ primalEnergy E s.m_labels ∧
          ∃ s0 crf0, sweepLoop E Solve E.NumLabels (false, s0, crf0) =
            .ok (false, r.2.1, r.2.2) := by
  intro fuel
  induction fuel with
  | zero =>
    intro num_round s crf _ hlt
    have h1 := hnn s.m_labels
    simp only [Nat.cast_zero] at hlt
    linarith
  | succ fuel ih =>
    intro num_round s crf hinv hlt
    have hnn0 := hnn s.m_labels
    simp only [whileLoop]
    cases hsw : sweepLoop E Solve E.NumLabels (false, s, crf) with
    | error e =>
      refine ⟨.error e, rfl, ?_⟩
      intro r hr
      cases hr
    | ok r0 =>
      simp only
      obtain ⟨a0, a1, _, a3⟩ :=
        sweepLoop_energy hkeep hdec E.NumLabels (le_refl _) (r := (false, s, crf)) hinv hsw
      simp only at a1 a3
      by_cases hchg : r0.1 = true
      · rw [if_pos hchg]
        have hlt2 : primalEnergy E r0.2.1.m_labels < primalEnergy E s.m_labels := by
          rcases a3 hchg with h | h
          · cases h
          · exact h
        have hfuel : primalEnergy E r0.2.1.m_labels < (fuel : Int) := by
          push_cast at hlt
          have h3 := Int.add_one_le_of_lt hlt2
          linarith
        obtain ⟨res, hres, hprop⟩ := ih (num_round + 1) r0.2.1 r0.2.2 a0 hfuel
        refine ⟨res, hres, ?_⟩
        intro r hr
        obtain ⟨p1, p2, p3, p4⟩ := hprop r hr
        refine ⟨by omega, ?_, le_trans p3 a1, p4⟩
        push_cast at p2
        have h3 := Int.add_one_le_of_lt hlt2
        linarith
      · rw [if_neg hchg]
        refine ⟨_, rfl, ?_⟩
        intro r hr
        simp only [Except.ok.injEq] at hr
        subst hr
        refine ⟨le_refl _, ?_, a1, s, crf, ?_⟩
        · push_cast
          linarith
        · rw [hsw]
          have hf : r0.1 = false := by simpa using hchg
          rw [← hf]

/-- `InitialDual` keeps the labeling. -/
theorem InitialDual_labels {E : MultilabelEnergy} {s s1 : State}
    (h : InitialDual E s = .ok s1) : s1.m_labels = s.m_labels := by
  unfold InitialDual at h
  cases hr : pushBackLoop (InitialDualClique E.NumLabels s.m_labels) E.Cliques with
  | error e => rw [hr] at h; cases h
  | ok r =>
    rw [hr] at h
    injection h with h
    subst h
    rfl

end SubmodularPrimalDual2

/-! ### The energy that `DualGuidedFusionMove::ComputeEnergy` returns -/

namespace DualGuidedFusionMove

/-- `ComputeEnergy(labels)` adds the unaries of the argument to the clique energies of
the member labeling. -/
theorem ComputeEnergy_eq (F : Fields) (labels : List Label) :
    ComputeEnergy F labels =
      F.m_constant_term
        + (F.m_cliques.map (fun c => c.Energy (localLabels F.m_labels c))).sum
        + ((List.range F.m_labels.length).map (fun i => unaryAt F i (labels.getD i 0))).sum := by
  unfold ComputeEnergy
  simp only []
  rw [foldl_add_eq_sum (fun i => unaryAt F i (labels.getD i 0)),
    foldl_add_eq_sum (fun c : Clique => c.Energy (localLabels F.m_labels c))]

end DualGuidedFusionMove

/-! ### `UpdatePrimalDual` returns, and facts for the concrete inputs -/

namespace SubmodularPrimalDual2

/-- `UpdatePrimalDual` returns when the flow solver has the topology of the model. -/
theorem UpdatePrimalDual_total {E : MultilabelEnergy} (Solve : SubmodularIBFS → SubmodularIBFS)
    (alpha : Label) (s : State) {crf : SubmodularIBFS} (hflow : FlowShaped E crf) :
    ∃ r, UpdatePrimalDual E Solve alpha s crf = .ok r := by
  obtain ⟨crf1, h1, _⟩ := SetupAlphaEnergy_table (s := s) alpha hflow
  unfold UpdatePrimalDual
  rw [h1]
  exact ⟨_, rfl⟩

end SubmodularPrimalDual2

namespace Examples

theorem pairModel_energy_nonneg (labels : List Label) : 0 ≤ primalEnergy pairModel labels := by
  unfold primalEnergy
  apply add_nonneg
  · apply List.sum_nonneg
    intro x hx
    simp only [List.mem_map, pairModel] at hx
    obtain ⟨v, _, rfl⟩ := hx
    split <;> decide
  · apply List.sum_nonneg
    intro x hx
    simp only [List.mem_map, pairModel, List.mem_singleton] at hx
    obtain ⟨c, rfl, rfl⟩ := hx
    unfold pairClique
    simp only
    split <;> decide

theorem pairModel_unary_lt (v : NodeId) (l : Label) : pairModel.Unary v l < REAL_MAX := by
  unfold pairModel REAL_MAX
  simp only
  split <;> decide

end Examples

/-! ### The run of `Solve` on the two-node model with the brute-force solver -/

namespace Examples

/-- Every move for label 0 or 1 leads from a pair of `pairReachList` to a pair of it. -/
theorem pairReach_keep_table :
    ∀ p ∈ pairReachList, ∀ alpha, alpha < 2 → ∀ b : Bool,
      Option.all (fun r1 => decide (pairReach r1.2.1 r1.2.2))
        (SubmodularPrimalDual2.alphaStep pairModel bruteSolve alpha (b, p.1, p.2)).toOption
        = true := by
  decide

/-- Every `UpdatePrimalDual` of a move from a pair of `pairReachList` that returns `true`
lowers the primal energy. -/
theorem pairReach_dec_table :
    ∀ p ∈ pairReachList, ∀ alpha, alpha < 2 →
      Option.all (fun s1 =>
          Option.all (fun u => decide (u.1 = true →
              primalEnergy pairModel u.2.1.m_labels < primalEnergy pairModel s1.m_labels))
            (SubmodularPrimalDual2.UpdatePrimalDual pairModel bruteSolve alpha s1 p.2).toOption)
        (SubmodularPrimalDual2.PreEditDual pairModel alpha p.1).toOption
        = true := by
  decide

theorem pairReach_keep (alpha : Label) (halpha : alpha < pairModel.NumLabels)
    (r r1 : Bool × State × SubmodularIBFS) (hinv : pairReach r.2.1 r.2.2)
    (h : SubmodularPrimalDual2.alphaStep pairModel bruteSolve alpha r = .ok r1) :
    pairReach r1.2.1 r1.2.2 := by
  have ht := pairReach_keep_table (r.2.1, r.2.2) hinv alpha halpha r.1
  have hr : (r.1, (r.2.1, r.2.2).1, (r.2.1, r.2.2).2) = r := rfl
  rw [hr, h] at ht
  simpa [Except.toOption] using ht

theorem pairReach_dec (alpha : Label) (halpha : alpha < pairModel.NumLabels)
    (s : State) (crf : SubmodularIBFS) (s1 : State) (u : Bool × State × SubmodularIBFS)
    (hinv : pairReach s crf)
    (h1 : SubmodularPrimalDual2.PreEditDual pairModel alpha s = .ok s1)
    (h2 : SubmodularPrimalDual2.UpdatePrimalDual pairModel bruteSolve alpha s1 crf = .ok u)
    (hu : u.1 = true) :
    primalEnergy pairModel u.2.1.m_labels < primalEnergy pairModel s1.m_labels := by
  have ht := pairReach_dec_table (s, crf) hinv alpha halpha
  simp only [h1, h2, Except.toOption, Option.all_some, decide_eq_true_eq] at ht
  exact ht hu

theorem pairReach_start (crf : SubmodularIBFS) (s2 : State)
    (h1 : SubmodularPrimalDual2.SetupGraph pairModel pairStart SubmodularIBFS.empty = .ok crf)
    (h2 : SubmodularPrimalDual2.InitialDual pairModel
      (SubmodularPrimalDual2.InitialLabeling pairModel pairStart) = .ok s2) :
    pairReach (SubmodularPrimalDual2.InitialNodeCliqueList pairModel s2) crf := by
  have e1 : SubmodularPrimalDual2.SetupGraph pairModel pairStart SubmodularIBFS.empty =
      .ok pairFlow := rfl
  have e2 : SubmodularPrimalDual2.InitialDual pairModel
      (SubmodularPrimalDual2.InitialLabeling pairModel pairStart) =
      .ok { m_labels := [0, 1], m_dual := [[[2, 0], [0, 1]]], m_node_clique_list := [] } := rfl
  rw [e1] at h1
  rw [e2] at h2
  injection h1 with h1
  injection h2 with h2
  subst h1 h2
  decide

end Examples

/-! ### Ties and ranges in the initial labeling -/

/-- From the starting label 0 and a starting cost no unary exceeds, the inner loop of
`InitialLabeling` returns the least label of least unary cost. -/
theorem bestLabelLoop_least (U : Label → REAL) (b0 : REAL) {n : Nat} (hn : 1 ≤ n)
    (hU : ∀ l, l < n → U l ≤ b0) :
    (bestLabelLoop U n (b0, 0)).2 < n ∧
    (∀ l, l < n → U (bestLabelLoop U n (b0, 0)).2 ≤ U l) ∧
    ∀ l, l < (bestLabelLoop U n (b0, 0)).2 → U (bestLabelLoop U n (b0, 0)).2 < U l := by
  rcases bestLabelLoop_spec U b0 0 n with ⟨h1, h2⟩ | ⟨h1, h2, _, h4, h5⟩
  · rw [h1]
    refine ⟨Nat.lt_of_lt_of_le Nat.zero_lt_one hn, ?_, fun l hl => absurd hl (Nat.not_lt_zero l)⟩
    intro l hl
    exact le_trans (hU 0 (Nat.lt_of_lt_of_le Nat.zero_lt_one hn)) (h2 l hl)
  · rw [h2] at h4 h5
    exact ⟨h1, h4, h5⟩

/-- The inner loop of `InitialLabeling` returns its starting label or a label below `n`. -/
theorem bestLabelLoop_range (U : Label → REAL) (b0 : REAL) (y0 : Label) (n : Nat) :
    (bestLabelLoop U n (b0, y0)).2 = y0 ∨ (bestLabelLoop U n (b0, y0)).2 < n := by
  rcases bestLabelLoop_spec U b0 y0 n with ⟨h1, _⟩ | ⟨h1, _⟩
  · left; rw [h1]
  · right; exact h1

/-- From the all-zero labeling of the constructor, `InitialLabeling` gives every node
below `n` the least label of least unary cost. -/
theorem labelingLoop_least (Unary : NodeId → Label → REAL) {L : Nat} (m_labels : List Label)
    {n : Nat} (hL : 1 ≤ L) (hlen : n ≤ m_labels.length)
    (hzero : ∀ v, v < n → m_labels.getD v 0 = 0)
    (hU : ∀ v, v < n → ∀ l, l < L → Unary v l ≤ REAL_MAX) :
    ∀ v, v < n →
      labelAt (labelingLoop Unary L n m_labels) v < L ∧
      (∀ l, l < L → Unary v (labelAt (labelingLoop Unary L n m_labels) v) ≤ Unary v l) ∧
      ∀ l, l < labelAt (labelingLoop Unary L n m_labels) v →
        Unary v (labelAt (labelingLoop Unary L n m_labels) v) < Unary v l := by
  intro v hv
  have hc : v < n ∧ v < m_labels.length := ⟨hv, by omega⟩
  unfold labelAt
  rw [(labelingLoop_spec Unary L m_labels n).2 v, if_pos hc, hzero v hv]
  exact bestLabelLoop_least (Unary v) REAL_MAX hL (hU v hv)

/-- The loops of `InitialLabeling` keep labels below `L` below `L`. -/
theorem labelingLoop_range (Unary : NodeId → Label → REAL) {L : Nat} (m_labels : List Label)
    (n : Nat) (h : ∀ l ∈ m_labels, l < L) :
    ∀ l ∈ labelingLoop Unary L n m_labels, l < L := by
  obtain ⟨h1, h2⟩ := labelingLoop_spec Unary L m_labels n
  intro l hl
  obtain ⟨v, hv, rfl⟩ := List.getElem_of_mem hl
  have hv2 : v < m_labels.length := by rw [h1] at hv; exact hv
  have h3 := h2 v
  rw [List.getD_eq_getElem _ _ hv] at h3
  rw [h3]
  have h0 : m_labels.getD v 0 < L := by
    rw [List.getD_eq_getElem _ _ hv2]
    exact h _ (List.getElem_mem _)
  split
  · rcases bestLabelLoop_range (Unary v) REAL_MAX (m_labels.getD v 0) L with h4 | h4
    · rw [h4]; exact h0
    · exact h4
  · exact h0

/-! ### The fusion labels -/

namespace DualGuidedFusionMove

/-- The inner loop of `InitialFusionLabeling`: the height it ends with is the height of
the label it ends with, no label below `n` is lower, and it keeps the starting label
unless a label below `n` is strictly lower than it. -/
theorem fusionLabelLoop_min (F : Fields) (i : NodeId) (d0 : Bool) (f0 : Label) (n : Nat) :
    (fusionLabelLoop F i n (d0, f0, ComputeHeight F i f0)).2.2 =
      ComputeHeight F i (fusionLabelLoop F i n (d0, f0, ComputeHeight F i f0)).2.1 ∧
    (fusionLabelLoop F i n (d0, f0, ComputeHeight F i f0)).2.2 ≤ ComputeHeight F i f0 ∧
    (∀ l, l < n → (fusionLabelLoop F i n (d0, f0, ComputeHeight F i f0)).2.2
      ≤ ComputeHeight F i l) ∧
    ((fusionLabelLoop F i n (d0, f0, ComputeHeight F i f0)).2.1 = f0 ∨
      (fusionLabelLoop F i n (d0, f0, ComputeHeight F i f0)).2.1 < n) := by
  induction n with
  | zero =>
    exact ⟨rfl, le_refl _, fun l hl => absurd hl (Nat.not_lt_zero l), Or.inl rfl⟩
  | succ n ih =>
    obtain ⟨h1, h2, h3, h4⟩ := ih
    simp only [fusionLabelLoop]
    by_cases hc : ComputeHeight F i n < (fusionLabelLoop F i n (d0, f0, ComputeHeight F i f0)).2.2
    · rw [if_pos hc]
      refine ⟨rfl, le_of_lt (lt_of_lt_of_le hc h2), ?_, Or.inr (Nat.lt_succ_self n)⟩
      intro l hl
      rcases Nat.lt_succ_iff_lt_or_eq.mp hl with h | h
      · exact le_of_lt (lt_of_lt_of_le hc (h3 l h))
      · subst h; exact le_refl _
    · rw [if_neg hc]
      refine ⟨h1, h2, ?_, ?_⟩
      · intro l hl
        rcases Nat.lt_succ_iff_lt_or_eq.mp hl with h | h
        · exact h3 l h
        · subst h; exact not_lt.mp hc
      · rcases h4 with h | h
        · exact Or.inl h
        · exact Or.inr (Nat.lt_succ_of_lt h)

/-- The label and height that the inner loop of `InitialFusionLabeling` ends with do not
depend on the flag it starts with. -/
theorem fusionLabelLoop_flag_free (F : Fields) (i : NodeId) (d0 : Bool) (f0 : Label) (h0 : REAL)
    (n : Nat) :
    (fusionLabelLoop F i n (d0, f0, h0)).2 = (fusionLabelLoop F i n (false, f0, h0)).2 := by
  induction n with
  | zero => rfl
  | succ n ih =>
    simp only [fusionLabelLoop]
    rw [ih]
    by_cases hc : ComputeHeight F i n < (fusionLabelLoop F i n (false, f0, h0)).2.2
    · rw [if_pos hc, if_pos hc]
    · rw [if_neg hc, if_neg hc, ih]

/-- The outer loop of `InitialFusionLabeling`: the fusion label of every node below `n`
is the result of the inner loop from its current label. -/
theorem fusionLoop_labels (F : Fields) (d0 : Bool) (fl0 : List Label) (n : Nat) :
    (fusionLoop F n (d0, fl0)).2.length = fl0.length ∧
    ∀ v, (fusionLoop F n (d0, fl0)).2.getD v 0 =
      if v < n ∧ v < fl0.length then
        (fusionLabelLoop F v F.m_num_labels
          (false, labelAt F.m_labels v, ComputeHeight F v (labelAt F.m_labels v))).2.1
      else fl0.getD v 0 := by
  induction n with
  | zero => exact ⟨rfl, fun v => by simp [fusionLoop]⟩
  | succ n ih =>
    obtain ⟨h1, h2⟩ := ih
    simp only [fusionLoop]
    refine ⟨by rw [List.length_set, h1], ?_⟩
    intro v
    rw [getD_set_eq, h1, fusionLabelLoop_flag_free]
    by_cases hv : n = v
    · subst hv
      by_cases hlen : n < fl0.length
      · have hc : n = n ∧ n < fl0.length := ⟨rfl, hlen⟩
        have hc2 : n < n + 1 ∧ n < fl0.length := ⟨Nat.lt_succ_self n, hlen⟩
        rw [if_pos hc, if_pos hc2]
      · rw [if_neg (fun h => hlen h.2), if_neg (fun h => hlen h.2), h2 n, if_neg (by omega)]
    · rw [if_neg (fun h => hv h.1), h2 v]
      by_cases hc : v < n ∧ v < fl0.length
      · have hc2 : v < n + 1 ∧ v < fl0.length := ⟨by omega, hc.2⟩
        rw [if_pos hc, if_pos hc2]
      · have hc2 : ¬ (v < n + 1 ∧ v < fl0.length) := fun h => hc ⟨by omega, h.2⟩
        rw [if_neg hc, if_neg hc2]

/-- After `InitialFusionLabeling` the fusion label of a node is no higher than any label
below `L` nor than the current label, is the current label or a label below `L`, and is
the current label when that already is of least height. -/
theorem InitialFusionLabeling_labels (F : Fields)
    (hlen : F.m_fusion_labels.length = F.m_labels.length) {v : NodeId}
    (hv : v < F.m_labels.length) :
    (∀ l, l < F.m_num_labels →
      ComputeHeight F v (labelAt (InitialFusionLabeling F).2.m_fusion_labels v)
        ≤ ComputeHeight F v l) ∧
    ComputeHeight F v (labelAt (InitialFusionLabeling F).2.m_fusion_labels v)
      ≤ ComputeHeight F v (labelAt F.m_labels v) ∧
    (labelAt (InitialFusionLabeling F).2.m_fusion_labels v = labelAt F.m_labels v ∨
      labelAt (InitialFusionLabeling F).2.m_fusion_labels v < F.m_num_labels) ∧
    ((∀ l, l < F.m_num_labels →
        ComputeHeight F v (labelAt F.m_labels v) ≤ ComputeHeight F v l) →
      labelAt (InitialFusionLabeling F).2.m_fusion_labels v = labelAt F.m_labels v) := by
  have hget : labelAt (InitialFusionLabeling F).2.m_fusion_labels v =
      (fusionLabelLoop F v F.m_num_labels
        (false, labelAt F.m_labels v, ComputeHeight F v (labelAt F.m_labels v))).2.1 := by
    unfold labelAt InitialFusionLabeling
    simp only
    rw [(fusionLoop_labels F false F.m_fusion_labels F.m_labels.length).2 v,
      if_pos ⟨hv, by rw [hlen]; exact hv⟩]
    rfl
  obtain ⟨h1, h2, h3, h4⟩ := fusionLabelLoop_min F v false (labelAt F.m_labels v) F.m_num_labels
  rw [hget]
  refine ⟨?_, ?_, h4, ?_⟩
  · intro l hl
    rw [← h1]
    exact h3 l hl
  · rw [← h1]
    exact h2
  · intro hmin
    rw [fusionLabelLoop_of_le F v false _ _ _ hmin]

end DualGuidedFusionMove

/-! ### The shape of the dual along the run -/

/-- A dual with one table per clique, each of the shape of its clique, has the shape of
the model. -/
theorem DualShaped.of_getD {E : MultilabelEnergy} {m_dual : List Dual}
    (hlen : m_dual.length = E.Cliques.length)
    (h : ∀ ci (hci : ci < E.Cliques.length),
      Dual.HasShape (m_dual.getD ci []) E.Cliques[ci].Size E.NumLabels) :
    DualShaped E m_dual := by
  apply List.forall₂_of_length_eq_of_get hlen.symm
  intro i h1 h2
  have := h i h1
  rw [List.getD_eq_getElem _ _ h2] at this
  exact this

/-- The tables that a run of `pushBackLoop` returns are the results of its body, clique
by clique. -/
theorem pushBackLoop_ok {body : Clique → Except Fault Dual} (cs : List Clique) :
    ∀ ds, pushBackLoop body cs = .ok ds →
      ds.length = cs.length ∧
      ∀ j (hj : j < cs.length), body cs[j] = .ok (ds.getD j []) := by
  induction cs with
  | nil =>
    intro ds h
    simp only [pushBackLoop, Except.ok.injEq] at h
    subst h
    exact ⟨rfl, fun j hj => absurd hj (Nat.not_lt_zero j)⟩
  | cons c cs ih =>
    intro ds h
    simp only [pushBackLoop] at h
    cases hb : body c with
    | error e => rw [hb] at h; cases h
    | ok d =>
      rw [hb] at h
      simp only at h
      cases hl : pushBackLoop body cs with
      | error e => rw [hl] at h; cases h
      | ok ds1 =>
        rw [hl] at h
        simp only [Except.ok.injEq] at h
        subst h
        obtain ⟨h1, h2⟩ := ih ds1 hl
        refine ⟨by simp [h1], ?_⟩
        intro j hj
        cases j with
        | zero => simpa using hb
        | succ j =>
          simp only [List.getElem_cons_succ, List.getD_cons_succ]
          exact h2 j (Nat.lt_of_succ_lt_succ hj)

namespace SubmodularPrimalDual2

/-- A table that the loop body of `InitialDual` returns has `k` rows of `L` entries. -/
theorem InitialDualClique_hasShape {L : Nat} {m_labels : List Label} {c : Clique} {d : Dual}
    (h : InitialDualClique L m_labels c = .ok d) : d.HasShape c.Size L := by
  unfold InitialDualClique at h
  simp only at h
  split at h
  · cases h
  · split at h
    · cases h
    · split at h
      · cases h
      · simp only [Except.ok.injEq] at h
        subst h
        exact averageLoop_hasShape _ _ _ _ (hasShape_replicate _ _)

/-- Whenever `InitialDual` returns, it has kept the labeling and the index, and the dual
has the shape of the model. -/
theorem InitialDual_shaped {E : MultilabelEnergy} {s s1 : State}
    (h : InitialDual E s = .ok s1) :
    s1.m_labels = s.m_labels ∧ s1.m_node_clique_list = s.m_node_clique_list ∧
    DualShaped E s1.m_dual := by
  unfold InitialDual at h
  cases hr : pushBackLoop (InitialDualClique E.NumLabels s.m_labels) E.Cliques with
  | error e => rw [hr] at h; cases h
  | ok ds =>
    rw [hr] at h
    injection h with h
    subst h
    obtain ⟨h1, h2⟩ := pushBackLoop_ok E.Cliques ds hr
    exact ⟨rfl, rfl, DualShaped.of_getD h1 (fun ci hci => InitialDualClique_hasShape (h2 ci hci))⟩

/-- Whenever `PreEditDual` returns, the dual has kept the shape of the model. -/
theorem PreEditDual_shaped {E : MultilabelEnergy} {alpha : Label} {s s1 : State}
    (h : PreEditDual E alpha s = .ok s1) (hshape : DualShaped E s.m_dual) :
    DualShaped E s1.m_dual := by
  obtain ⟨_, _, h3, h4⟩ := PreEditDual_ok h
  apply DualShaped.of_getD (by rw [h3]; exact hshape.length)
  intro ci hci
  have hci2 : ci < s.m_dual.length := by rw [hshape.length]; exact hci
  have hb := (h4 ci hci).1 hci2
  obtain ⟨_, hd⟩ := (PreEditDualClique_ok_iff _ _ _ _ _).mp hb
  rw [hd]
  exact psiUpdateLoop_hasShape _ _ _ _ (hshape.getD hci)

theorem phiLoop_hasShape (phiCi : List REAL) (alpha : Label) (n : Nat) {d : Dual}
    {k L : Nat} (h : d.HasShape k L) : (phiLoop phiCi alpha n d).HasShape k L := by
  induction n with
  | zero => exact h
  | succ n ih =>
    simp only [phiLoop]
    exact ih.setEntry _ _ _

/-- Whenever `UpdatePrimalDual(alpha)` returns with `alpha < L`, the labeling is still a
labeling of the model and the dual has kept the shape of the model, whatever the solver
reported. -/
theorem UpdatePrimalDual_keeps {E : MultilabelEnergy} {Solve : SubmodularIBFS → SubmodularIBFS}
    {alpha : Label} {s : State} {crf : SubmodularIBFS} {r : Bool × State × SubmodularIBFS}
    (h : UpdatePrimalDual E Solve alpha s crf = .ok r) (halpha : alpha < E.NumLabels) :
    (IsLabeling E s.m_labels → IsLabeling E r.2.1.m_labels) ∧
    (DualShaped E s.m_dual → DualShaped E r.2.1.m_dual) ∧
    r.2.1.m_node_clique_list = s.m_node_clique_list := by
  obtain ⟨crf1, _, _, _, h4, h5, h6⟩ := UpdatePrimalDual_ok h
  obtain ⟨l1, l2⟩ := harvestLoop_labels (Solve crf1) alpha s.m_labels false s.m_labels.length
  refine ⟨?_, ?_, h6⟩
  · intro hlab
    rw [h4]
    refine ⟨by rw [l1]; exact hlab.1, ?_⟩
    intro l hl
    obtain ⟨v, hv, rfl⟩ := List.getElem_of_mem hl
    have h3 := l2 v
    rw [List.getD_eq_getElem _ _ hv] at h3
    rw [h3]
    have hv2 : v < s.m_labels.length := by rw [l1] at hv; exact hv
    split
    · exact halpha
    · rw [List.getD_eq_getElem _ _ hv2]
      exact hlab.2 _ (List.getElem_mem _)
  · intro hshape
    obtain ⟨p1, p2⟩ := phiCliqueLoop_spec (Solve crf1).cliques alpha E.Cliques.length s.m_dual
    rw [h5]
    apply DualShaped.of_getD (by rw [p1]; exact hshape.length)
    intro ci hci
    rw [p2 ci]
    split
    · exact phiLoop_hasShape _ _ _ (hshape.getD hci)
    · exact hshape.getD hci

/-- Whenever `PostEditDual` returns, the dual has kept the shape of the model. -/
theorem PostEditDual_shaped {E : MultilabelEnergy} {s s1 : State}
    (h : PostEditDual E s = .ok s1) (hshape : DualShaped E s.m_dual) :
    DualShaped E s1.m_dual := by
  unfold PostEditDual at h
  cases hr : cliqueLoop (PostEditDualClique s.m_labels) E.Cliques 0 s.m_dual with
  | error e => rw [hr] at h; cases h
  | ok r =>
    rw [hr] at h
    injection h with h
    subst h
    obtain ⟨h1, _, _, h4⟩ := cliqueLoop_ok E.Cliques 0 s.m_dual r hr
    apply DualShaped.of_getD (by rw [h1]; exact hshape.length)
    intro ci hci
    have hci2 : 0 + ci < s.m_dual.length := by rw [hshape.length]; omega
    have hb := h4 ci hci hci2
    rw [Nat.zero_add] at hb
    obtain ⟨_, _, hd⟩ := PostEditDualClique_spd2_inv hb
    show Dual.HasShape (r.getD ci []) _ _
    rw [hd]
    exact averageLoop_hasShape _ _ _ _ (hshape.getD hci)

/-! ### Induction over the loops of `Solve` -/

/-- A property of loop states that every alpha-move keeps holds after a run of the
`for alpha` loop. -/
theorem sweepLoop_induct {E : MultilabelEnergy} {Solve : SubmodularIBFS → SubmodularIBFS}
    {P : State → SubmodularIBFS → Prop}
    (hstep : ∀ alpha, alpha < E.NumLabels → ∀ r r1, P r.2.1 r.2.2 →
      alphaStep E Solve alpha r = .ok r1 → P r1.2.1 r1.2.2)
    (n : Nat) (hn : n ≤ E.NumLabels) {r r1 : Bool × State × SubmodularIBFS}
    (hP : P r.2.1 r.2.2) (h : sweepLoop E Solve n r = .ok r1) : P r1.2.1 r1.2.2 := by
  induction n generalizing r1 with
  | zero =>
    simp only [sweepLoop, Except.ok.injEq] at h
    subst h
    exact hP
  | succ n ih =>
    simp only [sweepLoop] at h
    cases h0 : sweepLoop E Solve n r with
    | error e => rw [h0] at h; cases h
    | ok r0 =>
      rw [h0] at h
      simp only at h
      exact hstep n (Nat.lt_of_succ_le hn) r0 r1 (ih (Nat.le_of_succ_le hn) h0) h

/-- A property of loop states that every alpha-move keeps holds of the state the `while`
loop of `Solve` returns. -/
theorem whileLoop_induct {E : MultilabelEnergy} {Solve : SubmodularIBFS → SubmodularIBFS}
    {P : State → SubmodularIBFS → Prop}
    (hstep : ∀ alpha, alpha < E.NumLabels → ∀ r r1, P r.2.1 r.2.2 →
      alphaStep E Solve alpha r = .ok r1 → P r1.2.1 r1.2.2) :
    ∀ (fuel num_round : Nat) (s : State) (crf : SubmodularIBFS)
      (r : Nat × State × SubmodularIBFS), P s crf →
      whileLoop E Solve fuel num_round s crf = some (.ok r) → P r.2.1 r.2.2 := by
  intro fuel
  induction fuel with
  | zero => intro num_round s crf r _ h; cases h
  | succ fuel ih =>
    intro num_round s crf r hP h
    simp only [whileLoop] at h
    cases hsw : sweepLoop E Solve E.NumLabels (false, s, crf) with
    | error e => rw [hsw] at h; cases h
    | ok r0 =>
      rw [hsw] at h
      simp only at h
      have hP0 : P r0.2.1 r0.2.2 :=
        sweepLoop_induct hstep E.NumLabels (le_refl _) (r := (false, s, crf)) hP hsw
      by_cases hchg : r0.1 = true
      · rw [if_pos hchg] at h
        exact ih _ _ _ _ hP0 h
      · rw [if_neg hchg] at h
        simp only [Option.some.injEq, Except.ok.injEq] at h
        subst h
        exact hP0

/-- What `Solve` goes through before its loop, when it returns. -/
theorem Solve_ok {E : MultilabelEnergy} {solver : SubmodularIBFS → SubmodularIBFS}
    {fuel : Nat} {s : State} {r : Nat × State × SubmodularIBFS}
    (h : Solve E solver fuel s = some (.ok r)) :
    ∃ crf s2, SetupGraph E s SubmodularIBFS.empty = .ok crf ∧
      InitialDual E (InitialLabeling E s) = .ok s2 ∧
      whileLoop E solver fuel 0 (InitialNodeCliqueList E s2) crf = some (.ok r) := by
  unfold Solve at h
  cases hg : SetupGraph E s SubmodularIBFS.empty with
  | error e => rw [hg] at h; cases h
  | ok crf =>
    rw [hg] at h
    simp only at h
    cases hd : InitialDual E (InitialLabeling E s) with
    | error e => rw [hd] at h; cases h
    | ok s2 =>
      rw [hd] at h
      exact ⟨crf, s2, rfl, rfl, h⟩

/-- One alpha-move with `alpha < L` keeps the labeling a labeling of the model and the
dual of the shape of the model, whatever the solver reports. -/
theorem alphaStep_keeps {E : MultilabelEnergy} {Solve : SubmodularIBFS → SubmodularIBFS}
    {alpha : Label} (halpha : alpha < E.NumLabels) {r r1 : Bool × State × SubmodularIBFS}
    (h : alphaStep E Solve alpha r = .ok r1)
    (hP : IsLabeling E r.2.1.m_labels ∧ DualShaped E r.2.1.m_dual) :
    IsLabeling E r1.2.1.m_labels ∧ DualShaped E r1.2.1.m_dual := by
  obtain ⟨s1, u, h1, h2, h3, _, _⟩ := alphaStep_ok h
  have hl1 := (PreEditDual_ok h1).1
  have hs1 := PreEditDual_shaped h1 hP.2
  obtain ⟨k1, k2, _⟩ := UpdatePrimalDual_keeps h2 halpha
  have hl3 := (PostEditDual_frame h3).1
  refine ⟨?_, PostEditDual_shaped h3 (k2 hs1)⟩
  rw [hl3]
  exact k1 (by rw [hl1]; exact hP.1)

end SubmodularPrimalDual2

/-! ### The energy along a run of `Solve` -/

namespace SubmodularPrimalDual2

/-- `SetupAlphaEnergy` keeps the topology of the flow solver. -/
theorem SetupAlphaEnergy_flowShaped {E : MultilabelEnergy} {s : State} {alpha : Label}
    {crf crf1 : SubmodularIBFS} (hflow : FlowShaped E crf)
    (h : SetupAlphaEnergy E s alpha crf = .ok crf1) : FlowShaped E crf1 := by
  obtain ⟨_, u2, _, _, _⟩ := unaryLoop_spec E s alpha s.m_labels.length
    (crf.ClearUnaries.AddConstantTerm (-crf.ClearUnaries.GetConstantTerm))
  have hcl0 : (unaryLoop E s alpha s.m_labels.length
      (crf.ClearUnaries.AddConstantTerm (-crf.ClearUnaries.GetConstantTerm))).cliques =
      crf.cliques := u2
  have hguard : ∀ j (hj : j < E.Cliques.length), E.Cliques[j].Size < 32 ∧
      E.Cliques[j].Size = ((unaryLoop E s alpha s.m_labels.length
        (crf.ClearUnaries.AddConstantTerm (-crf.ClearUnaries.GetConstantTerm))).cliques.getD
          (0 + j) IBFSClique.blank).Size := by
    intro j hj
    obtain ⟨_, hk31, hN, _⟩ := hflow.at hj
    rw [hcl0, Nat.zero_add]
    refine ⟨by omega, ?_⟩
    unfold IBFSClique.Size Clique.Size
    rw [hN]
  obtain ⟨cl, c1, c2, _, c4⟩ := alphaCliqueLoop_spec s alpha E.Cliques 0 _ hguard
  have hun := (SetupAlphaEnergy_unaries h).1
  unfold SetupAlphaEnergy at h
  simp only [] at h
  rw [c1] at h
  simp only [Except.ok.injEq] at h
  subst h
  have hlen : crf.cliques.length = E.Cliques.length := (List.Forall₂.length_eq hflow.2).symm
  refine ⟨by rw [hun]; exact hflow.1, ?_⟩
  show List.Forall₂ _ E.Cliques cl
  apply List.forall₂_of_length_eq_of_get (by rw [c2, hcl0, hlen])
  intro i h1 h2
  obtain ⟨hj2, hk31, hN, hT⟩ := hflow.at h1
  have := c4 i h1 (by rw [hcl0, Nat.zero_add]; exact hj2)
  rw [Nat.zero_add, hcl0, List.getD_eq_getElem _ _ h2] at this
  show E.Cliques[i].Size < 31 ∧ cl[i].Nodes = E.Cliques[i].Nodes ∧
    cl[i].EnergyTable.length = 2 ^ E.Cliques[i].Size
  rw [this]
  exact ⟨hk31, hN, by simp only []; rw [alphaTableLoop_length]; exact hT⟩

/-- The index that `InitialNodeCliqueList` builds depends on the length of the labeling
only. -/
theorem index_of_length {E : MultilabelEnergy} {s s1 : State}
    (hl : s1.m_labels.length = s.m_labels.length)
    (hn : s1.m_node_clique_list = s.m_node_clique_list)
    (h : s.m_node_clique_list = (InitialNodeCliqueList E s).m_node_clique_list) :
    s1.m_node_clique_list = (InitialNodeCliqueList E s1).m_node_clique_list := by
  rw [hn, h]
  unfold InitialNodeCliqueList
  simp only
  rw [hl]

/-- One alpha-move with a solver that keeps the topology and reports an assignment no
costlier than the all-zero one: the labeling stays a labeling, the index and the
topology are kept, and the primal energy does not rise. -/
theorem alphaStep_descent {E : MultilabelEnergy} {solver : SubmodularIBFS → SubmodularIBFS}
    (hrange : CliquesInRange E)
    (hsolve : ∀ crf, FlowShaped E crf → FlowShaped E (solver crf) ∧
      crf.Energy (solverAssignment (solver crf)) ≤ crf.Energy (fun _ => false))
    {alpha : Label} (halpha : alpha < E.NumLabels) {r r1 : Bool × State × SubmodularIBFS}
    (h : alphaStep E solver alpha r = .ok r1)
    (hlab : IsLabeling E r.2.1.m_labels)
    (hncl : r.2.1.m_node_clique_list = (InitialNodeCliqueList E r.2.1).m_node_clique_list)
    (hflow : FlowShaped E r.2.2) :
    IsLabeling E r1.2.1.m_labels ∧
    r1.2.1.m_node_clique_list = (InitialNodeCliqueList E r1.2.1).m_node_clique_list ∧
    FlowShaped E r1.2.2 ∧
    primalEnergy E r1.2.1.m_labels ≤ primalEnergy E r.2.1.m_labels := by
  obtain ⟨s1, u, h1, h2, h3, _, h5⟩ := alphaStep_ok h
  obtain ⟨hl1, hn1, _, _⟩ := PreEditDual_ok h1
  have hlab1 : IsLabeling E s1.m_labels := by rw [hl1]; exact hlab
  have hncl1 := index_of_length (E := E) (by rw [hl1]) hn1 hncl
  obtain ⟨crf1, e1, e2⟩ := SetupAlphaEnergy_energy (s := s1) alpha hlab1 hrange hncl1 hflow
  obtain ⟨crf1', e1', hu2, _, hu4, _, hu6⟩ := UpdatePrimalDual_ok h2
  rw [e1] at e1'
  injection e1' with e1'
  subst e1'
  have hflow1 := SetupAlphaEnergy_flowShaped hflow e1
  obtain ⟨q1, q2⟩ := hsolve crf1 hflow1
  obtain ⟨k1, _, _⟩ := UpdatePrimalDual_keeps h2 halpha
  obtain ⟨hl3, hn3⟩ := PostEditDual_frame h3
  have hlabu := k1 hlab1
  refine ⟨by rw [hl3]; exact hlabu, ?_, by rw [h5, hu2]; exact q1, ?_⟩
  · exact index_of_length (E := E) (by rw [hl3, hlabu.1, hlab.1]) (by rw [hn3, hu6, hn1]) hncl
  · rw [hl3, hu4, harvestLoop_eq_fused, ← hl1]
    rw [e2, e2, fusedLabels_false] at q2
    linarith

/-- Whenever `Solve` returns, with a solver that keeps the topology and reports
assignments no costlier than the all-zero one, the returned labeling is a labeling of the
model whose primal energy is at most that of the initial labeling. -/
theorem Solve_descent {E : MultilabelEnergy} {solver : SubmodularIBFS → SubmodularIBFS}
    {fuel : Nat} {s : State} {r : Nat × State × SubmodularIBFS}
    (hrange : CliquesInRange E) (hlen : s.m_labels.length = E.NumNodes)
    (hinit : ∀ l ∈ s.m_labels, l < E.NumLabels)
    (hsolve : ∀ crf, FlowShaped E crf → FlowShaped E (solver crf) ∧
      crf.Energy (solverAssignment (solver crf)) ≤ crf.Energy (fun _ => false))
    (h : Solve E solver fuel s = some (.ok r)) :
    IsLabeling E r.2.1.m_labels ∧
    primalEnergy E r.2.1.m_labels ≤ primalEnergy E (InitialLabeling E s).m_labels := by
  obtain ⟨crf, s2, hg, hd, hw⟩ := Solve_ok h
  obtain ⟨hl2, _, _⟩ := InitialDual_shaped hd
  have hlab0 : IsLabeling E (InitialLabeling E s).m_labels :=
    ⟨by
      show (labelingLoop E.Unary E.NumLabels E.NumNodes s.m_labels).length = E.NumNodes
      rw [(labelingLoop_spec _ _ _ _).1, hlen],
     labelingLoop_range E.Unary s.m_labels E.NumNodes hinit⟩
  have hflow := SetupGraph_flowShaped hlen hg
  have hP := whileLoop_induct
    (P := fun t c => IsLabeling E t.m_labels ∧
      t.m_node_clique_list = (InitialNodeCliqueList E t).m_node_clique_list ∧
      FlowShaped E c ∧
      primalEnergy E t.m_labels ≤ primalEnergy E (InitialLabeling E s).m_labels)
    (fun alpha halpha r0 r1 hp hstep => by
      obtain ⟨a1, a2, a3, a4⟩ := alphaStep_descent hrange hsolve halpha hstep hp.1 hp.2.1 hp.2.2.1
      exact ⟨a1, a2, a3, le_trans a4 hp.2.2.2⟩)
    fuel 0 (InitialNodeCliqueList E s2) crf r
    ⟨by show IsLabeling E s2.m_labels; rw [hl2]; exact hlab0, rfl, hflow, by
      show primalEnergy E s2.m_labels ≤ _
      rw [hl2]⟩ hw
  exact ⟨hP.1, hP.2.2.2⟩

/-- Whenever `Solve` returns, whatever the solver reports, the returned labeling is a
labeling of the model and the dual has the shape of the model. -/
theorem Solve_keeps {E : MultilabelEnergy} {solver : SubmodularIBFS → SubmodularIBFS}
    {fuel : Nat} {s : State} {r : Nat × State × SubmodularIBFS}
    (hlen : s.m_labels.length = E.NumNodes) (hinit : ∀ l ∈ s.m_labels, l < E.NumLabels)
    (h : Solve E solver fuel s = some (.ok r)) :
    IsLabeling E r.2.1.m_labels ∧ DualShaped E r.2.1.m_dual := by
  obtain ⟨crf, s2, _, hd, hw⟩ := Solve_ok h
  obtain ⟨hl2, _, hshape⟩ := InitialDual_shaped hd
  have hlab0 : IsLabeling E (InitialLabeling E s).m_labels :=
    ⟨by
      show (labelingLoop E.Unary E.NumLabels E.NumNodes s.m_labels).length = E.NumNodes
      rw [(labelingLoop_spec _ _ _ _).1, hlen],
     labelingLoop_range E.Unary s.m_labels E.NumNodes hinit⟩
  exact whileLoop_induct
    (P := fun t _ => IsLabeling E t.m_labels ∧ DualShaped E t.m_dual)
    (fun alpha halpha r0 r1 hp hstep => alphaStep_keeps halpha hstep hp)
    fuel 0 (InitialNodeCliqueList E s2) crf r
    ⟨by show IsLabeling E s2.m_labels; rw [hl2]; exact hlab0, hshape⟩ hw

end SubmodularPrimalDual2

/-! ### Which cliques `InitialDual` accepts -/

/-- A run of `pushBackLoop` returns when its body returns on every clique. -/
theorem pushBackLoop_total {body : Clique → Except Fault Dual} (cs : List Clique)
    (h : ∀ c ∈ cs, ∃ d, body c = .ok d) : ∃ ds, pushBackLoop body cs = .ok ds := by
  induction cs with
  | nil => exact ⟨[], rfl⟩
  | cons c cs ih =>
    obtain ⟨d, hd⟩ := h c (List.mem_cons_self _ _)
    obtain ⟨ds, hds⟩ := ih (fun c1 h1 => h c1 (List.mem_cons_of_mem _ h1))
    exact ⟨d :: ds, by simp only [pushBackLoop, hd, hds]⟩

/-- A fault of `pushBackLoop` is the fault of its body on one of the cliques. -/
theorem pushBackLoop_fault {body : Clique → Except Fault Dual} (cs : List Clique) {e : Fault}
    (h : pushBackLoop body cs = .error e) : ∃ c ∈ cs, body c = .error e := by
  induction cs with
  | nil => simp [pushBackLoop] at h
  | cons c cs ih =>
    simp only [pushBackLoop] at h
    cases hb : body c with
    | error e1 =>
      rw [hb] at h
      simp only [Except.error.injEq] at h
      subst h
      exact ⟨c, List.mem_cons_self _ _, hb⟩
    | ok d =>
      rw [hb] at h
      simp only at h
      cases hl : pushBackLoop body cs with
      | error e1 =>
        rw [hl] at h
        simp only [Except.error.injEq] at h
        subst h
        obtain ⟨c1, hc1, he⟩ := ih hl
        exact ⟨c1, List.mem_cons_of_mem _ hc1, he⟩
      | ok ds => rw [hl] at h; cases h

namespace SubmodularPrimalDual2

/-- The loop body of `InitialDual` stops at an assertion on a clique of 32 or more nodes
and on a clique of negative energy. -/
theorem InitialDualClique_rejects (L : Nat) (m_labels : List Label) (c : Clique)
    (h : 32 ≤ c.Size ∨ c.Energy (localLabels m_labels c) < 0) :
    InitialDualClique L m_labels c = .error .assertion := by
  unfold InitialDualClique
  simp only
  by_cases hk : c.Size < 32
  · have he : ¬ c.Energy (localLabels m_labels c) ≥ 0 := by
      rcases h with h | h
      · omega
      · exact not_le.mpr h
    rw [if_neg (not_not.mpr hk), if_pos he]
  · rw [if_pos hk]

/-- The loop body of `InitialDual` returns on a clique of 1 to 31 nodes and nonnegative
energy. -/
theorem InitialDualClique_accepts (L : Nat) (m_labels : List Label) (c : Clique)
    (hk1 : 1 ≤ c.Size) (hk2 : c.Size < 32) (he : 0 ≤ c.Energy (localLabels m_labels c)) :
    ∃ d, InitialDualClique L m_labels c = .ok d := by
  unfold InitialDualClique
  simp only
  rw [if_neg (not_not.mpr hk2), if_neg (not_not.mpr he), if_neg (by omega)]
  exact ⟨_, rfl⟩

/-- On a nonempty clique the only fault of the loop body of `InitialDual` is an
assertion. -/
theorem InitialDualClique_fault {L : Nat} {m_labels : List Label} {c : Clique} {e : Fault}
    (hk1 : 1 ≤ c.Size) (h : InitialDualClique L m_labels c = .error e) : e = .assertion := by
  unfold InitialDualClique at h
  simp only at h
  split at h
  · injection h with h; exact h.symm
  · split at h
    · injection h with h; exact h.symm
    · rw [if_neg (by omega)] at h
      cases h

end SubmodularPrimalDual2

namespace DualGuidedFusionMove

theorem InitialDualClique_rejects_negative (L : Nat) (m_labels : List Label) (c : Clique)
    (h : c.Energy (localLabels m_labels c) < 0) :
    InitialDualClique L m_labels c = .error .assertion := by
  unfold InitialDualClique
  simp only
  rw [if_pos (not_le.mpr h)]

theorem InitialDualClique_accepts_nonneg (L : Nat) (m_labels : List Label) (c : Clique)
    (hk1 : 1 ≤ c.Size) (he : 0 ≤ c.Energy (localLabels m_labels c)) :
    ∃ d, InitialDualClique L m_labels c = .ok d := by
  unfold InitialDualClique
  unfold Clique.Size at hk1
  simp only
  rw [if_neg (not_not.mpr he), if_neg (by omega)]
  exact ⟨_, rfl⟩

theorem InitialDualClique_fault_assertion {L : Nat} {m_labels : List Label} {c : Clique} {e : Fault}
    (hk1 : 1 ≤ c.Size) (h : InitialDualClique L m_labels c = .error e) : e = .assertion := by
  unfold InitialDualClique at h
  unfold Clique.Size at hk1
  simp only at h
  split at h
  · injection h with h; exact h.symm
  · rw [if_neg (by omega)] at h
    cases h

end DualGuidedFusionMove

/-! ### The set-function kit -/

theorem testBit_maskDiff (S T i : Nat) :
    (maskDiff S T).testBit i = (S.testBit i && !T.testBit i) := by
  unfold maskDiff
  rw [Nat.testBit_xor, Nat.testBit_and]
  cases S.testBit i <;> cases T.testBit i <;> rfl

theorem maskDiff_lt {S k : Nat} (T : Nat) (h : S < 2 ^ k) : maskDiff S T < 2 ^ k := by
  apply Nat.lt_pow_two_of_testBit
  intro i hi
  rw [testBit_maskDiff, testBit_false_of_lt_two_pow h hi]
  rfl

/-- Adding a position of `T` to `S` does not change `S \ T`. -/
theorem maskDiff_or {T i : Nat} (S : Nat) (h : T.testBit i = true) :
    maskDiff (S ||| 2 ^ i) T = maskDiff S T := by
  apply Nat.eq_of_testBit_eq
  intro j
  rw [testBit_maskDiff, testBit_maskDiff, Nat.testBit_or, Nat.testBit_two_pow]
  by_cases hij : i = j
  · subst hij
    rw [h]
    simp
  · simp [hij]

/-- A set disjoint from `T` is its own `S \ T`. -/
theorem maskDiff_disjoint {S T : Nat} (h : S &&& T = 0) : maskDiff S T = S := by
  unfold maskDiff
  rw [h, Nat.xor_zero]

theorem getD_zero_marginal_set (k : Nat) (g : List REAL) (T : Nat) {S : Nat} (h : S < 2 ^ k) :
    (zero_marginal_set k g T).getD S 0 = g.getD (maskDiff S T) 0 := by
  unfold zero_marginal_set
  rw [List.getD_eq_getElem _ _ (by simpa using h)]
  simp

namespace DualGuidedFusionMove

/-- The bits of the mask `fusion_equals_current`: the positions below `n` whose fusion
label is the current label. -/
theorem testBit_fusionEqualsCurrent (current_labels fusion_labels : List Label) (n i : Nat) :
    (fusionEqualsCurrent current_labels fusion_labels n).testBit i =
      decide (i < n ∧ current_labels.getD i 0 = fusion_labels.getD i 0) := by
  induction n with
  | zero => simp [fusionEqualsCurrent]
  | succ n ih =>
    simp only [fusionEqualsCurrent]
    by_cases hc : current_labels.getD n 0 = fusion_labels.getD n 0
    · rw [if_pos hc, Nat.testBit_or, Nat.testBit_two_pow, ih]
      by_cases hni : n = i
      · subst hni
        have hp : n < n + 1 ∧ current_labels.getD n 0 = fusion_labels.getD n 0 :=
          ⟨Nat.lt_succ_self n, hc⟩
        rw [decide_eq_true hp, decide_eq_true (rfl : n = n), Bool.or_true]
      · have : (i < n ∧ current_labels.getD i 0 = fusion_labels.getD i 0) ↔
            (i < n + 1 ∧ current_labels.getD i 0 = fusion_labels.getD i 0) :=
          ⟨fun h => ⟨by omega, h.2⟩, fun h => ⟨by omega, h.2⟩⟩
        rw [decide_eq_false hni, Bool.or_false]
        exact decide_eq_decide.mpr this
    · rw [if_neg hc, ih]
      have : (i < n ∧ current_labels.getD i 0 = fusion_labels.getD i 0) ↔
          (i < n + 1 ∧ current_labels.getD i 0 = fusion_labels.getD i 0) := by
        constructor
        · exact fun h => ⟨by omega, h.2⟩
        · rintro ⟨h1, h2⟩
          refine ⟨?_, h2⟩
          rcases Nat.lt_succ_iff_lt_or_eq.mp h1 with h | h
          · exact h
          · subst h; exact absurd h2 hc
      exact decide_eq_decide.mpr this

/-- The fusion table of `PreEditDual` does not depend on the positions whose fusion label
is the current label: `f(S) = f(S \ T)` for the mask `T = fusion_equals_current`. -/
theorem fusionEnergy_maskDiff (c : Clique) (current_labels fusion_labels : List Label)
    (a : Nat) :
    fusionEnergy c current_labels fusion_labels
        (maskDiff a (fusionEqualsCurrent current_labels fusion_labels current_labels.length)) =
      fusionEnergy c current_labels fusion_labels a := by
  unfold fusionEnergy fusionBuf
  congr 1
  apply List.map_congr_left
  intro i hi
  rw [List.mem_range] at hi
  rw [testBit_maskDiff, testBit_fusionEqualsCurrent]
  by_cases heq : current_labels.getD i 0 = fusion_labels.getD i 0
  · rw [heq]
    split <;> split <;> rfl
  · have : ¬ (i < current_labels.length ∧ current_labels.getD i 0 = fusion_labels.getD i 0) :=
      fun h => heq h.2
    rw [decide_eq_false this]
    simp

end DualGuidedFusionMove

/-! ### The exact solver and scenario S1 -/

theorem foldl_min_le {α : Type} (en : α → REAL) (cands : List α) (b0 : α) :
    en (cands.foldl (fun b c => if en c < en b then c else b) b0) ≤ en b0 := by
  induction cands generalizing b0 with
  | nil => exact le_refl _
  | cons c cs ih =>
    simp only [List.foldl_cons]
    by_cases hc : en c < en b0
    · rw [if_pos hc]
      exact le_trans (ih c) (le_of_lt hc)
    · rw [if_neg hc]
      exact ih b0

/-- The exact solver keeps the topology and reports an assignment no costlier than the
all-zero one. -/
theorem exactSolve_quality (E : MultilabelEnergy) (crf : SubmodularIBFS)
    (hflow : FlowShaped E crf) :
    FlowShaped E (exactSolve crf) ∧
    crf.Energy (solverAssignment (exactSolve crf)) ≤ crf.Energy (fun _ => false) := by
  refine ⟨hflow, ?_⟩
  have h := foldl_min_le (fun l : List Int => crf.Energy (fun v => decide (l.getD v 0 = 1)))
    (allAssignments crf.unaries.length) (List.replicate crf.unaries.length 0)
  have h0 : (fun v : NodeId => decide ((List.replicate crf.unaries.length (0 : Int)).getD v 0 = 1))
      = (fun _ => false) := by
    funext v
    simp only [List.getD_eq_getElem?_getD, List.getElem?_replicate]
    split <;> simp
  simp only [h0] at h
  exact h

/-! ## The table size `1 << k` at the edge of the guard -/

namespace SubmodularPrimalDual2

theorem shl32_31_eq : shl32 31 = -2 ^ 31 := by decide

theorem shl32_31_toNat : (shl32 31).toNat = 0 := by decide

/-- `SetupGraph` returns when every clique has fewer than 31 nodes. -/
theorem SetupGraphLoop_total (cs : List Clique) (h : ∀ c ∈ cs, c.Size < 31) :
    ∀ crf : SubmodularIBFS, ∃ crf1, SetupGraphLoop cs crf = .ok crf1 := by
  induction cs with
  | nil => intro crf; exact ⟨crf, rfl⟩
  | cons c cs ih =>
    intro crf
    have hk : c.Size < 31 := h c (List.mem_cons_self _ _)
    simp only [SetupGraphLoop]
    rw [if_neg (by omega), if_neg (by rw [shl32_of_lt hk]; exact not_lt.mpr (by positivity))]
    exact ih (fun c1 hc1 => h c1 (List.mem_cons_of_mem _ hc1)) _

/-- When every clique passes the guard `k < 32` and one of them has 31 nodes, the loop
of `SetupGraph` stops at a table size that no vector can have. -/
theorem SetupGraphLoop_overflow (cs : List Clique) (h32 : ∀ c ∈ cs, c.Size < 32)
    (h31 : ∃ c ∈ cs, c.Size = 31) :
    ∀ crf : SubmodularIBFS, SetupGraphLoop cs crf = .error .allocation := by
  induction cs with
  | nil =>
    obtain ⟨c, hc, _⟩ := h31
    exact absurd hc (List.not_mem_nil c)
  | cons c cs ih =>
    intro crf
    have hk : c.Size < 32 := h32 c (List.mem_cons_self _ _)
    simp only [SetupGraphLoop]
    rw [if_neg (by omega)]
    by_cases hc : c.Size = 31
    · rw [hc, if_pos shl32_31]
    · have hk31 : c.Size < 31 := by omega
      rw [if_neg (by rw [shl32_of_lt hk31]; exact not_lt.mpr (by positivity))]
      refine ih (fun c1 hc1 => h32 c1 (List.mem_cons_of_mem _ hc1)) ?_ _
      obtain ⟨c1, hc1, hs⟩ := h31
      rcases List.mem_cons.mp hc1 with e | e
      · exact absurd (e ▸ hs) hc
      · exact ⟨c1, e, hs⟩

/-- Under its two guards `SetupAlphaEnergy` returns, and the table of every clique of
the flow solver is the result of the loop `for (a = 0; a < max_assgn; ++a)` on the table
of before. -/
theorem SetupAlphaEnergy_guarded {E : MultilabelEnergy} {s : State} {crf : SubmodularIBFS}
    (alpha : Label)
    (hg : ∀ j (hj : j < E.Cliques.length), E.Cliques[j].Size < 32 ∧
      E.Cliques[j].Size = (crf.cliques.getD j IBFSClique.blank).Size) :
    ∃ crf1, SetupAlphaEnergy E s alpha crf = .ok crf1 ∧
      ∀ ci (hci : ci < E.Cliques.length), ci < crf.cliques.length →
        (crf1.cliques.getD ci IBFSClique.blank).EnergyTable =
          alphaTableLoop
            (alphaEntry E.Cliques[ci] (s.m_dual.getD ci []) (localLabels s.m_labels E.Cliques[ci])
              alpha)
            (shl32 E.Cliques[ci].Size).toNat
            (crf.cliques.getD ci IBFSClique.blank).EnergyTable := by
  obtain ⟨_, u2, _, _, _⟩ := unaryLoop_spec E s alpha s.m_labels.length
    (crf.ClearUnaries.AddConstantTerm (-crf.ClearUnaries.GetConstantTerm))
  have hcl0 : (unaryLoop E s alpha s.m_labels.length
      (crf.ClearUnaries.AddConstantTerm (-crf.ClearUnaries.GetConstantTerm))).cliques =
      crf.cliques := u2
  have hguard : ∀ j (hj : j < E.Cliques.length), E.Cliques[j].Size < 32 ∧
      E.Cliques[j].Size = ((unaryLoop E s alpha s.m_labels.length
        (crf.ClearUnaries.AddConstantTerm (-crf.ClearUnaries.GetConstantTerm))).cliques.getD
          (0 + j) IBFSClique.blank).Size := by
    intro j hj
    rw [hcl0, Nat.zero_add]
    exact hg j hj
  obtain ⟨cl, c1, _, _, c4⟩ := alphaCliqueLoop_spec s alpha E.Cliques 0 _ hguard
  refine ⟨_, by unfold SetupAlphaEnergy; simp only []; rw [c1], ?_⟩
  intro ci hci hci2
  have := c4 ci hci (by rw [hcl0, Nat.zero_add]; exact hci2)
  rw [Nat.zero_add, hcl0] at this
  show (cl.getD ci IBFSClique.blank).EnergyTable = _
  rw [this]

end SubmodularPrimalDual2

namespace Examples

/-- The calls on the model with one clique of 31 nodes: `SetupGraph` stops at the table
size, and `SetupAlphaEnergy` returns without having written the table. -/
theorem edgeModel_run :
    SubmodularPrimalDual2.SetupGraph edgeModel (zeroState 31) SubmodularIBFS.empty
      = .error .allocation ∧
    ∃ crf1, SubmodularPrimalDual2.SetupAlphaEnergy edgeModel (zeroState 31) 0 edgeFlow
        = .ok crf1 ∧
      (crf1.cliques.getD 0 IBFSClique.blank).EnergyTable = [7] :=
  ⟨rfl, _, rfl, rfl⟩

end Examples

/-! ## A run of `Solve` from a labeling that is the only minimizer -/

namespace SubmodularPrimalDual2

/-- One alpha-move returns when every clique has between 1 and 31 nodes and the flow
solver has the topology of the model. -/
theorem alphaStep_total {E : MultilabelEnergy} (solver : SubmodularIBFS → SubmodularIBFS)
    (alpha : Label) {r : Bool × State × SubmodularIBFS}
    (hk : ∀ c ∈ E.Cliques, 1 ≤ c.Size ∧ c.Size < 32) (hflow : FlowShaped E r.2.2) :
    ∃ r1, alphaStep E solver alpha r = .ok r1 := by
  obtain ⟨s1, h1⟩ := PreEditDual_total (E := E) alpha r.2.1 (fun c hc => (hk c hc).2)
  obtain ⟨u, h2⟩ := UpdatePrimalDual_total solver alpha s1 hflow
  obtain ⟨ds, h3⟩ := cliqueLoop_total (PostEditDualClique u.2.1.m_labels) E.Cliques
    (fun c hc d => ⟨_, PostEditDualClique_spd2_ok (hk c hc).1 (hk c hc).2 d⟩) 0 u.2.1.m_dual
  have h4 : PostEditDual E u.2.1 = .ok { u.2.1 with m_dual := ds } := by
    unfold PostEditDual
    rw [h3]
  refine ⟨(if u.1 then true else r.1, { u.2.1 with m_dual := ds }, u.2.2), ?_⟩
  unfold alphaStep
  rw [h1]
  simp only []
  rw [h2]
  simp only []
  rw [h4]

/-- From the only labeling of least energy, an alpha-move with a solver that keeps the
topology and reports an assignment no costlier than the all-zero one returns, and leaves
the labeling and the flag as they were. -/
theorem alphaStep_fixed {E : MultilabelEnergy} {solver : SubmodularIBFS → SubmodularIBFS}
    (hk : ∀ c ∈ E.Cliques, 1 ≤ c.Size ∧ c.Size < 32) (hrange : CliquesInRange E)
    (hsolve : ∀ crf, FlowShaped E crf → FlowShaped E (solver crf) ∧
      crf.Energy (solverAssignment (solver crf)) ≤ crf.Energy (fun _ => false))
    {y : List Label} (hlab : IsLabeling E y)
    (huniq : ∀ labels, IsLabeling E labels → primalEnergy E labels ≤ primalEnergy E y →
      labels = y)
    {alpha : Label} (halpha : alpha < E.NumLabels) {r : Bool × State × SubmodularIBFS}
    (hy : r.2.1.m_labels = y)
    (hncl : r.2.1.m_node_clique_list = (InitialNodeCliqueList E r.2.1).m_node_clique_list)
    (hflow : FlowShaped E r.2.2) :
    ∃ r1, alphaStep E solver alpha r = .ok r1 ∧ r1.2.1.m_labels = y ∧
      r1.2.1.m_node_clique_list = (InitialNodeCliqueList E r1.2.1).m_node_clique_list ∧
      FlowShaped E r1.2.2 ∧ r1.1 = r.1 := by
  obtain ⟨r1, h⟩ := alphaStep_total solver alpha hk hflow
  obtain ⟨a1, a2, a3, a4⟩ := alphaStep_descent hrange hsolve halpha h (by rw [hy]; exact hlab)
    hncl hflow
  rw [hy] at a4
  have hfix : r1.2.1.m_labels = y := huniq _ a1 a4
  refine ⟨r1, h, hfix, a2, a3, ?_⟩
  obtain ⟨s1, u, b1, b2, b3, b4, _⟩ := alphaStep_ok h
  obtain ⟨crf1, _, _, c3, c4, _, _⟩ := UpdatePrimalDual_ok b2
  have hs1 : s1.m_labels = y := by rw [(PreEditDual_ok b1).1, hy]
  have hu : u.2.1.m_labels = y := by rw [← (PostEditDual_frame b3).1, hfix]
  have hflag : u.1 ≠ true := by
    intro hc
    rw [c3] at hc
    have := (harvestLoop_flag_iff_changed (solver crf1) alpha s1.m_labels).mp hc
    rw [← c4, hu, hs1] at this
    exact this rfl
  rw [b4, if_neg hflag]

/-- A whole sweep from the only labeling of least energy returns and leaves the labeling
and the flag as they were. -/
theorem sweepLoop_fixed {E : MultilabelEnergy} {solver : SubmodularIBFS → SubmodularIBFS}
    (hk : ∀ c ∈ E.Cliques, 1 ≤ c.Size ∧ c.Size < 32) (hrange : CliquesInRange E)
    (hsolve : ∀ crf, FlowShaped E crf → FlowShaped E (solver crf) ∧
      crf.Energy (solverAssignment (solver crf)) ≤ crf.Energy (fun _ => false))
    {y : List Label} (hlab : IsLabeling E y)
    (huniq : ∀ labels, IsLabeling E labels → primalEnergy E labels ≤ primalEnergy E y →
      labels = y)
    {r : Bool × State × SubmodularIBFS} (hy : r.2.1.m_labels = y)
    (hncl : r.2.1.m_node_clique_list = (InitialNodeCliqueList E r.2.1).m_node_clique_list)
    (hflow : FlowShaped E r.2.2) :
    ∀ n, n ≤ E.NumLabels →
      ∃ r1, sweepLoop E solver n r = .ok r1 ∧ r1.2.1.m_labels = y ∧
        r1.2.1.m_node_clique_list = (InitialNodeCliqueList E r1.2.1).m_node_clique_list ∧
        FlowShaped E r1.2.2 ∧ r1.1 = r.1 := by
  intro n
  induction n with
  | zero => intro _; exact ⟨r, rfl, hy, hncl, hflow, rfl⟩
  | succ n ih =>
    intro hn
    obtain ⟨r0, h0, y0, n0, f0, b0⟩ := ih (Nat.le_of_succ_le hn)
    obtain ⟨r1, h1, y1, n1, f1, b1⟩ := alphaStep_fixed hk hrange hsolve hlab
      huniq (Nat.lt_of_succ_le hn) y0 n0 f0
    refine ⟨r1, ?_, y1, n1, f1, by rw [b1, b0]⟩
    simp only [sweepLoop]
    rw [h0]
    exact h1

/-- When the labeling that `InitialLabeling` leaves is the only labeling of least energy,
`Solve` returns after one sweep with that labeling, for every solver that keeps the
topology and reports an assignment no costlier than the all-zero one. -/
theorem Solve_fixed {E : MultilabelEnergy} {solver : SubmodularIBFS → SubmodularIBFS}
    {s : State}
    (hk : ∀ c ∈ E.Cliques, 1 ≤ c.Size ∧ c.Size < 31) (hrange : CliquesInRange E)
    (hnn : ∀ c ∈ E.Cliques, ∀ buf, 0 ≤ c.Energy buf)
    (hsolve : ∀ crf, FlowShaped E crf → FlowShaped E (solver crf) ∧
      crf.Energy (solverAssignment (solver crf)) ≤ crf.Energy (fun _ => false))
    (hlen : s.m_labels.length = E.NumNodes) (hinit : ∀ l ∈ s.m_labels, l < E.NumLabels)
    (huniq : ∀ labels, IsLabeling E labels →
      primalEnergy E labels ≤ primalEnergy E (InitialLabeling E s).m_labels →
      labels = (InitialLabeling E s).m_labels)
    (fuel : Nat) (hfuel : 1 ≤ fuel) :
    ∃ r, Solve E solver fuel s = some (.ok r) ∧ r.1 = 1 ∧
      r.2.1.m_labels = (InitialLabeling E s).m_labels := by
  have hlab0 : IsLabeling E (InitialLabeling E s).m_labels :=
    ⟨by
      show (labelingLoop E.Unary E.NumLabels E.NumNodes s.m_labels).length = E.NumNodes
      rw [(labelingLoop_spec _ _ _ _).1, hlen],
     labelingLoop_range E.Unary s.m_labels E.NumNodes hinit⟩
  obtain ⟨crf, hcrf⟩ := SetupGraphLoop_total E.Cliques (fun c hc => (hk c hc).2)
    (SubmodularIBFS.empty.AddNode s.m_labels.length)
  have hg : SetupGraph E s SubmodularIBFS.empty = .ok crf := hcrf
  have hflow : FlowShaped E crf := SetupGraph_flowShaped hlen hg
  have hbody : ∀ c ∈ E.Cliques,
      ∃ d, InitialDualClique E.NumLabels (InitialLabeling E s).m_labels c = .ok d :=
    fun c hc => InitialDualClique_accepts E.NumLabels _ c (hk c hc).1
      (Nat.lt_trans (hk c hc).2 (by decide)) (hnn c hc _)
  obtain ⟨ds, hds⟩ := pushBackLoop_total E.Cliques hbody
  have hd : InitialDual E (InitialLabeling E s) =
      .ok { InitialLabeling E s with m_dual := ds } := by
    unfold InitialDual
    rw [hds]
  obtain ⟨r1, h1, y1, _, _, b1⟩ := sweepLoop_fixed
    (r := (false, InitialNodeCliqueList E { InitialLabeling E s with m_dual := ds }, crf))
    (fun c hc => ⟨(hk c hc).1, Nat.lt_trans (hk c hc).2 (by decide)⟩) hrange hsolve hlab0
    huniq rfl rfl hflow E.NumLabels (le_refl _)
  have hb : r1.1 = false := b1
  obtain ⟨f, hf⟩ : ∃ f, fuel = f + 1 := ⟨fuel - 1, by omega⟩
  refine ⟨(1, r1.2.1, r1.2.2), ?_, rfl, y1⟩
  unfold Solve
  rw [hg]
  simp only []
  rw [hd]
  simp only []
  rw [hf]
  simp only [whileLoop]
  rw [h1]
  simp only [hb]
  rfl

end SubmodularPrimalDual2

namespace Examples

/-- The cliques of scenario S1 are pairwise Potts cliques, whatever the edges. -/
theorem gridModel_cliques (edges : List (NodeId × NodeId)) :
    ∀ c ∈ (gridModel edges).Cliques, (1 ≤ c.Size ∧ c.Size < 31) ∧ ∀ buf, 0 ≤ c.Energy buf := by
  intro c hc
  obtain ⟨e, _, rfl⟩ := List.mem_map.mp hc
  refine ⟨⟨(by decide : 1 ≤ 2), (by decide : 2 < 31)⟩, ?_⟩
  intro buf
  show (0 : REAL) ≤ if buf.getD 0 0 = buf.getD 1 0 then 0 else 1
  split <;> decide

theorem gridModel_table :
    ∀ edges ∈ gridEdgeSets, ∀ a, a < 3 → ∀ b, b < 3 → ∀ c, c < 3 → ∀ d, d < 3 →
      3 ≤ primalEnergy (gridModel edges) [a, b, c, d] ∧
      primalEnergy (gridModel edges) [0, 1, 1, 2] ≤ primalEnergy (gridModel edges) [a, b, c, d] ∧
      (primalEnergy (gridModel edges) [a, b, c, d] ≤ 3 → [a, b, c, d] = [0, 1, 1, 2]) := by
  decide

/-- On each of the three grids, no labeling of scenario S1 has an energy below 3 or below
the energy of `[0, 1, 1, 2]`, and a labeling of energy 3 is `[0, 1, 1, 2]`. -/
theorem gridModel_min {edges : List (NodeId × NodeId)} (he : edges ∈ gridEdgeSets)
    (labels : List Label) (h : IsLabeling (gridModel edges) labels) :
    3 ≤ primalEnergy (gridModel edges) labels ∧
    primalEnergy (gridModel edges) [0, 1, 1, 2] ≤ primalEnergy (gridModel edges) labels ∧
    (primalEnergy (gridModel edges) labels ≤ 3 → labels = [0, 1, 1, 2]) := by
  obtain ⟨hlen, hlt⟩ := h
  match labels, hlen, hlt with
  | [a, b, c, d], _, hlt =>
    exact gridModel_table edges he a (hlt a (by simp)) b (hlt b (by simp)) c (hlt c (by simp))
      d (hlt d (by simp))

/-- The labeling `InitialLabeling` leaves in scenario S1 is `[0, 1, 1, 2]`, whatever the
edges. -/
theorem gridModel_initial (edges : List (NodeId × NodeId)) :
    (SubmodularPrimalDual2.InitialLabeling (gridModel edges) gridStart).m_labels = [0, 1, 1, 2] := by
  rfl

theorem gridModel_range : ∀ edges ∈ gridEdgeSets, CliquesInRange (gridModel edges) := by
  decide

end Examples

end SoSPD

/-! # The claims -/

namespace SoSPD

open Examples

/-- C1: `InitialDual` establishes the Label invariant.  For every labeling of the model,
if every clique has size `1 ≤ k < 32` and nonnegative energy at its current local
labels, then `InitialDual` (of `SubmodularPrimalDual2` and of `DualGuidedFusionMove`
alike) returns, leaves the labeling alone, and afterwards the sum of
`dual[C][i][y_i]` over the positions of every clique equals its energy exactly. -/
theorem C1_InitialDual_establishes_label_invariant (E : MultilabelEnergy) (s : State)
    (hlab : IsLabeling E s.m_labels) (hrange : CliquesInRange E)
    (hc : ∀ c ∈ E.Cliques,
      1 ≤ c.Size ∧ c.Size < 32 ∧ 0 ≤ c.Energy (localLabels s.m_labels c)) :
    ∃ s1, SubmodularPrimalDual2.InitialDual E s = .ok s1 ∧
      DualGuidedFusionMove.InitialDual E.NumLabels E.Cliques s = .ok s1 ∧
      s1.m_labels = s.m_labels ∧ LabelInvariant E s1 := by
  refine ⟨_, InitialDual_spd2_eq hlab hrange hc,
    InitialDual_dgfm_eq hlab hrange (fun c h => ⟨(hc c h).1, (hc c h).2.2⟩), rfl, ?_⟩
  intro ci h
  have hmem : E.Cliques[ci] ∈ E.Cliques := List.getElem_mem _
  simp only [getD_map_cliques E.Cliques _ h]
  unfold LabelInvariantAt
  have hlen := localLabels_length s.m_labels E.Cliques[ci]
  exact activeSum_initial_dual_spec _ _ (by rw [hlen]; exact (hc _ hmem).1)
    (fun i hi => localLabels_lt hlab (hrange _ hmem) (by rw [← hlen]; exact hi))

/-- Witness of C1 on the two-node model: its hypotheses hold there. -/
theorem C1_witness :
    ∃ s1, SubmodularPrimalDual2.InitialDual pairModel pairState = .ok s1 ∧
      DualGuidedFusionMove.InitialDual pairModel.NumLabels pairModel.Cliques pairState = .ok s1 ∧
      s1.m_labels = pairState.m_labels ∧ LabelInvariant pairModel s1 :=
  C1_InitialDual_establishes_label_invariant pairModel pairState
    (by decide) (by decide) (by decide)

/-- C2, as amended: `SubmodularPrimalDual2::InitialDual` equals its reference
definition on the cliques its guard accepts.  For every labeling of the model, if every
clique has size `1 ≤ k < 32` and nonnegative energy `e` at its current local labels
`y`, then `InitialDual` returns the table of the reference definition: every clique gets
`k` rows of `L` entries with `dual[C][i][y_i] = e / k + 1` for `i < e mod k`,
`dual[C][i][y_i] = e / k` for `i ≥ e mod k`, and `dual[C][i][l] = 0` for `l ≠ y_i`. -/
theorem C2_InitialDual_eq_reference (E : MultilabelEnergy) (s : State)
    (hlab : IsLabeling E s.m_labels) (hrange : CliquesInRange E)
    (hc : ∀ c ∈ E.Cliques,
      1 ≤ c.Size ∧ c.Size < 32 ∧ 0 ≤ c.Energy (localLabels s.m_labels c)) :
    ∃ s1, SubmodularPrimalDual2.InitialDual E s = .ok s1 ∧
      s1.m_dual = E.Cliques.map (fun c =>
        initial_dual_spec E.NumLabels (localLabels s.m_labels c)
          (c.Energy (localLabels s.m_labels c))) ∧
      ∀ ci (h : ci < E.Cliques.length),
        Dual.HasShape (s1.m_dual.getD ci []) E.Cliques[ci].Size E.NumLabels ∧
        ∀ i l, i < E.Cliques[ci].Size → l < E.NumLabels →
          getEntry (s1.m_dual.getD ci []) i l =
            if l = (localLabels s.m_labels E.Cliques[ci]).getD i 0 then
              (if (i : Int) < E.Cliques[ci].Energy (localLabels s.m_labels E.Cliques[ci])
                  % (E.Cliques[ci].Size : Int)
                then E.Cliques[ci].Energy (localLabels s.m_labels E.Cliques[ci])
                  / (E.Cliques[ci].Size : Int) + 1
                else E.Cliques[ci].Energy (localLabels s.m_labels E.Cliques[ci])
                  / (E.Cliques[ci].Size : Int))
            else 0 := by
  refine ⟨_, InitialDual_spd2_eq hlab hrange hc, rfl, ?_⟩
  intro ci h
  simp only [getD_map_cliques E.Cliques _ h]
  have hlen := localLabels_length s.m_labels E.Cliques[ci]
  constructor
  · have := initial_dual_spec_hasShape E.NumLabels (localLabels s.m_labels E.Cliques[ci])
      (E.Cliques[ci].Energy (localLabels s.m_labels E.Cliques[ci]))
    rw [hlen] at this
    exact this
  · intro i l hi hl
    rw [getEntry_initial_dual_spec _ _ _ (by rw [hlen]; exact hi) hl, hlen]
    by_cases h1 : l = (localLabels s.m_labels E.Cliques[ci]).getD i 0
    · rw [if_pos h1, if_pos h1]
      split <;> simp
    · rw [if_neg h1, if_neg h1]

/-- Witness of C2 (amended) on the two-node model. -/
theorem C2_witness :
    ∃ s1, SubmodularPrimalDual2.InitialDual pairModel pairState = .ok s1 ∧
      s1.m_dual = pairModel.Cliques.map (fun c =>
        initial_dual_spec pairModel.NumLabels (localLabels pairState.m_labels c)
          (c.Energy (localLabels pairState.m_labels c))) ∧
      ∀ ci (h : ci < pairModel.Cliques.length),
        Dual.HasShape (s1.m_dual.getD ci []) pairModel.Cliques[ci].Size pairModel.NumLabels ∧
        ∀ i l, i < pairModel.Cliques[ci].Size → l < pairModel.NumLabels →
          getEntry (s1.m_dual.getD ci []) i l =
            if l = (localLabels pairState.m_labels pairModel.Cliques[ci]).getD i 0 then
              (if (i : Int) <
                  pairModel.Cliques[ci].Energy (localLabels pairState.m_labels pairModel.Cliques[ci])
                  % (pairModel.Cliques[ci].Size : Int)
                then
                  pairModel.Cliques[ci].Energy (localLabels pairState.m_labels pairModel.Cliques[ci])
                  / (pairModel.Cliques[ci].Size : Int) + 1
                else
                  pairModel.Cliques[ci].Energy (localLabels pairState.m_labels pairModel.Cliques[ci])
                  / (pairModel.Cliques[ci].Size : Int))
            else 0 :=
  C2_InitialDual_eq_reference pairModel pairState (by decide) (by decide) (by decide)

/-- Counterexample to C2 as stated (every clique of size `k ≥ 1`): the model with one
clique of 32 nodes and constant energy 1 meets every premise of the claim, and
`SubmodularPrimalDual2::InitialDual` stops at `ASSERT(k < 32)` without a table. -/
theorem C2_counterexample :
    IsLabeling wideModel wideState.m_labels ∧ CliquesInRange wideModel ∧
    (∀ c ∈ wideModel.Cliques, 1 ≤ c.Size ∧ 0 ≤ c.Energy (localLabels wideState.m_labels c)) ∧
    SubmodularPrimalDual2.InitialDual wideModel wideState = .error .assertion := by
  refine ⟨by decide, by decide, by decide, ?_⟩
  rfl

/-- C3, as amended: `PostEditDual` re-establishes the Label invariant from any prior
dual on the cliques it accepts.  For every dual table of the right shape and every
labeling of the model: if every clique has size `1 ≤ k < 32` and nonnegative energy `e`
at its current local labels `y`, then `SubmodularPrimalDual2::PostEditDual` returns,
keeps the labeling, and afterwards `dual[C][i][y_i] = e / k + (1 if i < e mod k else 0)`
and these entries sum to `e`; `DualGuidedFusionMove::PostEditDual`, which has no size
guard, does the same for every clique size `k ≥ 1`. -/
theorem C3_PostEditDual_reestablishes_label_invariant (E : MultilabelEnergy) (s : State)
    (hshape : DualShaped E s.m_dual) (hlab : IsLabeling E s.m_labels)
    (hrange : CliquesInRange E) :
    ((∀ c ∈ E.Cliques, 1 ≤ c.Size ∧ c.Size < 32 ∧ 0 ≤ c.Energy (localLabels s.m_labels c)) →
      ∃ s1, SubmodularPrimalDual2.PostEditDual E s = .ok s1 ∧ s1.m_labels = s.m_labels ∧
        LabelInvariant E s1 ∧
        ∀ ci (h : ci < E.Cliques.length), ∀ i, i < E.Cliques[ci].Size →
          getEntry (s1.m_dual.getD ci []) i ((localLabels s.m_labels E.Cliques[ci]).getD i 0) =
            E.Cliques[ci].Energy (localLabels s.m_labels E.Cliques[ci]) / (E.Cliques[ci].Size : Int)
            + (if (i : Int) < E.Cliques[ci].Energy (localLabels s.m_labels E.Cliques[ci])
                % (E.Cliques[ci].Size : Int) then 1 else 0)) ∧
    ((∀ c ∈ E.Cliques, 1 ≤ c.Size ∧ 0 ≤ c.Energy (localLabels s.m_labels c)) →
      ∃ s1, DualGuidedFusionMove.PostEditDual E.Cliques s = .ok s1 ∧ s1.m_labels = s.m_labels ∧
        LabelInvariant E s1 ∧
        ∀ ci (h : ci < E.Cliques.length), ∀ i, i < E.Cliques[ci].Size →
          getEntry (s1.m_dual.getD ci []) i ((localLabels s.m_labels E.Cliques[ci]).getD i 0) =
            E.Cliques[ci].Energy (localLabels s.m_labels E.Cliques[ci]) / (E.Cliques[ci].Size : Int)
            + (if (i : Int) < E.Cliques[ci].Energy (localLabels s.m_labels E.Cliques[ci])
                % (E.Cliques[ci].Size : Int) then 1 else 0)) := by
  constructor
  · intro hc
    obtain ⟨r, hr, hprop⟩ := postEdit_result hshape hlab hrange
      (fun c h => ⟨(hc c h).1, (hc c h).2.2⟩)
      (SubmodularPrimalDual2.PostEditDualClique s.m_labels)
      (fun c h d => PostEditDualClique_spd2_ok (hc c h).1 (hc c h).2.1 d)
    refine ⟨{ s with m_dual := r }, ?_, rfl, fun ci h => (hprop ci h).1,
      fun ci h => (hprop ci h).2⟩
    unfold SubmodularPrimalDual2.PostEditDual
    rw [hr]
  · intro hc
    obtain ⟨r, hr, hprop⟩ := postEdit_result hshape hlab hrange hc
      (DualGuidedFusionMove.PostEditDualClique s.m_labels)
      (fun c h d => PostEditDualClique_dgfm_ok (hc c h).1 d)
    refine ⟨{ s with m_dual := r }, ?_, rfl, fun ci h => (hprop ci h).1,
      fun ci h => (hprop ci h).2⟩
    unfold DualGuidedFusionMove.PostEditDual
    rw [hr]

/-- Witness of C3 (amended) on the two-node model: both classes return there and the
Label invariant holds afterwards. -/
theorem C3_witness :
    (∃ s1, SubmodularPrimalDual2.PostEditDual pairModel pairState = .ok s1 ∧
      LabelInvariant pairModel s1) ∧
    (∃ s1, DualGuidedFusionMove.PostEditDual pairModel.Cliques pairState = .ok s1 ∧
      LabelInvariant pairModel s1) := by
  have h := C3_PostEditDual_reestablishes_label_invariant pairModel pairState pairState_shaped
    (by decide) (by decide)
  obtain ⟨s1, h1, _, h2, _⟩ := h.1 (by decide)
  obtain ⟨s2, h3, _, h4, _⟩ := h.2 (by decide)
  exact ⟨⟨s1, h1, h2⟩, ⟨s2, h3, h4⟩⟩

/-- Counterexample to C3 as stated (every clique of size `k ≥ 1`): on the model with one
clique of 32 nodes and energy 1, with an all-zero dual table of the right shape and an
in-range labeling, `SubmodularPrimalDual2::PostEditDual` stops at `ASSERT(k < 32)`; the
table it leaves untouched has active sum 0, not 1, so the Label invariant is not
re-established. -/
theorem C3_counterexample :
    DualShaped wideModel wideState.m_dual ∧ IsLabeling wideModel wideState.m_labels ∧
    CliquesInRange wideModel ∧
    (∀ c ∈ wideModel.Cliques, 1 ≤ c.Size ∧ 0 ≤ c.Energy (localLabels wideState.m_labels c)) ∧
    SubmodularPrimalDual2.PostEditDual wideModel wideState = .error .assertion ∧
    ¬ LabelInvariant wideModel wideState := by
  refine ⟨List.Forall₂.cons ⟨rfl, by decide⟩ List.Forall₂.nil, by decide, by decide,
    by decide, rfl, by decide⟩

/-- C4: `PostEditDual` changes only active entries.  Whenever
`SubmodularPrimalDual2::PostEditDual` returns (it does when every clique has size
`1 ≤ k < 32`), the labeling is unchanged and, for every clique `C`, position `i` and
label `l` different from the current label of node `C.nodes[i]`, `dual[C][i][l]` has
its value of before. -/
theorem C4_PostEditDual_changes_only_active_entries (E : MultilabelEnergy) (s : State) :
    ((∀ c ∈ E.Cliques, 1 ≤ c.Size ∧ c.Size < 32) →
      ∃ s1, SubmodularPrimalDual2.PostEditDual E s = .ok s1) ∧
    ∀ s1, SubmodularPrimalDual2.PostEditDual E s = .ok s1 →
      s1.m_labels = s.m_labels ∧
      ∀ ci (h : ci < E.Cliques.length), ∀ i l, i < E.Cliques[ci].Size →
        l ≠ labelAt s.m_labels (E.Cliques[ci].Nodes.getD i 0) →
        getEntry (s1.m_dual.getD ci []) i l = getEntry (s.m_dual.getD ci []) i l := by
  constructor
  · intro hc
    obtain ⟨r, hr⟩ := cliqueLoop_total
      (SubmodularPrimalDual2.PostEditDualClique s.m_labels) E.Cliques
      (fun c h d => ⟨_, PostEditDualClique_spd2_ok (hc c h).1 (hc c h).2 d⟩) 0 s.m_dual
    refine ⟨{ s with m_dual := r }, ?_⟩
    unfold SubmodularPrimalDual2.PostEditDual
    rw [hr]
  · intro s1 h
    unfold SubmodularPrimalDual2.PostEditDual at h
    cases hr : cliqueLoop (SubmodularPrimalDual2.PostEditDualClique s.m_labels) E.Cliques 0
        s.m_dual with
    | error e => rw [hr] at h; cases h
    | ok r =>
      rw [hr] at h
      injection h with h
      subst h
      refine ⟨rfl, ?_⟩
      intro ci hci i l hi hl
      obtain ⟨h1, _, _, h4⟩ := cliqueLoop_ok E.Cliques 0 s.m_dual r hr
      by_cases hlt : ci < s.m_dual.length
      · have hb := h4 ci hci (by omega)
        rw [Nat.zero_add] at hb
        obtain ⟨_, _, hd⟩ := PostEditDualClique_spd2_inv hb
        show getEntry (r.getD ci []) i l = _
        rw [hd]
        apply averageLoop_frame
        rw [localLabels_getD _ _ hi]
        exact hl
      · show getEntry (r.getD ci []) i l = _
        have e1 : r.getD ci [] = [] := List.getD_eq_default _ _ (by omega)
        have e2 : s.m_dual.getD ci [] = [] := List.getD_eq_default _ _ (by omega)
        rw [e1, e2]

/-- Witness of C4 on the two-node model: `PostEditDual` returns there, and the frame
property holds of the state it returns. -/
theorem C4_witness :
    ∃ s1, SubmodularPrimalDual2.PostEditDual pairModel pairState = .ok s1 ∧
      s1.m_labels = pairState.m_labels ∧
      ∀ ci (h : ci < pairModel.Cliques.length), ∀ i l, i < pairModel.Cliques[ci].Size →
        l ≠ labelAt pairState.m_labels (pairModel.Cliques[ci].Nodes.getD i 0) →
        getEntry (s1.m_dual.getD ci []) i l = getEntry (pairState.m_dual.getD ci []) i l := by
  obtain ⟨s1, h1⟩ :=
    (C4_PostEditDual_changes_only_active_entries pairModel pairState).1 (by decide)
  exact ⟨s1, h1, (C4_PostEditDual_changes_only_active_entries pairModel pairState).2 s1 h1⟩

/-- C5, as amended: after `SubmodularPrimalDual2::InitialDual` every dual entry lies
between 0 and the `f_max` of its clique, on the cliques the guard accepts.  For every
labeling of the model, if every clique has size `1 ≤ k < 32` and
`0 ≤ f_C(y) ≤ f_max_C` at its current local labels `y`, then `InitialDual` returns and
every entry `(i, l)` of every clique satisfies `0 ≤ dual[C][i][l] ≤ f_max_C`; so the
Active and the Dual-Bound invariant hold before the first move. -/
theorem C5_InitialDual_entries_bounded (E : MultilabelEnergy) (s : State)
    (hlab : IsLabeling E s.m_labels) (hrange : CliquesInRange E)
    (hc : ∀ c ∈ E.Cliques, 1 ≤ c.Size ∧ c.Size < 32 ∧
      0 ≤ c.Energy (localLabels s.m_labels c) ∧ c.Energy (localLabels s.m_labels c) ≤ c.FMax) :
    ∃ s1, SubmodularPrimalDual2.InitialDual E s = .ok s1 ∧
      (∀ ci (h : ci < E.Cliques.length), ∀ i l, i < E.Cliques[ci].Size → l < E.NumLabels →
        0 ≤ getEntry (s1.m_dual.getD ci []) i l ∧
        getEntry (s1.m_dual.getD ci []) i l ≤ E.Cliques[ci].FMax) ∧
      ActiveInvariant E s1 ∧ DualBoundInvariant E s1 := by
  have hb : ∀ ci (h : ci < E.Cliques.length), ∀ i l, i < E.Cliques[ci].Size → l < E.NumLabels →
      0 ≤ getEntry ((E.Cliques.map (fun c =>
        initial_dual_spec E.NumLabels (localLabels s.m_labels c)
          (c.Energy (localLabels s.m_labels c)))).getD ci []) i l ∧
      getEntry ((E.Cliques.map (fun c =>
        initial_dual_spec E.NumLabels (localLabels s.m_labels c)
          (c.Energy (localLabels s.m_labels c)))).getD ci []) i l ≤ E.Cliques[ci].FMax := by
    intro ci h i l hi hl
    have hmem : E.Cliques[ci] ∈ E.Cliques := List.getElem_mem _
    have hlen := localLabels_length s.m_labels E.Cliques[ci]
    obtain ⟨h1, h2, h3, h4⟩ := hc _ hmem
    rw [getD_map_cliques E.Cliques _ h]
    exact initial_dual_spec_bounds _ _ _ h3 h4 (by rw [hlen]; exact h1) (by rw [hlen]; exact hi) hl
  refine ⟨_, InitialDual_spd2_eq hlab hrange
    (fun c h => ⟨(hc c h).1, (hc c h).2.1, (hc c h).2.2.1⟩), hb, ?_, ?_⟩
  · intro ci h i hi
    have hmem : E.Cliques[ci] ∈ E.Cliques := List.getElem_mem _
    exact (hb ci h i _ hi (localLabels_lt hlab (hrange _ hmem) hi)).1
  · intro ci h i l hi hl
    exact (hb ci h i l hi hl).2

/-- Witness of C5 (amended) on the two-node model. -/
theorem C5_witness :
    ∃ s1, SubmodularPrimalDual2.InitialDual pairModel pairState = .ok s1 ∧
      (∀ ci (h : ci < pairModel.Cliques.length), ∀ i l,
        i < pairModel.Cliques[ci].Size → l < pairModel.NumLabels →
        0 ≤ getEntry (s1.m_dual.getD ci []) i l ∧
        getEntry (s1.m_dual.getD ci []) i l ≤ pairModel.Cliques[ci].FMax) ∧
      ActiveInvariant pairModel s1 ∧ DualBoundInvariant pairModel s1 :=
  C5_InitialDual_entries_bounded pairModel pairState (by decide) (by decide) (by decide)

/-- Counterexample to C5 as stated (every clique of size `k ≥ 1`): on the model with one
clique of 32 nodes, whose energy 1 lies in `[0, f_max]`, `InitialDual` stops at
`ASSERT(k < 32)`, so there is no table after it of which the bounds could hold. -/
theorem C5_counterexample :
    IsLabeling wideModel wideState.m_labels ∧ CliquesInRange wideModel ∧
    (∀ c ∈ wideModel.Cliques, 1 ≤ c.Size ∧
      0 ≤ c.Energy (localLabels wideState.m_labels c) ∧
      c.Energy (localLabels wideState.m_labels c) ≤ c.FMax) ∧
    ¬ ∃ s1, SubmodularPrimalDual2.InitialDual wideModel wideState = .ok s1 := by
  refine ⟨by decide, by decide, by decide, ?_⟩
  rintro ⟨s1, h⟩
  have h1 : SubmodularPrimalDual2.InitialDual wideModel wideState = .error .assertion := rfl
  rw [h1] at h
  cases h

/-- C6: after `PreEditDual(alpha)` the reduced table is nonnegative and tight at the
current labeling.  Let the dual table have the right shape and `alpha < L`, and let
`PreEditDual(alpha)` return.  For every clique of size `k` at which the Label invariant
held before the call and whose fusion table `fhat` is submodular, the value
`g(S) = fhat(S) - Σ_{i ∈ S} dual[C][i][alpha] - Σ_{i ∉ S} dual[C][i][y_i]`, taken at the
new dual, satisfies `g(∅) = 0` and `g(S) ≥ 0` for every one of the `2^k` bitmasks `S`;
and on a flow solver with the topology of the model `SetupAlphaEnergy` returns and
installs exactly `g(S)` as entry `S` of the table of the clique. -/
theorem C6_reduced_table_nonneg_and_tight (E : MultilabelEnergy) (alpha : Label) (s s1 : State)
    (hshape : DualShaped E s.m_dual) (halpha : alpha < E.NumLabels)
    (h : SubmodularPrimalDual2.PreEditDual E alpha s = .ok s1)
    (ci : Nat) (hci : ci < E.Cliques.length)
    (hlabel : LabelInvariantAt s.m_labels E.Cliques[ci] (s.m_dual.getD ci []))
    (hsub : IsSubmodular E.Cliques[ci].Size
      (fusionTable E.Cliques[ci] (localLabels s.m_labels E.Cliques[ci]) alpha)) :
    (SubmodularPrimalDual2.alphaEntry E.Cliques[ci] (s1.m_dual.getD ci [])
        (localLabels s1.m_labels E.Cliques[ci]) alpha 0 = 0 ∧
      ∀ a, a < 2 ^ E.Cliques[ci].Size →
        0 ≤ SubmodularPrimalDual2.alphaEntry E.Cliques[ci] (s1.m_dual.getD ci [])
          (localLabels s1.m_labels E.Cliques[ci]) alpha a) ∧
    ∀ crf, FlowShaped E crf →
      ∃ crf1, SubmodularPrimalDual2.SetupAlphaEnergy E s1 alpha crf = .ok crf1 ∧
        ∀ a, a < 2 ^ E.Cliques[ci].Size →
          (crf1.cliques.getD ci IBFSClique.blank).EnergyTable.getD a 0 =
            SubmodularPrimalDual2.alphaEntry E.Cliques[ci] (s1.m_dual.getD ci [])
              (localLabels s1.m_labels E.Cliques[ci]) alpha a := by
  refine ⟨?_, fun crf hflow => ?_⟩
  swap
  · obtain ⟨crf1, h1, h2⟩ := SubmodularPrimalDual2.SetupAlphaEnergy_table (s := s1) alpha hflow
    exact ⟨crf1, h1, fun a ha => h2 ci hci a ha⟩
  obtain ⟨hl, _, _, h4⟩ := SubmodularPrimalDual2.PreEditDual_ok h
  have hlt : ci < s.m_dual.length := by rw [hshape.length]; exact hci
  have hc := (h4 ci hci).1 hlt
  have hF0 : fusionTable E.Cliques[ci] (localLabels s.m_labels E.Cliques[ci]) alpha 0 =
      E.Cliques[ci].Energy (localLabels s.m_labels E.Cliques[ci]) := by
    unfold fusionTable
    rw [fusionBuf_zero]
  unfold LabelInvariantAt at hlabel
  rw [hl]
  constructor
  · unfold SubmodularPrimalDual2.alphaEntry
    rw [SubmodularPrimalDual2.lambdaOf_zero, fusionBuf_zero,
      SubmodularPrimalDual2.PreEditDualClique_activeSum hc, hlabel, sub_self]
  · intro a ha
    rw [SubmodularPrimalDual2.alphaEntry_after_PreEditDualClique hc (hshape.getD hci) halpha a,
      hlabel, ← hF0]
    have := sum_suffix_marginals_le hsub ha
    linarith

/-- Witness of C6 on the two-node model with `alpha = 0`. -/
theorem C6_witness :
    ∃ s1, SubmodularPrimalDual2.PreEditDual pairModel 0 pairState = .ok s1 ∧
      SubmodularPrimalDual2.alphaEntry pairClique (s1.m_dual.getD 0 [])
        (localLabels s1.m_labels pairClique) 0 0 = 0 ∧
      ∀ a, a < 2 ^ 2 →
        0 ≤ SubmodularPrimalDual2.alphaEntry pairClique (s1.m_dual.getD 0 [])
          (localLabels s1.m_labels pairClique) 0 a := by
  obtain ⟨s1, h1⟩ := SubmodularPrimalDual2.PreEditDual_total (E := pairModel) 0 pairState
    (by decide)
  exact ⟨s1, h1, (C6_reduced_table_nonneg_and_tight pairModel 0 pairState s1 pairState_shaped
    (by decide) h1 0 (by decide) (by decide) pairClique_submodular).1⟩

/-- C7: `PreEditDual(alpha)` preserves the Label and the Active invariant.  For every
state and every `alpha`, `PreEditDual` returns when every clique passes its guard
`k < 32`; a position whose current label already equals `alpha` gets `psi = 0`; and
whenever the call returns, the labeling is kept, no active entry
`dual[C][i][labels[C.nodes[i]]]` has changed, and each of the two invariants holds
after the call if it held before. -/
theorem C7_PreEditDual_preserves_label_and_active (E : MultilabelEnergy) (alpha : Label)
    (s : State) :
    ((∀ c ∈ E.Cliques, c.Size < 32) →
      ∃ s1, SubmodularPrimalDual2.PreEditDual E alpha s = .ok s1) ∧
    (∀ ci (hci : ci < E.Cliques.length), ∀ i, i < E.Cliques[ci].Size →
      (localLabels s.m_labels E.Cliques[ci]).getD i 0 = alpha →
      (SubmodularPrimalDual2.psiLoop E.Cliques[ci] (s.m_dual.getD ci []) alpha
        E.Cliques[ci].Size E.Cliques[ci].Size
        { label_buf := localLabels s.m_labels E.Cliques[ci],
          lambdaA := activeSum (s.m_dual.getD ci []) (localLabels s.m_labels E.Cliques[ci]),
          lambdaB := 0,
          oldG := E.Cliques[ci].Energy (localLabels s.m_labels E.Cliques[ci])
            - activeSum (s.m_dual.getD ci []) (localLabels s.m_labels E.Cliques[ci]),
          psi := List.replicate E.Cliques[ci].Size 0 }).psi.getD
        (E.Cliques[ci].Size - i - 1) 0 = 0) ∧
    ∀ s1, SubmodularPrimalDual2.PreEditDual E alpha s = .ok s1 →
      s1.m_labels = s.m_labels ∧
      (∀ ci (hci : ci < E.Cliques.length), ∀ i, i < E.Cliques[ci].Size →
        getEntry (s1.m_dual.getD ci []) i (labelAt s.m_labels (E.Cliques[ci].Nodes.getD i 0)) =
          getEntry (s.m_dual.getD ci []) i (labelAt s.m_labels (E.Cliques[ci].Nodes.getD i 0))) ∧
      (LabelInvariant E s → LabelInvariant E s1) ∧
      (ActiveInvariant E s → ActiveInvariant E s1) := by
  refine ⟨SubmodularPrimalDual2.PreEditDual_total alpha s, ?_, ?_⟩
  · intro ci hci i hi hy
    rw [SubmodularPrimalDual2.psi_of_clique s.m_labels alpha E.Cliques[ci] _ hi, hy]
    have e1 : fusionTable E.Cliques[ci] (localLabels s.m_labels E.Cliques[ci]) alpha
          (suffixMask E.Cliques[ci].Size i) =
        fusionTable E.Cliques[ci] (localLabels s.m_labels E.Cliques[ci]) alpha
          (suffixMask E.Cliques[ci].Size (i + 1)) := by
      unfold fusionTable
      rw [← suffixMask_succ hi, SubmodularPrimalDual2.fusionBuf_or_of_eq _ _ _ hy]
    rw [e1]
    ring
  · intro s1 h
    have hl := (SubmodularPrimalDual2.PreEditDual_ok h).1
    refine ⟨hl, ?_, ?_, ?_⟩
    · intro ci hci i hi
      rw [← localLabels_getD s.m_labels _ hi]
      exact SubmodularPrimalDual2.PreEditDual_active h hci hi
    · intro hinv ci hci
      unfold LabelInvariantAt
      rw [hl, SubmodularPrimalDual2.PreEditDual_activeSum h hci]
      exact hinv ci hci
    · intro hinv ci hci i hi
      rw [hl, SubmodularPrimalDual2.PreEditDual_active h hci hi]
      exact hinv ci hci i hi

/-- Witness of C7 on the two-node model with `alpha = 0`: `PreEditDual` returns there and
both invariants, which hold before the call, hold after it. -/
theorem C7_witness :
    ∃ s1, SubmodularPrimalDual2.PreEditDual pairModel 0 pairState = .ok s1 ∧
      LabelInvariant pairModel s1 ∧ ActiveInvariant pairModel s1 := by
  have h := C7_PreEditDual_preserves_label_and_active pairModel 0 pairState
  obtain ⟨s1, h1⟩ := h.1 (by decide)
  obtain ⟨_, _, h2, h3⟩ := h.2.2 s1 h1
  exact ⟨s1, h1, h2 (by decide), h3 (by decide)⟩

/-- C8: `PreEditDual(alpha)` preserves the Dual-Bound invariant.  If before the call the
Label, the Active and the Dual-Bound invariant hold, every value of the fusion table of
every clique is at most `f_max_C` (as it is when every clique energy value lies in
`[0, f_max_C]`), and the fusion table of every clique for `alpha` is submodular, then
whenever `PreEditDual(alpha)` returns, `dual[C][i][l] ≤ f_max_C` for every clique `C`,
position `i` and label `l`. -/
theorem C8_PreEditDual_preserves_dual_bound (E : MultilabelEnergy) (alpha : Label)
    (s s1 : State) (h : SubmodularPrimalDual2.PreEditDual E alpha s = .ok s1)
    (hlabel : LabelInvariant E s) (hactive : ActiveInvariant E s)
    (hbound : DualBoundInvariant E s)
    (hmax : ∀ ci (hci : ci < E.Cliques.length), ∀ a, a < 2 ^ E.Cliques[ci].Size →
      fusionTable E.Cliques[ci] (localLabels s.m_labels E.Cliques[ci]) alpha a
        ≤ E.Cliques[ci].FMax)
    (hsub : ∀ ci (hci : ci < E.Cliques.length), IsSubmodular E.Cliques[ci].Size
      (fusionTable E.Cliques[ci] (localLabels s.m_labels E.Cliques[ci]) alpha)) :
    DualBoundInvariant E s1 := by
  intro ci hci i l hi hl
  obtain ⟨_, _, _, h4⟩ := SubmodularPrimalDual2.PreEditDual_ok h
  by_cases hlt : ci < s.m_dual.length
  · have hc := (h4 ci hci).1 hlt
    rw [SubmodularPrimalDual2.getEntry_PreEditDualClique hc]
    split
    · have hlen := localLabels_length s.m_labels E.Cliques[ci]
      have hF0 : fusionTable E.Cliques[ci] (localLabels s.m_labels E.Cliques[ci]) alpha 0 =
          E.Cliques[ci].Energy (localLabels s.m_labels E.Cliques[ci]) := by
        unfold fusionTable
        rw [fusionBuf_zero]
      have hdr := marginal_suffix_le (hsub ci hci) hi (b := 0) (Nat.two_pow_pos _)
        (fun j _ => Nat.zero_testBit j)
      rw [Nat.zero_or, hF0] at hdr
      have hone := hmax ci hci (2 ^ i) (Nat.pow_lt_pow_right (by decide) hi)
      have hsum := getEntry_le_activeSum (d := s.m_dual.getD ci [])
        (y := localLabels s.m_labels E.Cliques[ci])
        (fun j hj => hactive ci hci j (by rw [← hlen]; exact hj)) (by rw [hlen]; exact hi)
      have hlab := hlabel ci hci
      unfold LabelInvariantAt at hlab
      linarith
    · exact hbound ci hci i l hi hl
  · obtain ⟨e1, e2⟩ := (h4 ci hci).2 (by omega)
    rw [e1, ← e2]
    exact hbound ci hci i l hi hl

/-- Witness of C8 on the two-node model with `alpha = 0`. -/
theorem C8_witness :
    ∃ s1, SubmodularPrimalDual2.PreEditDual pairModel 0 pairState = .ok s1 ∧
      DualBoundInvariant pairModel s1 := by
  obtain ⟨s1, h1⟩ := SubmodularPrimalDual2.PreEditDual_total (E := pairModel) 0 pairState
    (by decide)
  refine ⟨s1, h1, C8_PreEditDual_preserves_dual_bound pairModel 0 pairState s1 h1
    (by decide) (by decide) (by decide) ?_ ?_⟩
  · intro ci hci a ha
    have hci0 := pairModel_clique_index hci
    subst hci0
    exact pairClique_fusion_le a ha
  · intro ci hci
    have hci0 := pairModel_clique_index hci
    subst hci0
    exact pairClique_submodular

/-- C9: the flow instance built by `SetupAlphaEnergy` is an exact reparameterization of
the multilabel energy.  Let the labeling be a labeling of the model and the node-clique
index be the one `InitialNodeCliqueList` builds.  The flow solver that `SetupGraph`
returns has the topology of the model, and on every flow solver with that topology
`SetupAlphaEnergy(alpha)` returns and, for every binary assignment `x`, the sum of the
installed unary costs and installed clique-table entries equals `E(label(x)) + c`, where
`label(x)_v` is `alpha` if `x_v = 1` and `labels[v]` otherwise, `E` is the sum of the
unaries and the clique energies, and
`c = - Σ_v min(height(v, labels[v]), height(v, alpha))` does not depend on `x`. -/
theorem C9_flow_instance_is_reparameterization (E : MultilabelEnergy) (s : State)
    (alpha : Label) (hlab : IsLabeling E s.m_labels) (hrange : CliquesInRange E)
    (hncl : s.m_node_clique_list =
      (SubmodularPrimalDual2.InitialNodeCliqueList E s).m_node_clique_list) :
    (∀ crf, SubmodularPrimalDual2.SetupGraph E s SubmodularIBFS.empty = .ok crf →
      FlowShaped E crf) ∧
    ∀ crf, FlowShaped E crf →
      ∃ crf1, SubmodularPrimalDual2.SetupAlphaEnergy E s alpha crf = .ok crf1 ∧
        ∀ x : NodeId → Bool, crf1.Energy x =
          primalEnergy E (fusedLabels s.m_labels alpha x) + heightConstant E s alpha :=
  ⟨fun _ h => SubmodularPrimalDual2.SetupGraph_flowShaped hlab.1 h,
    fun _ hflow => SubmodularPrimalDual2.SetupAlphaEnergy_energy alpha hlab hrange hncl hflow⟩

/-- Witness of C9 on the two-node model with `alpha = 0`, on the flow solver that
`SetupGraph` returns for it. -/
theorem C9_witness :
    ∃ crf1, SubmodularPrimalDual2.SetupAlphaEnergy pairModel pairState 0 pairFlow = .ok crf1 ∧
      ∀ x : NodeId → Bool, crf1.Energy x =
        primalEnergy pairModel (fusedLabels pairState.m_labels 0 x)
          + heightConstant pairModel pairState 0 := by
  have h := C9_flow_instance_is_reparameterization pairModel pairState 0 (by decide) (by decide)
    pairState_index
  exact h.2 pairFlow (h.1 pairFlow pairFlow_built)

/-- C10: the energy never increases across an alpha-move.  Let the labeling be a
labeling of the model, the node-clique index the one `InitialNodeCliqueList` builds, and
the flow solver have the topology `SetupGraph` gives it.  Then
`UpdatePrimalDual(alpha)` returns for every behaviour `Solve` of the external solver,
and if the assignment the solver reports has a flow-instance energy no larger than that
of the all-zero assignment (in particular if it is a minimizer), the primal energy
satisfies `E(labels_after) ≤ E(labels_before)`. -/
theorem C10_energy_never_increases (E : MultilabelEnergy) (s : State) (alpha : Label)
    (crf : SubmodularIBFS) (Solve : SubmodularIBFS → SubmodularIBFS)
    (hlab : IsLabeling E s.m_labels) (hrange : CliquesInRange E)
    (hncl : s.m_node_clique_list =
      (SubmodularPrimalDual2.InitialNodeCliqueList E s).m_node_clique_list)
    (hflow : FlowShaped E crf) :
    ∃ crf1 ret s1 crf2,
      SubmodularPrimalDual2.SetupAlphaEnergy E s alpha crf = .ok crf1 ∧
      SubmodularPrimalDual2.UpdatePrimalDual E Solve alpha s crf = .ok (ret, s1, crf2) ∧
      crf2 = Solve crf1 ∧
      (crf1.Energy (solverAssignment crf2) ≤ crf1.Energy (fun _ => false) →
        primalEnergy E s1.m_labels ≤ primalEnergy E s.m_labels) := by
  obtain ⟨crf1, h1, h2⟩ :=
    SubmodularPrimalDual2.SetupAlphaEnergy_energy alpha hlab hrange hncl hflow
  refine ⟨crf1,
    (SubmodularPrimalDual2.harvestLoop (Solve crf1) alpha s.m_labels.length (false, s.m_labels)).1,
    { s with
      m_labels := (SubmodularPrimalDual2.harvestLoop (Solve crf1) alpha s.m_labels.length
        (false, s.m_labels)).2,
      m_dual := SubmodularPrimalDual2.phiCliqueLoop (Solve crf1).cliques alpha E.Cliques.length
        s.m_dual },
    Solve crf1, h1, ?_, rfl, ?_⟩
  · unfold SubmodularPrimalDual2.UpdatePrimalDual
    rw [h1]
  · intro hle
    show primalEnergy E (SubmodularPrimalDual2.harvestLoop (Solve crf1) alpha s.m_labels.length
      (false, s.m_labels)).2 ≤ _
    rw [SubmodularPrimalDual2.harvestLoop_eq_fused]
    rw [h2, h2, fusedLabels_false] at hle
    linarith

/-- Witness of C10 on the two-node model with `alpha = 0` and a solver that assigns 1
to node 1: the move lowers the energy from 3 to 2. -/
theorem C10_witness :
    ∃ crf1 ret s1 crf2,
      SubmodularPrimalDual2.SetupAlphaEnergy pairModel pairState 0 pairFlow = .ok crf1 ∧
      SubmodularPrimalDual2.UpdatePrimalDual pairModel pairSolve 0 pairState pairFlow
        = .ok (ret, s1, crf2) ∧
      crf2 = pairSolve crf1 ∧
      (crf1.Energy (solverAssignment crf2) ≤ crf1.Energy (fun _ => false) →
        primalEnergy pairModel s1.m_labels ≤ primalEnergy pairModel pairState.m_labels) :=
  C10_energy_never_increases pairModel pairState 0 pairFlow pairSolve (by decide) (by decide)
    pairState_index pairFlow_shaped

/-- C11: `InitialLabeling` picks a unary minimizer at every node.  With at least one
label and every unary value below the largest `REAL`, after `InitialLabeling` (of
`SubmodularPrimalDual2` on a model, and of `DualGuidedFusionMove` on its unary table)
every node `v` has `labels[v] < L` and `U_v(labels[v]) ≤ U_v(l)` for every label
`l < L`. -/
theorem C11_InitialLabeling_picks_unary_minimizer (E : MultilabelEnergy) (s : State)
    (F : DualGuidedFusionMove.Fields)
    (hL : 1 ≤ E.NumLabels) (hlen : s.m_labels.length = E.NumNodes)
    (hU : ∀ v, v < E.NumNodes → ∀ l, l < E.NumLabels → E.Unary v l < REAL_MAX)
    (hLF : 1 ≤ F.m_num_labels) (hlenF : F.m_labels.length = F.m_unary_cost.length)
    (hUF : ∀ v, v < F.m_unary_cost.length → ∀ l, l < F.m_num_labels →
      DualGuidedFusionMove.unaryAt F v l < REAL_MAX) :
    (IsLabeling E (SubmodularPrimalDual2.InitialLabeling E s).m_labels ∧
      ∀ v, v < E.NumNodes →
        labelAt (SubmodularPrimalDual2.InitialLabeling E s).m_labels v < E.NumLabels ∧
        ∀ l, l < E.NumLabels →
          E.Unary v (labelAt (SubmodularPrimalDual2.InitialLabeling E s).m_labels v)
            ≤ E.Unary v l) ∧
    ((DualGuidedFusionMove.InitialLabeling F).m_labels.length = F.m_labels.length ∧
      ∀ v, v < F.m_labels.length →
        labelAt (DualGuidedFusionMove.InitialLabeling F).m_labels v < F.m_num_labels ∧
        ∀ l, l < F.m_num_labels →
          DualGuidedFusionMove.unaryAt F v
              (labelAt (DualGuidedFusionMove.InitialLabeling F).m_labels v)
            ≤ DualGuidedFusionMove.unaryAt F v l) := by
  have h1 := labelingLoop_argmin E.Unary s.m_labels hL (le_of_eq hlen.symm)
    (fun v hv => hU v hv 0 (by omega))
  have h2 := labelingLoop_argmin (DualGuidedFusionMove.unaryAt F) F.m_labels hLF
    (le_of_eq hlenF.symm) (fun v hv => hUF v hv 0 (by omega))
  have hl1 := (labelingLoop_spec E.Unary E.NumLabels s.m_labels E.NumNodes).1
  refine ⟨⟨⟨?_, ?_⟩, ?_⟩, ⟨?_, ?_⟩⟩
  · show (labelingLoop E.Unary E.NumLabels E.NumNodes s.m_labels).length = E.NumNodes
    rw [hl1, hlen]
  · intro l hl
    obtain ⟨v, hv, rfl⟩ := List.getElem_of_mem hl
    have hv2 : v < E.NumNodes := by
      have : (SubmodularPrimalDual2.InitialLabeling E s).m_labels.length = E.NumNodes := by
        show (labelingLoop E.Unary E.NumLabels E.NumNodes s.m_labels).length = E.NumNodes
        rw [hl1, hlen]
      omega
    have := (h1 v hv2).1
    unfold labelAt at this
    have hv3 : v < (labelingLoop E.Unary E.NumLabels E.NumNodes s.m_labels).length := hv
    rw [List.getD_eq_getElem _ _ hv3] at this
    exact this
  · intro v hv
    exact ⟨(h1 v hv).1, (h1 v hv).2.1⟩
  · exact (labelingLoop_spec _ _ _ _).1
  · intro v hv
    rw [hlenF] at hv
    exact ⟨(h2 v hv).1, (h2 v hv).2.1⟩

/-- Witness of C11 on the two-node model, from the all-zero labeling on either side:
both classes end at the labeling `[0, 1]`. -/
theorem C11_witness :
    (IsLabeling pairModel (SubmodularPrimalDual2.InitialLabeling pairModel pairStart).m_labels ∧
      ∀ v, v < pairModel.NumNodes →
        labelAt (SubmodularPrimalDual2.InitialLabeling pairModel pairStart).m_labels v
          < pairModel.NumLabels ∧
        ∀ l, l < pairModel.NumLabels →
          pairModel.Unary v
              (labelAt (SubmodularPrimalDual2.InitialLabeling pairModel pairStart).m_labels v)
            ≤ pairModel.Unary v l) ∧
    ((DualGuidedFusionMove.InitialLabeling pairFields).m_labels.length
        = pairFields.m_labels.length ∧
      ∀ v, v < pairFields.m_labels.length →
        labelAt (DualGuidedFusionMove.InitialLabeling pairFields).m_labels v
          < pairFields.m_num_labels ∧
        ∀ l, l < pairFields.m_num_labels →
          DualGuidedFusionMove.unaryAt pairFields v
              (labelAt (DualGuidedFusionMove.InitialLabeling pairFields).m_labels v)
            ≤ DualGuidedFusionMove.unaryAt pairFields v l) :=
  C11_InitialLabeling_picks_unary_minimizer pairModel pairStart pairFields (by decide) rfl
    (fun v _ l _ => pairModel_unary_lt v l) (by decide) rfl (by decide)

/-- C12: `SetupAlphaEnergy` attaches to every node `i` the unary pair `(c0, c1)` of its
height difference.  With one solver node per node of the state, whenever
`SetupAlphaEnergy(alpha)` returns (it does when the solver has the topology of the
model), `ComputeHeightDiff(i, labels[i], alpha)` is
`heightDiff = height(i, labels[i]) - height(i, alpha)`, the pair is `(heightDiff, 0)`
when `heightDiff > 0` and `(0, -heightDiff)` otherwise, both costs are `≥ 0`, at least
one is 0, and `c0 - c1 = heightDiff`. -/
theorem C12_SetupAlphaEnergy_unary_pairs (E : MultilabelEnergy) (s : State) (alpha : Label)
    (crf : SubmodularIBFS) (hnodes : crf.unaries.length = s.m_labels.length) :
    (FlowShaped E crf → ∃ crf1, SubmodularPrimalDual2.SetupAlphaEnergy E s alpha crf = .ok crf1) ∧
    ∀ crf1, SubmodularPrimalDual2.SetupAlphaEnergy E s alpha crf = .ok crf1 →
      ∀ i, i < s.m_labels.length →
        SubmodularPrimalDual2.ComputeHeightDiff E s i (labelAt s.m_labels i) alpha =
          SubmodularPrimalDual2.ComputeHeight E s i (labelAt s.m_labels i)
            - SubmodularPrimalDual2.ComputeHeight E s i alpha ∧
        crf1.unaries.getD i (0, 0) =
          (if SubmodularPrimalDual2.ComputeHeight E s i (labelAt s.m_labels i)
                - SubmodularPrimalDual2.ComputeHeight E s i alpha > 0
            then (SubmodularPrimalDual2.ComputeHeight E s i (labelAt s.m_labels i)
                - SubmodularPrimalDual2.ComputeHeight E s i alpha, 0)
            else (0, -(SubmodularPrimalDual2.ComputeHeight E s i (labelAt s.m_labels i)
                - SubmodularPrimalDual2.ComputeHeight E s i alpha))) ∧
        0 ≤ (crf1.unaries.getD i (0, 0)).1 ∧ 0 ≤ (crf1.unaries.getD i (0, 0)).2 ∧
        ((crf1.unaries.getD i (0, 0)).1 = 0 ∨ (crf1.unaries.getD i (0, 0)).2 = 0) ∧
        (crf1.unaries.getD i (0, 0)).1 - (crf1.unaries.getD i (0, 0)).2 =
          SubmodularPrimalDual2.ComputeHeight E s i (labelAt s.m_labels i)
            - SubmodularPrimalDual2.ComputeHeight E s i alpha := by
  constructor
  · intro hflow
    obtain ⟨crf1, h1, _⟩ := SubmodularPrimalDual2.SetupAlphaEnergy_table (s := s) alpha hflow
    exact ⟨crf1, h1⟩
  · intro crf1 h i hi
    have hpair := (SubmodularPrimalDual2.SetupAlphaEnergy_unaries h).2 i hi (by rw [hnodes]; exact hi)
    rw [SubmodularPrimalDual2.ComputeHeightDiff_eq] at hpair
    refine ⟨SubmodularPrimalDual2.ComputeHeightDiff_eq E s i _ alpha, hpair, ?_⟩
    rw [hpair]
    generalize SubmodularPrimalDual2.ComputeHeight E s i (labelAt s.m_labels i)
      - SubmodularPrimalDual2.ComputeHeight E s i alpha = hd
    by_cases hpos : hd > 0
    · rw [if_pos hpos]
      exact ⟨le_of_lt hpos, le_refl _, Or.inr rfl, sub_zero hd⟩
    · rw [if_neg hpos]
      have hle : hd ≤ 0 := not_lt.mp hpos
      refine ⟨le_refl _, ?_, Or.inl rfl, ?_⟩
      · show (0 : Int) ≤ -hd
        linarith
      · show (0 : Int) - -hd = hd
        ring

/-- Witness of C12 on the two-node model with `alpha = 0`: `SetupAlphaEnergy` returns,
and node 1 (height 1 at its label, 2 at `alpha`) gets the pair `(0, 1)`. -/
theorem C12_witness :
    ∃ crf1, SubmodularPrimalDual2.SetupAlphaEnergy pairModel pairState 0 pairFlow = .ok crf1 ∧
      crf1.unaries.getD 1 (0, 0) = (0, 1) ∧
      (crf1.unaries.getD 1 (0, 0)).1 - (crf1.unaries.getD 1 (0, 0)).2 =
        SubmodularPrimalDual2.ComputeHeight pairModel pairState 1 (labelAt pairState.m_labels 1)
          - SubmodularPrimalDual2.ComputeHeight pairModel pairState 1 0 := by
  have h := C12_SetupAlphaEnergy_unary_pairs pairModel pairState 0 pairFlow rfl
  obtain ⟨crf1, h1⟩ := h.1 pairFlow_shaped
  obtain ⟨_, h2, _, _, _, h3⟩ := h.2 crf1 h1 1 (by decide)
  refine ⟨crf1, h1, ?_, h3⟩
  rw [h2]
  decide

/-- C15: `UpdatePrimalDual(alpha)` updates the dual only in the `alpha` column.  For
every state, `alpha` and behaviour `Solve` of the external solver, the call returns when
the solver has the topology of the model, and whenever it returns, the flow solver it
leaves is `Solve` applied to the instance `SetupAlphaEnergy` built,
`dual_after[C][i][l] = dual_before[C][i][l]` for every clique, position and label
`l ≠ alpha`; and with the dual of the shape of the model and `alpha < L`, for every
clique `C` and position `i`,
`dual_after[C][i][alpha] = dual_before[C][i][alpha] + alpha_C[i]`, where `alpha_C` is
the correction vector that solver reports for `C` (a vector that ends before position
`i` adds nothing there). -/
theorem C15_UpdatePrimalDual_updates_alpha_column (E : MultilabelEnergy)
    (Solve : SubmodularIBFS → SubmodularIBFS) (alpha : Label) (s : State) (crf : SubmodularIBFS) :
    (FlowShaped E crf →
      ∃ r, SubmodularPrimalDual2.UpdatePrimalDual E Solve alpha s crf = .ok r) ∧
    ∀ r, SubmodularPrimalDual2.UpdatePrimalDual E Solve alpha s crf = .ok r →
      ∃ crf1, SubmodularPrimalDual2.SetupAlphaEnergy E s alpha crf = .ok crf1 ∧
        r.2.2 = Solve crf1 ∧
        (∀ ci i l, l ≠ alpha →
          getEntry (r.2.1.m_dual.getD ci []) i l = getEntry (s.m_dual.getD ci []) i l) ∧
        (DualShaped E s.m_dual → alpha < E.NumLabels →
          ∀ ci (hci : ci < E.Cliques.length), ∀ i, i < E.Cliques[ci].Size →
            getEntry (r.2.1.m_dual.getD ci []) i alpha =
              getEntry (s.m_dual.getD ci []) i alpha
                + ((Solve crf1).cliques.getD ci IBFSClique.blank).AlphaCi.getD i 0) := by
  refine ⟨SubmodularPrimalDual2.UpdatePrimalDual_total Solve alpha s, ?_⟩
  intro r h
  obtain ⟨crf1, h1, h2, _, _, h5, _⟩ := SubmodularPrimalDual2.UpdatePrimalDual_ok h
  have hspec := (SubmodularPrimalDual2.phiCliqueLoop_spec (Solve crf1).cliques alpha
    E.Cliques.length s.m_dual).2
  refine ⟨crf1, h1, h2, ?_, ?_⟩
  · intro ci i l hl
    rw [h5, hspec ci]
    split
    · rw [SubmodularPrimalDual2.getEntry_phiLoop, if_neg (fun hc => hl hc.2.1)]
    · rfl
  · intro hshape halpha ci hci i hi
    have hci2 : ci < s.m_dual.length := by rw [hshape.length]; exact hci
    have hd := hshape.getD hci
    rw [h5, hspec ci, if_pos ⟨hci, hci2⟩, SubmodularPrimalDual2.getEntry_phiLoop]
    by_cases hlen : i < ((Solve crf1).cliques.getD ci IBFSClique.blank).AlphaCi.length
    · have hc : i < ((Solve crf1).cliques.getD ci IBFSClique.blank).AlphaCi.length ∧
          alpha = alpha ∧ i < (s.m_dual.getD ci []).length ∧
          alpha < ((s.m_dual.getD ci []).getD i []).length :=
        ⟨hlen, rfl, by rw [hd.1]; exact hi, by rw [hd.getD_length hi]; exact halpha⟩
      rw [if_pos hc]
    · rw [if_neg (fun hc => hlen hc.1), List.getD_eq_default _ _ (not_lt.mp hlen)]
      exact (add_zero _).symm

/-- Witness of C15 on the two-node model with `alpha = 0` and a solver that reports the
corrections `[1, -1]`: the call returns, `dual[0][0][0]` goes from 2 to 3 and
`dual[0][1][0]` from 0 to -1, and the entries of label 1 keep their values 0 and 1. -/
theorem C15_witness :
    ∃ r, SubmodularPrimalDual2.UpdatePrimalDual pairModel slackSolve 0 pairState pairFlow
        = .ok r ∧
      getEntry (pairState.m_dual.getD 0 []) 0 0 = 2 ∧
      getEntry (r.2.1.m_dual.getD 0 []) 0 0 = 3 ∧
      getEntry (pairState.m_dual.getD 0 []) 1 0 = 0 ∧
      getEntry (r.2.1.m_dual.getD 0 []) 1 0 = -1 ∧
      getEntry (r.2.1.m_dual.getD 0 []) 0 1 = 0 ∧
      getEntry (r.2.1.m_dual.getD 0 []) 1 1 = 1 := by
  have h := C15_UpdatePrimalDual_updates_alpha_column pairModel slackSolve 0 pairState pairFlow
  obtain ⟨r, hr⟩ := h.1 pairFlow_shaped
  obtain ⟨crf1, h1, _, hframe, hcol⟩ := h.2 r hr
  have hflow := SubmodularPrimalDual2.SetupAlphaEnergy_flowShaped pairFlow_shaped h1
  have hpos : 0 < crf1.cliques.length := (hflow.at (j := 0) (by decide)).1
  have hA : ((slackSolve crf1).cliques.getD 0 IBFSClique.blank).AlphaCi = [1, -1] := by
    show ((crf1.cliques.map (fun c => { c with AlphaCi := [1, -1] })).getD 0
      IBFSClique.blank).AlphaCi = [1, -1]
    cases hc : crf1.cliques with
    | nil => rw [hc] at hpos; exact absurd hpos (by decide)
    | cons c0 cs => rfl
  have e0 := hcol pairState_shaped (by decide) 0 (by decide) 0 (by decide)
  have e1 := hcol pairState_shaped (by decide) 0 (by decide) 1 (by decide)
  rw [hA] at e0 e1
  refine ⟨r, hr, by decide, ?_, by decide, ?_, ?_, ?_⟩
  · rw [e0]; decide
  · rw [e1]; decide
  · rw [hframe 0 0 1 (by decide)]; decide
  · rw [hframe 0 1 1 (by decide)]; decide

/-- C16: `InitialNodeCliqueList` builds the exact reverse map in registration order.
When every clique mentions nodes below the number of nodes only, then after
`InitialNodeCliqueList` (of `SubmodularPrimalDual2` and of `DualGuidedFusionMove`) the
list `incident[v]` of every node `v` is the reverse map of the spec; that list holds
exactly the pairs `(c, i)` with `cliques[c].nodes[i] = v`, each once, in strictly
increasing order of `c` and, within one clique, of `i`. -/
theorem C16_InitialNodeCliqueList_is_reverse_map (E : MultilabelEnergy) (s : State)
    (F : DualGuidedFusionMove.Fields)
    (hrange : ∀ c ∈ E.Cliques, ∀ v ∈ c.Nodes, v < s.m_labels.length)
    (hrangeF : ∀ c ∈ F.m_cliques, ∀ v ∈ c.Nodes, v < F.m_labels.length) :
    (∀ v, (SubmodularPrimalDual2.InitialNodeCliqueList E s).m_node_clique_list.getD v [] =
        incident_spec E.Cliques v) ∧
    (∀ v, (DualGuidedFusionMove.InitialNodeCliqueList F).m_node_clique_list.getD v [] =
        incident_spec F.m_cliques v) ∧
    ∀ (cliques : List Clique) (v : NodeId),
      (∀ c i, (c, i) ∈ incident_spec cliques v ↔
        ∃ (hc : c < cliques.length) (hi : i < cliques[c].Nodes.length),
          cliques[c].Nodes[i] = v) ∧
      (incident_spec cliques v).Nodup ∧
      List.Pairwise (fun p q : Nat × Nat => p.1 < q.1 ∨ (p.1 = q.1 ∧ p.2 < q.2))
        (incident_spec cliques v) :=
  ⟨fun v => SubmodularPrimalDual2.pushCliques_eq_incident_spec E.Cliques s.m_labels.length
      hrange v,
    fun v => SubmodularPrimalDual2.pushCliques_eq_incident_spec F.m_cliques F.m_labels.length
      hrangeF v,
    fun cliques v => ⟨fun c i => mem_incident_spec cliques v c i, incident_spec_nodup cliques v,
      incident_spec_sorted cliques v⟩⟩

/-- Witness of C16 on the two-node model: node 1 is position 1 of clique 0, and that is
its whole list, for either class. -/
theorem C16_witness :
    (SubmodularPrimalDual2.InitialNodeCliqueList pairModel pairState).m_node_clique_list.getD 1 []
        = incident_spec pairModel.Cliques 1 ∧
    (DualGuidedFusionMove.InitialNodeCliqueList pairFields).m_node_clique_list.getD 1 []
        = incident_spec pairFields.m_cliques 1 ∧
    incident_spec pairModel.Cliques 1 = [(0, 1)] :=
  ⟨(C16_InitialNodeCliqueList_is_reverse_map pairModel pairState pairFields (by decide)
      (by decide)).1 1,
    (C16_InitialNodeCliqueList_is_reverse_map pairModel pairState pairFields (by decide)
      (by decide)).2.1 1,
    by decide⟩

/-- C17: at termination of `DualGuidedFusionMove::Solve` the Height invariant holds.
Whatever the three calls of a round (`PreEditDual`, `UpdatePrimalDual`, `PostEditDual`,
with the external flow solver behind them) do, whenever the solve loop exits, every node
`v` and label `l < L` of the final state satisfy
`height(v, labels[v]) ≤ height(v, l)`, and `CheckHeightInvariant` returns `true`
there. -/
theorem C17_Solve_exits_with_height_invariant
    (body : DualGuidedFusionMove.Fields → SubmodularIBFS →
      Except Fault (DualGuidedFusionMove.Fields × SubmodularIBFS))
    (fuel : Nat) (F : DualGuidedFusionMove.Fields) (crf : SubmodularIBFS)
    (r : DualGuidedFusionMove.Fields × SubmodularIBFS)
    (h : DualGuidedFusionMove.SolveLoop body fuel F crf = some (.ok r)) :
    (∀ v, v < r.1.m_labels.length → ∀ l, l < r.1.m_num_labels →
      DualGuidedFusionMove.ComputeHeight r.1 v (labelAt r.1.m_labels v)
        ≤ DualGuidedFusionMove.ComputeHeight r.1 v l) ∧
    DualGuidedFusionMove.CheckHeightInvariant r.1 = true := by
  obtain ⟨F0, h1, h2⟩ := DualGuidedFusionMove.SolveLoop_exit body fuel F crf r h
  have hinv : DualGuidedFusionMove.HeightInvariant r.1 := by
    rw [h2]
    exact (DualGuidedFusionMove.InitialFusionLabeling_false_iff F0).mp h1
  exact ⟨hinv, (DualGuidedFusionMove.CheckHeightInvariant_iff r.1).mpr hinv⟩

/-- Witness of C17 on the two-node model, where the first call of
`InitialFusionLabeling` already returns `false` and the loop exits. -/
theorem C17_witness :
    (∀ v, v < 2 → ∀ l, l < 2 →
      DualGuidedFusionMove.ComputeHeight (DualGuidedFusionMove.InitialFusionLabeling pairFields).2 v
          (labelAt (DualGuidedFusionMove.InitialFusionLabeling pairFields).2.m_labels v)
        ≤ DualGuidedFusionMove.ComputeHeight
            (DualGuidedFusionMove.InitialFusionLabeling pairFields).2 v l) ∧
    DualGuidedFusionMove.CheckHeightInvariant
      (DualGuidedFusionMove.InitialFusionLabeling pairFields).2 = true :=
  C17_Solve_exits_with_height_invariant (fun F crf => .ok (F, crf)) 1 pairFields pairFlow
    ((DualGuidedFusionMove.InitialFusionLabeling pairFields).2, pairFlow) rfl

/-- C18: what `CheckLabelInvariant` decides.  The guard is the unqualified call
`abs(sum - energy)`, and `abs` stands for the function that call is bound to.  Whatever
it is, `DualGuidedFusionMove::CheckLabelInvariant` returns `true` exactly when the guard
is zero at every clique, and `SubmodularPrimalDual2::CheckLabelInvariant` returns when
every clique has fewer than 32 nodes and then returns `true` exactly in that case.  With
an `abs` that is zero only at zero, as the 64-bit one is, both decide the Label
invariant on 64-bit sums and energies.  `int abs(int)` is zero at every multiple of
`2^32`: on the two-node state whose active duals sum to `3 + 2^32` where the clique
energy is 3, both checks return `true` although the Label invariant fails. -/
theorem C18_CheckLabelInvariant_decides_up_to_abs :
    (∀ (abs : REAL → REAL) (F : DualGuidedFusionMove.Fields),
      DualGuidedFusionMove.CheckLabelInvariant abs F = true ↔
        ∀ ci (h : ci < F.m_cliques.length),
          abs (wrap64 (activeSum (F.m_dual.getD ci []) (localLabels F.m_labels F.m_cliques[ci])
            - F.m_cliques[ci].Energy (localLabels F.m_labels F.m_cliques[ci]))) = 0) ∧
    (∀ (abs : REAL → REAL) (E : MultilabelEnergy) (s : State),
      ((∀ c ∈ E.Cliques, c.Size < 32) →
        ∃ b, SubmodularPrimalDual2.CheckLabelInvariant abs E s = .ok b) ∧
      ∀ b, SubmodularPrimalDual2.CheckLabelInvariant abs E s = .ok b →
        (b = true ↔
          ∀ ci (h : ci < E.Cliques.length),
            abs (wrap64 (activeSum (s.m_dual.getD ci []) (localLabels s.m_labels E.Cliques[ci])
              - E.Cliques[ci].Energy (localLabels s.m_labels E.Cliques[ci]))) = 0)) ∧
    (∀ (abs : REAL → REAL), (∀ x, IsReal64 x → (abs x = 0 ↔ x = 0)) →
      (∀ F : DualGuidedFusionMove.Fields,
        (∀ ci (h : ci < F.m_cliques.length),
          IsReal64 (activeSum (F.m_dual.getD ci []) (localLabels F.m_labels F.m_cliques[ci])) ∧
          IsReal64 (F.m_cliques[ci].Energy (localLabels F.m_labels F.m_cliques[ci]))) →
        (DualGuidedFusionMove.CheckLabelInvariant abs F = true ↔
          DualGuidedFusionMove.LabelInvariant F)) ∧
      ∀ (E : MultilabelEnergy) (s : State),
        (∀ ci (h : ci < E.Cliques.length),
          IsReal64 (activeSum (s.m_dual.getD ci []) (localLabels s.m_labels E.Cliques[ci])) ∧
          IsReal64 (E.Cliques[ci].Energy (localLabels s.m_labels E.Cliques[ci]))) →
        ∀ b, SubmodularPrimalDual2.CheckLabelInvariant abs E s = .ok b →
          (b = true ↔ LabelInvariant E s)) ∧
    (∀ x, IsReal64 x → (abs64 x = 0 ↔ x = 0)) ∧
    (∀ x, abs32 x = 0 ↔ x % 2 ^ 32 = 0) ∧
    (IsReal64 (activeSum (farState.m_dual.getD 0 []) (localLabels farState.m_labels pairClique)) ∧
      activeSum (farState.m_dual.getD 0 []) (localLabels farState.m_labels pairClique)
        - pairClique.Energy (localLabels farState.m_labels pairClique) = 2 ^ 32 ∧
      SubmodularPrimalDual2.CheckLabelInvariant abs32 pairModel farState = .ok true ∧
      ¬ LabelInvariant pairModel farState ∧
      DualGuidedFusionMove.CheckLabelInvariant abs32 farFields = true ∧
      ¬ DualGuidedFusionMove.LabelInvariant farFields ∧
      SubmodularPrimalDual2.CheckLabelInvariant abs64 pairModel farState = .ok false ∧
      DualGuidedFusionMove.CheckLabelInvariant abs64 farFields = false) := by
  have hA : ∀ (abs : REAL → REAL) (F : DualGuidedFusionMove.Fields),
      DualGuidedFusionMove.CheckLabelInvariant abs F = true ↔
        ∀ ci (h : ci < F.m_cliques.length),
          abs (wrap64 (activeSum (F.m_dual.getD ci []) (localLabels F.m_labels F.m_cliques[ci])
            - F.m_cliques[ci].Energy (localLabels F.m_labels F.m_cliques[ci]))) = 0 := by
    intro abs F
    unfold DualGuidedFusionMove.CheckLabelInvariant
    rw [DualGuidedFusionMove.checkLabelLoop_iff abs F.m_labels F.m_cliques 0 F.m_dual]
    simp only [Nat.zero_add]
  have hB : ∀ (abs : REAL → REAL) (E : MultilabelEnergy) (s : State),
      ∀ b, SubmodularPrimalDual2.CheckLabelInvariant abs E s = .ok b →
        (b = true ↔
          ∀ ci (h : ci < E.Cliques.length),
            abs (wrap64 (activeSum (s.m_dual.getD ci []) (localLabels s.m_labels E.Cliques[ci])
              - E.Cliques[ci].Energy (localLabels s.m_labels E.Cliques[ci]))) = 0) := by
    intro abs E s b hb
    unfold SubmodularPrimalDual2.CheckLabelInvariant at hb
    cases b with
    | true =>
      have := ((SubmodularPrimalDual2.checkLabelLoop_true_iff abs s.m_labels E.Cliques 0
        s.m_dual).mp hb).2
      simp only [Nat.zero_add] at this
      simp only [true_iff]
      exact this
    | false =>
      obtain ⟨j, hj, hbad⟩ := SubmodularPrimalDual2.checkLabelLoop_false abs s.m_labels
        E.Cliques 0 s.m_dual hb
      rw [Nat.zero_add] at hbad
      constructor
      · intro hc; cases hc
      · intro hall
        exact absurd (hall j hj) hbad
  refine ⟨hA, ?_, ?_, fun x hx => abs64_eq_zero hx, abs32_eq_zero,
    by decide, by decide, rfl, by decide, by decide, by decide, rfl, by decide⟩
  · intro abs E s
    exact ⟨fun hk => SubmodularPrimalDual2.checkLabelLoop_total abs s.m_labels E.Cliques hk 0
      s.m_dual, hB abs E s⟩
  · intro abs habs
    constructor
    · intro F h64
      rw [hA abs F]
      unfold DualGuidedFusionMove.LabelInvariant LabelInvariantAt
      constructor
      · intro h ci hci
        exact (wrap64_sub_eq_zero (h64 ci hci).1 (h64 ci hci).2).mp
          ((habs _ (wrap64_isReal64 _)).mp (h ci hci))
      · intro h ci hci
        exact (habs _ (wrap64_isReal64 _)).mpr
          ((wrap64_sub_eq_zero (h64 ci hci).1 (h64 ci hci).2).mpr (h ci hci))
    · intro E s h64 b hb
      rw [hB abs E s b hb]
      unfold LabelInvariant LabelInvariantAt
      constructor
      · intro h ci hci
        exact (wrap64_sub_eq_zero (h64 ci hci).1 (h64 ci hci).2).mp
          ((habs _ (wrap64_isReal64 _)).mp (h ci hci))
      · intro h ci hci
        exact (habs _ (wrap64_isReal64 _)).mpr
          ((wrap64_sub_eq_zero (h64 ci hci).1 (h64 ci hci).2).mpr (h ci hci))

/-- Witness of C18 with the 64-bit `abs` on the two-node model, where the Label
invariant holds: both checks return `true`. -/
theorem C18_witness :
    DualGuidedFusionMove.CheckLabelInvariant abs64 pairFields = true ∧
    SubmodularPrimalDual2.CheckLabelInvariant abs64 pairModel pairState = .ok true ∧
    LabelInvariant pairModel pairState := by
  have h := C18_CheckLabelInvariant_decides_up_to_abs
  have h64 := h.2.2.1 abs64 h.2.2.2.1
  have hinv : LabelInvariant pairModel pairState := by decide
  obtain ⟨b, hb⟩ := (h.2.1 abs64 pairModel pairState).1 (by decide)
  have hbt : b = true := (h64.2 pairModel pairState (by decide) b hb).mpr hinv
  rw [hbt] at hb
  exact ⟨(h64.1 pairFields (by decide)).mpr (by decide), hb, hinv⟩

/-- C19: the loop of `SubmodularPrimalDual2::Solve` terminates.  Let `Inv` be any set of
loop states that holds the state the loop is entered in and that no alpha-move leaves
(the set of all states, or the states of the run).  If the primal energy of every
labeling is nonnegative, every call of `UpdatePrimalDual` made from a state of `Inv`
that returns `true` strictly decreases it, and the energy of the initial labeling is at
most `E_initial`, then `Solve` ends (with its result or at an assertion) within
`1 + E_initial` sweeps of the outer loop, whatever larger bound on the number of sweeps
it is run with; when it returns, it has made between 1 and `1 + E_initial` sweeps, hence
at most `L * (1 + E_initial)` alpha-moves, and the last sweep, which produced the final
state, changed no label. -/
theorem C19_Solve_terminates_within_energy_bound (E : MultilabelEnergy)
    (solver : SubmodularIBFS → SubmodularIBFS) (s : State) (E_initial fuel : Nat)
    (Inv : State → SubmodularIBFS → Prop)
    (hnn : ∀ labels, 0 ≤ primalEnergy E labels)
    (hstart : ∀ crf s2, SubmodularPrimalDual2.SetupGraph E s SubmodularIBFS.empty = .ok crf →
      SubmodularPrimalDual2.InitialDual E (SubmodularPrimalDual2.InitialLabeling E s) = .ok s2 →
      Inv (SubmodularPrimalDual2.InitialNodeCliqueList E s2) crf)
    (hkeep : ∀ alpha, alpha < E.NumLabels → ∀ r r1, Inv r.2.1 r.2.2 →
      SubmodularPrimalDual2.alphaStep E solver alpha r = .ok r1 → Inv r1.2.1 r1.2.2)
    (hdec : ∀ alpha, alpha < E.NumLabels → ∀ s crf s1 u, Inv s crf →
      SubmodularPrimalDual2.PreEditDual E alpha s = .ok s1 →
      SubmodularPrimalDual2.UpdatePrimalDual E solver alpha s1 crf = .ok u → u.1 = true →
        primalEnergy E u.2.1.m_labels < primalEnergy E s1.m_labels)
    (hinit : primalEnergy E (SubmodularPrimalDual2.InitialLabeling E s).m_labels
      ≤ (E_initial : Int))
    (hfuel : 1 + E_initial ≤ fuel) :
    ∃ res, SubmodularPrimalDual2.Solve E solver fuel s = some res ∧
      ∀ r, res = .ok r →
        1 ≤ r.1 ∧ r.1 ≤ 1 + E_initial ∧
        E.NumLabels * r.1 ≤ E.NumLabels * (1 + E_initial) ∧
        ∃ s0 crf0, SubmodularPrimalDual2.sweepLoop E solver E.NumLabels (false, s0, crf0) =
          .ok (false, r.2.1, r.2.2) := by
  unfold SubmodularPrimalDual2.Solve
  cases hg : SubmodularPrimalDual2.SetupGraph E s SubmodularIBFS.empty with
  | error e => exact ⟨.error e, rfl, fun r hr => by cases hr⟩
  | ok crf =>
    simp only
    cases hd : SubmodularPrimalDual2.InitialDual E (SubmodularPrimalDual2.InitialLabeling E s) with
    | error e => exact ⟨.error e, rfl, fun r hr => by cases hr⟩
    | ok s2 =>
      simp only
      have hlab : (SubmodularPrimalDual2.InitialNodeCliqueList E s2).m_labels =
          (SubmodularPrimalDual2.InitialLabeling E s).m_labels := by
        show s2.m_labels = _
        exact SubmodularPrimalDual2.InitialDual_labels hd
      have hlt : primalEnergy E (SubmodularPrimalDual2.InitialNodeCliqueList E s2).m_labels
          < (fuel : Int) := by
        rw [hlab]
        have : ((1 + E_initial : Nat) : Int) ≤ (fuel : Int) := by exact_mod_cast hfuel
        push_cast at this
        linarith
      obtain ⟨res, hres, hprop⟩ := SubmodularPrimalDual2.whileLoop_terminates hnn hkeep hdec
        fuel 0 (SubmodularPrimalDual2.InitialNodeCliqueList E s2) crf (hstart crf s2 hg hd) hlt
      refine ⟨res, hres, ?_⟩
      intro r hr
      obtain ⟨p1, p2, _, p4⟩ := hprop r hr
      rw [hlab] at p2
      have hle : r.1 ≤ 1 + E_initial := by
        have : (r.1 : Int) ≤ ((1 + E_initial : Nat) : Int) := by
          push_cast
          push_cast at p2
          linarith
        exact_mod_cast this
      exact ⟨by omega, hle, Nat.mul_le_mul_left _ hle, p4⟩

/-- Witness of C19 on the two-node model with a solver that reports a minimizer of the
flow instance, for the loop states this run can be in: the initial energy is 3, and
`Solve`, given room for 4 sweeps, returns after two sweeps with the labeling `[0, 0]`
of energy 2. -/
theorem C19_witness :
    (∃ res, SubmodularPrimalDual2.Solve pairModel bruteSolve 4 pairStart = some res ∧
      ∀ r, res = .ok r →
        1 ≤ r.1 ∧ r.1 ≤ 1 + 3 ∧
        pairModel.NumLabels * r.1 ≤ pairModel.NumLabels * (1 + 3) ∧
        ∃ s0 crf0, SubmodularPrimalDual2.sweepLoop pairModel bruteSolve pairModel.NumLabels
          (false, s0, crf0) = .ok (false, r.2.1, r.2.2)) ∧
    ∃ r, SubmodularPrimalDual2.Solve pairModel bruteSolve 4 pairStart = some (.ok r) ∧
      r.1 = 2 ∧ r.2.1.m_labels = [0, 0] :=
  ⟨C19_Solve_terminates_within_energy_bound pairModel bruteSolve pairStart 3 4 pairReach
      pairModel_energy_nonneg pairReach_start pairReach_keep pairReach_dec (by decide)
      (by decide),
    _, rfl, rfl, rfl⟩

/-- C20: what `DualGuidedFusionMove::ComputeEnergy(x)` returns.  For every labeling `x`
the result is `constant_term`, plus the clique energies of the solver's current
labeling `m_labels`, plus the unaries of `x`; it is the energy of the spec when `x` is
the current labeling.  On the two-node model with the current labeling `[0, 1]` and
`x = [0, 0]` the call returns 5, where the energy of `x` is 2. -/
theorem C20_ComputeEnergy_reads_member_labels :
    (∀ (F : DualGuidedFusionMove.Fields) (x : List Label),
      DualGuidedFusionMove.ComputeEnergy F x =
        F.m_constant_term
          + (F.m_cliques.map (fun c => c.Energy (localLabels F.m_labels c))).sum
          + ((List.range F.m_labels.length).map
              (fun i => DualGuidedFusionMove.unaryAt F i (x.getD i 0))).sum) ∧
    (∀ F : DualGuidedFusionMove.Fields,
      DualGuidedFusionMove.ComputeEnergy F F.m_labels =
        DualGuidedFusionMove.energy_spec F F.m_labels) ∧
    DualGuidedFusionMove.ComputeEnergy pairFields [0, 0] = 5 ∧
    DualGuidedFusionMove.energy_spec pairFields [0, 0] = 2 := by
  refine ⟨DualGuidedFusionMove.ComputeEnergy_eq, ?_, by decide, by decide⟩
  intro F
  rw [DualGuidedFusionMove.ComputeEnergy_eq]
  unfold DualGuidedFusionMove.energy_spec
  ring

/-- C21, as amended: scenario S1 (Potts, 2x2 grid, `L = 3`, unaries 0 at
`l* = [0, 1, 1, 2]` and 2 elsewhere, Potts cliques on the 4 grid edges) on a grid where
`l*` has 3 disagreeing edges, as the scenario says.  The minimum of `E` over all
labelings is 3, attained by `l*` and by no other labeling; the labelings `[1, 1, 1, 2]`
and `[0, 1, 1, 1]` both have energy 4; and for every solver that keeps the topology of
the flow instance and never reports an assignment costlier than the all-zero one,
`Solve` returns, and the labeling it returns has energy 3. -/
theorem C21_scenario_S1_minimum_is_three (edges : List (NodeId × NodeId))
    (he : edges ∈ gridEdgeSets) (hcut : primalEnergy (gridModel edges) [0, 1, 1, 2] = 3) :
    (∀ labels, IsLabeling (gridModel edges) labels → 3 ≤ primalEnergy (gridModel edges) labels) ∧
    IsLabeling (gridModel edges) [0, 1, 1, 2] ∧
    (∀ labels, IsLabeling (gridModel edges) labels →
      primalEnergy (gridModel edges) labels = 3 → labels = [0, 1, 1, 2]) ∧
    primalEnergy (gridModel edges) [1, 1, 1, 2] = 4 ∧
    primalEnergy (gridModel edges) [0, 1, 1, 1] = 4 ∧
    ∀ (solver : SubmodularIBFS → SubmodularIBFS),
      (∀ crf, FlowShaped (gridModel edges) crf → FlowShaped (gridModel edges) (solver crf) ∧
        crf.Energy (solverAssignment (solver crf)) ≤ crf.Energy (fun _ => false)) →
      (∀ fuel, 1 ≤ fuel →
        ∃ r, SubmodularPrimalDual2.Solve (gridModel edges) solver fuel gridStart = some (.ok r) ∧
          primalEnergy (gridModel edges) r.2.1.m_labels = 3) ∧
      ∀ (fuel : Nat) r,
        SubmodularPrimalDual2.Solve (gridModel edges) solver fuel gridStart = some (.ok r) →
        primalEnergy (gridModel edges) r.2.1.m_labels = 3 := by
  have h4 : primalEnergy (gridModel edges) [1, 1, 1, 2] = 4 ∧
      primalEnergy (gridModel edges) [0, 1, 1, 1] = 4 := by
    revert edges
    decide
  have hstart : ∀ l ∈ gridStart.m_labels, l < (gridModel edges).NumLabels :=
    (by decide : ∀ l ∈ [0, 0, 0, 0], l < 3)
  refine ⟨fun labels h => (gridModel_min he labels h).1,
    (by decide : [0, 1, 1, 2].length = 4 ∧ ∀ l ∈ [0, 1, 1, 2], l < 3),
    fun labels h h3 => (gridModel_min he labels h).2.2 (le_of_eq h3), h4.1, h4.2, ?_⟩
  intro solver hsolve
  constructor
  · intro fuel hfuel
    obtain ⟨r, hr, _, hlab⟩ := SubmodularPrimalDual2.Solve_fixed (E := gridModel edges)
      (s := gridStart) (fun c hc => (gridModel_cliques edges c hc).1) (gridModel_range edges he)
      (fun c hc => (gridModel_cliques edges c hc).2) hsolve rfl hstart
      (fun labels h hle => by
        rw [gridModel_initial] at hle ⊢
        rw [hcut] at hle
        exact (gridModel_min he labels h).2.2 hle)
      fuel hfuel
    refine ⟨r, hr, ?_⟩
    rw [hlab, gridModel_initial, hcut]
  · intro fuel r h
    obtain ⟨h1, h2⟩ := SubmodularPrimalDual2.Solve_descent (E := gridModel edges)
      (s := gridStart) (gridModel_range edges he) rfl hstart hsolve h
    rw [gridModel_initial, hcut] at h2
    exact le_antisymm h2 (gridModel_min he _ h1).1

/-- Witness of C21 (amended) on the grid numbered around in the order 0, 1, 2, 3, with
the solver that reports an assignment of least energy: `Solve` returns a labeling of
energy 3. -/
theorem C21_witness :
    ∃ r, SubmodularPrimalDual2.Solve (gridModel ringEdges) exactSolve 1 gridStart
        = some (.ok r) ∧
      primalEnergy (gridModel ringEdges) r.2.1.m_labels = 3 :=
  ((C21_scenario_S1_minimum_is_three ringEdges (by decide) (by decide)).2.2.2.2.2 exactSolve
    (exactSolve_quality (gridModel ringEdges))).1 1 (le_refl 1)

/-- Counterexample to C21 as stated.  On the grid where `l*` has 3 disagreeing edges the
labelings `[1, 1, 1, 2]` and `[0, 1, 1, 1]` have energy 4 and `l*` has energy 3; and on
each of the three ways to lay the 4 grid edges over the four nodes, no labeling has
energy 2 and no run of `Solve`, with any solver, returns a labeling of energy 2. -/
theorem C21_counterexample :
    (primalEnergy (gridModel ringEdges) [1, 1, 1, 2] = 4 ∧
      primalEnergy (gridModel ringEdges) [0, 1, 1, 1] = 4 ∧
      primalEnergy (gridModel ringEdges) [0, 1, 1, 2] = 3) ∧
    (∀ edges ∈ gridEdgeSets,
      (¬ ∃ labels, IsLabeling (gridModel edges) labels ∧
        primalEnergy (gridModel edges) labels = 2) ∧
      ¬ ∃ (solver : SubmodularIBFS → SubmodularIBFS) (fuel : Nat)
          (r : Nat × State × SubmodularIBFS),
        SubmodularPrimalDual2.Solve (gridModel edges) solver fuel gridStart = some (.ok r) ∧
        primalEnergy (gridModel edges) r.2.1.m_labels = 2) := by
  refine ⟨by decide, ?_⟩
  intro edges he
  constructor
  · rintro ⟨labels, h1, h2⟩
    have := (gridModel_min he labels h1).1
    rw [h2] at this
    exact absurd this (by decide)
  · rintro ⟨solver, fuel, r, h1, h2⟩
    have hk := (SubmodularPrimalDual2.Solve_keeps (E := gridModel edges) (s := gridStart) rfl
      (by decide : ∀ l ∈ [0, 0, 0, 0], l < 3) h1).1
    have := (gridModel_min he _ hk).1
    rw [h2] at this
    exact absurd this (by decide)

/-- C22, as amended: which cliques `InitialDual` rejects, empty cliques left aside.  For
a model whose cliques all have at least one node,
`SubmodularPrimalDual2::InitialDual` returns exactly when every clique has fewer than 32
nodes (the guard `ASSERT(k < 32)`, so 31 at most) and nonnegative energy at the current
labeling, and fails with an assertion as soon as one clique has 32 or more nodes or
negative energy; `DualGuidedFusionMove::InitialDual`, which has no size guard, returns
exactly when every clique has nonnegative energy and fails with an assertion as soon as
one has negative energy. -/
theorem C22_InitialDual_rejects_invalid_cliques (E : MultilabelEnergy) (s : State)
    (hne : ∀ c ∈ E.Cliques, 1 ≤ c.Size) :
    ((∃ s1, SubmodularPrimalDual2.InitialDual E s = .ok s1) ↔
      ∀ c ∈ E.Cliques, c.Size < 32 ∧ 0 ≤ c.Energy (localLabels s.m_labels c)) ∧
    ((∃ c ∈ E.Cliques, 32 ≤ c.Size ∨ c.Energy (localLabels s.m_labels c) < 0) →
      SubmodularPrimalDual2.InitialDual E s = .error .assertion) ∧
    ((∃ s1, DualGuidedFusionMove.InitialDual E.NumLabels E.Cliques s = .ok s1) ↔
      ∀ c ∈ E.Cliques, 0 ≤ c.Energy (localLabels s.m_labels c)) ∧
    ((∃ c ∈ E.Cliques, c.Energy (localLabels s.m_labels c) < 0) →
      DualGuidedFusionMove.InitialDual E.NumLabels E.Cliques s = .error .assertion) := by
  have hA : (∃ c ∈ E.Cliques, 32 ≤ c.Size ∨ c.Energy (localLabels s.m_labels c) < 0) →
      SubmodularPrimalDual2.InitialDual E s = .error .assertion := by
    rintro ⟨c, hc, hbad⟩
    have hrej := SubmodularPrimalDual2.InitialDualClique_rejects E.NumLabels s.m_labels c hbad
    unfold SubmodularPrimalDual2.InitialDual
    cases hr : pushBackLoop (SubmodularPrimalDual2.InitialDualClique E.NumLabels s.m_labels)
        E.Cliques with
    | ok ds => exact absurd hr (pushBackLoop_error E.Cliques hc hrej ds)
    | error e =>
      obtain ⟨c1, hc1, he⟩ := pushBackLoop_fault E.Cliques hr
      rw [SubmodularPrimalDual2.InitialDualClique_fault (hne c1 hc1) he]
  have hB : (∃ c ∈ E.Cliques, c.Energy (localLabels s.m_labels c) < 0) →
      DualGuidedFusionMove.InitialDual E.NumLabels E.Cliques s = .error .assertion := by
    rintro ⟨c, hc, hbad⟩
    have hrej := DualGuidedFusionMove.InitialDualClique_rejects_negative E.NumLabels s.m_labels c hbad
    unfold DualGuidedFusionMove.InitialDual
    cases hr : pushBackLoop (DualGuidedFusionMove.InitialDualClique E.NumLabels s.m_labels)
        E.Cliques with
    | ok ds => exact absurd hr (pushBackLoop_error E.Cliques hc hrej ds)
    | error e =>
      obtain ⟨c1, hc1, he⟩ := pushBackLoop_fault E.Cliques hr
      rw [DualGuidedFusionMove.InitialDualClique_fault_assertion (hne c1 hc1) he]
  refine ⟨⟨?_, ?_⟩, hA, ⟨?_, ?_⟩, hB⟩
  · rintro ⟨s1, h1⟩ c hc
    by_contra hbad
    have hex : ∃ c ∈ E.Cliques, 32 ≤ c.Size ∨ c.Energy (localLabels s.m_labels c) < 0 := by
      refine ⟨c, hc, ?_⟩
      by_cases hk : c.Size < 32
      · right
        exact not_le.mp (fun he => hbad ⟨hk, he⟩)
      · left; omega
    rw [hA hex] at h1
    cases h1
  · intro hall
    obtain ⟨ds, hds⟩ := pushBackLoop_total E.Cliques (fun c hc =>
      SubmodularPrimalDual2.InitialDualClique_accepts E.NumLabels s.m_labels c (hne c hc)
        (hall c hc).1 (hall c hc).2)
    exact ⟨{ s with m_dual := ds }, by unfold SubmodularPrimalDual2.InitialDual; rw [hds]⟩
  · rintro ⟨s1, h1⟩ c hc
    by_contra hbad
    rw [hB ⟨c, hc, not_le.mp hbad⟩] at h1
    cases h1
  · intro hall
    obtain ⟨ds, hds⟩ := pushBackLoop_total E.Cliques (fun c hc =>
      DualGuidedFusionMove.InitialDualClique_accepts_nonneg E.NumLabels s.m_labels c (hne c hc)
        (hall c hc))
    exact ⟨{ s with m_dual := ds }, by unfold DualGuidedFusionMove.InitialDual; rw [hds]⟩

/-- Witness of C22 (amended) on the two-node model, whose one clique has two nodes and
energy 3: both `InitialDual` return. -/
theorem C22_witness :
    (∃ s1, SubmodularPrimalDual2.InitialDual pairModel pairState = .ok s1) ∧
    ∃ s1, DualGuidedFusionMove.InitialDual pairModel.NumLabels pairModel.Cliques pairState
      = .ok s1 :=
  ⟨(C22_InitialDual_rejects_invalid_cliques pairModel pairState (by decide)).1.mpr (by decide),
    (C22_InitialDual_rejects_invalid_cliques pairModel pairState (by decide)).2.2.1.mpr
      (by decide)⟩

/-- Counterexample to C22 as stated.  A clique of `K_MAX = 32` nodes and energy 1 is
within `1 ≤ k ≤ K_MAX`, yet `SubmodularPrimalDual2::InitialDual` stops at
`ASSERT(k < 32)`; a clique of 33 nodes is larger than `K_MAX`, yet
`DualGuidedFusionMove::InitialDual` returns; and on an empty clique of energy 0 neither
assertion fires and both reach the division by the clique size 0. -/
theorem C22_counterexample :
    (1 ≤ wideClique.Size ∧ wideClique.Size ≤ K_MAX ∧
      0 ≤ wideClique.Energy (localLabels wideState.m_labels wideClique) ∧
      SubmodularPrimalDual2.InitialDual wideModel wideState = .error .assertion) ∧
    (K_MAX < hugeClique.Size ∧
      ∃ s1, DualGuidedFusionMove.InitialDual hugeModel.NumLabels hugeModel.Cliques
        (zeroState 33) = .ok s1) ∧
    (emptyClique.Size = 0 ∧
      SubmodularPrimalDual2.InitialDual emptyModel (zeroState 1) = .error .divide_by_zero ∧
      DualGuidedFusionMove.InitialDual emptyModel.NumLabels emptyModel.Cliques (zeroState 1)
        = .error .divide_by_zero) :=
  ⟨⟨by decide, by decide, by decide, rfl⟩, ⟨by decide, _, rfl⟩, ⟨rfl, rfl, rfl⟩⟩

/-- C25, as amended: `zero_marginal_set` zeroes the marginals at `T`, and stays an upper
bound of a table that does not depend on the positions in `T`.  For every `k`, table
`g` and bitmask `T`, the result `g'(S) = g(S \ T)` satisfies `g'(S ∪ {i}) = g'(S)` for
every `S` and every `i ∈ T`, and `g'(S) = g(S)` for every `S` disjoint from `T`; when
`g ≥ f` and `f(S \ T) = f(S)` for every `S`, then `g' ≥ f`; and the fusion table that
`DualGuidedFusionMove::PreEditDual` computes for a clique of fewer than 32 nodes has
that property for its mask `fusion_equals_current`, so `g'` is an upper bound of it as
soon as `g` is. -/
theorem C25_zero_marginal_set_zeroes_marginals :
    (∀ (k : Nat) (g : List REAL) (T S i : Nat), S < 2 ^ k → i < k → T.testBit i = true →
      (zero_marginal_set k g T).getD (S ||| 2 ^ i) 0 = (zero_marginal_set k g T).getD S 0) ∧
    (∀ (k : Nat) (g : List REAL) (T S : Nat), S < 2 ^ k →
      (zero_marginal_set k g T).getD S 0 = g.getD (maskDiff S T) 0) ∧
    (∀ (k : Nat) (g : List REAL) (T S : Nat), S < 2 ^ k → S &&& T = 0 →
      (zero_marginal_set k g T).getD S 0 = g.getD S 0) ∧
    (∀ (k : Nat) (f g : List REAL) (T : Nat),
      (∀ S, S < 2 ^ k → f.getD S 0 ≤ g.getD S 0) →
      (∀ S, S < 2 ^ k → f.getD (maskDiff S T) 0 = f.getD S 0) →
      ∀ S, S < 2 ^ k → f.getD S 0 ≤ (zero_marginal_set k g T).getD S 0) ∧
    ∀ (c : Clique) (current_labels fusion_labels : List Label) (g : List REAL),
      current_labels.length < 32 →
      (∀ S, S < 2 ^ current_labels.length →
        DualGuidedFusionMove.fusionEnergy c current_labels fusion_labels S ≤ g.getD S 0) →
      ∀ S, S < 2 ^ current_labels.length →
        DualGuidedFusionMove.fusionEnergy c current_labels fusion_labels S ≤
          (zero_marginal_set current_labels.length g
            (DualGuidedFusionMove.fusionEqualsCurrent current_labels fusion_labels
              current_labels.length)).getD S 0 := by
  refine ⟨?_, ?_, ?_, ?_, ?_⟩
  · intro k g T S i hS hi hT
    have h2 : S ||| 2 ^ i < 2 ^ k :=
      Nat.or_lt_two_pow hS (Nat.pow_lt_pow_right (by decide) hi)
    rw [getD_zero_marginal_set k g T h2, getD_zero_marginal_set k g T hS, maskDiff_or S hT]
  · intro k g T S hS
    exact getD_zero_marginal_set k g T hS
  · intro k g T S hS hd
    rw [getD_zero_marginal_set k g T hS, maskDiff_disjoint hd]
  · intro k f g T hfg hf S hS
    rw [getD_zero_marginal_set k g T hS, ← hf S hS]
    exact hfg _ (maskDiff_lt T hS)
  · intro c current_labels fusion_labels g _ hfg S hS
    rw [getD_zero_marginal_set _ g _ hS,
      ← DualGuidedFusionMove.fusionEnergy_maskDiff c current_labels fusion_labels S]
    exact hfg _ (maskDiff_lt _ hS)

/-- Witness of C25 (amended): on the pairwise clique with current labels `[0, 1]` and
fusion labels `[0, 0]` position 0 is frozen, the table `[3, 4, 0, 1]` is an upper bound
of the fusion table `[3, 3, 0, 0]`, and so is the result of `zero_marginal_set`. -/
theorem C25_witness :
    ∀ S, S < 2 ^ 2 →
      DualGuidedFusionMove.fusionEnergy pairClique [0, 1] [0, 0] S ≤
        (zero_marginal_set 2 [3, 4, 0, 1]
          (DualGuidedFusionMove.fusionEqualsCurrent [0, 1] [0, 0] 2)).getD S 0 :=
  C25_zero_marginal_set_zeroes_marginals.2.2.2.2 pairClique [0, 1] [0, 0] [3, 4, 0, 1]
    (by decide) (by decide)

/-- Counterexample to C25 as stated: for `k = 1`, the table `g = [0, 5]` and `T = {0}`
the result has `g'({0}) = g(∅) = 0`, which is below `g({0}) = 5`. -/
theorem C25_counterexample :
    (zero_marginal_set 1 [0, 5] 1).getD 1 0 = 0 ∧
    (zero_marginal_set 1 [0, 5] 1).getD 1 0 < ([0, 5] : List REAL).getD 1 0 := by
  decide

/-- C26: `ComputeHeightDiff` agrees with `ComputeHeight`.  For every node `i`, labels
`l1`, `l2`, dual table and node-clique index,
`ComputeHeightDiff(i, l1, l2) = ComputeHeight(i, l1) - ComputeHeight(i, l2)`, and
`ComputeHeight(i, l)` is `U_i(l)` plus the sum over the pairs `(C, p)` of
`m_node_clique_list[i]` of `dual[C][p][l]`. -/
theorem C26_ComputeHeightDiff_agrees_with_ComputeHeight (E : MultilabelEnergy) (s : State)
    (i : NodeId) (l1 l2 : Label) :
    SubmodularPrimalDual2.ComputeHeightDiff E s i l1 l2 =
      SubmodularPrimalDual2.ComputeHeight E s i l1 -
        SubmodularPrimalDual2.ComputeHeight E s i l2 ∧
    ∀ l, SubmodularPrimalDual2.ComputeHeight E s i l = E.Unary i l +
      ((s.m_node_clique_list.getD i []).map
        (fun p => getEntry (s.m_dual.getD p.1 []) p.2 l)).sum :=
  ⟨SubmodularPrimalDual2.ComputeHeightDiff_eq E s i l1 l2,
    fun l => SubmodularPrimalDual2.ComputeHeight_eq E s i l⟩

/-- C27: closed form of `PreEditDual`.  For a state whose dual holds one `k × L` table
per clique and `alpha < L`, `PreEditDual(alpha)` returns when every clique passes its
guard `k < 32`, and whenever it returns, for every clique `C` of size `k` with current
local labels `y` and every position `i < k`,
`dual[C][i][alpha] = fhat({i,...,k-1}) - fhat({i+1,...,k-1}) + dual_before[C][i][y_i]`,
where `fhat(S)` is the clique energy with the positions in `S` set to `alpha` and the
others left at `y`; every entry `dual[C][i][l]` with `l ≠ alpha` is unchanged. -/
theorem C27_PreEditDual_closed_form (E : MultilabelEnergy) (alpha : Label) (s : State)
    (hshape : DualShaped E s.m_dual) (halpha : alpha < E.NumLabels) :
    ((∀ c ∈ E.Cliques, c.Size < 32) →
      ∃ s1, SubmodularPrimalDual2.PreEditDual E alpha s = .ok s1) ∧
    ∀ s1, SubmodularPrimalDual2.PreEditDual E alpha s = .ok s1 →
      (∀ ci (hci : ci < E.Cliques.length), ∀ i, i < E.Cliques[ci].Size →
        getEntry (s1.m_dual.getD ci []) i alpha =
          fusionTable E.Cliques[ci] (localLabels s.m_labels E.Cliques[ci]) alpha
              (suffixMask E.Cliques[ci].Size i)
            - fusionTable E.Cliques[ci] (localLabels s.m_labels E.Cliques[ci]) alpha
              (suffixMask E.Cliques[ci].Size (i + 1))
            + getEntry (s.m_dual.getD ci []) i
              ((localLabels s.m_labels E.Cliques[ci]).getD i 0)) ∧
      ∀ ci i l, l ≠ alpha →
        getEntry (s1.m_dual.getD ci []) i l = getEntry (s.m_dual.getD ci []) i l := by
  refine ⟨SubmodularPrimalDual2.PreEditDual_total alpha s, ?_⟩
  intro s1 h
  obtain ⟨_, _, hlen, hall⟩ := SubmodularPrimalDual2.PreEditDual_ok h
  have hdl : s.m_dual.length = E.Cliques.length := (List.Forall₂.length_eq hshape).symm
  refine ⟨?_, ?_⟩
  · intro ci hci i hi
    have hstep := (hall ci hci).1 (by omega)
    have hsh := DualShaped.getD hshape hci
    rw [SubmodularPrimalDual2.getEntry_PreEditDualClique hstep i alpha]
    have hcond : i < E.Cliques[ci].Size ∧ alpha = alpha ∧ i < (s.m_dual.getD ci []).length ∧
        alpha < ((s.m_dual.getD ci []).getD i []).length := by
      refine ⟨hi, rfl, by rw [hsh.1]; exact hi, ?_⟩
      rw [hsh.getD_length hi]
      exact halpha
    rw [if_pos hcond]
  · intro ci i l hl
    by_cases hci : ci < E.Cliques.length
    · have hstep := (hall ci hci).1 (by omega)
      rw [SubmodularPrimalDual2.getEntry_PreEditDualClique hstep i l]
      rw [if_neg (fun hc => hl hc.2.1)]
    · have h1 : s.m_dual.getD ci [] = [] := List.getD_eq_default _ _ (by omega)
      have h2 : s1.m_dual.getD ci [] = [] := List.getD_eq_default _ _ (by omega)
      rw [h1, h2]

/-- Witness of C27 on the two-node model with `alpha = 0`: `PreEditDual` returns, and
the entry of position 1 and label 0 is `fhat({1}) - fhat({}) + dual_before[C][1][1]`,
which is `0 - 3 + 1`. -/
theorem C27_witness :
    ∃ s1, SubmodularPrimalDual2.PreEditDual pairModel 0 pairState = .ok s1 ∧
      getEntry (s1.m_dual.getD 0 []) 1 0 = 0 - 3 + 1 := by
  have h := C27_PreEditDual_closed_form pairModel 0 pairState pairState_shaped (by decide)
  obtain ⟨s1, h1⟩ := h.1 (by decide)
  refine ⟨s1, h1, ?_⟩
  rw [(h.2 s1 h1).1 0 (by decide) 1 (by decide)]
  decide

/-- C28: `InitialFusionLabeling` returns false exactly when the Height invariant already
holds.  For every state it returns false if and only if every node `v` and label
`l < L` satisfy `height(v, labels[v]) ≤ height(v, l)`, which is also exactly when
`CheckHeightInvariant` returns true; in every case it leaves the labels, the dual and
the heights unchanged; and, with one fusion label per node, it sets `fusion_labels[v]`
to a label of minimum height, which is below `L` when `labels[v]` is, and is `labels[v]`
itself when `labels[v]` already attains the minimum. -/
theorem C28_InitialFusionLabeling_false_iff_height_invariant
    (F : DualGuidedFusionMove.Fields) :
    ((DualGuidedFusionMove.InitialFusionLabeling F).1 = false ↔
      ∀ v, v < F.m_labels.length → ∀ l, l < F.m_num_labels →
        DualGuidedFusionMove.ComputeHeight F v (labelAt F.m_labels v) ≤
          DualGuidedFusionMove.ComputeHeight F v l) ∧
    ((DualGuidedFusionMove.InitialFusionLabeling F).1 = false ↔
      DualGuidedFusionMove.CheckHeightInvariant F = true) ∧
    (DualGuidedFusionMove.InitialFusionLabeling F).2.m_labels = F.m_labels ∧
    (DualGuidedFusionMove.InitialFusionLabeling F).2.m_dual = F.m_dual ∧
    (∀ i x, DualGuidedFusionMove.ComputeHeight (DualGuidedFusionMove.InitialFusionLabeling F).2 i x
      = DualGuidedFusionMove.ComputeHeight F i x) ∧
    (F.m_fusion_labels.length = F.m_labels.length →
      ∀ v, v < F.m_labels.length →
        (∀ l, l < F.m_num_labels →
          DualGuidedFusionMove.ComputeHeight F v
              (labelAt (DualGuidedFusionMove.InitialFusionLabeling F).2.m_fusion_labels v)
            ≤ DualGuidedFusionMove.ComputeHeight F v l) ∧
        DualGuidedFusionMove.ComputeHeight F v
            (labelAt (DualGuidedFusionMove.InitialFusionLabeling F).2.m_fusion_labels v)
          ≤ DualGuidedFusionMove.ComputeHeight F v (labelAt F.m_labels v) ∧
        (labelAt F.m_labels v < F.m_num_labels →
          labelAt (DualGuidedFusionMove.InitialFusionLabeling F).2.m_fusion_labels v
            < F.m_num_labels) ∧
        ((∀ l, l < F.m_num_labels →
            DualGuidedFusionMove.ComputeHeight F v (labelAt F.m_labels v) ≤
              DualGuidedFusionMove.ComputeHeight F v l) →
          labelAt (DualGuidedFusionMove.InitialFusionLabeling F).2.m_fusion_labels v =
            labelAt F.m_labels v)) := by
  have hfr := DualGuidedFusionMove.InitialFusionLabeling_frame F
  refine ⟨DualGuidedFusionMove.InitialFusionLabeling_false_iff F,
    (DualGuidedFusionMove.InitialFusionLabeling_false_iff F).trans
      (DualGuidedFusionMove.CheckHeightInvariant_iff F).symm,
    hfr.1, hfr.2.1, hfr.2.2.2.2.2.2, ?_⟩
  intro hlen v hv
  obtain ⟨h1, h2, h3, h4⟩ := DualGuidedFusionMove.InitialFusionLabeling_labels F hlen hv
  refine ⟨h1, h2, ?_, h4⟩
  intro hl
  rcases h3 with h3 | h3
  · rw [h3]; exact hl
  · exact h3

/-- Witness of C28 on the fields of the two-node model, whose labeling `[0, 1]`
satisfies the Height invariant: the call returns false, and the fusion label of node 1 has
a height that is at most the height of every label. -/
theorem C28_witness :
    (DualGuidedFusionMove.InitialFusionLabeling pairFields).1 = false ∧
    ∀ l, l < pairFields.m_num_labels →
      DualGuidedFusionMove.ComputeHeight pairFields 1
          (labelAt (DualGuidedFusionMove.InitialFusionLabeling pairFields).2.m_fusion_labels 1)
        ≤ DualGuidedFusionMove.ComputeHeight pairFields 1 l :=
  ⟨by decide,
    ((C28_InitialFusionLabeling_false_iff_height_invariant pairFields).2.2.2.2.2 rfl 1
      (by decide)).1⟩

/-- C29: labels stay in range.  With `L ≥ 1` the labeling that `InitialLabeling` leaves
after the constructor is a labeling with every label below `L`; `InitialDual` creates
one `k × L` table per clique; whenever `PreEditDual`, `UpdatePrimalDual(alpha)` with
`alpha < L` (for any solver output) or `PostEditDual` returns, the labeling still has
every label below `L` and the table still has that shape, and so it is after a whole
run of `Solve`; consequently, for cliques on nodes of the model, every access
`dual[C][i][labels[C.nodes[i]]]` with `i < k` is within the `k × L` table. -/
theorem C29_labels_stay_in_range (E : MultilabelEnergy)
    (solver : SubmodularIBFS → SubmodularIBFS) (alpha : Label) (s : State)
    (crf : SubmodularIBFS) (hL : 1 ≤ E.NumLabels) (halpha : alpha < E.NumLabels) :
    IsLabeling E (SubmodularPrimalDual2.InitialLabeling E
      (SubmodularPrimalDual2.constructed E)).m_labels ∧
    (∀ s1, SubmodularPrimalDual2.InitialDual E s = .ok s1 →
      s1.m_labels = s.m_labels ∧ DualShaped E s1.m_dual) ∧
    (∀ s1, SubmodularPrimalDual2.PreEditDual E alpha s = .ok s1 →
      (IsLabeling E s.m_labels → IsLabeling E s1.m_labels) ∧
      (DualShaped E s.m_dual → DualShaped E s1.m_dual)) ∧
    (∀ r, SubmodularPrimalDual2.UpdatePrimalDual E solver alpha s crf = .ok r →
      (IsLabeling E s.m_labels → IsLabeling E r.2.1.m_labels) ∧
      (DualShaped E s.m_dual → DualShaped E r.2.1.m_dual)) ∧
    (∀ s1, SubmodularPrimalDual2.PostEditDual E s = .ok s1 →
      (IsLabeling E s.m_labels → IsLabeling E s1.m_labels) ∧
      (DualShaped E s.m_dual → DualShaped E s1.m_dual)) ∧
    (∀ (fuel : Nat) r,
      SubmodularPrimalDual2.Solve E solver fuel (SubmodularPrimalDual2.constructed E)
        = some (.ok r) →
      IsLabeling E r.2.1.m_labels ∧ DualShaped E r.2.1.m_dual) ∧
    (IsLabeling E s.m_labels → CliquesInRange E → DualShaped E s.m_dual →
      ∀ ci (hci : ci < E.Cliques.length), ∀ i, i < E.Cliques[ci].Size →
        labelAt s.m_labels (E.Cliques[ci].Nodes.getD i 0) < E.NumLabels ∧
        i < (s.m_dual.getD ci []).length ∧
        labelAt s.m_labels (E.Cliques[ci].Nodes.getD i 0) <
          ((s.m_dual.getD ci []).getD i []).length) := by
  have hzero : ∀ l ∈ (SubmodularPrimalDual2.constructed E).m_labels, l < E.NumLabels := by
    intro l hl
    rw [List.eq_of_mem_replicate hl]
    exact hL
  have hlen : (SubmodularPrimalDual2.constructed E).m_labels.length = E.NumNodes :=
    List.length_replicate _ _
  refine ⟨?_, ?_, ?_, ?_, ?_, ?_, ?_⟩
  · refine ⟨?_, labelingLoop_range E.Unary _ E.NumNodes hzero⟩
    show (labelingLoop E.Unary E.NumLabels E.NumNodes _).length = E.NumNodes
    rw [(labelingLoop_spec E.Unary E.NumLabels _ E.NumNodes).1]
    exact hlen
  · intro s1 h
    exact ⟨(SubmodularPrimalDual2.InitialDual_shaped h).1,
      (SubmodularPrimalDual2.InitialDual_shaped h).2.2⟩
  · intro s1 h
    refine ⟨?_, SubmodularPrimalDual2.PreEditDual_shaped h⟩
    rw [(SubmodularPrimalDual2.PreEditDual_ok h).1]
    exact id
  · intro r h
    exact ⟨(SubmodularPrimalDual2.UpdatePrimalDual_keeps h halpha).1,
      (SubmodularPrimalDual2.UpdatePrimalDual_keeps h halpha).2.1⟩
  · intro s1 h
    refine ⟨?_, SubmodularPrimalDual2.PostEditDual_shaped h⟩
    rw [(SubmodularPrimalDual2.PostEditDual_frame h).1]
    exact id
  · intro fuel r h
    exact SubmodularPrimalDual2.Solve_keeps hlen hzero h
  · intro hlab hrange hshape ci hci i hi
    have hsh := DualShaped.getD hshape hci
    have h1 : labelAt s.m_labels (E.Cliques[ci].Nodes.getD i 0) < E.NumLabels := by
      rw [← localLabels_getD s.m_labels _ hi]
      exact localLabels_lt hlab (hrange _ (List.getElem_mem _)) hi
    refine ⟨h1, by rw [hsh.1]; exact hi, ?_⟩
    rw [hsh.getD_length hi]
    exact h1

/-- Witness of C29 on the two-node model: `L = 2 ≥ 1` and `alpha = 0 < 2`, and the
labeling after `InitialLabeling` is a labeling of the model. -/
theorem C29_witness :
    IsLabeling pairModel (SubmodularPrimalDual2.InitialLabeling pairModel
      (SubmodularPrimalDual2.constructed pairModel)).m_labels :=
  (C29_labels_stay_in_range pairModel pairSolve 0 pairState pairFlow (by decide)
    (by decide)).1

/-- C30, as amended: `InitialLabeling` breaks ties toward the smallest label at every
node that has a unary cost below the maximum of `REAL`.  From any labeling with one label
per node, after `InitialLabeling`: a node `v` with some `U_v(l)` below the maximum of
`REAL` has a label below `L` of least unary cost, and every smaller label costs strictly
more, so `labels[v]` is the least label attaining the minimum of `U_v`; a node whose
unary costs all equal the maximum keeps the label it had; a node at label 0, as the
constructor leaves it, gets the least minimizer in both cases; and with all-zero unaries
(scenario S3) every node receives label 0. -/
theorem C30_InitialLabeling_least_minimizer_below_max (E : MultilabelEnergy) (s : State)
    (hlen : s.m_labels.length = E.NumNodes) :
    ∀ v, v < E.NumNodes →
      ((∃ l, l < E.NumLabels ∧ E.Unary v l < REAL_MAX) →
        labelAt (SubmodularPrimalDual2.InitialLabeling E s).m_labels v < E.NumLabels ∧
        (∀ l, l < E.NumLabels →
          E.Unary v (labelAt (SubmodularPrimalDual2.InitialLabeling E s).m_labels v)
            ≤ E.Unary v l) ∧
        ∀ l, l < labelAt (SubmodularPrimalDual2.InitialLabeling E s).m_labels v →
          E.Unary v (labelAt (SubmodularPrimalDual2.InitialLabeling E s).m_labels v)
            < E.Unary v l) ∧
      ((∀ l, l < E.NumLabels → REAL_MAX ≤ E.Unary v l) →
        labelAt (SubmodularPrimalDual2.InitialLabeling E s).m_labels v = labelAt s.m_labels v) ∧
      (labelAt s.m_labels v = 0 → 1 ≤ E.NumLabels →
        (∀ l, l < E.NumLabels → E.Unary v l ≤ REAL_MAX) →
        labelAt (SubmodularPrimalDual2.InitialLabeling E s).m_labels v < E.NumLabels ∧
        (∀ l, l < E.NumLabels →
          E.Unary v (labelAt (SubmodularPrimalDual2.InitialLabeling E s).m_labels v)
            ≤ E.Unary v l) ∧
        ∀ l, l < labelAt (SubmodularPrimalDual2.InitialLabeling E s).m_labels v →
          E.Unary v (labelAt (SubmodularPrimalDual2.InitialLabeling E s).m_labels v)
            < E.Unary v l) ∧
      (1 ≤ E.NumLabels → (∀ l, l < E.NumLabels → E.Unary v l = 0) →
        labelAt (SubmodularPrimalDual2.InitialLabeling E s).m_labels v = 0) := by
  intro v hv
  have hy : labelAt (SubmodularPrimalDual2.InitialLabeling E s).m_labels v =
      (bestLabelLoop (E.Unary v) E.NumLabels (REAL_MAX, labelAt s.m_labels v)).2 := by
    show (labelingLoop E.Unary E.NumLabels E.NumNodes s.m_labels).getD v 0 = _
    rw [(labelingLoop_spec E.Unary E.NumLabels s.m_labels E.NumNodes).2 v,
      if_pos ⟨hv, by rw [hlen]; exact hv⟩]
    rfl
  have hmax : (0 : REAL) < REAL_MAX := by decide
  rw [hy]
  rcases bestLabelLoop_spec (E.Unary v) REAL_MAX (labelAt s.m_labels v) E.NumLabels with
    ⟨hsame, hall⟩ | ⟨h1, h2, h3, h4, h5⟩
  · rw [hsame]
    refine ⟨?_, fun _ => rfl, ?_, ?_⟩
    · rintro ⟨l, hl, hlt⟩
      exact absurd hlt (not_lt.mpr (hall l hl))
    · intro h0 hL hU
      show labelAt s.m_labels v < E.NumLabels ∧ _
      rw [h0]
      refine ⟨Nat.lt_of_lt_of_le Nat.zero_lt_one hL, ?_, fun l hl => absurd hl (Nat.not_lt_zero l)⟩
      intro l hl
      exact le_trans (hU 0 (Nat.lt_of_lt_of_le Nat.zero_lt_one hL)) (hall l hl)
    · intro hL hz
      have h0 := hall 0 (Nat.lt_of_lt_of_le Nat.zero_lt_one hL)
      rw [hz 0 (Nat.lt_of_lt_of_le Nat.zero_lt_one hL)] at h0
      exact absurd hmax (not_lt.mpr h0)
  · have hmin : ∀ l, l < E.NumLabels →
        E.Unary v (bestLabelLoop (E.Unary v) E.NumLabels (REAL_MAX, labelAt s.m_labels v)).2
          ≤ E.Unary v l := by
      intro l hl
      rw [← h2]
      exact h4 l hl
    have hstrict : ∀ l,
        l < (bestLabelLoop (E.Unary v) E.NumLabels (REAL_MAX, labelAt s.m_labels v)).2 →
        E.Unary v (bestLabelLoop (E.Unary v) E.NumLabels (REAL_MAX, labelAt s.m_labels v)).2
          < E.Unary v l := by
      intro l hl
      rw [← h2]
      exact h5 l hl
    refine ⟨fun _ => ⟨h1, hmin, hstrict⟩, ?_, fun _ _ _ => ⟨h1, hmin, hstrict⟩, ?_⟩
    · intro hall
      have := hall _ h1
      rw [← h2] at this
      exact absurd h3 (not_lt.mpr this)
    · intro _ hz
      by_contra hne
      have hlt := hstrict 0 (Nat.pos_of_ne_zero hne)
      rw [hz _ h1, hz 0 (Nat.lt_of_le_of_lt (Nat.zero_le _) h1)] at hlt
      exact lt_irrefl _ hlt

/-- Witness of C30 (amended) on the two-node model from the preset labeling `[1, 0]`:
node 0 has the unary cost 0 below the maximum, and its label after `InitialLabeling` is
below `L` and costs no more than label 1. -/
theorem C30_witness :
    labelAt (SubmodularPrimalDual2.InitialLabeling pairModel
      { m_labels := [1, 0], m_dual := [], m_node_clique_list := [] }).m_labels 0
        < pairModel.NumLabels ∧
    pairModel.Unary 0 (labelAt (SubmodularPrimalDual2.InitialLabeling pairModel
      { m_labels := [1, 0], m_dual := [], m_node_clique_list := [] }).m_labels 0)
        ≤ pairModel.Unary 0 1 :=
  ⟨((C30_InitialLabeling_least_minimizer_below_max pairModel
      { m_labels := [1, 0], m_dual := [], m_node_clique_list := [] } rfl 0 (by decide)).1
        ⟨0, by decide, by decide⟩).1,
    ((C30_InitialLabeling_least_minimizer_below_max pairModel
      { m_labels := [1, 0], m_dual := [], m_node_clique_list := [] } rfl 0 (by decide)).1
        ⟨0, by decide, by decide⟩).2.1 1 (by decide)⟩

/-- Counterexample to C30 as stated: on the model with one node and two labels whose
unary costs both equal the maximum of `REAL`, from the preset label 1, `InitialLabeling`
leaves label 1, although label 0 attains the minimum as well and is smaller. -/
theorem C30_counterexample :
    presetState.m_labels.length = maxModel.NumNodes ∧
    labelAt (SubmodularPrimalDual2.InitialLabeling maxModel presetState).m_labels 0 = 1 ∧
    (∀ l, l < maxModel.NumLabels → maxModel.Unary 0 0 ≤ maxModel.Unary 0 l) ∧
    ¬ (∀ l, l < labelAt (SubmodularPrimalDual2.InitialLabeling maxModel
          presetState).m_labels 0 →
        maxModel.Unary 0 (labelAt (SubmodularPrimalDual2.InitialLabeling maxModel
          presetState).m_labels 0) < maxModel.Unary 0 l) := by
  decide

/-- C31: what `SetupGraph` and `SetupAlphaEnergy` do with the table size `1 << k`
computed in `int32_t`.  For `k < 31` the shift is `2^k`: when every clique has fewer than
31 nodes `SetupGraph` returns and registers, per clique, a table of exactly `2^k`
entries, and on such a flow solver `SetupAlphaEnergy` returns and writes every
assignment `a` in `[0, 2^k)`.  For `k = 31`, which passes `ASSERT(k < 32)`, the shift is
`-2^31`: when every clique passes the guard and one has 31 nodes, `SetupGraph` stops at
the table size and registers no table for it, and `SetupAlphaEnergy` returns with the
table of every clique of 31 nodes unwritten.  On the model with one clique of 31 nodes
`SetupGraph` fails and `SetupAlphaEnergy` leaves the table `[7]` as it was. -/
theorem C31_table_size_overflows_at_31 :
    (∀ k, k < 31 → shl32 k = 2 ^ k) ∧ shl32 31 = -2 ^ 31 ∧
    (∀ (E : MultilabelEnergy) (s : State), s.m_labels.length = E.NumNodes →
      (∀ c ∈ E.Cliques, c.Size < 31) →
      ∃ crf, SubmodularPrimalDual2.SetupGraph E s SubmodularIBFS.empty = .ok crf ∧
        FlowShaped E crf ∧
        ∀ ci (hci : ci < E.Cliques.length),
          (crf.cliques.getD ci IBFSClique.blank).EnergyTable.length
            = 2 ^ E.Cliques[ci].Size) ∧
    (∀ (E : MultilabelEnergy) (s : State) (alpha : Label) (crf : SubmodularIBFS),
      FlowShaped E crf →
      ∃ crf1, SubmodularPrimalDual2.SetupAlphaEnergy E s alpha crf = .ok crf1 ∧
        ∀ ci (hci : ci < E.Cliques.length), ∀ a, a < 2 ^ E.Cliques[ci].Size →
          (crf1.cliques.getD ci IBFSClique.blank).EnergyTable.getD a 0 =
            SubmodularPrimalDual2.alphaEntry E.Cliques[ci] (s.m_dual.getD ci [])
              (localLabels s.m_labels E.Cliques[ci]) alpha a) ∧
    (∀ (E : MultilabelEnergy) (s : State) (crf : SubmodularIBFS),
      (∀ c ∈ E.Cliques, c.Size < 32) → (∃ c ∈ E.Cliques, c.Size = 31) →
      SubmodularPrimalDual2.SetupGraph E s crf = .error .allocation) ∧
    (∀ (E : MultilabelEnergy) (s : State) (alpha : Label) (crf : SubmodularIBFS),
      (∀ j (hj : j < E.Cliques.length), E.Cliques[j].Size < 32 ∧
        E.Cliques[j].Size = (crf.cliques.getD j IBFSClique.blank).Size) →
      ∃ crf1, SubmodularPrimalDual2.SetupAlphaEnergy E s alpha crf = .ok crf1 ∧
        ∀ ci (hci : ci < E.Cliques.length), ci < crf.cliques.length →
          E.Cliques[ci].Size = 31 →
          (crf1.cliques.getD ci IBFSClique.blank).EnergyTable =
            (crf.cliques.getD ci IBFSClique.blank).EnergyTable) ∧
    edgeClique.Size = 31 ∧ edgeClique.Size < 32 ∧
    SubmodularPrimalDual2.SetupGraph edgeModel (zeroState 31) SubmodularIBFS.empty
      = .error .allocation ∧
    ∃ crf1, SubmodularPrimalDual2.SetupAlphaEnergy edgeModel (zeroState 31) 0 edgeFlow
        = .ok crf1 ∧
      (crf1.cliques.getD 0 IBFSClique.blank).EnergyTable = [7] := by
  refine ⟨fun k hk => shl32_of_lt hk, SubmodularPrimalDual2.shl32_31_eq, ?_, ?_, ?_, ?_,
    by decide, by decide, edgeModel_run.1, edgeModel_run.2⟩
  · intro E s hlen hk
    obtain ⟨crf, hcrf⟩ := SubmodularPrimalDual2.SetupGraphLoop_total E.Cliques hk
      (SubmodularIBFS.empty.AddNode s.m_labels.length)
    have hflow : FlowShaped E crf := SubmodularPrimalDual2.SetupGraph_flowShaped hlen hcrf
    exact ⟨crf, hcrf, hflow, fun ci hci => (hflow.at hci).2.2.2⟩
  · intro E s alpha crf hflow
    exact SubmodularPrimalDual2.SetupAlphaEnergy_table alpha hflow
  · intro E s crf h32 h31
    exact SubmodularPrimalDual2.SetupGraphLoop_overflow E.Cliques h32 h31 _
  · intro E s alpha crf hg
    obtain ⟨crf1, h1, h2⟩ := SubmodularPrimalDual2.SetupAlphaEnergy_guarded (s := s) alpha hg
    refine ⟨crf1, h1, ?_⟩
    intro ci hci hci2 hsz
    rw [h2 ci hci hci2, hsz, SubmodularPrimalDual2.shl32_31_toNat]
    rfl

end SoSPD
